import Mathlib

/-!
# lua-bgcrypto-aes: streaming AES mode contexts (`src/laes.c`)

A shallow embedding of the Lua binding `laes.c`.  The file has five mode
sections (ECB, CBC, CFB, OFB, CTR) that are textually the same up to

* the `iv` field and its handling in `open`/`reset` (absent for ECB),
* the `tail` field and the tail-buffering code of `write` (ECB and CBC only),
* the key schedule built by `open` (decrypt schedule only for ECB/CBC decrypt),
* the mode primitive that is called, and `inc_fn` (CTR only),
* `aes_mode_reset` in `reset` (CFB, OFB, CTR only).

The embedding therefore has one context record and one definition per
operation, indexed by the mode, following the source line by line.

Conventions.
* Byte strings are lists of naturals; a pointer into the input string is an
  offset into the list.
* `unsigned char` arithmetic is written with an explicit `% 256`.
* A registry reference (`writer_cb_ref`, `writer_ud_ref`) is represented by
  the value it refers to.
* The AES library (`aes.h`) is not part of the file: the block cipher and the
  stream-mode entry points are a parameter (`AesPrimitive`); the ECB and CBC
  entry points are defined over the block cipher.
* `assert(...)` does not change control flow here (as under `NDEBUG`); every
  run reports in `asserts_ok` whether all assertions it met were true.
-/

namespace Laes

/-- Byte strings. -/
abbrev Bytes := List Nat

/-! ## Flags (`laes.c` lines 7-12) -/

/-- FLAG_DESTROYED is `(FLAG_TYPE)1 << 0`. -/
def FLAG_DESTROYED : Nat := 1

/-- FLAG_OPEN is `(FLAG_TYPE)1 << 1`. -/
def FLAG_OPEN : Nat := 2

/-- FLAG_DECRYPT is `(FLAG_TYPE)1 << 2`. -/
def FLAG_DECRYPT : Nat := 4

/-- The operand of `ctx->flags &= ~FLAG_OPEN`.  The macro has no parentheses,
so the text is `~(FLAG_TYPE)1 << 1`, that is `(~1) << 1`, whose low eight
bits are `0xFC`: the statement clears bit 1 and bit 0. -/
def NOT_FLAG_OPEN : Nat := 252

/-- CTX_FLAG is `(ctx->flags & FLAG_f)` read as a truth value. -/
def CTX_FLAG (flags f : Nat) : Bool := flags &&& f != 0

/-! ## Lua values and registry references -/

/-- The member `write` of a table or userdata: missing, a function, or some
other value. -/
inductive Member where
  | absent
  | func (id : Nat)
  | other (id : Nat)
  deriving DecidableEq, Repr

/-- The Lua values `set_writer` distinguishes. -/
inductive LuaValue where
  | nil
  | func (id : Nat)
  | object (id : Nat) (write : Member)
  | other (id : Nat)
  deriving DecidableEq, Repr

/-- A registry reference: `LUA_NOREF`, `LUA_REFNIL`, or a reference to a value. -/
inductive Ref where
  | noref
  | refnil
  | ref (v : LuaValue)
  deriving DecidableEq, Repr

/-- luaL_ref pops a value and returns a reference to it, `LUA_REFNIL` for nil. -/
def luaL_ref (v : LuaValue) : Ref :=
  if v = LuaValue.nil then Ref.refnil else Ref.ref v

/-- lua_rawgeti on the registry: the value behind a reference. -/
def lua_rawgeti (r : Ref) : LuaValue :=
  match r with
  | Ref.ref v => v
  | _ => LuaValue.nil

/-- What a C function of the binding hands back to Lua. -/
inductive LuaResult where
  /-- `return 0`. -/
  | ret0
  /-- `return 1` with the context on top of the stack. -/
  | self
  /-- `return 1` with a string. -/
  | str (s : Bytes)
  /-- `return 1` with a boolean. -/
  | bool (b : Bool)
  /-- `return 2` with two values. -/
  | vals (a b : LuaValue)
  /-- `return fail(L, msg)`: nil and a message. -/
  | nilmsg (msg : String)
  /-- A raised Lua error (`luaL_argcheck`, `lua_error`). -/
  | error (msg : String)
  /-- The loop did not finish within the fuel of the model. -/
  | hang
  deriving DecidableEq, Repr

/-! ## The AES library -/

/-- The two counter increment functions a CTR context can point to. -/
inductive cbuf_inc where
  | forwart_iv_inc
  | backwart_iv_inc
  deriving DecidableEq, Repr

/-- Result of a mode entry point: the return code (`true` is `EXIT_SUCCESS`),
the bytes written to `obuf`, and the `iv` and schedule after the call. -/
structure ModeRet (S : Type) where
  ret : Bool
  obuf : Bytes
  iv : Bytes
  cx : S

/-- The part of `aes.h` the binding calls.  `S` is the content of the
schedule union `ctx/ectx/dctx`.  A block transform writes one 16-byte block;
a stream-mode entry point that succeeds writes as many bytes as it read. -/
structure AesPrimitive (S : Type) where
  zero_cx : S
  aes_encrypt_key : Bytes → S → Bool × S
  aes_decrypt_key : Bytes → S → Bool × S
  aes_encrypt : Bytes → S → Bytes
  aes_decrypt : Bytes → S → Bytes
  aes_cfb_encrypt : Bytes → Bytes → S → ModeRet S
  aes_cfb_decrypt : Bytes → Bytes → S → ModeRet S
  aes_ofb_encrypt : Bytes → Bytes → S → ModeRet S
  aes_ofb_decrypt : Bytes → Bytes → S → ModeRet S
  aes_ctr_encrypt : Bytes → Bytes → Option cbuf_inc → S → ModeRet S
  aes_ctr_decrypt : Bytes → Bytes → Option cbuf_inc → S → ModeRet S
  aes_mode_reset : S → S
  aes_encrypt_length : ∀ b cx, (aes_encrypt b cx).length = 16
  aes_decrypt_length : ∀ b cx, (aes_decrypt b cx).length = 16
  aes_cfb_encrypt_length : ∀ b iv cx, (aes_cfb_encrypt b iv cx).ret = true →
    (aes_cfb_encrypt b iv cx).obuf.length = b.length
  aes_cfb_decrypt_length : ∀ b iv cx, (aes_cfb_decrypt b iv cx).ret = true →
    (aes_cfb_decrypt b iv cx).obuf.length = b.length
  aes_ofb_encrypt_length : ∀ b iv cx, (aes_ofb_encrypt b iv cx).ret = true →
    (aes_ofb_encrypt b iv cx).obuf.length = b.length
  aes_ofb_decrypt_length : ∀ b iv cx, (aes_ofb_decrypt b iv cx).ret = true →
    (aes_ofb_decrypt b iv cx).obuf.length = b.length
  aes_ctr_encrypt_length : ∀ b iv f cx, (aes_ctr_encrypt b iv f cx).ret = true →
    (aes_ctr_encrypt b iv f cx).obuf.length = b.length
  aes_ctr_decrypt_length : ∀ b iv f cx, (aes_ctr_decrypt b iv f cx).ret = true →
    (aes_ctr_decrypt b iv f cx).obuf.length = b.length

/-- Bytewise XOR of two 16-byte blocks. -/
def xor_block (a b : Bytes) : Bytes :=
  (List.range 16).map fun i => a.getD i 0 ^^^ b.getD i 0

/-- Run a block rule over the first `n` blocks of `ibuf`, threading the
chaining register: the loop `while(nb--)` of the block-mode entry points. -/
def blocks_run (step : Bytes → Bytes → Bytes × Bytes) : Nat → Bytes → Bytes → Bytes × Bytes
  | 0, _, iv => ([], iv)
  | n + 1, ibuf, iv =>
    let r := step (ibuf.take 16) iv
    let rest := blocks_run step n (ibuf.drop 16) r.2
    (r.1 ++ rest.1, rest.2)

/-- ECB block rule: each block is transformed independently. -/
def ecb_step (f : Bytes → Bytes) (blk iv : Bytes) : Bytes × Bytes := (f blk, iv)

/-- CBC encryption rule: `C_i = E(P_i XOR C_{i-1})`, register becomes `C_i`. -/
def cbc_encrypt_step (f : Bytes → Bytes) (blk iv : Bytes) : Bytes × Bytes :=
  (f (xor_block blk iv), f (xor_block blk iv))

/-- CBC decryption rule: `P_i = D(C_i) XOR C_{i-1}`, register becomes `C_i`. -/
def cbc_decrypt_step (f : Bytes → Bytes) (blk iv : Bytes) : Bytes × Bytes :=
  (xor_block (f blk) iv, blk)

/-- A block-mode entry point: fails, touching nothing, when the length is not
a multiple of 16; otherwise transforms `len / 16` blocks. -/
def block_mode {S : Type} (step : Bytes → Bytes → Bytes × Bytes) (ibuf iv : Bytes) (cx : S) :
    ModeRet S :=
  if ibuf.length % 16 = 0 then
    let r := blocks_run step (ibuf.length / 16) ibuf iv
    { ret := true, obuf := r.1, iv := r.2, cx := cx }
  else
    { ret := false, obuf := [], iv := iv, cx := cx }

/-- Modelled from the spec: aes_ecb_encrypt of `aes.h`, which is not in `src/`.
Sections 4.3 and 6: each block is transformed independently with the block
encryption; the call fails if the input is not a multiple of the block size. -/
def aes_ecb_encrypt {S : Type} (P : AesPrimitive S) (ibuf : Bytes) (cx : S) : ModeRet S :=
  block_mode (ecb_step fun b => P.aes_encrypt b cx) ibuf [] cx

/-- Modelled from the spec: aes_ecb_decrypt of `aes.h`, which is not in `src/`.
As aes_ecb_encrypt, with the block decryption. -/
def aes_ecb_decrypt {S : Type} (P : AesPrimitive S) (ibuf : Bytes) (cx : S) : ModeRet S :=
  block_mode (ecb_step fun b => P.aes_decrypt b cx) ibuf [] cx

/-- Modelled from the spec: aes_cbc_encrypt of `aes.h`, which is not in `src/`.
Section 4.3: `C_i = E(P_i XOR C_{i-1})`, register becomes `C_i`; section 6:
fails if the input is not a multiple of the block size. -/
def aes_cbc_encrypt {S : Type} (P : AesPrimitive S) (ibuf iv : Bytes) (cx : S) : ModeRet S :=
  block_mode (cbc_encrypt_step fun b => P.aes_encrypt b cx) ibuf iv cx

/-- Modelled from the spec: aes_cbc_decrypt of `aes.h`, which is not in `src/`.
Section 4.3: `P_i = D(C_i) XOR C_{i-1}`, register becomes `C_i`; section 6:
fails if the input is not a multiple of the block size. -/
def aes_cbc_decrypt {S : Type} (P : AesPrimitive S) (ibuf iv : Bytes) (cx : S) : ModeRet S :=
  block_mode (cbc_decrypt_step fun b => P.aes_decrypt b cx) ibuf iv cx

/-! ## Contexts -/

/-- The five modes: which of `l_ecb_*` ... `l_ctr_*` a definition stands for. -/
inductive Mode where
  | ECB
  | CBC
  | CFB
  | OFB
  | CTR
  deriving DecidableEq, Repr

/-- The macros L_ECB_NAME ... L_CTR_NAME. -/
def L_NAME : Mode → String
  | Mode.ECB => "ECB context"
  | Mode.CBC => "CBC context"
  | Mode.CFB => "CFB context"
  | Mode.OFB => "OFB context"
  | Mode.CTR => "CTR context"

/-- ECB and CBC contexts have the `tail` field and buffer partial blocks. -/
def Mode.has_tail : Mode → Bool
  | Mode.ECB => true
  | Mode.CBC => true
  | _ => false

/-- The context structs `l_ecb_ctx` ... `l_ctr_ctx` in one record.  `cx` is the
schedule union.  A field a mode's struct lacks is carried along unused (`iv`
for ECB, `tail` for CFB/OFB/CTR, `inc_fn` outside CTR).  `buffer` is the
trailing array of `buffer_size` bytes. -/
structure l_ctx (S : Type) where
  flags : Nat
  cx : S
  iv : Bytes
  inc_fn : Option cbuf_inc
  writer_cb_ref : Ref
  writer_ud_ref : Ref
  tail : Nat
  buffer_size : Nat
  buffer : Bytes

/-- A context after an operation together with what the operation returned. -/
structure OpRet (S : Type) where
  ctx : l_ctx S
  result : LuaResult

/-- The check of `l_get_ecb_at` ... `l_get_ctr_at`: the error raised for a
destroyed context, if any. -/
def l_get_at {S : Type} (m : Mode) (ctx : l_ctx S) : Option String :=
  if CTX_FLAG ctx.flags FLAG_DESTROYED then some (L_NAME m ++ " is destroyed") else none

/-- The constructors `l_ecb_new` ... `l_ctr_new`.  `arg` is the optional
integer argument, converted to `size_t` (64 bits) as `luaL_optint` and the
assignment do.  `Except.ok` means the check of `buf_len` passed; the
allocation itself (of `new_ctx_len` bytes) is not modelled. -/
def l_new {S : Type} (P : AesPrimitive S) (m : Mode) (decrypt : Bool) (arg : Option Int) :
    Except String (l_ctx S) :=
  let buf_len : Nat :=
    match arg with
    | none => 4096
    | some n => (n % 18446744073709551616).toNat
  if buf_len < 32 then Except.error "buffer size is too small"
  else Except.ok {
    flags := if decrypt then 0 ||| FLAG_DECRYPT else 0
    cx := P.zero_cx
    iv := List.replicate 16 0
    inc_fn := if m = Mode.CTR then some cbuf_inc.backwart_iv_inc else none
    writer_cb_ref := Ref.noref
    writer_ud_ref := Ref.noref
    tail := 0
    buffer_size := buf_len
    buffer := List.replicate buf_len 0 }

/-- The functions `l_ecb_destroy` ... `l_ctr_destroy`. -/
def l_destroy {S : Type} (ctx : l_ctx S) : OpRet S :=
  if CTX_FLAG ctx.flags FLAG_DESTROYED then ⟨ctx, LuaResult.ret0⟩
  else
    let ctx1 := { ctx with writer_cb_ref := Ref.noref, writer_ud_ref := Ref.noref }
    let ctx2 := if CTX_FLAG ctx1.flags FLAG_OPEN
      then { ctx1 with flags := ctx1.flags &&& NOT_FLAG_OPEN } else ctx1
    ⟨{ ctx2 with flags := ctx2.flags ||| FLAG_DESTROYED }, LuaResult.ret0⟩

/-- The key setup of `open`: ECB and CBC decrypt contexts build the decrypt
schedule, every other context the encrypt schedule. -/
def open_key {S : Type} (P : AesPrimitive S) (m : Mode) (ctx : l_ctx S) (key : Bytes) :
    Bool × S :=
  if CTX_FLAG ctx.flags FLAG_DECRYPT then
    (if m.has_tail then P.aes_decrypt_key key ctx.cx else P.aes_encrypt_key key ctx.cx)
  else P.aes_encrypt_key key ctx.cx

/-- The functions `l_ecb_open` ... `l_ctr_open`.  `iv` is the third argument;
`l_ecb_open` does not read it. -/
def l_open {S : Type} (P : AesPrimitive S) (m : Mode) (ctx : l_ctx S) (key iv : Bytes) :
    OpRet S :=
  match l_get_at m ctx with
  | some e => ⟨ctx, LuaResult.error e⟩
  | none =>
    if CTX_FLAG ctx.flags FLAG_OPEN then ⟨ctx, LuaResult.error (L_NAME m ++ " already open")⟩
    else if m ≠ Mode.ECB ∧ iv.length < 16 then
      ⟨ctx, LuaResult.error (L_NAME m ++ " invalid iv length")⟩
    else
      let ctx1 := if m = Mode.ECB then ctx else { ctx with iv := iv.take 16 }
      let r := open_key P m ctx1 key
      let ctx2 := { ctx1 with cx := r.2 }
      if r.1 then ⟨{ ctx2 with flags := ctx2.flags ||| FLAG_OPEN }, LuaResult.self⟩
      else ⟨ctx2, LuaResult.error "invalid key length"⟩

/-- The functions `l_ecb_close` ... `l_ctr_close`. -/
def l_close {S : Type} (m : Mode) (ctx : l_ctx S) : OpRet S :=
  match l_get_at m ctx with
  | some e => ⟨ctx, LuaResult.error e⟩
  | none =>
    if CTX_FLAG ctx.flags FLAG_OPEN then
      ⟨{ ctx with flags := ctx.flags &&& NOT_FLAG_OPEN }, LuaResult.ret0⟩
    else ⟨ctx, LuaResult.error (L_NAME m ++ " is close")⟩

/-- The functions `l_ecb_reset` ... `l_ctr_reset`. -/
def l_reset {S : Type} (P : AesPrimitive S) (m : Mode) (ctx : l_ctx S) (iv : Bytes) : OpRet S :=
  match l_get_at m ctx with
  | some e => ⟨ctx, LuaResult.error e⟩
  | none =>
    if m = Mode.ECB then ⟨ctx, LuaResult.self⟩
    else if iv.length < 16 then ⟨ctx, LuaResult.error (L_NAME m ++ " invalid iv length")⟩
    else
      let ctx1 := { ctx with iv := iv.take 16 }
      if m.has_tail then ⟨ctx1, LuaResult.self⟩
      else ⟨{ ctx1 with cx := P.aes_mode_reset ctx1.cx }, LuaResult.self⟩

/-- The functions `l_ecb_set_writer` ... `l_ctr_set_writer`.  `args` are the
arguments after the context. -/
def l_set_writer {S : Type} (m : Mode) (ctx : l_ctx S) (args : List LuaValue) : OpRet S :=
  match l_get_at m ctx with
  | some e => ⟨ctx, LuaResult.error e⟩
  | none =>
    let ctx1 := { ctx with writer_ud_ref := Ref.noref, writer_cb_ref := Ref.noref }
    match args with
    | a2 :: a3 :: _ =>
      if a2 = LuaValue.nil then ⟨ctx1, LuaResult.error "no writer present"⟩
      else ⟨{ ctx1 with writer_ud_ref := luaL_ref a3, writer_cb_ref := luaL_ref a2 },
        LuaResult.self⟩
    | [] => ⟨ctx1, LuaResult.self⟩
    | [LuaValue.nil] => ⟨ctx1, LuaResult.self⟩
    | [LuaValue.func f] =>
      ⟨{ ctx1 with writer_cb_ref := luaL_ref (LuaValue.func f) }, LuaResult.self⟩
    | [LuaValue.object o w] =>
      match w with
      | Member.func f =>
        ⟨{ ctx1 with writer_cb_ref := luaL_ref (LuaValue.func f),
                     writer_ud_ref := luaL_ref (LuaValue.object o w) }, LuaResult.self⟩
      | _ => ⟨ctx1, LuaResult.error "write method not found in object"⟩
    | [LuaValue.other _] => ⟨ctx1, LuaResult.error "invalid writer type"⟩

/-- The functions `l_ecb_push_writer` ... `l_ctr_push_writer`: the number of
values pushed (the consumer, and the receiver when one is bound). -/
def l_push_writer {S : Type} (ctx : l_ctx S) : Nat :=
  if ctx.writer_ud_ref ≠ Ref.noref then 2 else 1

/-! ## write (`l_ecb_write_impl`, `l_ecb_writek_impl`, `l_ecb_write` and their copies) -/

/-- The bytes stored by `memcpy(dst + off, src, n)`, `src` being the `n` bytes copied. -/
def memcpy (dst : Bytes) (off : Nat) (src : Bytes) : Bytes :=
  dst.take off ++ src ++ dst.drop (off + src.length)

/-- The `n` bytes of `data` from offset `off`. -/
def slice (data : Bytes) (off n : Nat) : Bytes := (data.drop off).take n

/-- The call `aes_<mode>_decrypt(...)` or `aes_<mode>_encrypt(...)` a context
makes on `ibuf`, selected by `CTX_FLAG(ctx, DECRYPT)`. -/
def mode_call {S : Type} (P : AesPrimitive S) (m : Mode) (ctx : l_ctx S) (ibuf : Bytes) :
    ModeRet S :=
  let dec := CTX_FLAG ctx.flags FLAG_DECRYPT
  match m with
  | Mode.ECB =>
    let r := if dec then aes_ecb_decrypt P ibuf ctx.cx else aes_ecb_encrypt P ibuf ctx.cx
    { r with iv := ctx.iv }
  | Mode.CBC =>
    if dec then aes_cbc_decrypt P ibuf ctx.iv ctx.cx else aes_cbc_encrypt P ibuf ctx.iv ctx.cx
  | Mode.CFB =>
    if dec then P.aes_cfb_decrypt ibuf ctx.iv ctx.cx else P.aes_cfb_encrypt ibuf ctx.iv ctx.cx
  | Mode.OFB =>
    if dec then P.aes_ofb_decrypt ibuf ctx.iv ctx.cx else P.aes_ofb_encrypt ibuf ctx.iv ctx.cx
  | Mode.CTR =>
    if dec then P.aes_ctr_decrypt ibuf ctx.iv ctx.inc_fn ctx.cx
    else P.aes_ctr_encrypt ibuf ctx.iv ctx.inc_fn ctx.cx

/-- The context after a mode call that wrote its output at `ctx->buffer + off`. -/
def apply_ret {S : Type} (ctx : l_ctx S) (r : ModeRet S) (off : Nat) : l_ctx S :=
  { ctx with iv := r.iv, cx := r.cx, buffer := memcpy ctx.buffer off r.obuf }

/-- One iteration of the sub-run loop that produced output: the pointer `b`
(as an offset into the input), `left`, the `left` bytes taken from
`ctx->buffer`, and the context at that point. -/
structure Emit (S : Type) where
  b : Nat
  left : Nat
  chunk : Bytes
  ctx : l_ctx S

/-- How the sub-run loop ended: it ran to `b >= e`, a mode call failed, or
the fuel of the model ran out. -/
inductive LoopStatus where
  | done
  | failed
  | fuel
  deriving DecidableEq, Repr

/-- Result of the sub-run loop. -/
structure LoopRet (S : Type) where
  ctx : l_ctx S
  emits : List (Emit S)
  status : LoopStatus

/-- `size_t left = e - b; if(left > ctx->buffer_size) left = ctx->buffer_size;` -/
def loop_left (buffer_size e b : Nat) : Nat :=
  if e - b > buffer_size then buffer_size else e - b

/-- The loop `for(b = data, e = ...; b < e; b += ctx->buffer_size)` shared by
all write functions; `e` and `b` are offsets into `data`. -/
def write_loop {S : Type} (P : AesPrimitive S) (m : Mode) (data : Bytes) (e : Nat) :
    Nat → Nat → l_ctx S → LoopRet S
  | 0, _, ctx => ⟨ctx, [], LoopStatus.fuel⟩
  | fuel + 1, b, ctx =>
    if b < e then
      let left := loop_left ctx.buffer_size e b
      let r := mode_call P m ctx (slice data b left)
      let ctx1 := apply_ret ctx r 0
      if r.ret then
        let rest := write_loop P m data e fuel (b + ctx.buffer_size) ctx1
        ⟨rest.ctx, ⟨b, left, ctx1.buffer.take left, ctx1⟩ :: rest.emits, rest.status⟩
      else ⟨ctx1, [], LoopStatus.failed⟩
    else ⟨ctx, [], LoopStatus.done⟩

/-- A call of the sink made through `lua_call`: the chunk and the context at
the time of the call. -/
structure Call (S : Type) where
  chunk : Bytes
  ctx : l_ctx S

/-- Result of a write: the context, the sink calls in order, the returned
values, and whether every assertion met on the way was true. -/
structure WriteRet (S : Type) where
  ctx : l_ctx S
  calls : List (Call S)
  result : LuaResult
  asserts_ok : Bool

/-- `align_len`: `(len >> AES_BLOCK_NB) << AES_BLOCK_NB` for ECB and CBC, all
of `len` for the stream modes, whose loop runs to `data + len`. -/
def align_len (m : Mode) (len : Nat) : Nat :=
  if m.has_tail then (len >>> 4) <<< 4 else len

/-- The count of bytes the tail branch takes from the input:
`unsigned char tail = AES_BLOCK_SIZE - ctx->tail; if(tail > len) tail = len;`
for `ctx->tail = t` (an `unsigned char`, below 256). -/
def tail_take (t len : Nat) : Nat :=
  if (16 + 256 - t) % 256 > len then len else (16 + 256 - t) % 256

/-- `memcpy(ctx->buffer + ctx->tail, data, tail); ctx->tail += tail;` where
`src` are the `tail` bytes at `data`. -/
def tail_fill {S : Type} (ctx : l_ctx S) (src : Bytes) (tail : Nat) : l_ctx S :=
  { ctx with buffer := memcpy ctx.buffer ctx.tail src, tail := (ctx.tail + tail) % 256 }

/-- The transform of the completed block:
`aes_<mode>_(de|en)crypt(ctx->buffer, ctx->buffer + AES_BLOCK_SIZE, AES_BLOCK_SIZE, ...)`;
the return code is not read. -/
def tail_block {S : Type} (P : AesPrimitive S) (m : Mode) (ctx : l_ctx S) : l_ctx S :=
  apply_ret ctx (mode_call P m ctx (ctx.buffer.take 16)) 16

/-- `ctx->tail = len - align_len; memcpy(ctx->buffer, data + align_len, ctx->tail);`
for ECB and CBC; the stream modes have no such statements. -/
def tail_store {S : Type} (m : Mode) (ctx : l_ctx S) (data : Bytes) (off len al : Nat) : l_ctx S :=
  if m.has_tail then
    { ctx with tail := (len - al) % 256,
               buffer := memcpy ctx.buffer 0 (slice data (off + al) ((len - al) % 256)) }
  else ctx

/-- `ctx->tail = 0;` -/
def tail_clear {S : Type} (ctx : l_ctx S) : l_ctx S := { ctx with tail := 0 }

/-- The local `tail` of the tail branch when `data` points at offset `d0`. -/
def wtail {S : Type} (ctx : l_ctx S) (data : Bytes) (d0 : Nat) : Nat :=
  tail_take ctx.tail (data.length - d0)

/-- The context of the tail branch after `ctx->tail += tail`. -/
def wfill {S : Type} (ctx : l_ctx S) (data : Bytes) (d0 : Nat) : l_ctx S :=
  tail_fill ctx (slice data d0 (wtail ctx data d0)) (wtail ctx data d0)

/-- The context of the tail branch after the transform of the completed block. -/
def wblock {S : Type} (P : AesPrimitive S) (m : Mode) (ctx : l_ctx S) (data : Bytes) (d0 : Nat) :
    l_ctx S :=
  tail_block P m (wfill ctx data d0)

/-- The sink calls of the sub-run loop. -/
def loop_calls {S : Type} (emits : List (Emit S)) : List (Call S) :=
  emits.map fun em => ⟨em.chunk, em.ctx⟩

/-- The part of `l_<mode>_write_impl` from `align_len = ...` on.  `off` and
`len` are `data` and `len` at that point, `pre` what was emitted before. -/
def write_rest {S : Type} (P : AesPrimitive S) (m : Mode) (use_buffer : Bool) (ctx : l_ctx S)
    (data : Bytes) (off len : Nat) (pre : List (Call S)) (ok : Bool) : WriteRet S :=
  let al := align_len m len
  let lr := write_loop P m data (off + al) (al + 1) off ctx
  let emitted := pre ++ loop_calls lr.emits
  let calls := if use_buffer then [] else emitted
  match lr.status with
  | LoopStatus.failed => ⟨lr.ctx, calls, LuaResult.nilmsg "invalid block length", ok⟩
  | LoopStatus.fuel => ⟨lr.ctx, calls, LuaResult.hang, ok⟩
  | LoopStatus.done =>
    ⟨tail_store m lr.ctx data off len al, calls,
      if use_buffer then LuaResult.str (emitted.map fun c => c.chunk).flatten else LuaResult.ret0, ok⟩

/-- The functions `l_ecb_write_impl` ... `l_ctr_write_impl`.  With
`use_buffer` the chunks go to the `luaL_Buffer` and are returned as one
string; otherwise each chunk is passed to the sink by `lua_call`.  In the
tail branch the sink is called before `ctx->tail = 0`. -/
def l_write_impl {S : Type} (P : AesPrimitive S) (m : Mode) (ctx : l_ctx S) (data : Bytes) :
    WriteRet S :=
  match l_get_at m ctx with
  | some e => ⟨ctx, [], LuaResult.error e, true⟩
  | none =>
    let len := data.length
    let use_buffer := decide (ctx.writer_cb_ref = Ref.noref)
    if m.has_tail ∧ ctx.tail ≠ 0 then
      let a1 := decide (ctx.tail < 16)
      let tail := tail_take ctx.tail len
      let ctx1 := tail_fill ctx (slice data 0 tail) tail
      if ctx1.tail < 16 then
        ⟨ctx1, [], if use_buffer then LuaResult.str [] else LuaResult.ret0, a1⟩
      else
        let a2 := decide (ctx1.tail = 16)
        let ctx2 := tail_block P m ctx1
        let first : Call S := ⟨slice ctx2.buffer 16 16, ctx2⟩
        write_rest P m use_buffer (tail_clear ctx2) data tail (len - tail) [first] (a1 && a2)
    else write_rest P m use_buffer ctx data 0 len [] true

/-- A call of the sink made through `lua_callk`: `src` is `data` (or `b`)
before the bytes of this chunk were consumed, `cursor` the pointer saved as
light userdata, `top` the height of the stack the continuation will see
(`lua_gettop`), `ctx` the context at the time of the call. -/
structure Push (S : Type) where
  src : Nat
  cursor : Nat
  top : Nat
  chunk : Bytes
  ctx : l_ctx S

/-- Result of a resumable write whose sink calls all return. -/
structure WritekRet (S : Type) where
  ctx : l_ctx S
  pushes : List (Push S)
  result : LuaResult
  asserts_ok : Bool

/-- The pushes of the sub-run loop of `writek`.  `top` is the stack height
when the iteration starts: the cursor is pushed on top of it, and
`lua_settop(L, 2)` ends every iteration. -/
def loop_pushes {S : Type} (top : Nat) : List (Emit S) → List (Push S)
  | [] => []
  | em :: rest => ⟨em.b, em.b + em.left, top + 1, em.chunk, em.ctx⟩ :: loop_pushes 2 rest

/-- The part of `l_<mode>_writek_impl` from `align_len = ...` on; `top` is the
stack height at that point. -/
def writek_rest {S : Type} (P : AesPrimitive S) (m : Mode) (ctx : l_ctx S) (data : Bytes)
    (off len : Nat) (pre : List (Push S)) (top : Nat) (ok : Bool) : WritekRet S :=
  let al := align_len m len
  let lr := write_loop P m data (off + al) (al + 1) off ctx
  let pushes := pre ++ loop_pushes top lr.emits
  let ok1 := ok && (pushes.isEmpty || decide (ctx.writer_cb_ref ≠ Ref.noref))
  match lr.status with
  | LoopStatus.failed => ⟨lr.ctx, pushes, LuaResult.nilmsg "invalid block length", ok1⟩
  | LoopStatus.fuel => ⟨lr.ctx, pushes, LuaResult.hang, ok1⟩
  | LoopStatus.done => ⟨tail_store m lr.ctx data off len al, pushes, LuaResult.ret0, ok1⟩

/-- The pointer `data` after the prologue of `writek`: the start of the input,
or the saved cursor when the function is entered as a continuation. -/
def entry_data (entry : Option (Nat × Nat)) : Nat :=
  match entry with
  | none => 0
  | some ct => ct.1

/-- The two assertions of the continuation prologue:
`assert(lua_gettop(L) == 3)` and `assert((data >= b) && (data <= e))`. -/
def entry_asserts (entry : Option (Nat × Nat)) (e : Nat) : Bool :=
  match entry with
  | none => true
  | some ct => decide (ct.2 = 3) && decide (ct.1 ≤ e)

/-- The functions `l_ecb_writek_impl` ... `l_ctr_writek_impl`.  `entry` is
`none` when the function is called by `write`, and `some (cursor, top)` when
it is entered as the continuation of a suspended sink call: `cursor` is the
light userdata on top of the stack and `top` the stack height.  In the tail
branch `ctx->tail = 0` precedes the sink call, and no `lua_settop(L, 2)`
follows it. -/
def l_writek_impl {S : Type} (P : AesPrimitive S) (m : Mode) (ctx : l_ctx S) (data : Bytes)
    (entry : Option (Nat × Nat)) : WritekRet S :=
  match l_get_at m ctx with
  | some e => ⟨ctx, [], LuaResult.error e, true⟩
  | none =>
    let e := data.length
    let d0 := entry_data entry
    let a0 := entry_asserts entry e
    let len0 := e - d0
    if d0 ≥ e then ⟨ctx, [], LuaResult.ret0, a0⟩
    else if m.has_tail ∧ ctx.tail ≠ 0 then
      let a1 := decide (ctx.tail < 16)
      let tail := tail_take ctx.tail len0
      let ctx1 := tail_fill ctx (slice data d0 tail) tail
      if ctx1.tail < 16 then ⟨ctx1, [], LuaResult.ret0, a0 && a1⟩
      else
        let a2 := decide (ctx1.tail = 16)
        let ctx2 := tail_clear (tail_block P m ctx1)
        let first : Push S := ⟨d0, d0 + tail, 3, slice ctx2.buffer 16 16, ctx2⟩
        writek_rest P m ctx2 data (d0 + tail) (len0 - tail) [first] 3 (a0 && a1 && a2)
    else writek_rest P m ctx data d0 len0 [] 2 a0

/-- The functions `l_ecb_write` ... `l_ctr_write`.  `LUA_VERSION_NUM` is the
Lua version the file is compiled for: from 502 on a bound sink selects the
resumable `writek`. -/
def l_write {S : Type} (P : AesPrimitive S) (LUA_VERSION_NUM : Nat) (m : Mode) (ctx : l_ctx S)
    (data : Bytes) : WriteRet S :=
  match l_get_at m ctx with
  | some e => ⟨ctx, [], LuaResult.error e, true⟩
  | none =>
    if CTX_FLAG ctx.flags FLAG_OPEN then
      if LUA_VERSION_NUM ≥ 502 ∧ ctx.writer_cb_ref ≠ Ref.noref then
        let r := l_writek_impl P m ctx data none
        ⟨r.ctx, r.pushes.map fun p => (⟨p.chunk, p.ctx⟩ : Call S), r.result, r.asserts_ok⟩
      else l_write_impl P m ctx data
    else ⟨ctx, [], LuaResult.error (L_NAME m ++ " is close"), true⟩

/-! ## A small primitive to evaluate the definitions on -/

/-- A toy stream transform: adds the first register byte to every input byte. -/
def toy_stream (ibuf iv : Bytes) (cx : Bytes) : ModeRet Bytes :=
  { ret := true, obuf := ibuf.map fun x => (x + iv.getD 0 0) % 256, iv := iv, cx := cx }

/-- A toy cipher: the schedule is the key; a block is XORed with the key and
reversed.  Keys of 16, 24 or 32 bytes are accepted. -/
def toyAes : AesPrimitive Bytes where
  zero_cx := []
  aes_encrypt_key := fun key cx =>
    if key.length = 16 ∨ key.length = 24 ∨ key.length = 32 then (true, key) else (false, cx)
  aes_decrypt_key := fun key cx =>
    if key.length = 16 ∨ key.length = 24 ∨ key.length = 32 then (true, key) else (false, cx)
  aes_encrypt := fun b cx => (xor_block b cx).reverse
  aes_decrypt := fun b cx => xor_block b.reverse cx
  aes_cfb_encrypt := toy_stream
  aes_cfb_decrypt := toy_stream
  aes_ofb_encrypt := toy_stream
  aes_ofb_decrypt := toy_stream
  aes_ctr_encrypt := fun b iv _ cx => toy_stream b iv cx
  aes_ctr_decrypt := fun b iv _ cx => toy_stream b iv cx
  aes_mode_reset := fun cx => cx
  aes_encrypt_length := by intro b cx; simp [xor_block]
  aes_decrypt_length := by intro b cx; simp [xor_block]
  aes_cfb_encrypt_length := by intro b iv cx _; simp [toy_stream]
  aes_cfb_decrypt_length := by intro b iv cx _; simp [toy_stream]
  aes_ofb_encrypt_length := by intro b iv cx _; simp [toy_stream]
  aes_ofb_decrypt_length := by intro b iv cx _; simp [toy_stream]
  aes_ctr_encrypt_length := by intro b iv f cx _; simp [toy_stream]
  aes_ctr_decrypt_length := by intro b iv f cx _; simp [toy_stream]

/-- A toy context for evaluation: not destroyed, opened with the key of 16
bytes 7 and (outside ECB) the IV `0, 1, ..., 15`, no sink, `tail` buffered
bytes 1, 2, ... and chunk size `bs`. -/
def toy_ctx (m : Mode) (decrypt : Bool) (bs tail : Nat) : l_ctx Bytes :=
  { flags := (if decrypt then 0 ||| FLAG_DECRYPT else 0) ||| FLAG_OPEN
    cx := List.replicate 16 7
    iv := if m = Mode.ECB then List.replicate 16 0 else List.range 16
    inc_fn := if m = Mode.CTR then some cbuf_inc.backwart_iv_inc else none
    writer_cb_ref := Ref.noref
    writer_ud_ref := Ref.noref
    tail := tail
    buffer_size := bs
    buffer := memcpy (List.replicate bs 0) 0 ((List.range tail).map fun i => i + 1) }

/-- The block rule an ECB or CBC context applies: what `mode_call` runs over
the blocks of its input. -/
def block_step {S : Type} (P : AesPrimitive S) (m : Mode) (flags : Nat) (cx : S) :
    Bytes → Bytes → Bytes × Bytes :=
  if m = Mode.ECB then
    (if CTX_FLAG flags FLAG_DECRYPT then ecb_step fun b => P.aes_decrypt b cx
     else ecb_step fun b => P.aes_encrypt b cx)
  else
    (if CTX_FLAG flags FLAG_DECRYPT then cbc_decrypt_step fun b => P.aes_decrypt b cx
     else cbc_encrypt_step fun b => P.aes_encrypt b cx)

/-- The chunks of a list of loop iterations. -/
def emit_chunks {S : Type} (emits : List (Emit S)) : List Bytes :=
  emits.map fun em => em.chunk

/-- The context of a loop iteration after its mode call. -/
def loop_ctx {S : Type} (P : AesPrimitive S) (m : Mode) (data : Bytes) (e b : Nat)
    (ctx : l_ctx S) : l_ctx S :=
  apply_ret ctx (mode_call P m ctx (slice data b (loop_left ctx.buffer_size e b))) 0

/-- What no write changes between its sink calls: every field but the
chaining register, the schedule and the scratch buffer, whose length does
not shrink. -/
def frame_eq {S : Type} (a b : l_ctx S) : Prop :=
  b.flags = a.flags ∧ b.inc_fn = a.inc_fn ∧ b.writer_cb_ref = a.writer_cb_ref ∧
    b.writer_ud_ref = a.writer_ud_ref ∧ b.tail = a.tail ∧ b.buffer_size = a.buffer_size ∧
    a.buffer.length ≤ b.buffer.length

/-- The bytes an ECB or CBC write has before it: the buffered tail, then the input. -/
def pending {S : Type} (ctx : l_ctx S) (data : Bytes) : Bytes :=
  ctx.buffer.take ctx.tail ++ data

/-- The block rule of the context run over all whole blocks of `pending`:
the output bytes and the chaining register afterwards. -/
def spec_run {S : Type} (P : AesPrimitive S) (m : Mode) (ctx : l_ctx S) (data : Bytes) :
    Bytes × Bytes :=
  blocks_run (block_step P m ctx.flags ctx.cx) ((pending ctx data).length / 16)
    (pending ctx data) ctx.iv

/-- The length of the aligned remainder the sub-run loop of an ECB or CBC
write goes over, for `t` buffered bytes and `len` input bytes. -/
def aligned_rest (t len : Nat) : Nat :=
  if t = 0 then len / 16 * 16 else (len - (16 - t)) / 16 * 16

/-- The bounds the constructor and the data model give an ECB or CBC context:
fewer than 16 buffered bytes, a chunk size of at least 32, and a buffer of at
least that many bytes. -/
def ctx_ok {S : Type} (ctx : l_ctx S) : Prop :=
  ctx.tail < 16 ∧ 32 ≤ ctx.buffer_size ∧ ctx.buffer_size ≤ ctx.buffer.length

/-- Every sub-run of the write is aligned: the chunk size is a multiple of 16,
or the aligned remainder fits into one chunk. -/
def chunks_ok {S : Type} (ctx : l_ctx S) (data : Bytes) : Prop :=
  ctx.buffer_size % 16 = 0 ∨ aligned_rest ctx.tail data.length ≤ ctx.buffer_size

/-- An ECB or CBC context on which `write` accumulates: Open, not destroyed,
no sink bound, within the bounds of `ctx_ok`. -/
def acc_ready {S : Type} (ctx : l_ctx S) : Prop :=
  CTX_FLAG ctx.flags FLAG_OPEN = true ∧ CTX_FLAG ctx.flags FLAG_DESTROYED = false ∧
    ctx.writer_cb_ref = Ref.noref ∧ ctx_ok ctx

/-- Write the pieces one after another on the same context: the final context
and the results in order. -/
def write_pieces {S : Type} (P : AesPrimitive S) (v : Nat) (m : Mode) :
    l_ctx S → List Bytes → l_ctx S × List LuaResult
  | ctx, [] => (ctx, [])
  | ctx, p :: ps =>
    ((write_pieces P v m (l_write P v m ctx p).ctx ps).1,
      (l_write P v m ctx p).result :: (write_pieces P v m (l_write P v m ctx p).ctx ps).2)

/-- A freshly opened context: the constructor followed by a successful `open`. -/
def fresh_open {S : Type} (P : AesPrimitive S) (m : Mode) (decrypt : Bool) (arg : Option Int)
    (key iv : Bytes) : Option (l_ctx S) :=
  match l_new P m decrypt arg with
  | Except.ok c =>
    if (l_open P m c key iv).result = LuaResult.self then some (l_open P m c key iv).ctx else none
  | Except.error _ => none

/-- A decryption rule undoes an encryption rule block by block: on a block of
16 bytes it returns the block and moves the register as the encryption did. -/
def step_inverse (es ds : Bytes → Bytes → Bytes × Bytes) : Prop :=
  ∀ blk iv : Bytes, blk.length = 16 →
    (es blk iv).1.length = 16 ∧ ds (es blk iv).1 iv = (blk, (es blk iv).2)

/-- The context a write leaves behind when its sink call number `i` does not
return (the sink raises an error, or under Lua 5.1 tries to yield): the C
function is unwound at that call, so the context stays as it was when the
sink was called. -/
def ctx_after_sink_error {S : Type} (r : WriteRet S) (i : Nat) : Option (l_ctx S) :=
  (r.calls.get? i).map fun c => c.ctx

/-- The context after the part of a write that follows the tail branch. -/
def rest_ctx {S : Type} (m : Mode) (lr : LoopRet S) (data : Bytes) (off len al : Nat) : l_ctx S :=
  match lr.status with
  | LoopStatus.done => tail_store m lr.ctx data off len al
  | _ => lr.ctx

/-- What a resumable write returns after the sub-run loop. -/
def rest_result (st : LoopStatus) : LuaResult :=
  match st with
  | LoopStatus.failed => LuaResult.nilmsg "invalid block length"
  | LoopStatus.fuel => LuaResult.hang
  | LoopStatus.done => LuaResult.ret0

/-- The toy context with a function bound as sink by `set_writer`. -/
def toy_sink_ctx (m : Mode) (decrypt : Bool) (bs tail : Nat) : l_ctx Bytes :=
  (l_set_writer m (toy_ctx m decrypt bs tail) [LuaValue.func 1]).ctx

/-- The functions `l_ecb_destroyed` ... `l_ctr_destroyed`.  They do not go
through `l_get_<mode>_at`, so a destroyed context is not rejected. -/
def l_destroyed {S : Type} (ctx : l_ctx S) : OpRet S :=
  ⟨ctx, LuaResult.bool (CTX_FLAG ctx.flags FLAG_DESTROYED)⟩

/-- The functions `l_ecb_closed` ... `l_ctr_closed`. -/
def l_closed {S : Type} (m : Mode) (ctx : l_ctx S) : OpRet S :=
  match l_get_at m ctx with
  | some e => ⟨ctx, LuaResult.error e⟩
  | none => ⟨ctx, LuaResult.bool (!CTX_FLAG ctx.flags FLAG_OPEN)⟩

/-- The functions `l_ecb_get_writer` ... `l_ctr_get_writer`. -/
def l_get_writer {S : Type} (m : Mode) (ctx : l_ctx S) : OpRet S :=
  match l_get_at m ctx with
  | some e => ⟨ctx, LuaResult.error e⟩
  | none => ⟨ctx, LuaResult.vals (lua_rawgeti ctx.writer_cb_ref) (lua_rawgeti ctx.writer_ud_ref)⟩

/-- The allocation size of the constructors,
`const size_t ctx_len = sizeof(l_ecb_ctx) + buf_len - 1;`, in `size_t`
arithmetic (64 bits); `sizeof_ctx` is the size of the context struct. -/
def new_ctx_len (sizeof_ctx buf_len : Nat) : Nat :=
  (sizeof_ctx + buf_len + (18446744073709551616 - 1)) % 18446744073709551616

/-- A method call on a context.  `write_stop data i` is a `write` whose sink
call number `i` does not return to it (the sink raises an error, or yields
under Lua 5.2 and later); `write_resume data cursor top` is the re-entry of
`writek` as a continuation, with `cursor` on top of a stack of height `top`. -/
inductive Op where
  | open_ctx (key iv : Bytes)
  | close_ctx
  | reset (iv : Bytes)
  | write (data : Bytes)
  | write_stop (data : Bytes) (i : Nat)
  | write_resume (data : Bytes) (cursor top : Nat)
  | set_writer (args : List LuaValue)
  | get_writer
  | destroy
  | destroyed
  | closed

/-- The context after a method call. -/
def step {S : Type} (P : AesPrimitive S) (v : Nat) (m : Mode) (ctx : l_ctx S) : Op → l_ctx S
  | Op.open_ctx key iv => (l_open P m ctx key iv).ctx
  | Op.close_ctx => (l_close m ctx).ctx
  | Op.reset iv => (l_reset P m ctx iv).ctx
  | Op.write data => (l_write P v m ctx data).ctx
  | Op.write_stop data i =>
    (ctx_after_sink_error (l_write P v m ctx data) i).getD (l_write P v m ctx data).ctx
  | Op.write_resume data cursor top =>
    if v ≥ 502 then (l_writek_impl P m ctx data (some (cursor, top))).ctx else ctx
  | Op.set_writer args => (l_set_writer m ctx args).ctx
  | Op.get_writer => (l_get_writer m ctx).ctx
  | Op.destroy => (l_destroy ctx).ctx
  | Op.destroyed => (l_destroyed ctx).ctx
  | Op.closed => (l_closed m ctx).ctx

/-- The context after a sequence of method calls. -/
def run {S : Type} (P : AesPrimitive S) (v : Nat) (m : Mode) : l_ctx S → List Op → l_ctx S
  | ctx, [] => ctx
  | ctx, op :: ops => run P v m (step P v m ctx op) ops

/-- The flags and the sink binding of `b` are those of `a`. -/
def sink_eq {S : Type} (a b : l_ctx S) : Prop :=
  b.flags = a.flags ∧ b.writer_cb_ref = a.writer_cb_ref ∧ b.writer_ud_ref = a.writer_ud_ref

/-- The loop of `forwart_iv_inc`, `for(i = 0; i < IV_SIZE; ++i)`, with
`IV_SIZE - i` iterations to go: `c = iv[i]; iv[i] = ++c; if(c) return;`. -/
def forwart_iv_inc_loop : Nat → Bytes → Bytes
  | 0, iv => iv
  | todo + 1, iv =>
    let i := 16 - (todo + 1)
    let c := (iv.getD i 0 + 1) % 256
    if c ≠ 0 then iv.set i c else forwart_iv_inc_loop todo (iv.set i c)

/-- The function `forwart_iv_inc`. -/
def forwart_iv_inc (iv : Bytes) : Bytes := forwart_iv_inc_loop 16 iv

/-- The loop of `backwart_iv_inc`, `for(i = IV_SIZE-1; i >= 0; --i)`; the
first argument is `i + 1`. -/
def backwart_iv_inc_loop : Nat → Bytes → Bytes
  | 0, iv => iv
  | i + 1, iv =>
    let c := (iv.getD i 0 + 1) % 256
    if c ≠ 0 then iv.set i c else backwart_iv_inc_loop i (iv.set i c)

/-- The function `backwart_iv_inc`. -/
def backwart_iv_inc (iv : Bytes) : Bytes := backwart_iv_inc_loop 16 iv

/-- The function a `cbuf_inc` pointer stands for. -/
def call_inc (f : cbuf_inc) (iv : Bytes) : Bytes :=
  match f with
  | cbuf_inc.forwart_iv_inc => forwart_iv_inc iv
  | cbuf_inc.backwart_iv_inc => backwart_iv_inc iv

/-- A byte string read as a little-endian integer: byte 0 least significant. -/
def le_value : Bytes → Nat
  | [] => 0
  | c :: rest => c + 256 * le_value rest

/-- A byte string read as a big-endian integer: the last byte least significant. -/
def be_value (iv : Bytes) : Nat := le_value iv.reverse

/-- Add one with carry, least significant byte first. -/
def carry_inc : Bytes → Bytes
  | [] => []
  | c :: rest => if (c + 1) % 256 ≠ 0 then (c + 1) % 256 :: rest else (c + 1) % 256 :: carry_inc rest

/-- The flags, the increment policy and the chunk size of `b` are those of `a`. -/
def fixed_eq {S : Type} (a b : l_ctx S) : Prop :=
  b.flags = a.flags ∧ b.inc_fn = a.inc_fn ∧ b.buffer_size = a.buffer_size

/-- A call of the sink as `lua_call` and `lua_callk` make it: the function
called, the arguments before the chunk, and the chunk. -/
structure SinkCall where
  fn : LuaValue
  receiver : List LuaValue
  chunk : Bytes
  deriving DecidableEq, Repr

/-- The values `l_<mode>_push_writer` pushes: the consumer, and the receiver
when `writer_ud_ref` is not `LUA_NOREF`. -/
def push_writer_values {S : Type} (ctx : l_ctx S) : List LuaValue :=
  if ctx.writer_ud_ref ≠ Ref.noref then
    [lua_rawgeti ctx.writer_cb_ref, lua_rawgeti ctx.writer_ud_ref]
  else [lua_rawgeti ctx.writer_cb_ref]

/-- The call `lua_call(L, n, 0)` (or `lua_callk`) after the `n` values of
`push_writer` and the chunk were pushed: the first value is called with the
others and the chunk. -/
def sink_call {S : Type} (ctx : l_ctx S) (chunk : Bytes) : SinkCall :=
  ⟨(push_writer_values ctx).headD LuaValue.nil, (push_writer_values ctx).tail, chunk⟩

/-- The context `c` with another sink binding. -/
def with_sink {S : Type} (c : l_ctx S) (cb ud : Ref) : l_ctx S :=
  { c with writer_cb_ref := cb, writer_ud_ref := ud }

/-- The string a result carries, empty when it carries none. -/
def result_bytes (r : LuaResult) : Bytes :=
  match r with
  | LuaResult.str s => s
  | _ => []

/-- What a write of one sub-run returns in accumulate mode for the result
`r` of its mode call: the output, or nil and the message. -/
def ret_result {S : Type} (r : ModeRet S) : LuaResult :=
  if r.ret then LuaResult.str r.obuf else LuaResult.nilmsg "invalid block length"

/-- The transform a context applies in its sub-runs, as a function of the
input, the register and the schedule: the mode call of the context with
these two in place. -/
def ctx_transform {S : Type} (P : AesPrimitive S) (m : Mode) (ctx : l_ctx S)
    (ib iv : Bytes) (cx : S) : ModeRet S :=
  mode_call P m { ctx with iv := iv, cx := cx } ib

/-- A streaming transform: on a concatenation it succeeds exactly when it
succeeds on the first piece and then, from the register and schedule that
call left, on the second; its output is then the concatenation of the two
outputs and its final register and schedule those of the second call. -/
def streaming {S : Type} (f : Bytes → Bytes → S → ModeRet S) : Prop :=
  ∀ (a b iv : Bytes) (cx : S),
    (f (a ++ b) iv cx).ret = ((f a iv cx).ret && (f b (f a iv cx).iv (f a iv cx).cx).ret) ∧
    ((f (a ++ b) iv cx).ret = true →
      (f (a ++ b) iv cx).obuf = (f a iv cx).obuf ++ (f b (f a iv cx).iv (f a iv cx).cx).obuf ∧
      (f (a ++ b) iv cx).iv = (f b (f a iv cx).iv (f a iv cx).cx).iv ∧
      (f (a ++ b) iv cx).cx = (f b (f a iv cx).iv (f a iv cx).cx).cx)

/-- The sub-runs `emits` go over `data` from offset `off` to offset `e`
without gap or overlap: each starts where the one before ended, takes at
least one byte, is a successful call of the context's transform on these
bytes in the context the one before left, and holds the output of that
call. -/
def sub_runs {S : Type} (P : AesPrimitive S) (m : Mode) (data : Bytes) :
    l_ctx S → Nat → List (Emit S) → Nat → Prop
  | _, off, [], e => off = e
  | ctx, off, em :: rest, e =>
    em.b = off ∧ 0 < em.left ∧ off + em.left ≤ e ∧
      (mode_call P m ctx (slice data off em.left)).ret = true ∧
      em.chunk = (mode_call P m ctx (slice data off em.left)).obuf ∧
      em.ctx = apply_ret ctx (mode_call P m ctx (slice data off em.left)) 0 ∧
      sub_runs P m data em.ctx (off + em.left) rest e

/-- Bytewise XOR of two byte strings. -/
def xor_bytes (a b : Bytes) : Bytes := List.zipWith (fun x y => x ^^^ y) a b

/-- The CTR encryption entry point of the primitive is the XOR of its input
with a keystream: it succeeds, its output is the input XORed with as many
keystream bytes, and the keystream as well as the register and the schedule
it leaves depend only on the register, the increment function, the schedule
and the number of bytes, as they do for the keystream
`E_K(counter), E_K(inc(counter)), ...`. -/
def ctr_keystream_law {S : Type} (P : AesPrimitive S) : Prop :=
  ∃ (ks : Bytes → Option cbuf_inc → S → Nat → Bytes)
    (nx : Bytes → Option cbuf_inc → S → Nat → Bytes × S),
    ∀ (ib iv : Bytes) (f : Option cbuf_inc) (cx : S),
      (ks iv f cx ib.length).length = ib.length ∧
      P.aes_ctr_encrypt ib iv f cx =
        ⟨true, xor_bytes ib (ks iv f cx ib.length), (nx iv f cx ib.length).1,
          (nx iv f cx ib.length).2⟩

/-- Byte `q` of the keystream `E(counter), E(inc(counter)), ...`, counted from
the first byte of `E(counter)`. -/
def ctr_keystream_byte (E inc : Bytes → Bytes) (counter : Bytes) (q : Nat) : Nat :=
  (E (Nat.iterate inc (q / 16) counter)).getD (q % 16) 0

/-- Modelled from the spec: aes_ctr_crypt of `aes.h`, which is not in `src/`.
Section 4.3: the input is XORed with the keystream
`E(counter), E(inc(counter)), ...`.  `pos` is the count of keystream bytes of
the block `E(counter)` already used; the result is the output, the counter
and the position afterwards. -/
def ctr_crypt (E inc : Bytes → Bytes) (ibuf counter : Bytes) (pos : Nat) : Bytes × Bytes × Nat :=
  (xor_bytes ibuf ((List.range ibuf.length).map fun q => ctr_keystream_byte E inc counter (pos + q)),
    Nat.iterate inc ((pos + ibuf.length) / 16) counter, (pos + ibuf.length) % 16)

/-- The function an `inc_fn` field stands for. -/
def inc_of (f : Option cbuf_inc) (iv : Bytes) : Bytes :=
  match f with
  | some g => call_inc g iv
  | none => iv

/-- A toy stream transform over a schedule that also holds a position. -/
def toy_stream_pos (ibuf iv : Bytes) (cx : Bytes × Nat) : ModeRet (Bytes × Nat) :=
  { ret := true, obuf := ibuf.map fun x => (x + iv.getD 0 0) % 256, iv := iv, cx := cx }

/-- The toy cipher with a counter mode: the schedule is the key and the
position in the current keystream block; the CTR entry points are
`ctr_crypt` over the toy block encryption and the increment function passed. -/
def ctrAes : AesPrimitive (Bytes × Nat) where
  zero_cx := ([], 0)
  aes_encrypt_key := fun key cx =>
    if key.length = 16 ∨ key.length = 24 ∨ key.length = 32 then (true, (key, 0)) else (false, cx)
  aes_decrypt_key := fun key cx =>
    if key.length = 16 ∨ key.length = 24 ∨ key.length = 32 then (true, (key, 0)) else (false, cx)
  aes_encrypt := fun b cx => (xor_block b cx.1).reverse
  aes_decrypt := fun b cx => xor_block b.reverse cx.1
  aes_cfb_encrypt := toy_stream_pos
  aes_cfb_decrypt := toy_stream_pos
  aes_ofb_encrypt := toy_stream_pos
  aes_ofb_decrypt := toy_stream_pos
  aes_ctr_encrypt := fun b iv f cx =>
    { ret := true
      obuf := (ctr_crypt (fun blk => (xor_block blk cx.1).reverse) (inc_of f) b iv cx.2).1
      iv := (ctr_crypt (fun blk => (xor_block blk cx.1).reverse) (inc_of f) b iv cx.2).2.1
      cx := (cx.1, (ctr_crypt (fun blk => (xor_block blk cx.1).reverse) (inc_of f) b iv cx.2).2.2) }
  aes_ctr_decrypt := fun b iv f cx =>
    { ret := true
      obuf := (ctr_crypt (fun blk => (xor_block blk cx.1).reverse) (inc_of f) b iv cx.2).1
      iv := (ctr_crypt (fun blk => (xor_block blk cx.1).reverse) (inc_of f) b iv cx.2).2.1
      cx := (cx.1, (ctr_crypt (fun blk => (xor_block blk cx.1).reverse) (inc_of f) b iv cx.2).2.2) }
  aes_mode_reset := fun cx => (cx.1, 0)
  aes_encrypt_length := by intro b cx; simp [xor_block]
  aes_decrypt_length := by intro b cx; simp [xor_block]
  aes_cfb_encrypt_length := by intro b iv cx _; simp [toy_stream_pos]
  aes_cfb_decrypt_length := by intro b iv cx _; simp [toy_stream_pos]
  aes_ofb_encrypt_length := by intro b iv cx _; simp [toy_stream_pos]
  aes_ofb_decrypt_length := by intro b iv cx _; simp [toy_stream_pos]
  aes_ctr_encrypt_length := by intro b iv f cx _; simp [ctr_crypt, xor_bytes]
  aes_ctr_decrypt_length := by intro b iv f cx _; simp [ctr_crypt, xor_bytes]

/-- The lengths of the sub-runs of an aligned remainder of `A` bytes cut at
chunk size `S`: `ceil(A / S) - 1` sub-runs of `S` bytes, then, when `A > 0`,
one of `A - S * (ceil(A / S) - 1)` bytes. -/
def sub_run_lengths (A S : Nat) : List Nat :=
  List.replicate ((A + S - 1) / S - 1) S ++
    (if A = 0 then [] else [A - S * ((A + S - 1) / S - 1)])

/-- The write emits a tail-completion block: bytes are buffered and the input
completes them to a block. -/
def tail_done {S : Type} (ctx : l_ctx S) (data : Bytes) : Bool :=
  decide (ctx.tail ≠ 0 ∧ 16 ≤ ctx.tail + data.length)

/-- The offset in the input at which the sub-run loop of an ECB or CBC write
starts: after the bytes that completed the buffered block, if any. -/
def loop_start {S : Type} (ctx : l_ctx S) (data : Bytes) : Nat :=
  if tail_done ctx data then 16 - ctx.tail else 0

/-- The context in which the sub-run loop of an ECB or CBC write starts. -/
def loop_entry {S : Type} (P : AesPrimitive S) (m : Mode) (ctx : l_ctx S) (data : Bytes) :
    l_ctx S :=
  if tail_done ctx data then tail_clear (wblock P m ctx data 0) else ctx

/-- The sub-run loop of an ECB or CBC write: it goes over the aligned
remainder of the input.  When the write returns from the tail branch the
range is empty. -/
def block_loop {S : Type} (P : AesPrimitive S) (m : Mode) (ctx : l_ctx S) (data : Bytes) :
    LoopRet S :=
  write_loop P m data (loop_start ctx data + aligned_rest ctx.tail data.length)
    (aligned_rest ctx.tail data.length + 1) (loop_start ctx data) (loop_entry P m ctx data)

/-! ## Basic facts -/

theorem memcpy_nil (dst : Bytes) (off : Nat) : memcpy dst off [] = dst := by
  simp [memcpy]

theorem memcpy_length_ge (dst : Bytes) (off : Nat) (src : Bytes) :
    dst.length ≤ (memcpy dst off src).length := by
  simp only [memcpy, List.length_append, List.length_take, List.length_drop]
  omega

theorem slice_length (data : Bytes) (off n : Nat) (h : off + n ≤ data.length) :
    (slice data off n).length = n := by
  simp only [slice, List.length_take, List.length_drop]
  omega

theorem slice_zero_len (data : Bytes) (off : Nat) : slice data off 0 = [] := by
  simp [slice]

theorem shift_align (len : Nat) : (len >>> 4) <<< 4 = len / 16 * 16 := by
  simp [Nat.shiftRight_eq_div_pow, Nat.shiftLeft_eq]

theorem l_get_at_none {S : Type} (m : Mode) (ctx : l_ctx S)
    (h : CTX_FLAG ctx.flags FLAG_DESTROYED = false) : l_get_at m ctx = none := by
  simp [l_get_at, h]

theorem l_get_at_some {S : Type} (m : Mode) (ctx : l_ctx S)
    (h : CTX_FLAG ctx.flags FLAG_DESTROYED = true) :
    l_get_at m ctx = some (L_NAME m ++ " is destroyed") := by
  simp [l_get_at, h]

/-- The sub-run loop started at `b >= e` ends at once. -/
theorem write_loop_done {S : Type} (P : AesPrimitive S) (m : Mode) (data : Bytes) (e fuel b : Nat)
    (ctx : l_ctx S) (h : e ≤ b) :
    write_loop P m data e (fuel + 1) b ctx = ⟨ctx, [], LoopStatus.done⟩ := by
  simp [write_loop, Nat.not_lt.mpr h]

/-! ### The branches of `write_impl` and `writek_impl` -/

theorem l_write_impl_destroyed {S : Type} (P : AesPrimitive S) (m : Mode) (ctx : l_ctx S)
    (data : Bytes) (h : CTX_FLAG ctx.flags FLAG_DESTROYED = true) :
    l_write_impl P m ctx data = ⟨ctx, [], LuaResult.error (L_NAME m ++ " is destroyed"), true⟩ := by
  simp [l_write_impl, l_get_at_some m ctx h]

theorem l_write_impl_notail {S : Type} (P : AesPrimitive S) (m : Mode) (ctx : l_ctx S)
    (data : Bytes) (h : CTX_FLAG ctx.flags FLAG_DESTROYED = false)
    (ht : ¬(m.has_tail = true ∧ ctx.tail ≠ 0)) :
    l_write_impl P m ctx data =
      write_rest P m (decide (ctx.writer_cb_ref = Ref.noref)) ctx data 0 data.length [] true := by
  unfold l_write_impl
  rw [l_get_at_none m ctx h]
  simp only [if_neg ht]

theorem l_write_impl_short {S : Type} (P : AesPrimitive S) (m : Mode) (ctx : l_ctx S)
    (data : Bytes) (h : CTX_FLAG ctx.flags FLAG_DESTROYED = false)
    (ht : m.has_tail = true ∧ ctx.tail ≠ 0) (hs : (wfill ctx data 0).tail < 16) :
    l_write_impl P m ctx data =
      ⟨wfill ctx data 0, [],
        if decide (ctx.writer_cb_ref = Ref.noref) = true then LuaResult.str [] else LuaResult.ret0,
        decide (ctx.tail < 16)⟩ := by
  unfold wfill wtail at hs
  unfold l_write_impl wfill wtail
  rw [l_get_at_none m ctx h]
  simp only [Nat.sub_zero] at hs ⊢
  simp only [if_pos ht, if_pos hs]

theorem l_write_impl_full {S : Type} (P : AesPrimitive S) (m : Mode) (ctx : l_ctx S)
    (data : Bytes) (h : CTX_FLAG ctx.flags FLAG_DESTROYED = false)
    (ht : m.has_tail = true ∧ ctx.tail ≠ 0) (hs : ¬(wfill ctx data 0).tail < 16) :
    l_write_impl P m ctx data =
      write_rest P m (decide (ctx.writer_cb_ref = Ref.noref))
        (tail_clear (wblock P m ctx data 0))
        data (wtail ctx data 0) (data.length - wtail ctx data 0)
        [⟨slice (wblock P m ctx data 0).buffer 16 16, wblock P m ctx data 0⟩]
        (decide (ctx.tail < 16) && decide ((wfill ctx data 0).tail = 16)) := by
  unfold wfill wtail at hs
  unfold l_write_impl wblock wfill wtail
  rw [l_get_at_none m ctx h]
  simp only [Nat.sub_zero] at hs ⊢
  simp only [if_pos ht, if_neg hs]

theorem l_writek_impl_destroyed {S : Type} (P : AesPrimitive S) (m : Mode) (ctx : l_ctx S)
    (data : Bytes) (en : Option (Nat × Nat)) (h : CTX_FLAG ctx.flags FLAG_DESTROYED = true) :
    l_writek_impl P m ctx data en =
      ⟨ctx, [], LuaResult.error (L_NAME m ++ " is destroyed"), true⟩ := by
  simp [l_writek_impl, l_get_at_some m ctx h]

theorem l_writek_impl_end {S : Type} (P : AesPrimitive S) (m : Mode) (ctx : l_ctx S)
    (data : Bytes) (en : Option (Nat × Nat)) (h : CTX_FLAG ctx.flags FLAG_DESTROYED = false)
    (he : entry_data en ≥ data.length) :
    l_writek_impl P m ctx data en =
      ⟨ctx, [], LuaResult.ret0, entry_asserts en data.length⟩ := by
  unfold l_writek_impl
  rw [l_get_at_none m ctx h]
  simp only [if_pos he]

theorem l_writek_impl_notail {S : Type} (P : AesPrimitive S) (m : Mode) (ctx : l_ctx S)
    (data : Bytes) (en : Option (Nat × Nat)) (h : CTX_FLAG ctx.flags FLAG_DESTROYED = false)
    (he : ¬entry_data en ≥ data.length) (ht : ¬(m.has_tail = true ∧ ctx.tail ≠ 0)) :
    l_writek_impl P m ctx data en =
      writek_rest P m ctx data (entry_data en) (data.length - entry_data en) [] 2
        (entry_asserts en data.length) := by
  unfold l_writek_impl
  rw [l_get_at_none m ctx h]
  simp only [if_neg he, if_neg ht]

theorem l_writek_impl_short {S : Type} (P : AesPrimitive S) (m : Mode) (ctx : l_ctx S)
    (data : Bytes) (en : Option (Nat × Nat)) (h : CTX_FLAG ctx.flags FLAG_DESTROYED = false)
    (he : ¬entry_data en ≥ data.length) (ht : m.has_tail = true ∧ ctx.tail ≠ 0)
    (hs : (wfill ctx data (entry_data en)).tail < 16) :
    l_writek_impl P m ctx data en =
      ⟨wfill ctx data (entry_data en), [], LuaResult.ret0,
        entry_asserts en data.length && decide (ctx.tail < 16)⟩ := by
  unfold wfill wtail at hs
  unfold l_writek_impl wfill wtail
  rw [l_get_at_none m ctx h]
  simp only [if_neg he, if_pos ht, if_pos hs]

theorem l_writek_impl_full {S : Type} (P : AesPrimitive S) (m : Mode) (ctx : l_ctx S)
    (data : Bytes) (en : Option (Nat × Nat)) (h : CTX_FLAG ctx.flags FLAG_DESTROYED = false)
    (he : ¬entry_data en ≥ data.length) (ht : m.has_tail = true ∧ ctx.tail ≠ 0)
    (hs : ¬(wfill ctx data (entry_data en)).tail < 16) :
    l_writek_impl P m ctx data en =
      writek_rest P m (tail_clear (wblock P m ctx data (entry_data en)))
        data (entry_data en + wtail ctx data (entry_data en))
        (data.length - entry_data en - wtail ctx data (entry_data en))
        [⟨entry_data en, entry_data en + wtail ctx data (entry_data en), 3,
          slice (tail_clear (wblock P m ctx data (entry_data en))).buffer 16 16,
          tail_clear (wblock P m ctx data (entry_data en))⟩]
        3
        (entry_asserts en data.length && decide (ctx.tail < 16) &&
          decide ((wfill ctx data (entry_data en)).tail = 16)) := by
  unfold wfill wtail at hs
  unfold l_writek_impl wblock wfill wtail
  rw [l_get_at_none m ctx h]
  simp only [if_neg he, if_pos ht, if_neg hs]

theorem write_rest_not_error {S : Type} (P : AesPrimitive S) (m : Mode) (ub : Bool) (ctx : l_ctx S)
    (data : Bytes) (off len : Nat) (pre : List (Call S)) (ok : Bool) (msg : String) :
    (write_rest P m ub ctx data off len pre ok).result ≠ LuaResult.error msg := by
  unfold write_rest
  simp only
  split
  · simp
  · simp
  · cases ub <;> simp

theorem writek_rest_not_error {S : Type} (P : AesPrimitive S) (m : Mode) (ctx : l_ctx S)
    (data : Bytes) (off len : Nat) (pre : List (Push S)) (top : Nat) (ok : Bool) (msg : String) :
    (writek_rest P m ctx data off len pre top ok).result ≠ LuaResult.error msg := by
  unfold writek_rest
  simp only
  split <;> simp

theorem l_write_impl_not_error {S : Type} (P : AesPrimitive S) (m : Mode) (ctx : l_ctx S)
    (data : Bytes) (h : CTX_FLAG ctx.flags FLAG_DESTROYED = false) (msg : String) :
    (l_write_impl P m ctx data).result ≠ LuaResult.error msg := by
  by_cases ht : m.has_tail = true ∧ ctx.tail ≠ 0
  · by_cases hs : (tail_fill ctx (slice data 0 (tail_take ctx.tail data.length))
            (tail_take ctx.tail data.length)).tail < 16
    · rw [l_write_impl_short P m ctx data h ht hs]
      by_cases hb : ctx.writer_cb_ref = Ref.noref <;> simp [hb]
    · rw [l_write_impl_full P m ctx data h ht hs]
      exact write_rest_not_error P m _ _ _ _ _ _ _ msg
  · rw [l_write_impl_notail P m ctx data h ht]
    exact write_rest_not_error P m _ _ _ _ _ _ _ msg

theorem l_writek_impl_not_error {S : Type} (P : AesPrimitive S) (m : Mode) (ctx : l_ctx S)
    (data : Bytes) (en : Option (Nat × Nat)) (h : CTX_FLAG ctx.flags FLAG_DESTROYED = false)
    (msg : String) :
    (l_writek_impl P m ctx data en).result ≠ LuaResult.error msg := by
  by_cases he : entry_data en ≥ data.length
  · rw [l_writek_impl_end P m ctx data en h he]
    simp
  · by_cases ht : m.has_tail = true ∧ ctx.tail ≠ 0
    · by_cases hs : (wfill ctx data (entry_data en)).tail < 16
      · rw [l_writek_impl_short P m ctx data en h he ht hs]
        simp
      · rw [l_writek_impl_full P m ctx data en h he ht hs]
        exact writek_rest_not_error P m _ _ _ _ _ _ _ msg
    · rw [l_writek_impl_notail P m ctx data en h he ht]
      exact writek_rest_not_error P m _ _ _ _ _ _ _ msg

/-! ### Zero-length input -/

theorem tail_take_zero (t : Nat) : tail_take t 0 = 0 := by
  unfold tail_take
  split <;> omega

theorem wfill_nil {S : Type} (ctx : l_ctx S) (d0 : Nat) (ht : ctx.tail < 16) :
    wfill ctx [] d0 = ctx := by
  have h256 : ctx.tail % 256 = ctx.tail := Nat.mod_eq_of_lt (by omega)
  cases ctx
  simp_all [wfill, wtail, tail_fill, tail_take_zero, slice, memcpy]

theorem write_rest_nil {S : Type} (P : AesPrimitive S) (m : Mode) (ub : Bool) (ctx : l_ctx S)
    (ok : Bool) (ht : m.has_tail = true → ctx.tail = 0) :
    write_rest P m ub ctx [] 0 0 [] ok =
      ⟨ctx, [], if ub then LuaResult.str [] else LuaResult.ret0, ok⟩ := by
  have hal : align_len m 0 = 0 := by unfold align_len; split <;> simp
  have hst : tail_store m ctx [] 0 0 0 = ctx := by
    unfold tail_store
    split
    · rename_i h
      have := ht h
      cases ctx
      simp_all [slice, memcpy]
    · rfl
  unfold write_rest
  simp only [hal, Nat.add_zero, Nat.zero_add, write_loop_done P m [] 0 0 0 ctx (Nat.le_refl 0),
    hst, loop_calls]
  cases ub <;> simp

theorem l_write_impl_nil {S : Type} (P : AesPrimitive S) (m : Mode) (ctx : l_ctx S)
    (hnd : CTX_FLAG ctx.flags FLAG_DESTROYED = false) (ht : m.has_tail = true → ctx.tail < 16) :
    l_write_impl P m ctx [] =
      ⟨ctx, [], if decide (ctx.writer_cb_ref = Ref.noref) = true then LuaResult.str []
        else LuaResult.ret0, true⟩ := by
  by_cases hb : m.has_tail = true ∧ ctx.tail ≠ 0
  · have hlt := ht hb.1
    have hs : (wfill ctx ([] : Bytes) 0).tail < 16 := by rw [wfill_nil ctx 0 hlt]; exact hlt
    rw [l_write_impl_short P m ctx [] hnd hb hs, wfill_nil ctx 0 hlt]
    simp [hlt]
  · rw [l_write_impl_notail P m ctx [] hnd hb]
    have h0 : m.has_tail = true → ctx.tail = 0 := by
      intro h
      by_contra hne
      exact hb ⟨h, hne⟩
    simpa using write_rest_nil P m (decide (ctx.writer_cb_ref = Ref.noref)) ctx true h0

/-! ## Claims about the state machine -/

/-- C10: `open` on a context whose Open flag is set raises an error and leaves
the whole context (chaining register, key schedule, tail, flags, sink
binding) as it was, for every mode, key and IV. -/
theorem open_on_open_fails_unchanged {S : Type} (P : AesPrimitive S) (m : Mode) (ctx : l_ctx S)
    (key iv : Bytes) (h : CTX_FLAG ctx.flags FLAG_OPEN = true) :
    (l_open P m ctx key iv).ctx = ctx ∧
      ∃ msg, (l_open P m ctx key iv).result = LuaResult.error msg := by
  unfold l_open
  cases hg : l_get_at m ctx with
  | some e => exact ⟨rfl, e, rfl⟩
  | none => simp [h]

theorem open_on_open_fails_unchanged_witness :
    CTX_FLAG (toy_ctx Mode.CBC false 32 3).flags FLAG_OPEN = true ∧
      ((l_open toyAes Mode.CBC (toy_ctx Mode.CBC false 32 3) (List.replicate 16 9) [1, 2]).ctx
          = toy_ctx Mode.CBC false 32 3 ∧
        ∃ msg, (l_open toyAes Mode.CBC (toy_ctx Mode.CBC false 32 3) (List.replicate 16 9)
          [1, 2]).result = LuaResult.error msg) :=
  ⟨by decide, open_on_open_fails_unchanged toyAes Mode.CBC _ _ _ (by decide)⟩

/-- C9: for every mode and Lua version, `write` on a context that is not Open
or is Destroyed raises an error, leaves the context (tail and chaining
register included) unchanged and calls the sink zero times; and `write` raises
no error exactly when the context is Open and not Destroyed. -/
theorem write_requires_open {S : Type} (P : AesPrimitive S) (v : Nat) (m : Mode) (ctx : l_ctx S)
    (data : Bytes) :
    ((CTX_FLAG ctx.flags FLAG_OPEN = false ∨ CTX_FLAG ctx.flags FLAG_DESTROYED = true) →
      (∃ msg, (l_write P v m ctx data).result = LuaResult.error msg) ∧
      (l_write P v m ctx data).ctx = ctx ∧ (l_write P v m ctx data).calls = []) ∧
    ((∀ msg, (l_write P v m ctx data).result ≠ LuaResult.error msg) ↔
      (CTX_FLAG ctx.flags FLAG_OPEN = true ∧ CTX_FLAG ctx.flags FLAG_DESTROYED = false)) := by
  cases hd : CTX_FLAG ctx.flags FLAG_DESTROYED with
  | true =>
    have hw : l_write P v m ctx data =
        ⟨ctx, [], LuaResult.error (L_NAME m ++ " is destroyed"), true⟩ := by
      simp [l_write, l_get_at_some m ctx hd]
    rw [hw]
    refine ⟨fun _ => ⟨⟨_, rfl⟩, rfl, rfl⟩, ⟨fun h => absurd rfl (h _), fun h => by simp at h⟩⟩
  | false =>
    cases ho : CTX_FLAG ctx.flags FLAG_OPEN with
    | false =>
      have hw : l_write P v m ctx data =
          ⟨ctx, [], LuaResult.error (L_NAME m ++ " is close"), true⟩ := by
        simp [l_write, l_get_at_none m ctx hd, ho]
      rw [hw]
      refine ⟨fun _ => ⟨⟨_, rfl⟩, rfl, rfl⟩, ⟨fun h => absurd rfl (h _), fun h => by simp at h⟩⟩
    | true =>
      refine ⟨fun h => by simp at h, ⟨fun _ => ⟨rfl, rfl⟩, fun _ msg => ?_⟩⟩
      unfold l_write
      rw [l_get_at_none m ctx hd]
      simp only [ho, if_true]
      split
      · exact l_writek_impl_not_error P m ctx data none hd msg
      · exact l_write_impl_not_error P m ctx data hd msg

/-! ## The block-mode entry points -/

theorem xor_block_length (a b : Bytes) : (xor_block a b).length = 16 := by
  simp [xor_block]

theorem block_step_length {S : Type} (P : AesPrimitive S) (m : Mode) (flags : Nat) (cx : S)
    (blk iv : Bytes) : (block_step P m flags cx blk iv).1.length = 16 := by
  unfold block_step
  split <;> split <;>
    simp [ecb_step, cbc_encrypt_step, cbc_decrypt_step, P.aes_encrypt_length,
      P.aes_decrypt_length, xor_block_length]

theorem blocks_run_length (step : Bytes → Bytes → Bytes × Bytes)
    (hstep : ∀ blk iv, (step blk iv).1.length = 16) :
    ∀ (n : Nat) (ib iv : Bytes), (blocks_run step n ib iv).1.length = 16 * n := by
  intro n
  induction n with
  | zero => intro ib iv; simp [blocks_run]
  | succ k ih =>
    intro ib iv
    simp only [blocks_run, List.length_append, hstep, ih]
    omega

theorem blocks_run_take (step : Bytes → Bytes → Bytes × Bytes) :
    ∀ (n k : Nat) (ib iv : Bytes), 16 * n ≤ k →
      blocks_run step n (ib.take k) iv = blocks_run step n ib iv := by
  intro n
  induction n with
  | zero => intro k ib iv _; simp [blocks_run]
  | succ j ih =>
    intro k ib iv hk
    have h16 : min 16 k = 16 := by omega
    simp only [blocks_run, List.take_take, h16, List.drop_take]
    rw [ih (k - 16) (ib.drop 16) _ (by omega)]

theorem blocks_run_add (step : Bytes → Bytes → Bytes × Bytes) :
    ∀ (a b : Nat) (ib iv : Bytes),
      blocks_run step (a + b) ib iv =
        ((blocks_run step a ib iv).1 ++
            (blocks_run step b (ib.drop (16 * a)) (blocks_run step a ib iv).2).1,
          (blocks_run step b (ib.drop (16 * a)) (blocks_run step a ib iv).2).2) := by
  intro a
  induction a with
  | zero => intro b ib iv; simp [blocks_run]
  | succ j ih =>
    intro b ib iv
    have e1 : j + 1 + b = (j + b) + 1 := by omega
    have e2 : 16 * (j + 1) = 16 + 16 * j := by omega
    rw [e1]
    simp only [blocks_run, ih, List.append_assoc, e2, List.drop_drop]

theorem blocks_run_ecb (f : Bytes → Bytes) :
    ∀ (n : Nat) (ib iv : Bytes),
      blocks_run (ecb_step f) n ib iv = ((blocks_run (ecb_step f) n ib []).1, iv) := by
  intro n
  induction n with
  | zero => intro ib iv; simp [blocks_run]
  | succ j ih =>
    intro ib iv
    simp only [blocks_run, ecb_step]
    rw [ih (ib.drop 16) iv]

/-- For ECB and CBC the mode call is the block rule of the context run over the
input, threading the chaining register. -/
theorem mode_call_block {S : Type} (P : AesPrimitive S) (m : Mode) (hm : m.has_tail = true)
    (ctx : l_ctx S) (ibuf : Bytes) :
    mode_call P m ctx ibuf = block_mode (block_step P m ctx.flags ctx.cx) ibuf ctx.iv ctx.cx := by
  cases m <;> simp [Mode.has_tail] at hm
  · unfold mode_call block_step block_mode
    simp only [aes_ecb_decrypt, aes_ecb_encrypt, block_mode, if_true]
    cases hd : CTX_FLAG ctx.flags FLAG_DECRYPT <;> by_cases hl : ibuf.length % 16 = 0 <;>
      simp [hl]
    · rw [blocks_run_ecb _ _ _ ctx.iv]
      simp
    · rw [blocks_run_ecb _ _ _ ctx.iv]
      simp
  · unfold mode_call block_step
    simp only [aes_cbc_decrypt, aes_cbc_encrypt]
    cases hd : CTX_FLAG ctx.flags FLAG_DECRYPT <;> simp

/-- A mode call on an aligned input succeeds and returns the blocks. -/
theorem block_mode_ok {S : Type} (step : Bytes → Bytes → Bytes × Bytes) (ibuf iv : Bytes) (cx : S)
    (h : ibuf.length % 16 = 0) :
    block_mode step ibuf iv cx =
      ⟨true, (blocks_run step (ibuf.length / 16) ibuf iv).1,
        (blocks_run step (ibuf.length / 16) ibuf iv).2, cx⟩ := by
  simp [block_mode, h]

/-- A mode call on an unaligned input fails and changes nothing. -/
theorem block_mode_fail {S : Type} (step : Bytes → Bytes → Bytes × Bytes) (ibuf iv : Bytes)
    (cx : S) (h : ibuf.length % 16 ≠ 0) :
    block_mode step ibuf iv cx = ⟨false, [], iv, cx⟩ := by
  simp [block_mode, h]

/-! ## The sub-run loop -/

theorem frame_eq_refl {S : Type} (a : l_ctx S) : frame_eq a a :=
  ⟨rfl, rfl, rfl, rfl, rfl, rfl, Nat.le_refl _⟩

theorem frame_eq_trans {S : Type} {a b c : l_ctx S} (h1 : frame_eq a b) (h2 : frame_eq b c) :
    frame_eq a c := by
  obtain ⟨a1, a2, a3, a4, a5, a6, a7⟩ := h1
  obtain ⟨b1, b2, b3, b4, b5, b6, b7⟩ := h2
  exact ⟨b1.trans a1, b2.trans a2, b3.trans a3, b4.trans a4, b5.trans a5, b6.trans a6,
    Nat.le_trans a7 b7⟩

theorem frame_eq_apply_ret {S : Type} (ctx : l_ctx S) (r : ModeRet S) (off : Nat) :
    frame_eq ctx (apply_ret ctx r off) :=
  ⟨rfl, rfl, rfl, rfl, rfl, rfl, memcpy_length_ge _ _ _⟩

theorem frame_eq_loop_ctx {S : Type} (P : AesPrimitive S) (m : Mode) (data : Bytes) (e b : Nat)
    (ctx : l_ctx S) : frame_eq ctx (loop_ctx P m data e b ctx) :=
  frame_eq_apply_ret _ _ _

theorem write_loop_succ_ok {S : Type} (P : AesPrimitive S) (m : Mode) (data : Bytes)
    (e fuel b : Nat) (ctx : l_ctx S) (hb : b < e)
    (hr : (mode_call P m ctx (slice data b (loop_left ctx.buffer_size e b))).ret = true) :
    write_loop P m data e (fuel + 1) b ctx =
      ⟨(write_loop P m data e fuel (b + ctx.buffer_size) (loop_ctx P m data e b ctx)).ctx,
        ⟨b, loop_left ctx.buffer_size e b,
            (loop_ctx P m data e b ctx).buffer.take (loop_left ctx.buffer_size e b),
            loop_ctx P m data e b ctx⟩ ::
          (write_loop P m data e fuel (b + ctx.buffer_size) (loop_ctx P m data e b ctx)).emits,
        (write_loop P m data e fuel (b + ctx.buffer_size) (loop_ctx P m data e b ctx)).status⟩ := by
  simp only [write_loop, if_pos hb, hr, if_true, loop_ctx]

theorem write_loop_succ_fail {S : Type} (P : AesPrimitive S) (m : Mode) (data : Bytes)
    (e fuel b : Nat) (ctx : l_ctx S) (hb : b < e)
    (hr : (mode_call P m ctx (slice data b (loop_left ctx.buffer_size e b))).ret = false) :
    write_loop P m data e (fuel + 1) b ctx =
      ⟨loop_ctx P m data e b ctx, [], LoopStatus.failed⟩ := by
  simp [write_loop, if_pos hb, hr, loop_ctx]

/-- The loop changes only the chaining register, the schedule and the scratch
buffer, in its result and at every iteration. -/
theorem write_loop_frame {S : Type} (P : AesPrimitive S) (m : Mode) (data : Bytes) (e : Nat) :
    ∀ (fuel b : Nat) (ctx : l_ctx S),
      frame_eq ctx (write_loop P m data e fuel b ctx).ctx ∧
        ∀ em ∈ (write_loop P m data e fuel b ctx).emits, frame_eq ctx em.ctx := by
  intro fuel
  induction fuel with
  | zero => intro b ctx; simp [write_loop, frame_eq_refl]
  | succ k ih =>
    intro b ctx
    by_cases hb : b < e
    · cases hr : (mode_call P m ctx (slice data b (loop_left ctx.buffer_size e b))).ret with
      | true =>
        rw [write_loop_succ_ok P m data e k b ctx hb hr]
        have h1 := frame_eq_loop_ctx P m data e b ctx
        obtain ⟨i1, i2⟩ := ih (b + ctx.buffer_size) (loop_ctx P m data e b ctx)
        refine ⟨frame_eq_trans h1 i1, ?_⟩
        intro em hem
        simp only [List.mem_cons] at hem
        rcases hem with rfl | hem
        · exact h1
        · exact frame_eq_trans h1 (i2 em hem)
      | false =>
        rw [write_loop_succ_fail P m data e k b ctx hb hr]
        exact ⟨frame_eq_loop_ctx P m data e b ctx, by simp⟩
    · rw [write_loop_done P m data e k b ctx (Nat.not_lt.mp hb)]
      exact ⟨frame_eq_refl ctx, by simp⟩

theorem memcpy_zero_take (dst src : Bytes) (n : Nat) (h : src.length = n) :
    (memcpy dst 0 src).take n = src := by
  subst h
  simp [memcpy]

theorem loop_left_le (bs e b : Nat) : loop_left bs e b ≤ e - b ∧ loop_left bs e b ≤ bs := by
  unfold loop_left
  split <;> omega

/-- One iteration of the loop of an ECB or CBC context on an aligned sub-run:
the mode call succeeds, the chunk is the transform of the sub-run, and only
the chaining register and the scratch buffer change. -/
theorem loop_iter_block {S : Type} (P : AesPrimitive S) (m : Mode) (hm : m.has_tail = true)
    (data : Bytes) (e b : Nat) (ctx : l_ctx S) (hb : b < e) (he : e ≤ data.length)
    (hl : loop_left ctx.buffer_size e b % 16 = 0) :
    (mode_call P m ctx (slice data b (loop_left ctx.buffer_size e b))).ret = true ∧
      (loop_ctx P m data e b ctx).buffer.take (loop_left ctx.buffer_size e b) =
        (blocks_run (block_step P m ctx.flags ctx.cx) (loop_left ctx.buffer_size e b / 16)
          (data.drop b) ctx.iv).1 ∧
      (loop_ctx P m data e b ctx).iv =
        (blocks_run (block_step P m ctx.flags ctx.cx) (loop_left ctx.buffer_size e b / 16)
          (data.drop b) ctx.iv).2 ∧
      (loop_ctx P m data e b ctx).cx = ctx.cx := by
  have hle := loop_left_le ctx.buffer_size e b
  have hsl : (slice data b (loop_left ctx.buffer_size e b)).length =
      loop_left ctx.buffer_size e b := slice_length _ _ _ (by omega)
  have hcall := mode_call_block P m hm ctx (slice data b (loop_left ctx.buffer_size e b))
  rw [block_mode_ok _ _ _ _ (by rw [hsl]; exact hl), hsl] at hcall
  have htk : blocks_run (block_step P m ctx.flags ctx.cx) (loop_left ctx.buffer_size e b / 16)
      (slice data b (loop_left ctx.buffer_size e b)) ctx.iv =
      blocks_run (block_step P m ctx.flags ctx.cx) (loop_left ctx.buffer_size e b / 16)
        (data.drop b) ctx.iv := by
    unfold slice
    exact blocks_run_take _ _ _ _ _ (by omega)
  rw [htk] at hcall
  have hlen := blocks_run_length _ (block_step_length P m ctx.flags ctx.cx)
    (loop_left ctx.buffer_size e b / 16) (data.drop b) ctx.iv
  refine ⟨by rw [hcall], ?_, ?_, ?_⟩
  · unfold loop_ctx apply_ret
    rw [hcall]
    exact memcpy_zero_take _ _ _ (by rw [hlen]; omega)
  · unfold loop_ctx apply_ret
    rw [hcall]
  · unfold loop_ctx apply_ret
    rw [hcall]

/-- The loop of an ECB or CBC context over an aligned range, with a chunk size
that is a multiple of 16 or not smaller than the range: it runs to the end
and the chunks, concatenated, are the block rule run over the whole range. -/
theorem write_loop_block {S : Type} (P : AesPrimitive S) (m : Mode) (hm : m.has_tail = true)
    (data : Bytes) (e : Nat) (he : e ≤ data.length) :
    ∀ (fuel b : Nat) (ctx : l_ctx S), b ≤ e → (e - b) % 16 = 0 → e - b < fuel →
      0 < ctx.buffer_size → (ctx.buffer_size % 16 = 0 ∨ e - b ≤ ctx.buffer_size) →
      (write_loop P m data e fuel b ctx).status = LoopStatus.done ∧
        (emit_chunks (write_loop P m data e fuel b ctx).emits).flatten =
          (blocks_run (block_step P m ctx.flags ctx.cx) ((e - b) / 16) (data.drop b) ctx.iv).1 ∧
        (write_loop P m data e fuel b ctx).ctx.iv =
          (blocks_run (block_step P m ctx.flags ctx.cx) ((e - b) / 16) (data.drop b) ctx.iv).2 ∧
        (write_loop P m data e fuel b ctx).ctx.cx = ctx.cx := by
  intro fuel
  induction fuel with
  | zero => intro b ctx _ _ hf; omega
  | succ k ih =>
    intro b ctx hbe hal hf hbs hdisj
    by_cases hb : b < e
    · have hle := loop_left_le ctx.buffer_size e b
      by_cases hbig : e - b > ctx.buffer_size
      · -- a full chunk of `buffer_size` bytes, more to come
        have h16 : ctx.buffer_size % 16 = 0 := by
          rcases hdisj with h | h
          · exact h
          · omega
        have hleft : loop_left ctx.buffer_size e b = ctx.buffer_size := by
          simp [loop_left, hbig]
        obtain ⟨hr, hchunk, hiv, hcx⟩ :=
          loop_iter_block P m hm data e b ctx hb he (by rw [hleft]; exact h16)
        have hfr := frame_eq_loop_ctx P m data e b ctx
        obtain ⟨f1, _, _, _, _, f6, _⟩ := hfr
        rw [write_loop_succ_ok P m data e k b ctx hb hr]
        obtain ⟨i1, i2, i3, i4⟩ := ih (b + ctx.buffer_size) (loop_ctx P m data e b ctx)
          (by omega) (by omega) (by omega) (by rw [f6]; exact hbs) (Or.inl (by rw [f6]; exact h16))
        rw [f1, hcx, hiv] at i2 i3
        rw [hleft] at hchunk i2 i3
        have hsplit : (e - b) / 16 = ctx.buffer_size / 16 + (e - (b + ctx.buffer_size)) / 16 := by
          omega
        have hdrop : (data.drop b).drop (16 * (ctx.buffer_size / 16)) =
            data.drop (b + ctx.buffer_size) := by
          rw [List.drop_drop]
          congr 1
          omega
        rw [hsplit, blocks_run_add, hdrop]
        refine ⟨i1, ?_, i3, i4.trans hcx⟩
        simp only [emit_chunks, List.map_cons, List.flatten_cons]
        rw [hleft, hchunk]
        exact congrArg _ i2
      · -- the last chunk
        have hleft : loop_left ctx.buffer_size e b = e - b := by
          simp [loop_left, hbig]
        obtain ⟨hr, hchunk, hiv, hcx⟩ :=
          loop_iter_block P m hm data e b ctx hb he (by rw [hleft]; exact hal)
        rw [write_loop_succ_ok P m data e k b ctx hb hr]
        obtain ⟨j, rfl⟩ : ∃ j, k = j + 1 := ⟨k - 1, by omega⟩
        rw [write_loop_done P m data e j _ _ (by omega)]
        rw [hleft] at hchunk hiv
        refine ⟨rfl, ?_, hiv, hcx⟩
        simp only [emit_chunks, List.map_cons, List.map_nil, List.flatten_cons, List.flatten_nil,
          List.append_nil]
        rw [hleft, hchunk]
    · have hbe2 : e - b = 0 := by omega
      rw [write_loop_done P m data e k b ctx (Nat.not_lt.mp hb), hbe2]
      simp [emit_chunks, blocks_run]

/-- The loop of an ECB or CBC context whose chunk size is not a multiple of 16
fails at once, changing nothing, when more than one chunk is left. -/
theorem write_loop_block_fail {S : Type} (P : AesPrimitive S) (m : Mode) (hm : m.has_tail = true)
    (data : Bytes) (e fuel b : Nat) (ctx : l_ctx S) (he : e ≤ data.length)
    (hbig : e - b > ctx.buffer_size) (h16 : ctx.buffer_size % 16 ≠ 0) :
    write_loop P m data e (fuel + 1) b ctx = ⟨ctx, [], LoopStatus.failed⟩ := by
  have hb : b < e := by omega
  have hleft : loop_left ctx.buffer_size e b = ctx.buffer_size := by
    simp [loop_left, hbig]
  have hsl : (slice data b (loop_left ctx.buffer_size e b)).length = ctx.buffer_size := by
    rw [hleft]
    exact slice_length _ _ _ (by omega)
  have hcall := mode_call_block P m hm ctx (slice data b (loop_left ctx.buffer_size e b))
  rw [block_mode_fail _ _ _ _ (by rw [hsl]; exact h16)] at hcall
  rw [write_loop_succ_fail P m data e fuel b ctx hb (by rw [hcall])]
  unfold loop_ctx apply_ret
  rw [hcall]
  cases ctx
  simp [memcpy_nil]

/-! ## One write of an ECB or CBC context -/

theorem align_len_block (m : Mode) (hm : m.has_tail = true) (len : Nat) :
    align_len m len = len / 16 * 16 := by
  simp [align_len, hm, shift_align]

theorem tail_store_block {S : Type} (m : Mode) (hm : m.has_tail = true) (c : l_ctx S)
    (data : Bytes) (off len : Nat) (hlen : off + len = data.length) :
    (tail_store m c data off len (len / 16 * 16)).tail = len % 16 ∧
      (tail_store m c data off len (len / 16 * 16)).buffer.take (len % 16) =
        data.drop (off + len / 16 * 16) ∧
      (tail_store m c data off len (len / 16 * 16)).iv = c.iv ∧
      (tail_store m c data off len (len / 16 * 16)).cx = c.cx ∧
      frame_eq { c with tail := len % 16 } (tail_store m c data off len (len / 16 * 16)) := by
  have h1 : (len - len / 16 * 16) % 256 = len % 16 := by omega
  have hsl : slice data (off + len / 16 * 16) (len % 16) = data.drop (off + len / 16 * 16) := by
    unfold slice
    apply List.take_of_length_le
    simp only [List.length_drop]
    omega
  have hl2 : (data.drop (off + len / 16 * 16)).length = len % 16 := by
    simp only [List.length_drop]
    omega
  unfold tail_store
  simp only [hm, if_true, h1, hsl]
  refine ⟨trivial, ?_, trivial, trivial, ?_⟩
  · exact memcpy_zero_take _ _ _ hl2
  · exact ⟨rfl, rfl, rfl, rfl, rfl, rfl, memcpy_length_ge _ _ _⟩

/-- The rest of an ECB or CBC write (after the tail branch) when every sub-run
is aligned: the loop ends normally and produces the block rule run over the
aligned remainder. -/
theorem write_rest_block {S : Type} (P : AesPrimitive S) (m : Mode) (hm : m.has_tail = true)
    (ub : Bool) (ctx : l_ctx S) (data : Bytes) (off len : Nat) (pre : List (Call S)) (ok : Bool)
    (hlen : off + len = data.length) (hbs : 0 < ctx.buffer_size)
    (hok : ctx.buffer_size % 16 = 0 ∨ len / 16 * 16 ≤ ctx.buffer_size) :
    ∃ (c : l_ctx S) (emits : List (Emit S)),
      write_rest P m ub ctx data off len pre ok =
        ⟨tail_store m c data off len (len / 16 * 16),
          if ub then [] else pre ++ loop_calls emits,
          if ub then LuaResult.str ((pre ++ loop_calls emits).map fun c => c.chunk).flatten
          else LuaResult.ret0, ok⟩ ∧
      frame_eq ctx c ∧
      c.iv = (blocks_run (block_step P m ctx.flags ctx.cx) (len / 16) (data.drop off) ctx.iv).2 ∧
      c.cx = ctx.cx ∧
      (emit_chunks emits).flatten =
        (blocks_run (block_step P m ctx.flags ctx.cx) (len / 16) (data.drop off) ctx.iv).1 := by
  have hloop := write_loop_block P m hm data (off + len / 16 * 16) (by omega)
    (len / 16 * 16 + 1) off ctx (by omega) (by omega) (by omega) hbs
    (by rcases hok with h | h
        · exact Or.inl h
        · exact Or.inr (by omega))
  have hfr := (write_loop_frame P m data (off + len / 16 * 16) (len / 16 * 16 + 1) off ctx).1
  have hsub : (off + len / 16 * 16 - off) / 16 = len / 16 := by omega
  rw [hsub] at hloop
  obtain ⟨h1, h2, h3, h4⟩ := hloop
  refine ⟨_, _, ?_, hfr, h3, h4, h2⟩
  unfold write_rest
  simp only [align_len_block m hm, h1]

/-- The rest of an ECB or CBC write fails at the first sub-run, leaving the
context as it is, when the chunk size is not a multiple of 16 and the aligned
remainder is longer than one chunk. -/
theorem write_rest_block_fail {S : Type} (P : AesPrimitive S) (m : Mode) (hm : m.has_tail = true)
    (ub : Bool) (ctx : l_ctx S) (data : Bytes) (off len : Nat) (pre : List (Call S)) (ok : Bool)
    (hlen : off + len = data.length)
    (hbad : ¬(ctx.buffer_size % 16 = 0 ∨ len / 16 * 16 ≤ ctx.buffer_size)) :
    write_rest P m ub ctx data off len pre ok =
      ⟨ctx, if ub then [] else pre, LuaResult.nilmsg "invalid block length", ok⟩ := by
  have hloop := write_loop_block_fail P m hm data (off + len / 16 * 16) (len / 16 * 16) off ctx
    (by omega) (by omega) (by omega)
  unfold write_rest
  simp only [align_len_block m hm, hloop, loop_calls, List.map_nil, List.append_nil]

theorem memcpy_take_prefix (dst : Bytes) (off : Nat) (src : Bytes) (h : off ≤ dst.length) :
    (memcpy dst off src).take (off + src.length) = dst.take off ++ src := by
  unfold memcpy
  have h1 : (dst.take off ++ src).length = off + src.length := by
    simp [List.length_take, Nat.min_eq_left h]
  rw [← h1, List.take_left']
  rfl

theorem memcpy_slice (dst : Bytes) (off : Nat) (src : Bytes) (h : off ≤ dst.length) :
    slice (memcpy dst off src) off src.length = src := by
  unfold memcpy slice
  have h1 : (dst.take off).length = off := by simp [List.length_take, Nat.min_eq_left h]
  rw [List.append_assoc, List.drop_left' h1, List.take_left' rfl]

theorem wtail_eq {S : Type} (ctx : l_ctx S) (data : Bytes) (d0 : Nat)
    (ht : ctx.tail < 16) : wtail ctx data d0 = min (16 - ctx.tail) (data.length - d0) := by
  unfold wtail tail_take
  have h : (16 + 256 - ctx.tail) % 256 = 16 - ctx.tail := by omega
  rw [h]
  split <;> omega

/-- The tail branch when the input does not complete the block: the input
is appended to the buffered bytes. -/
theorem wfill_short {S : Type} (ctx : l_ctx S) (data : Bytes) (_h0 : ctx.tail ≠ 0)
    (ht : ctx.tail < 16) (hb : ctx.tail ≤ ctx.buffer.length) (hs : ctx.tail + data.length < 16) :
    (wfill ctx data 0).tail = ctx.tail + data.length ∧
      (wfill ctx data 0).buffer.take (ctx.tail + data.length) = pending ctx data ∧
      (wfill ctx data 0).iv = ctx.iv ∧ (wfill ctx data 0).cx = ctx.cx ∧
      frame_eq { ctx with tail := ctx.tail + data.length } (wfill ctx data 0) := by
  have hw : wtail ctx data 0 = data.length := by rw [wtail_eq ctx data 0 ht]; omega
  have hsl : slice data 0 data.length = data := by simp [slice]
  have hmod : (ctx.tail + data.length) % 256 = ctx.tail + data.length := by omega
  unfold wfill tail_fill
  simp only [hw, hsl, hmod]
  refine ⟨trivial, ?_, trivial, trivial, ?_⟩
  · exact memcpy_take_prefix _ _ _ hb
  · exact ⟨rfl, rfl, rfl, rfl, rfl, rfl, memcpy_length_ge _ _ _⟩

/-- The tail branch when the input completes the block: the block is the
buffered bytes followed by the first `16 - tail` input bytes at `d0`, and the
16 bytes emitted are its transform. -/
theorem wblock_full {S : Type} (P : AesPrimitive S) (m : Mode) (hm : m.has_tail = true)
    (ctx : l_ctx S) (data : Bytes) (d0 : Nat) (_h0 : ctx.tail ≠ 0) (ht : ctx.tail < 16)
    (hb : 16 ≤ ctx.buffer.length) (hd : d0 + (16 - ctx.tail) ≤ data.length) :
    wtail ctx data d0 = 16 - ctx.tail ∧ (wfill ctx data d0).tail = 16 ∧
      slice (wblock P m ctx data d0).buffer 16 16 =
        (blocks_run (block_step P m ctx.flags ctx.cx) 1
          (ctx.buffer.take ctx.tail ++ data.drop d0) ctx.iv).1 ∧
      (wblock P m ctx data d0).iv =
        (blocks_run (block_step P m ctx.flags ctx.cx) 1
          (ctx.buffer.take ctx.tail ++ data.drop d0) ctx.iv).2 ∧
      (wblock P m ctx data d0).cx = ctx.cx ∧
      frame_eq { ctx with tail := 16 } (wblock P m ctx data d0) := by
  have hw : wtail ctx data d0 = 16 - ctx.tail := by rw [wtail_eq ctx data d0 ht]; omega
  have hmod : (ctx.tail + (16 - ctx.tail)) % 256 = 16 := by omega
  have hsl : (slice data d0 (16 - ctx.tail)).length = 16 - ctx.tail := slice_length _ _ _ hd
  have hfill : wfill ctx data d0 =
      { ctx with buffer := memcpy ctx.buffer ctx.tail (slice data d0 (16 - ctx.tail)),
                 tail := 16 } := by
    unfold wfill tail_fill
    simp only [hw, hmod]
  have htk : (memcpy ctx.buffer ctx.tail (slice data d0 (16 - ctx.tail))).take 16 =
      (ctx.buffer.take ctx.tail ++ data.drop d0).take 16 := by
    have h1 := memcpy_take_prefix ctx.buffer ctx.tail (slice data d0 (16 - ctx.tail)) (by omega)
    rw [hsl] at h1
    have h2 : ctx.tail + (16 - ctx.tail) = 16 := by omega
    rw [h2] at h1
    rw [h1]
    have h3 : (ctx.buffer.take ctx.tail).length = ctx.tail := by
      simp only [List.length_take]; omega
    rw [List.take_append_eq_append_take, h3]
    have h4 : (ctx.buffer.take ctx.tail).take 16 = ctx.buffer.take ctx.tail := by
      apply List.take_of_length_le; omega
    rw [h4]
    rfl
  have hlen16 : ((memcpy ctx.buffer ctx.tail (slice data d0 (16 - ctx.tail))).take 16).length
      = 16 := by
    have := memcpy_length_ge ctx.buffer ctx.tail (slice data d0 (16 - ctx.tail))
    simp only [List.length_take]
    omega
  have hcall := mode_call_block P m hm (wfill ctx data d0) ((wfill ctx data d0).buffer.take 16)
  rw [hfill] at hcall
  simp only at hcall
  have h1616 : 16 / 16 = 1 := rfl
  rw [block_mode_ok _ _ _ _ (by rw [hlen16]), hlen16, htk, h1616,
    blocks_run_take _ _ _ _ _ (by omega)] at hcall
  have hblk : wblock P m ctx data d0 = apply_ret (wfill ctx data d0)
      (mode_call P m (wfill ctx data d0) ((wfill ctx data d0).buffer.take 16)) 16 := rfl
  rw [hfill] at hblk
  simp only at hblk
  rw [htk, hcall] at hblk
  have holen := blocks_run_length _ (block_step_length P m ctx.flags ctx.cx) 1
    (ctx.buffer.take ctx.tail ++ data.drop d0) ctx.iv
  refine ⟨hw, by rw [hfill], ?_, by rw [hblk]; rfl, by rw [hblk]; rfl, ?_⟩
  · rw [hblk]
    simp only [apply_ret]
    have h5 := memcpy_slice (memcpy ctx.buffer ctx.tail (slice data d0 (16 - ctx.tail))) 16
      (blocks_run (block_step P m ctx.flags ctx.cx) 1
        (ctx.buffer.take ctx.tail ++ data.drop d0) ctx.iv).1
      (by have := memcpy_length_ge ctx.buffer ctx.tail (slice data d0 (16 - ctx.tail)); omega)
    rw [holen] at h5
    exact h5
  · rw [hblk]
    refine ⟨rfl, rfl, rfl, rfl, rfl, rfl, ?_⟩
    simp only [apply_ret]
    exact Nat.le_trans (memcpy_length_ge _ _ _) (memcpy_length_ge _ _ _)

theorem loop_calls_chunks {S : Type} (emits : List (Emit S)) :
    (loop_calls emits).map (fun c => c.chunk) = emit_chunks emits := by
  simp [loop_calls, emit_chunks]

theorem pending_length {S : Type} (ctx : l_ctx S) (data : Bytes)
    (hb : ctx.tail ≤ ctx.buffer.length) :
    (pending ctx data).length = ctx.tail + data.length := by
  simp only [pending, List.length_append, List.length_take]
  omega

/-- One write of an ECB or CBC context whose sub-runs are all aligned, in
terms of the block rule: the chunks, concatenated, are the block rule run over
all whole blocks of tail ++ input; the chaining register is the one the rule
leaves; the new tail is the rest of tail ++ input. -/
theorem write_impl_spec {S : Type} (P : AesPrimitive S) (m : Mode) (hm : m.has_tail = true)
    (ctx : l_ctx S) (data : Bytes) (hnd : CTX_FLAG ctx.flags FLAG_DESTROYED = false)
    (hok : ctx_ok ctx) (hch : chunks_ok ctx data) :
    (l_write_impl P m ctx data).result =
        (if ctx.writer_cb_ref = Ref.noref then LuaResult.str (spec_run P m ctx data).1
         else LuaResult.ret0) ∧
      (l_write_impl P m ctx data).ctx.iv = (spec_run P m ctx data).2 ∧
      (l_write_impl P m ctx data).ctx.cx = ctx.cx ∧
      (l_write_impl P m ctx data).ctx.buffer.take ((pending ctx data).length % 16) =
        (pending ctx data).drop ((pending ctx data).length / 16 * 16) ∧
      frame_eq { ctx with tail := (pending ctx data).length % 16 }
        (l_write_impl P m ctx data).ctx ∧
      (l_write_impl P m ctx data).asserts_ok = true := by
  obtain ⟨ht, hbs, hbl⟩ := hok
  have hpl := pending_length ctx data (by omega)
  by_cases h0 : ctx.tail = 0
  · -- no buffered bytes
    have hpend : pending ctx data = data := by simp [pending, h0]
    have hok2 : ctx.buffer_size % 16 = 0 ∨ data.length / 16 * 16 ≤ ctx.buffer_size := by
      unfold chunks_ok aligned_rest at hch
      simpa [h0] using hch
    obtain ⟨c, emits, hw, hfr, hiv, hcx, hchunks⟩ := write_rest_block P m hm
      (decide (ctx.writer_cb_ref = Ref.noref)) ctx data 0 data.length [] true (by omega)
      (by omega) hok2
    obtain ⟨t1, t2, t3, t4, t5⟩ := tail_store_block m hm c data 0 data.length (by omega)
    rw [l_write_impl_notail P m ctx data hnd (by simp [h0]), hw]
    simp only [spec_run, hpend, List.drop_zero, Nat.zero_add] at *
    refine ⟨?_, by rw [t3, hiv], by rw [t4, hcx], t2, ?_, by simp⟩
    · by_cases hr : ctx.writer_cb_ref = Ref.noref
      · simp [hr, loop_calls_chunks, hchunks]
      · simp [hr]
    · refine frame_eq_trans ?_ t5
      obtain ⟨f1, f2, f3, f4, f5, f6, f7⟩ := hfr
      exact ⟨f1, f2, f3, f4, rfl, f6, f7⟩
  · by_cases hs : ctx.tail + data.length < 16
    · -- the input stays in the tail
      obtain ⟨w1, w2, w3, w4, w5⟩ := wfill_short ctx data h0 ht (by omega) hs
      have hdiv : (ctx.tail + data.length) / 16 = 0 := by omega
      have hmod : (ctx.tail + data.length) % 16 = ctx.tail + data.length := by omega
      rw [l_write_impl_short P m ctx data hnd ⟨hm, h0⟩ (by rw [w1]; exact hs)]
      simp only [spec_run, hpl, hdiv, hmod, blocks_run, Nat.zero_mul, List.drop_zero]
      refine ⟨?_, w3, w4, w2, w5, by simp [ht]⟩
      by_cases hr : ctx.writer_cb_ref = Ref.noref <;> simp [hr]
    · -- the input completes the buffered block
      obtain ⟨b1, b2, b3, b4, b5, b6⟩ := wblock_full P m hm ctx data 0 h0 ht (by omega) (by omega)
      have hok2 : ctx.buffer_size % 16 = 0 ∨
          (data.length - (16 - ctx.tail)) / 16 * 16 ≤ ctx.buffer_size := by
        unfold chunks_ok aligned_rest at hch
        simpa [h0] using hch
      obtain ⟨f1, f2, f3, f4, f5, f6, f7⟩ := b6
      obtain ⟨c, emits, hw, hfr, hiv, hcx, hchunks⟩ := write_rest_block P m hm
        (decide (ctx.writer_cb_ref = Ref.noref)) (tail_clear (wblock P m ctx data 0)) data
        (16 - ctx.tail) (data.length - (16 - ctx.tail))
        [⟨slice (wblock P m ctx data 0).buffer 16 16, wblock P m ctx data 0⟩]
        (decide (ctx.tail < 16) && decide ((wfill ctx data 0).tail = 16)) (by omega)
        (by show 0 < (wblock P m ctx data 0).buffer_size; rw [f6]; show 0 < ctx.buffer_size; omega)
        (by show (wblock P m ctx data 0).buffer_size % 16 = 0 ∨ _ ≤ (wblock P m ctx data 0).buffer_size
            rw [f6]; exact hok2)
      obtain ⟨t1, t2, t3, t4, t5⟩ := tail_store_block m hm c data (16 - ctx.tail)
        (data.length - (16 - ctx.tail)) (by omega)
      have hflags : (tail_clear (wblock P m ctx data 0)).flags = ctx.flags := f1
      have hcx0 : (tail_clear (wblock P m ctx data 0)).cx = ctx.cx := b5
      have hiv0 : (tail_clear (wblock P m ctx data 0)).iv = (wblock P m ctx data 0).iv := rfl
      rw [hflags, hcx0, hiv0, b4] at hiv hchunks
      rw [l_write_impl_full P m ctx data hnd ⟨hm, h0⟩ (by rw [b2]; omega), b1, hw]
      have hdiv : (ctx.tail + data.length) / 16 = 1 + (data.length - (16 - ctx.tail)) / 16 := by
        omega
      have hmod : (ctx.tail + data.length) % 16 = (data.length - (16 - ctx.tail)) % 16 := by
        omega
      have hdrop16 : (pending ctx data).drop (16 * 1) = data.drop (16 - ctx.tail) := by
        have hl : (ctx.buffer.take ctx.tail).length = ctx.tail := by
          simp only [List.length_take]; omega
        unfold pending
        rw [List.drop_append_eq_append_drop, hl]
        have : List.drop (16 * 1) (ctx.buffer.take ctx.tail) = [] := by
          apply List.drop_of_length_le; omega
        rw [this]
        simp
      have hdropn : (pending ctx data).drop ((ctx.tail + data.length) / 16 * 16) =
          data.drop (16 - ctx.tail + (data.length - (16 - ctx.tail)) / 16 * 16) := by
        have hl : (ctx.buffer.take ctx.tail).length = ctx.tail := by
          simp only [List.length_take]; omega
        unfold pending
        rw [List.drop_append_eq_append_drop, hl]
        have : List.drop ((ctx.tail + data.length) / 16 * 16) (ctx.buffer.take ctx.tail) = [] := by
          apply List.drop_of_length_le; omega
        rw [this]
        simp only [List.nil_append]
        congr 1
        omega
      have hpd : ctx.buffer.take ctx.tail ++ data.drop 0 = pending ctx data := by
        simp [pending]
      rw [hpd] at b3 b4 hiv hchunks
      simp only [spec_run, hpl]
      rw [hdropn]
      simp only [hdiv, hmod, blocks_run_add, hdrop16]
      refine ⟨?_, by rw [t3, hiv], by rw [t4, hcx, hcx0], t2, ?_, ?_⟩
      · by_cases hr : ctx.writer_cb_ref = Ref.noref
        · simp [hr, loop_calls_chunks, hchunks, b3]
        · simp [hr]
      · refine frame_eq_trans ?_ t5
        obtain ⟨g1, g2, g3, g4, g5, g6, g7⟩ := hfr
        have e7 : ctx.buffer.length ≤ (wblock P m ctx data 0).buffer.length := f7
        exact ⟨g1.trans f1, g2.trans f2, g3.trans f3, g4.trans f4, rfl, g6.trans f6,
          Nat.le_trans e7 g7⟩
      · simp [ht, b2]

/-- A write that fails on an unaligned sub-run: the chunk size is not a
multiple of 16 and the aligned remainder is longer than one chunk. -/
theorem write_impl_fail {S : Type} (P : AesPrimitive S) (m : Mode) (hm : m.has_tail = true)
    (ctx : l_ctx S) (data : Bytes) (hnd : CTX_FLAG ctx.flags FLAG_DESTROYED = false)
    (hok : ctx_ok ctx) (hch : ¬chunks_ok ctx data) :
    (l_write_impl P m ctx data).result = LuaResult.nilmsg "invalid block length" ∧
      (ctx.tail = 0 → (l_write_impl P m ctx data).ctx = ctx) := by
  obtain ⟨ht, hbs, hbl⟩ := hok
  by_cases h0 : ctx.tail = 0
  · have hbad : ¬(ctx.buffer_size % 16 = 0 ∨ data.length / 16 * 16 ≤ ctx.buffer_size) := by
      unfold chunks_ok aligned_rest at hch
      simpa [h0] using hch
    rw [l_write_impl_notail P m ctx data hnd (by simp [h0]),
      write_rest_block_fail P m hm _ ctx data 0 data.length [] true (by omega) hbad]
    exact ⟨rfl, fun _ => rfl⟩
  · have hbad : ¬(ctx.buffer_size % 16 = 0 ∨
        (data.length - (16 - ctx.tail)) / 16 * 16 ≤ ctx.buffer_size) := by
      unfold chunks_ok aligned_rest at hch
      simpa [h0] using hch
    have hs : ¬ctx.tail + data.length < 16 := by
      intro hlt
      apply hbad
      right
      have : (data.length - (16 - ctx.tail)) / 16 * 16 = 0 := by omega
      omega
    obtain ⟨b1, b2, b3, b4, b5, b6⟩ := wblock_full P m hm ctx data 0 h0 ht (by omega) (by omega)
    obtain ⟨f1, f2, f3, f4, f5, f6, f7⟩ := b6
    have hbs2 : (tail_clear (wblock P m ctx data 0)).buffer_size = ctx.buffer_size := f6
    rw [l_write_impl_full P m ctx data hnd ⟨hm, h0⟩ (by rw [b2]; omega), b1,
      write_rest_block_fail P m hm _ _ data (16 - ctx.tail) (data.length - (16 - ctx.tail)) _ _
        (by omega) (by rw [hbs2]; exact hbad)]
    exact ⟨rfl, fun h => absurd h h0⟩

/-- Without a sink `write` is `write_impl`, whatever the Lua version. -/
theorem l_write_accumulate {S : Type} (P : AesPrimitive S) (v : Nat) (m : Mode) (ctx : l_ctx S)
    (data : Bytes) (ho : CTX_FLAG ctx.flags FLAG_OPEN = true)
    (hnd : CTX_FLAG ctx.flags FLAG_DESTROYED = false) (hacc : ctx.writer_cb_ref = Ref.noref) :
    l_write P v m ctx data = l_write_impl P m ctx data := by
  unfold l_write
  rw [l_get_at_none m ctx hnd]
  simp [ho, hacc]

/-- One accumulate-mode `write` of an ECB or CBC context whose sub-runs are
all aligned, in terms of the block rule; the context stays ready for the next
write. -/
theorem write_spec {S : Type} (P : AesPrimitive S) (v : Nat) (m : Mode) (hm : m.has_tail = true)
    (ctx : l_ctx S) (data : Bytes) (hr : acc_ready ctx) (hch : chunks_ok ctx data) :
    (l_write P v m ctx data).result = LuaResult.str (spec_run P m ctx data).1 ∧
      (l_write P v m ctx data).ctx.iv = (spec_run P m ctx data).2 ∧
      (l_write P v m ctx data).ctx.cx = ctx.cx ∧
      (l_write P v m ctx data).ctx.flags = ctx.flags ∧
      (l_write P v m ctx data).ctx.buffer_size = ctx.buffer_size ∧
      (l_write P v m ctx data).ctx.tail = (pending ctx data).length % 16 ∧
      (l_write P v m ctx data).ctx.buffer.take (l_write P v m ctx data).ctx.tail =
        (pending ctx data).drop ((pending ctx data).length / 16 * 16) ∧
      acc_ready (l_write P v m ctx data).ctx := by
  obtain ⟨ho, hnd, hacc, hok⟩ := hr
  obtain ⟨s1, s2, s3, s4, s5, _⟩ := write_impl_spec P m hm ctx data hnd hok hch
  obtain ⟨f1, f2, f3, f4, f5, f6, f7⟩ := s5
  rw [l_write_accumulate P v m ctx data ho hnd hacc]
  simp only [hacc, if_true] at s1
  have e1 : (l_write_impl P m ctx data).ctx.flags = ctx.flags := f1
  have e3 : (l_write_impl P m ctx data).ctx.writer_cb_ref = ctx.writer_cb_ref := f3
  have e5 : (l_write_impl P m ctx data).ctx.tail = (pending ctx data).length % 16 := f5
  have e6 : (l_write_impl P m ctx data).ctx.buffer_size = ctx.buffer_size := f6
  have e7 : ctx.buffer.length ≤ (l_write_impl P m ctx data).ctx.buffer.length := f7
  refine ⟨s1, s2, s3, e1, e6, e5, by rw [e5]; exact s4, ?_⟩
  refine ⟨by rw [e1]; exact ho, by rw [e1]; exact hnd, by rw [e3]; exact hacc, ?_⟩
  obtain ⟨_, k2, k3⟩ := hok
  exact ⟨by rw [e5]; omega, by rw [e6]; exact k2, by rw [e6]; omega⟩

/-! ## Claims about one write of an ECB or CBC context -/

/-- C4: tail arithmetic of an accumulate-mode `write` of an ECB or CBC context
holding `t < 16` buffered bytes.  If a write of `n` bytes returns a string,
the string has `16 * ((t + n) / 16)` bytes, the new tail has `(t + n) % 16`
bytes, and they are the last `(t + n) % 16` bytes of old tail ++ input.  From
an empty tail, a write of 16 bytes returns one block and leaves the tail
empty, a following write of 5 bytes returns the empty string and leaves 5
bytes, and a following write of 11 bytes returns one block, the transform of
the 5 bytes followed by the 11 bytes, and leaves the tail empty. -/
theorem tail_arithmetic {S : Type} (P : AesPrimitive S) (v : Nat) (m : Mode)
    (hm : m.has_tail = true) (ctx : l_ctx S) (hr : acc_ready ctx) :
    (∀ data out, (l_write P v m ctx data).result = LuaResult.str out →
        out.length = 16 * ((ctx.tail + data.length) / 16) ∧
        (l_write P v m ctx data).ctx.tail = (ctx.tail + data.length) % 16 ∧
        (l_write P v m ctx data).ctx.buffer.take (l_write P v m ctx data).ctx.tail =
          (ctx.buffer.take ctx.tail ++ data).drop
            (ctx.tail + data.length - (ctx.tail + data.length) % 16)) ∧
    (ctx.tail = 0 → ∀ a b c : Bytes, a.length = 16 → b.length = 5 → c.length = 11 →
      ∃ o1 o3 : Bytes,
        (l_write P v m ctx a).result = LuaResult.str o1 ∧ o1.length = 16 ∧
        (l_write P v m ctx a).ctx.tail = 0 ∧
        (l_write P v m (l_write P v m ctx a).ctx b).result = LuaResult.str [] ∧
        (l_write P v m (l_write P v m ctx a).ctx b).ctx.tail = 5 ∧
        (l_write P v m (l_write P v m (l_write P v m ctx a).ctx b).ctx c).result =
          LuaResult.str o3 ∧
        o3.length = 16 ∧
        (l_write P v m (l_write P v m (l_write P v m ctx a).ctx b).ctx c).ctx.tail = 0 ∧
        o3 = (mode_call P m (l_write P v m ctx a).ctx (b ++ c)).obuf) := by
  have hlen : ∀ (c : l_ctx S) (d : Bytes), (spec_run P m c d).1.length =
      16 * ((pending c d).length / 16) := fun c d =>
    blocks_run_length _ (block_step_length P m c.flags c.cx) _ _ _
  constructor
  · intro data out hres
    have hpl := pending_length ctx data (by have := hr.2.2.2; unfold ctx_ok at this; omega)
    by_cases hch : chunks_ok ctx data
    · obtain ⟨s1, _, _, _, _, s6, s7, _⟩ := write_spec P v m hm ctx data hr hch
      rw [s1] at hres
      injection hres with hres
      subst hres
      rw [hlen, hpl, s7, s6, hpl]
      refine ⟨rfl, rfl, ?_⟩
      unfold pending
      congr 1
      omega
    · obtain ⟨ho, hnd, hacc, hok⟩ := hr
      have hf := (write_impl_fail P m hm ctx data hnd hok hch).1
      rw [l_write_accumulate P v m ctx data ho hnd hacc, hf] at hres
      cases hres
  · intro h0 a b c ha hb hc
    have hbs : 32 ≤ ctx.buffer_size := hr.2.2.2.2.1
    have hpa : pending ctx a = a := by simp [pending, h0]
    have hca : chunks_ok ctx a := by
      right; unfold aligned_rest; simp [h0, ha]; omega
    obtain ⟨a1, a2, a3, a4, a5, a6, a7, a8⟩ := write_spec P v m hm ctx a hr hca
    rw [hpa, ha] at a6
    have a6' : (l_write P v m ctx a).ctx.tail = 0 := a6
    have hpb : pending (l_write P v m ctx a).ctx b = b := by simp [pending, a6']
    have hcb : chunks_ok (l_write P v m ctx a).ctx b := by
      right; unfold aligned_rest; simp [a6', hb]
    obtain ⟨b1, b2, b3, b4, b5, b6, b7, b8⟩ :=
      write_spec P v m hm (l_write P v m ctx a).ctx b a8 hcb
    rw [hpb, hb] at b6 b7
    have b6' : (l_write P v m (l_write P v m ctx a).ctx b).ctx.tail = 5 := b6
    rw [b6'] at b7
    have hpc : pending (l_write P v m (l_write P v m ctx a).ctx b).ctx c = b ++ c := by
      unfold pending
      rw [b6', b7]
      simp
    have hcc : chunks_ok (l_write P v m (l_write P v m ctx a).ctx b).ctx c := by
      right; unfold aligned_rest; simp [b6', hc]
    obtain ⟨c1, c2, c3, c4, c5, c6, c7, c8⟩ :=
      write_spec P v m hm (l_write P v m (l_write P v m ctx a).ctx b).ctx c b8 hcc
    have hbc : (b ++ c).length = 16 := by simp [hb, hc]
    rw [hpc, hbc] at c6
    refine ⟨_, _, a1, ?_, a6', ?_, b6', c1, ?_, c6, ?_⟩
    · rw [hlen, hpa, ha]
    · rw [b1]
      simp [spec_run, hpb, hb, blocks_run]
    · rw [hlen, hpc, hbc]
    · rw [mode_call_block P m hm, block_mode_ok _ _ _ _ (by rw [hbc])]
      simp only [spec_run, hpc, hbc, b4, b3]
      have hiv : (l_write P v m (l_write P v m ctx a).ctx b).ctx.iv =
          (l_write P v m ctx a).ctx.iv := by
        rw [b2]
        simp [spec_run, hpb, hb, blocks_run]
      rw [hiv]


theorem tail_arithmetic_witness :
    acc_ready (toy_ctx Mode.ECB false 32 3) ∧
      (l_write toyAes 502 Mode.ECB (toy_ctx Mode.ECB false 32 3) (List.range 30)).ctx.tail =
        (3 + 30) % 16 :=
  ⟨by unfold acc_ready ctx_ok; decide,
    ((tail_arithmetic toyAes 502 Mode.ECB rfl (toy_ctx Mode.ECB false 32 3)
      (by unfold acc_ready ctx_ok; decide)).1 (List.range 30)
      _ rfl).2.1⟩

/-! ## Writing a message in pieces -/

/-- The block rule over all whole blocks of `X ++ q` is the rule over the
whole blocks of `X`, followed by the rule over the whole blocks of what `X`
leaves followed by `q`. -/
theorem blocks_run_pending (step : Bytes → Bytes → Bytes × Bytes) (X q iv : Bytes) :
    blocks_run step ((X ++ q).length / 16) (X ++ q) iv =
      ((blocks_run step (X.length / 16) X iv).1 ++
          (blocks_run step ((X.drop (X.length / 16 * 16) ++ q).length / 16)
            (X.drop (X.length / 16 * 16) ++ q) (blocks_run step (X.length / 16) X iv).2).1,
        (blocks_run step ((X.drop (X.length / 16 * 16) ++ q).length / 16)
            (X.drop (X.length / 16 * 16) ++ q) (blocks_run step (X.length / 16) X iv).2).2) := by
  have hn : (X ++ q).length / 16 =
      X.length / 16 + (X.drop (X.length / 16 * 16) ++ q).length / 16 := by
    simp only [List.length_append, List.length_drop]
    omega
  have hcomm : 16 * (X.length / 16) = X.length / 16 * 16 := Nat.mul_comm _ _
  have h1 : blocks_run step (X.length / 16) (X ++ q) iv =
      blocks_run step (X.length / 16) X iv := by
    rw [← blocks_run_take step (X.length / 16) (16 * (X.length / 16)) (X ++ q) iv (Nat.le_refl _),
      ← blocks_run_take step (X.length / 16) (16 * (X.length / 16)) X iv (Nat.le_refl _),
      List.take_append_of_le_length (by omega)]
  have h2 : (X ++ q).drop (16 * (X.length / 16)) = X.drop (X.length / 16 * 16) ++ q := by
    rw [hcomm, List.drop_append_of_le_length (by omega)]
  rw [hn, blocks_run_add, h1, h2]

/-- Writing `p` and then `q` returns, concatenated, what writing `p ++ q`
returns, and ends with the same tail and chaining register. -/
theorem write_spec_append {S : Type} (P : AesPrimitive S) (v : Nat) (m : Mode)
    (hm : m.has_tail = true) (ctx : l_ctx S) (p q : Bytes) (hr : acc_ready ctx)
    (h16 : ctx.buffer_size % 16 = 0) :
    ∃ op oq : Bytes,
      (l_write P v m ctx p).result = LuaResult.str op ∧
      (l_write P v m (l_write P v m ctx p).ctx q).result = LuaResult.str oq ∧
      (l_write P v m ctx (p ++ q)).result = LuaResult.str (op ++ oq) ∧
      (l_write P v m ctx (p ++ q)).ctx.tail = (l_write P v m (l_write P v m ctx p).ctx q).ctx.tail ∧
      (l_write P v m ctx (p ++ q)).ctx.buffer.take (l_write P v m ctx (p ++ q)).ctx.tail =
        (l_write P v m (l_write P v m ctx p).ctx q).ctx.buffer.take
          (l_write P v m (l_write P v m ctx p).ctx q).ctx.tail ∧
      (l_write P v m ctx (p ++ q)).ctx.iv = (l_write P v m (l_write P v m ctx p).ctx q).ctx.iv ∧
      acc_ready (l_write P v m ctx p).ctx ∧
      (l_write P v m ctx p).ctx.buffer_size % 16 = 0 := by
  obtain ⟨a1, a2, a3, a4, a5, a6, a7, a8⟩ := write_spec P v m hm ctx p hr (Or.inl h16)
  obtain ⟨b1, b2, b3, b4, b5, b6, b7, b8⟩ :=
    write_spec P v m hm (l_write P v m ctx p).ctx q a8 (Or.inl (by rw [a5]; exact h16))
  obtain ⟨c1, c2, c3, c4, c5, c6, c7, c8⟩ := write_spec P v m hm ctx (p ++ q) hr (Or.inl h16)
  have hpq : pending ctx (p ++ q) = pending ctx p ++ q := by
    simp [pending, List.append_assoc]
  have hp1 : pending (l_write P v m ctx p).ctx q =
      (pending ctx p).drop ((pending ctx p).length / 16 * 16) ++ q := by
    unfold pending at a7 ⊢
    rw [a7]
  have hsplit := blocks_run_pending (block_step P m ctx.flags ctx.cx) (pending ctx p) q ctx.iv
  have hrun1 : spec_run P m (l_write P v m ctx p).ctx q =
      blocks_run (block_step P m ctx.flags ctx.cx)
        (((pending ctx p).drop ((pending ctx p).length / 16 * 16) ++ q).length / 16)
        ((pending ctx p).drop ((pending ctx p).length / 16 * 16) ++ q)
        (blocks_run (block_step P m ctx.flags ctx.cx) ((pending ctx p).length / 16)
          (pending ctx p) ctx.iv).2 := by
    unfold spec_run at a2 ⊢
    rw [hp1, a4, a3, a2]
  have hrun : spec_run P m ctx (p ++ q) =
      ((spec_run P m ctx p).1 ++ (spec_run P m (l_write P v m ctx p).ctx q).1,
        (spec_run P m (l_write P v m ctx p).ctx q).2) := by
    rw [hrun1]
    unfold spec_run
    rw [hpq, hsplit]
  have hlen : (pending ctx (p ++ q)).length % 16 =
      (pending (l_write P v m ctx p).ctx q).length % 16 := by
    rw [hpq, hp1]
    simp only [List.length_append, List.length_drop]
    omega
  refine ⟨_, _, a1, b1, ?_, ?_, ?_, ?_, a8, by rw [a5]; exact h16⟩
  · rw [c1, hrun]
  · rw [c6, b6, hlen]
  · rw [c7, b7, hpq, hp1]
    have hd : (pending ctx p ++ q).length / 16 * 16 =
        (pending ctx p).length / 16 * 16 +
          ((pending ctx p).drop ((pending ctx p).length / 16 * 16) ++ q).length / 16 * 16 := by
      simp only [List.length_append, List.length_drop]
      omega
    have h3 : (pending ctx p ++ q).drop ((pending ctx p).length / 16 * 16) =
        (pending ctx p).drop ((pending ctx p).length / 16 * 16) ++ q :=
      List.drop_append_of_le_length (Nat.div_mul_le_self _ _)
    rw [hd, ← List.drop_drop, h3]
  · rw [c2, b2, hrun]

/-- C1: split invariance for ECB and CBC.  On a context in accumulate mode
whose chunk size is a multiple of 16, with any buffered tail and chaining
register, writing the pieces of a message one after another returns strings
whose concatenation is the string the single `write` of the whole message
returns, and both runs end with the same tail (length and bytes) and the same
chaining register. -/
theorem split_invariance {S : Type} (P : AesPrimitive S) (v : Nat) (m : Mode)
    (hm : m.has_tail = true) (pieces : List Bytes) :
    ∀ (ctx : l_ctx S), acc_ready ctx → ctx.buffer_size % 16 = 0 →
      ∃ outs : List Bytes,
        (write_pieces P v m ctx pieces).2 = outs.map LuaResult.str ∧
        (l_write P v m ctx pieces.flatten).result = LuaResult.str outs.flatten ∧
        (write_pieces P v m ctx pieces).1.tail = (l_write P v m ctx pieces.flatten).ctx.tail ∧
        (write_pieces P v m ctx pieces).1.buffer.take (write_pieces P v m ctx pieces).1.tail =
          (l_write P v m ctx pieces.flatten).ctx.buffer.take
            (l_write P v m ctx pieces.flatten).ctx.tail ∧
        (write_pieces P v m ctx pieces).1.iv = (l_write P v m ctx pieces.flatten).ctx.iv := by
  induction pieces with
  | nil =>
    intro ctx hr h16
    obtain ⟨ho, hnd, hacc, hok⟩ := hr
    have hw : l_write P v m ctx [] = ⟨ctx, [], LuaResult.str [], true⟩ := by
      rw [l_write_accumulate P v m ctx [] ho hnd hacc,
        l_write_impl_nil P m ctx hnd (fun _ => hok.1)]
      simp [hacc]
    have z1 : (l_write P v m ctx []).ctx = ctx := by rw [hw]
    refine ⟨[], rfl, ?_, ?_, ?_, ?_⟩
    · simp only [List.flatten_nil]
      rw [hw]
    · simp only [List.flatten_nil, write_pieces]; rw [z1]
    · simp only [List.flatten_nil, write_pieces]; rw [z1]
    · simp only [List.flatten_nil, write_pieces]; rw [z1]
  | cons p ps ih =>
    intro ctx hr h16
    obtain ⟨op, oq, w1, w2, w3, w4, w5, w6, w7, w8⟩ :=
      write_spec_append P v m hm ctx p ps.flatten hr h16
    obtain ⟨outs, i1, i2, i3, i4, i5⟩ := ih (l_write P v m ctx p).ctx w7 w8
    rw [w2] at i2
    injection i2 with i2
    refine ⟨op :: outs, ?_, ?_, ?_, ?_, ?_⟩
    · simp only [write_pieces, List.map_cons, i1, w1]
    · simp only [List.flatten_cons]
      rw [w3, i2]
    · simp only [write_pieces, List.flatten_cons]
      rw [i3, w4]
    · simp only [write_pieces, List.flatten_cons]
      rw [i4, w5]
    · simp only [write_pieces, List.flatten_cons]
      rw [i5, w6]

theorem split_invariance_witness :
    acc_ready (toy_ctx Mode.CBC false 32 3) ∧ (toy_ctx Mode.CBC false 32 3).buffer_size % 16 = 0 ∧
      ∃ outs : List Bytes,
        (write_pieces toyAes 502 Mode.CBC (toy_ctx Mode.CBC false 32 3)
          [List.range 20, [], List.range 50, [9]]).2 = outs.map LuaResult.str ∧
        (l_write toyAes 502 Mode.CBC (toy_ctx Mode.CBC false 32 3)
          [List.range 20, [], List.range 50, [9]].flatten).result = LuaResult.str outs.flatten ∧
        (write_pieces toyAes 502 Mode.CBC (toy_ctx Mode.CBC false 32 3)
            [List.range 20, [], List.range 50, [9]]).1.tail =
          (l_write toyAes 502 Mode.CBC (toy_ctx Mode.CBC false 32 3)
            [List.range 20, [], List.range 50, [9]].flatten).ctx.tail ∧
        (write_pieces toyAes 502 Mode.CBC (toy_ctx Mode.CBC false 32 3)
            [List.range 20, [], List.range 50, [9]]).1.buffer.take
            (write_pieces toyAes 502 Mode.CBC (toy_ctx Mode.CBC false 32 3)
              [List.range 20, [], List.range 50, [9]]).1.tail =
          (l_write toyAes 502 Mode.CBC (toy_ctx Mode.CBC false 32 3)
            [List.range 20, [], List.range 50, [9]].flatten).ctx.buffer.take
            (l_write toyAes 502 Mode.CBC (toy_ctx Mode.CBC false 32 3)
              [List.range 20, [], List.range 50, [9]].flatten).ctx.tail ∧
        (write_pieces toyAes 502 Mode.CBC (toy_ctx Mode.CBC false 32 3)
            [List.range 20, [], List.range 50, [9]]).1.iv =
          (l_write toyAes 502 Mode.CBC (toy_ctx Mode.CBC false 32 3)
            [List.range 20, [], List.range 50, [9]].flatten).ctx.iv :=
  ⟨by unfold acc_ready ctx_ok; decide, by decide,
    split_invariance toyAes 502 Mode.CBC rfl [List.range 20, [], List.range 50, [9]]
      (toy_ctx Mode.CBC false 32 3) (by unfold acc_ready ctx_ok; decide) (by decide)⟩

/-! ## Round trip -/

theorem xor_block_cancel (x iv : Bytes) (hx : x.length = 16) :
    xor_block (xor_block x iv) iv = x := by
  apply List.ext_getElem
  · simp [xor_block, hx]
  · intro i h1 h2
    have hi : i < 16 := by simpa [xor_block] using h1
    simp [xor_block, hi, Nat.xor_assoc, List.getD_eq_getElem?_getD, List.getElem?_eq_getElem h2]

theorem blocks_run_inverse (es ds : Bytes → Bytes → Bytes × Bytes) (h : step_inverse es ds) :
    ∀ (n : Nat) (M iv : Bytes), 16 * n ≤ M.length →
      blocks_run ds n (blocks_run es n M iv).1 iv =
        (M.take (16 * n), (blocks_run es n M iv).2) := by
  intro n
  induction n with
  | zero => intro M iv _; simp [blocks_run]
  | succ k ih =>
    intro M iv hM
    have hblk : (M.take 16).length = 16 := by simp only [List.length_take]; omega
    obtain ⟨h1, h2⟩ := h (M.take 16) iv hblk
    simp only [blocks_run]
    rw [List.take_left' h1, List.drop_left' h1, h2]
    simp only
    rw [ih (M.drop 16) _ (by simp only [List.length_drop]; omega)]
    simp only [Prod.mk.injEq, and_true]
    have e : 16 * (k + 1) = 16 + 16 * k := by omega
    rw [e, List.take_add]


theorem block_step_inverse {S : Type} (P : AesPrimitive S) (m : Mode) (fe fd : Nat) (es ds : S)
    (he : CTX_FLAG fe FLAG_DECRYPT = false) (hd : CTX_FLAG fd FLAG_DECRYPT = true)
    (hinv : ∀ blk : Bytes, blk.length = 16 → P.aes_decrypt (P.aes_encrypt blk es) ds = blk) :
    step_inverse (block_step P m fe es) (block_step P m fd ds) := by
  intro blk iv hblk
  unfold block_step
  simp only [he, hd]
  by_cases hm : m = Mode.ECB
  · simp [hm, ecb_step, P.aes_encrypt_length, hinv blk hblk]
  · simp [hm, cbc_encrypt_step, cbc_decrypt_step, P.aes_encrypt_length,
      hinv _ (xor_block_length blk iv), xor_block_cancel blk iv hblk]

/-- The constructor with no argument or with a chunk size that is a multiple
of 16: the context it returns. -/
theorem l_new_aligned {S : Type} (P : AesPrimitive S) (m : Mode) (dec : Bool) (arg : Option Int)
    (harg : arg = none ∨ ∃ n : Nat, arg = some (n : Int) ∧ 32 ≤ n ∧ n < 2147483648 ∧ n % 16 = 0) :
    ∃ bs : Nat, 32 ≤ bs ∧ bs % 16 = 0 ∧
      l_new P m dec arg = Except.ok
        { flags := if dec then 0 ||| FLAG_DECRYPT else 0
          cx := P.zero_cx
          iv := List.replicate 16 0
          inc_fn := if m = Mode.CTR then some cbuf_inc.backwart_iv_inc else none
          writer_cb_ref := Ref.noref
          writer_ud_ref := Ref.noref
          tail := 0
          buffer_size := bs
          buffer := List.replicate bs 0 } := by
  rcases harg with h | ⟨n, h, h1, h2, h3⟩
  · refine ⟨4096, by omega, by omega, ?_⟩
    subst h
    simp only [l_new]
    rw [if_neg (by omega)]
  · refine ⟨n, h1, h3, ?_⟩
    subst h
    have hn : ((n : Int) % 18446744073709551616).toNat = n := by omega
    simp only [l_new, hn]
    rw [if_neg (by omega)]

/-- `open` on a context that is neither destroyed nor open, with an IV of at
least 16 bytes where the mode reads one and a key the primitive accepts:
the register is the first 16 bytes of the IV, the schedule is the one the key
setup built, and the Open flag is set. -/
theorem l_open_closed {S : Type} (P : AesPrimitive S) (m : Mode) (c : l_ctx S) (key iv : Bytes)
    (hnd : CTX_FLAG c.flags FLAG_DESTROYED = false) (hno : CTX_FLAG c.flags FLAG_OPEN = false)
    (hiv : ¬(m ≠ Mode.ECB ∧ iv.length < 16)) (hkey : (open_key P m c key).1 = true) :
    l_open P m c key iv =
      ⟨{ c with iv := if m = Mode.ECB then c.iv else iv.take 16, cx := (open_key P m c key).2,
                flags := c.flags ||| FLAG_OPEN }, LuaResult.self⟩ := by
  have hk : open_key P m (if m = Mode.ECB then c else { c with iv := iv.take 16 }) key =
      open_key P m c key := by
    split <;> rfl
  unfold l_open
  rw [l_get_at_none m c hnd]
  simp only [hno, Bool.false_eq_true, if_false, if_neg hiv, hk, hkey, if_true]
  split <;> rfl

/-- The constructor with a chunk size of at least 32 (and within `int`):
the context it returns has that chunk size, aligned or not. -/
theorem l_new_accepted {S : Type} (P : AesPrimitive S) (m : Mode) (dec : Bool) (n : Nat)
    (h1 : 32 ≤ n) (h2 : n < 2147483648) :
    l_new P m dec (some (n : Int)) = Except.ok
      { flags := if dec then 0 ||| FLAG_DECRYPT else 0
        cx := P.zero_cx
        iv := List.replicate 16 0
        inc_fn := if m = Mode.CTR then some cbuf_inc.backwart_iv_inc else none
        writer_cb_ref := Ref.noref
        writer_ud_ref := Ref.noref
        tail := 0
        buffer_size := n
        buffer := List.replicate n 0 } := by
  have hn : ((n : Int) % 18446744073709551616).toNat = n := by omega
  simp only [l_new, hn]
  rw [if_neg (by omega)]

/-- A freshly opened ECB or CBC context, when the primitive accepts the key:
`open` after a constructor that returned a context of chunk size `bs`. -/
theorem fresh_open_of_new {S : Type} (P : AesPrimitive S) (m : Mode) (hm : m.has_tail = true)
    (dec : Bool) (arg : Option Int) (key iv : Bytes) (bs : Nat) (hbs : 32 ≤ bs)
    (hnew : l_new P m dec arg = Except.ok
      { flags := if dec then 0 ||| FLAG_DECRYPT else 0
        cx := P.zero_cx
        iv := List.replicate 16 0
        inc_fn := if m = Mode.CTR then some cbuf_inc.backwart_iv_inc else none
        writer_cb_ref := Ref.noref
        writer_ud_ref := Ref.noref
        tail := 0
        buffer_size := bs
        buffer := List.replicate bs 0 })
    (hiv : m = Mode.CBC → 16 ≤ iv.length)
    (hkey : (if dec then P.aes_decrypt_key key P.zero_cx
      else P.aes_encrypt_key key P.zero_cx).1 = true) :
    ∃ c : l_ctx S, fresh_open P m dec arg key iv = some c ∧ acc_ready c ∧
      c.buffer_size = bs ∧ c.tail = 0 ∧ CTX_FLAG c.flags FLAG_DECRYPT = dec ∧
      c.cx = (if dec then P.aes_decrypt_key key P.zero_cx
        else P.aes_encrypt_key key P.zero_cx).2 ∧
      c.iv = (if m = Mode.ECB then List.replicate 16 0 else iv.take 16) := by
  have hlt : ¬(m ≠ Mode.ECB ∧ iv.length < 16) := by
    cases m <;> simp [Mode.has_tail] at hm ⊢
    have := hiv rfl
    omega
  have hflag : ∀ d : Bool, CTX_FLAG (if d = true then 0 ||| FLAG_DECRYPT else 0) FLAG_DESTROYED = false ∧
      CTX_FLAG (if d = true then 0 ||| FLAG_DECRYPT else 0) FLAG_OPEN = false ∧
      CTX_FLAG (if d = true then 0 ||| FLAG_DECRYPT else 0) FLAG_DECRYPT = d ∧
      CTX_FLAG ((if d = true then 0 ||| FLAG_DECRYPT else 0) ||| FLAG_OPEN) FLAG_DESTROYED = false ∧
      CTX_FLAG ((if d = true then 0 ||| FLAG_DECRYPT else 0) ||| FLAG_OPEN) FLAG_OPEN = true ∧
      CTX_FLAG ((if d = true then 0 ||| FLAG_DECRYPT else 0) ||| FLAG_OPEN) FLAG_DECRYPT = d := by
    intro d; cases d <;> decide
  obtain ⟨g1, g2, g3, g4, g5, g6⟩ := hflag dec
  have hok : ∀ c0 : l_ctx S, c0.flags = (if dec = true then 0 ||| FLAG_DECRYPT else 0) →
      c0.cx = P.zero_cx → open_key P m c0 key =
        (if dec then P.aes_decrypt_key key P.zero_cx else P.aes_encrypt_key key P.zero_cx) := by
    intro c0 hf hc
    unfold open_key
    rw [hf, g3, hc, hm]
    cases dec <;> simp
  unfold fresh_open
  rw [hnew]
  simp only
  rw [l_open_closed P m _ key iv g1 g2 hlt (by rw [hok _ rfl rfl]; exact hkey), hok _ rfl rfl]
  simp only [if_true]
  refine ⟨_, rfl, ⟨g5, g4, rfl, ?_, hbs, ?_⟩, rfl, rfl, g6, rfl, rfl⟩
  · show (0 : Nat) < 16
    omega
  · show bs ≤ (List.replicate bs 0).length
    simp

/-- A freshly opened ECB or CBC context with the default chunk size or one
that is a multiple of 16, when the primitive accepts the key. -/
theorem fresh_open_block {S : Type} (P : AesPrimitive S) (m : Mode) (hm : m.has_tail = true)
    (dec : Bool) (arg : Option Int) (key iv : Bytes)
    (harg : arg = none ∨ ∃ n : Nat, arg = some (n : Int) ∧ 32 ≤ n ∧ n < 2147483648 ∧ n % 16 = 0)
    (hiv : m = Mode.CBC → 16 ≤ iv.length)
    (hkey : (if dec then P.aes_decrypt_key key P.zero_cx
      else P.aes_encrypt_key key P.zero_cx).1 = true) :
    ∃ c : l_ctx S, fresh_open P m dec arg key iv = some c ∧ acc_ready c ∧
      c.buffer_size % 16 = 0 ∧ c.tail = 0 ∧ CTX_FLAG c.flags FLAG_DECRYPT = dec ∧
      c.cx = (if dec then P.aes_decrypt_key key P.zero_cx
        else P.aes_encrypt_key key P.zero_cx).2 ∧
      c.iv = (if m = Mode.ECB then List.replicate 16 0 else iv.take 16) := by
  obtain ⟨bs, hbs, h16, hnew⟩ := l_new_aligned P m dec arg harg
  obtain ⟨c, h1, h2, h3, h4⟩ := fresh_open_of_new P m hm dec arg key iv bs hbs hnew hiv hkey
  exact ⟨c, h1, h2, by rw [h3]; exact h16, h4⟩


/-- A freshly opened ECB or CBC context whose chunk size is the default, a
multiple of 16, or at least `len`, when the primitive accepts the key. -/
theorem fresh_open_chunks {S : Type} (P : AesPrimitive S) (m : Mode) (hm : m.has_tail = true)
    (dec : Bool) (arg : Option Int) (key iv : Bytes) (len : Nat)
    (harg : arg = none ∨ ∃ n : Nat, arg = some (n : Int) ∧ 32 ≤ n ∧ n < 2147483648 ∧
      (n % 16 = 0 ∨ len ≤ n))
    (hiv : m = Mode.CBC → 16 ≤ iv.length)
    (hkey : (if dec then P.aes_decrypt_key key P.zero_cx
      else P.aes_encrypt_key key P.zero_cx).1 = true) :
    ∃ c : l_ctx S, fresh_open P m dec arg key iv = some c ∧ acc_ready c ∧
      (c.buffer_size % 16 = 0 ∨ len ≤ c.buffer_size) ∧ c.tail = 0 ∧
      CTX_FLAG c.flags FLAG_DECRYPT = dec ∧
      c.cx = (if dec then P.aes_decrypt_key key P.zero_cx
        else P.aes_encrypt_key key P.zero_cx).2 ∧
      c.iv = (if m = Mode.ECB then List.replicate 16 0 else iv.take 16) := by
  rcases harg with h | ⟨n, h, h1, h2, h3 | h3⟩
  · obtain ⟨c, c1, c2, c3, c4⟩ := fresh_open_block P m hm dec arg key iv (Or.inl h) hiv hkey
    exact ⟨c, c1, c2, Or.inl c3, c4⟩
  · obtain ⟨c, c1, c2, c3, c4⟩ :=
      fresh_open_block P m hm dec arg key iv (Or.inr ⟨n, h, h1, h2, h3⟩) hiv hkey
    exact ⟨c, c1, c2, Or.inl c3, c4⟩
  · subst h
    obtain ⟨c, c1, c2, c3, c4⟩ := fresh_open_of_new P m hm dec (some (n : Int)) key iv n h1
      (l_new_accepted P m dec n h1 h2) hiv hkey
    exact ⟨c, c1, c2, Or.inr (by rw [c3]; exact h3), c4⟩

/-- C3 does not hold for every chunk size the constructor accepts.  Assume
the block decryption under the decrypt schedule of a key inverts the block
encryption under its encrypt schedule, an IV of at least 16 bytes for CBC, and
a message `M` whose length is a multiple of 16.  With the default chunk size,
one that is a multiple of 16, or one that is at least the length of `M`, a
freshly opened encrypt context returns a ciphertext for `write(M)`, and a
freshly opened decrypt context of the same mode, key and IV returns `M` for
`write` of that ciphertext; both contexts end with an empty tail.  With an
accepted chunk size that is not a multiple of 16 and is less than the length
of `M`, `write(M)` on the freshly opened encrypt context returns
`nil, "invalid block length"` and leaves the context as it was: there is no
ciphertext to decrypt. -/
theorem round_trip {S : Type} (P : AesPrimitive S) (v : Nat) (m : Mode) (hm : m.has_tail = true)
    (key iv M : Bytes)
    (hiv : m = Mode.CBC → 16 ≤ iv.length) (hM : M.length % 16 = 0)
    (hek : (P.aes_encrypt_key key P.zero_cx).1 = true)
    (hdk : (P.aes_decrypt_key key P.zero_cx).1 = true)
    (hinv : ∀ blk : Bytes, blk.length = 16 →
      P.aes_decrypt (P.aes_encrypt blk (P.aes_encrypt_key key P.zero_cx).2)
        (P.aes_decrypt_key key P.zero_cx).2 = blk) :
    (∀ arg : Option Int,
      (arg = none ∨ ∃ n : Nat, arg = some (n : Int) ∧ 32 ≤ n ∧ n < 2147483648 ∧
        (n % 16 = 0 ∨ M.length ≤ n)) →
      ∃ (E D : l_ctx S) (C : Bytes),
        fresh_open P m false arg key iv = some E ∧ fresh_open P m true arg key iv = some D ∧
        (l_write P v m E M).result = LuaResult.str C ∧
        (l_write P v m D C).result = LuaResult.str M ∧
        (l_write P v m E M).ctx.tail = 0 ∧ (l_write P v m D C).ctx.tail = 0) ∧
    (∀ n : Nat, 32 ≤ n → n < 2147483648 → n % 16 ≠ 0 → n < M.length →
      ∃ E : l_ctx S, fresh_open P m false (some (n : Int)) key iv = some E ∧
        (l_write P v m E M).result = LuaResult.nilmsg "invalid block length" ∧
        (l_write P v m E M).ctx = E) := by
  refine ⟨?_, ?_⟩
  · intro arg harg
    obtain ⟨E, e1, e2, e3, e4, e5, e6, e7⟩ :=
      fresh_open_chunks P m hm false arg key iv M.length harg hiv (by simpa using hek)
    obtain ⟨D, d1, d2, d3, d4, d5, d6, d7⟩ :=
      fresh_open_chunks P m hm true arg key iv M.length harg hiv (by simpa using hdk)
    simp only [Bool.false_eq_true, if_false] at e6
    simp only [if_true] at d6
    have hchE : chunks_ok E M := by
      rcases e3 with h | h
      · exact Or.inl h
      · right
        unfold aligned_rest
        rw [e4]
        simp only [if_true]
        omega
    obtain ⟨a1, _, _, _, _, a6, _, _⟩ := write_spec P v m hm E M e2 hchE
    have hpe : pending E M = M := by simp [pending, e4]
    have hC : (spec_run P m E M).1.length = 16 * (M.length / 16) := by
      have := blocks_run_length _ (block_step_length P m E.flags E.cx) ((pending E M).length / 16)
        (pending E M) E.iv
      rw [hpe] at this
      unfold spec_run
      rw [hpe]
      exact this
    have hchD : chunks_ok D (spec_run P m E M).1 := by
      rcases d3 with h | h
      · exact Or.inl h
      · right
        unfold aligned_rest
        rw [d4, hC]
        simp only [if_true]
        omega
    obtain ⟨b1, _, _, _, _, b6, _, _⟩ :=
      write_spec P v m hm D (spec_run P m E M).1 d2 hchD
    have hpd : pending D (spec_run P m E M).1 = (spec_run P m E M).1 := by simp [pending, d4]
    have hinv2 := blocks_run_inverse _ _
      (block_step_inverse P m E.flags D.flags E.cx D.cx e5 d5 (by rw [e6, d6]; exact hinv))
      (M.length / 16) M E.iv (by omega)
    refine ⟨E, D, (spec_run P m E M).1, e1, d1, a1, ?_, ?_, ?_⟩
    · rw [b1]
      congr 1
      unfold spec_run at hpd ⊢
      rw [hpd]
      unfold spec_run at hC
      rw [hC, hpe]
      have h16 : 16 * (M.length / 16) / 16 = M.length / 16 := by omega
      rw [h16, d7, ← e7, hinv2]
      apply List.take_of_length_le
      omega
    · rw [a6, hpe]; exact hM
    · rw [b6, hpd, hC]; omega
  · intro n hn hmax h16 hlt
    obtain ⟨c, h1, h2, h3, h4, _⟩ := fresh_open_of_new P m hm false (some (n : Int)) key iv n hn
      (l_new_accepted P m false n hn hmax) hiv (by simpa using hek)
    have hch : ¬chunks_ok c M := by
      unfold chunks_ok aligned_rest
      rw [h3, h4]
      simp only [if_true]
      omega
    obtain ⟨f1, f2⟩ := write_impl_fail P m hm c M h2.2.1 h2.2.2.2 hch
    refine ⟨c, h1, ?_, ?_⟩
    · rw [l_write_accumulate P v m c M h2.1 h2.2.1 h2.2.2.1]
      exact f1
    · rw [l_write_accumulate P v m c M h2.1 h2.2.1 h2.2.2.1]
      exact f2 h4

theorem round_trip_witness :
    (Mode.CBC).has_tail = true ∧
      (toyAes.aes_encrypt_key (List.replicate 16 7) toyAes.zero_cx).1 = true ∧
      (toyAes.aes_decrypt_key (List.replicate 16 7) toyAes.zero_cx).1 = true ∧
      (∃ (E D : l_ctx Bytes) (C : Bytes),
        fresh_open toyAes Mode.CBC false (some 48) (List.replicate 16 7) (List.range 20) = some E ∧
        fresh_open toyAes Mode.CBC true (some 48) (List.replicate 16 7) (List.range 20) = some D ∧
        (l_write toyAes 502 Mode.CBC E (List.range 64)).result = LuaResult.str C ∧
        (l_write toyAes 502 Mode.CBC D C).result = LuaResult.str (List.range 64) ∧
        (l_write toyAes 502 Mode.CBC E (List.range 64)).ctx.tail = 0 ∧
        (l_write toyAes 502 Mode.CBC D C).ctx.tail = 0) ∧
      ∃ E : l_ctx Bytes,
        fresh_open toyAes Mode.CBC false (some ((33 : Nat) : Int)) (List.replicate 16 7)
            (List.range 20) = some E ∧
          (l_write toyAes 502 Mode.CBC E (List.range 64)).result =
            LuaResult.nilmsg "invalid block length" ∧
          (l_write toyAes 502 Mode.CBC E (List.range 64)).ctx = E :=
  have h := round_trip toyAes 502 Mode.CBC rfl (List.replicate 16 7) (List.range 20)
      (List.range 64) (fun _ => by decide) (by decide) (by decide) (by decide)
      (fun blk hblk => by
        show xor_block (xor_block blk (List.replicate 16 7)).reverse.reverse
          (List.replicate 16 7) = blk
        rw [List.reverse_reverse]
        exact xor_block_cancel blk _ hblk)
  ⟨rfl, by decide, by decide,
    h.1 (some 48) (Or.inr ⟨48, rfl, by omega, by omega, Or.inl (by omega)⟩),
    h.2 33 (by decide) (by decide) (by decide) (by decide)⟩

/-! ## reset followed by write -/

/-- With a positive chunk size the loop does not depend on the fuel, once the
fuel exceeds the bytes left. -/
theorem write_loop_fuel {S : Type} (P : AesPrimitive S) (m : Mode) (data : Bytes) (e : Nat) :
    ∀ (f1 f2 b : Nat) (ctx : l_ctx S), 0 < ctx.buffer_size → e - b < f1 → e - b < f2 →
      write_loop P m data e f1 b ctx = write_loop P m data e f2 b ctx := by
  intro f1
  induction f1 with
  | zero => intro f2 b ctx _ h; omega
  | succ k ih =>
    intro f2 b ctx hbs h1 h2
    obtain ⟨k2, rfl⟩ : ∃ k2, f2 = k2 + 1 := ⟨f2 - 1, by omega⟩
    by_cases hb : b < e
    · cases hr : (mode_call P m ctx (slice data b (loop_left ctx.buffer_size e b))).ret with
      | true =>
        rw [write_loop_succ_ok P m data e k b ctx hb hr, write_loop_succ_ok P m data e k2 b ctx hb hr]
        have hf := (frame_eq_loop_ctx P m data e b ctx).2.2.2.2.2.1
        rw [ih k2 (b + ctx.buffer_size) (loop_ctx P m data e b ctx) (by rw [hf]; exact hbs)
          (by omega) (by omega)]
      | false =>
        rw [write_loop_succ_fail P m data e k b ctx hb hr,
          write_loop_succ_fail P m data e k2 b ctx hb hr]
    · rw [write_loop_done P m data e k b ctx (by omega),
        write_loop_done P m data e k2 b ctx (by omega)]

/-- Restarting the loop after one of its iterations gives the rest of the
loop: the same later iterations, the same final context and status. -/
theorem write_loop_suffix {S : Type} (P : AesPrimitive S) (m : Mode) (data : Bytes) (e : Nat) :
    ∀ (fuel b : Nat) (ctx : l_ctx S), 0 < ctx.buffer_size → e - b < fuel →
      ∀ (j : Nat) (em : Emit S), (write_loop P m data e fuel b ctx).emits[j]? = some em →
        b ≤ em.b ∧ em.b < e ∧ em.left = loop_left ctx.buffer_size e em.b ∧
        (j = 0 → em.b = b) ∧
        write_loop P m data e fuel (em.b + ctx.buffer_size) em.ctx =
          ⟨(write_loop P m data e fuel b ctx).ctx,
            (write_loop P m data e fuel b ctx).emits.drop (j + 1),
            (write_loop P m data e fuel b ctx).status⟩ := by
  intro fuel
  induction fuel with
  | zero => intro b ctx _ h; omega
  | succ k ih =>
    intro b ctx hbs hf j em hj
    by_cases hb : b < e
    · cases hr : (mode_call P m ctx (slice data b (loop_left ctx.buffer_size e b))).ret with
      | true =>
        have hbs1 := (frame_eq_loop_ctx P m data e b ctx).2.2.2.2.2.1
        rw [write_loop_succ_ok P m data e k b ctx hb hr] at hj ⊢
        cases j with
        | zero =>
          simp only [List.getElem?_cons_zero, Option.some.injEq] at hj
          subst hj
          refine ⟨Nat.le_refl _, hb, rfl, fun _ => rfl, ?_⟩
          simp only [Nat.zero_add, List.drop_succ_cons, List.drop_zero]
          rw [write_loop_fuel P m data e (k + 1) k (b + ctx.buffer_size) _
            (by rw [hbs1]; exact hbs) (by omega) (by omega)]
        | succ j2 =>
          simp only [List.getElem?_cons_succ] at hj
          by_cases hk : e - (b + ctx.buffer_size) < k
          · obtain ⟨i1, i2, i3, _, i5⟩ := ih (b + ctx.buffer_size) (loop_ctx P m data e b ctx)
              (by rw [hbs1]; exact hbs) hk j2 em hj
            rw [hbs1] at i3 i5
            refine ⟨by omega, i2, i3, fun h => by omega, ?_⟩
            simp only [List.drop_succ_cons]
            have hemb : (em.ctx).buffer_size = ctx.buffer_size := by
              have := ((write_loop_frame P m data e k (b + ctx.buffer_size)
                (loop_ctx P m data e b ctx)).2 em (List.getElem?_mem hj)).2.2.2.2.2.1
              rw [this, hbs1]
            rw [write_loop_fuel P m data e (k + 1) k (em.b + ctx.buffer_size) em.ctx
              (by rw [hemb]; exact hbs) (by omega) (by omega)]
            exact i5
          · -- no fuel left can only happen when nothing is left to do
            have hk0 : k = 0 := by omega
            subst hk0
            simp [write_loop] at hj
      | false =>
        rw [write_loop_succ_fail P m data e k b ctx hb hr] at hj
        simp at hj
    · rw [write_loop_done P m data e k b ctx (by omega)] at hj
      simp at hj


theorem align_len_le (m : Mode) (len : Nat) : align_len m len ≤ len := by
  unfold align_len
  split
  · rw [shift_align]; omega
  · omega

theorem loop_pushes_get {S : Type} (t : Nat) (emits : List (Emit S)) (j : Nat) (p : Push S)
    (h : (loop_pushes t emits)[j]? = some p) :
    ∃ em, emits[j]? = some em ∧ p.src = em.b ∧ p.cursor = em.b + em.left ∧ p.ctx = em.ctx := by
  induction j generalizing t emits with
  | zero =>
    cases emits with
    | nil => simp [loop_pushes] at h
    | cons em rest =>
      simp only [loop_pushes, List.getElem?_cons_zero, Option.some.injEq] at h
      subst h
      exact ⟨em, by simp, rfl, rfl, rfl⟩
  | succ k ih =>
    cases emits with
    | nil => simp [loop_pushes] at h
    | cons em rest =>
      simp only [loop_pushes, List.getElem?_cons_succ] at h
      obtain ⟨em2, h1, h2⟩ := ih 2 rest h
      exact ⟨em2, by simpa using h1, h2⟩


theorem writek_rest_proj {S : Type} (P : AesPrimitive S) (m : Mode) (c : l_ctx S) (data : Bytes)
    (off len : Nat) (pre : List (Push S)) (top : Nat) (ok : Bool) :
    (writek_rest P m c data off len pre top ok).pushes =
        pre ++ loop_pushes top
          (write_loop P m data (off + align_len m len) (align_len m len + 1) off c).emits ∧
      (writek_rest P m c data off len pre top ok).ctx =
        rest_ctx m (write_loop P m data (off + align_len m len) (align_len m len + 1) off c)
          data off len (align_len m len) ∧
      (writek_rest P m c data off len pre top ok).result =
        rest_result (write_loop P m data (off + align_len m len) (align_len m len + 1) off c).status
      := by
  unfold writek_rest rest_ctx rest_result
  simp only
  cases (write_loop P m data (off + align_len m len) (align_len m len + 1) off c).status <;>
    exact ⟨rfl, rfl, rfl⟩

theorem tail_take_le (t len : Nat) : tail_take t len ≤ len := by
  unfold tail_take
  split <;> omega

/-- C6 does not hold: alignment discipline.  The constructor accepts every
chunk size from 32 on, a multiple of 16 or not.  For every ECB or CBC
context freshly opened with an accepted chunk size `n` that is not a
multiple of 16, and every input whose whole blocks make up more than `n`
bytes, the first sub-run handed to the block primitive is `n` bytes long, the
primitive refuses it, and `write` fails with "invalid block length", leaving
the context as it was. -/
theorem unaligned_chunk_size_fails {S : Type} (P : AesPrimitive S) (v : Nat) (m : Mode)
    (hm : m.has_tail = true) (dec : Bool) (n : Nat) (hn : 32 ≤ n) (hmax : n < 2147483648)
    (h16 : n % 16 ≠ 0) (key iv : Bytes) (hiv : m = Mode.CBC → 16 ≤ iv.length)
    (hkey : (if dec then P.aes_decrypt_key key P.zero_cx
      else P.aes_encrypt_key key P.zero_cx).1 = true)
    (data : Bytes) (hd : n < data.length / 16 * 16) :
    ∃ c : l_ctx S, fresh_open P m dec (some (n : Int)) key iv = some c ∧ c.buffer_size = n ∧
      c.tail = 0 ∧
      (l_write P v m c data).result = LuaResult.nilmsg "invalid block length" ∧
      (l_write P v m c data).ctx = c := by
  obtain ⟨c, h1, h2, h3, h4, _⟩ := fresh_open_of_new P m hm dec (some (n : Int)) key iv n hn
    (l_new_accepted P m dec n hn hmax) hiv hkey
  have hch : ¬chunks_ok c data := by
    unfold chunks_ok aligned_rest
    rw [h3, h4]
    simp only [if_true]
    omega
  obtain ⟨f1, f2⟩ := write_impl_fail P m hm c data h2.2.1 h2.2.2.2 hch
  refine ⟨c, h1, h3, h4, ?_, ?_⟩
  · rw [l_write_accumulate P v m c data h2.1 h2.2.1 h2.2.2.1]
    exact f1
  · rw [l_write_accumulate P v m c data h2.1 h2.2.1 h2.2.2.1]
    exact f2 h4

theorem unaligned_chunk_size_fails_witness :
    ∃ c : l_ctx Bytes,
      fresh_open toyAes Mode.ECB false (some ((33 : Nat) : Int)) (List.replicate 16 7) [] =
          some c ∧
        c.buffer_size = 33 ∧ c.tail = 0 ∧
        (l_write toyAes 501 Mode.ECB c (List.range 48)).result =
          LuaResult.nilmsg "invalid block length" ∧
        (l_write toyAes 501 Mode.ECB c (List.range 48)).ctx = c :=
  unaligned_chunk_size_fails toyAes 501 Mode.ECB rfl false 33 (by decide) (by decide) (by decide)
    (List.replicate 16 7) [] (by decide) (by decide) (List.range 48) (by decide)

/-! ## The tail when a sink call does not return -/

theorem write_rest_push {S : Type} (P : AesPrimitive S) (m : Mode) (ctx : l_ctx S)
    (data : Bytes) (off len : Nat) (pre : List (Call S)) (ok : Bool) :
    (write_rest P m false ctx data off len pre ok).calls =
        pre ++ loop_calls (write_loop P m data (off + align_len m len) (align_len m len + 1) off
          ctx).emits ∧
      (write_rest P m false ctx data off len pre ok).asserts_ok = ok := by
  unfold write_rest
  simp only
  split <;> exact ⟨rfl, rfl⟩

theorem wblock_frame {S : Type} (P : AesPrimitive S) (m : Mode) (ctx : l_ctx S) (data : Bytes)
    (d0 : Nat) :
    (wblock P m ctx data d0).flags = ctx.flags ∧
      (wblock P m ctx data d0).writer_cb_ref = ctx.writer_cb_ref ∧
      (wblock P m ctx data d0).tail = (wfill ctx data d0).tail := by
  obtain ⟨f1, _, f3, _, f5, _⟩ := frame_eq_apply_ret (wfill ctx data d0)
    (mode_call P m (wfill ctx data d0) ((wfill ctx data d0).buffer.take 16)) 16
  exact ⟨f1, f3, f5⟩

/-- C5 does not hold: the tail invariant.  In a build for Lua 5.1 (where a
bound sink is served by `write_impl`), take an open ECB or CBC context with a
sink bound and `t` buffered bytes, `0 < t < 16`, and a write whose input
completes the block.  The sink is called with the block while `ctx->tail` is
16; when that call does not return (the sink raises an error) the context
keeps 16 as its tail.  The next write on it, even of the empty string, then
meets a false assertion and hands a block to the sink again. -/
theorem sink_error_leaves_full_tail {S : Type} (P : AesPrimitive S) (v : Nat) (hv : v < 502)
    (m : Mode) (hm : m.has_tail = true) (ctx : l_ctx S)
    (hopen : CTX_FLAG ctx.flags FLAG_OPEN = true)
    (hnd : CTX_FLAG ctx.flags FLAG_DESTROYED = false)
    (hsink : ctx.writer_cb_ref ≠ Ref.noref) (h0 : ctx.tail ≠ 0) (ht : ctx.tail < 16)
    (data : Bytes) (hd : 16 ≤ ctx.tail + data.length) :
    ∃ c : l_ctx S, ctx_after_sink_error (l_write P v m ctx data) 0 = some c ∧ c.tail = 16 ∧
      CTX_FLAG c.flags FLAG_OPEN = true ∧ CTX_FLAG c.flags FLAG_DESTROYED = false ∧
      (l_write P v m c []).asserts_ok = false ∧ (l_write P v m c []).calls ≠ [] := by
  have hw : ∀ (c : l_ctx S) (d : Bytes), CTX_FLAG c.flags FLAG_OPEN = true →
      CTX_FLAG c.flags FLAG_DESTROYED = false → l_write P v m c d = l_write_impl P m c d := by
    intro c d ho hn
    unfold l_write
    rw [l_get_at_none m c hn]
    simp only [ho, if_true]
    rw [if_neg (by omega)]
  have hwt : wtail ctx data 0 = 16 - ctx.tail := by rw [wtail_eq ctx data 0 ht]; omega
  have hft : (wfill ctx data 0).tail = 16 := by
    unfold wfill tail_fill
    simp only [hwt]
    omega
  obtain ⟨b1, b2, b3⟩ := wblock_frame P m ctx data 0
  rw [hft] at b3
  have hsd : decide (ctx.writer_cb_ref = Ref.noref) = false := by simp [hsink]
  have hsd2 : decide ((wblock P m ctx data 0).writer_cb_ref = Ref.noref) = false := by
    rw [b2]; exact hsd
  have ho2 : CTX_FLAG (wblock P m ctx data 0).flags FLAG_OPEN = true := by rw [b1]; exact hopen
  have hn2 : CTX_FLAG (wblock P m ctx data 0).flags FLAG_DESTROYED = false := by
    rw [b1]; exact hnd
  have hft2 : (wfill (wblock P m ctx data 0) ([] : Bytes) 0).tail = 16 := by
    unfold wfill tail_fill wtail
    simp only [List.length_nil, Nat.sub_zero, tail_take_zero, b3]
  refine ⟨wblock P m ctx data 0, ?_, b3, ho2, hn2, ?_, ?_⟩
  · rw [hw ctx data hopen hnd, l_write_impl_full P m ctx data hnd ⟨hm, h0⟩ (by rw [hft]; omega),
      hsd]
    unfold ctx_after_sink_error
    rw [(write_rest_push P m _ data _ _ _ _).1]
    rfl
  · rw [hw _ [] ho2 hn2, l_write_impl_full P m _ [] hn2 ⟨hm, by rw [b3]; omega⟩
      (by rw [hft2]; omega), hsd2, (write_rest_push P m _ _ _ _ _ _).2, b3]
    rfl
  · rw [hw _ [] ho2 hn2, l_write_impl_full P m _ [] hn2 ⟨hm, by rw [b3]; omega⟩
      (by rw [hft2]; omega), hsd2, (write_rest_push P m _ _ _ _ _ _).1]
    simp

theorem sink_error_leaves_full_tail_witness :
    fresh_open toyAes Mode.ECB false (some 32) (List.replicate 16 7) [] =
        some (toy_ctx Mode.ECB false 32 0) ∧
      (l_write toyAes 501 Mode.ECB (toy_sink_ctx Mode.ECB false 32 0) (List.range 5)).ctx.tail = 5 ∧
      (l_writek_impl toyAes Mode.ECB
          (l_write toyAes 501 Mode.ECB (toy_sink_ctx Mode.ECB false 32 0) (List.range 5)).ctx
          (List.range 11) none).pushes.map (fun p => p.ctx.tail) = [0] ∧
      ∃ c : l_ctx Bytes,
        ctx_after_sink_error
            (l_write toyAes 501 Mode.ECB
              (l_write toyAes 501 Mode.ECB (toy_sink_ctx Mode.ECB false 32 0) (List.range 5)).ctx
              (List.range 11)) 0 = some c ∧
          c.tail = 16 ∧ CTX_FLAG c.flags FLAG_OPEN = true ∧
          CTX_FLAG c.flags FLAG_DESTROYED = false ∧
          (l_write toyAes 501 Mode.ECB c []).asserts_ok = false ∧
          (l_write toyAes 501 Mode.ECB c []).calls ≠ [] :=
  ⟨rfl, by decide, by decide,
    sink_error_leaves_full_tail toyAes 501 (by decide) Mode.ECB rfl
      (l_write toyAes 501 Mode.ECB (toy_sink_ctx Mode.ECB false 32 0) (List.range 5)).ctx
      (by decide) (by decide) (by decide) (by decide) (by decide) (List.range 11) (by decide)⟩

/-! ## Flag arithmetic -/

theorem CTX_FLAG_testBit (f i : Nat) : CTX_FLAG f (2 ^ i) = f.testBit i := by
  unfold CTX_FLAG
  rw [Nat.and_two_pow]
  cases h : f.testBit i <;> simp

theorem flag_destroyed (f : Nat) : CTX_FLAG f FLAG_DESTROYED = f.testBit 0 :=
  CTX_FLAG_testBit f 0

theorem flag_open (f : Nat) : CTX_FLAG f FLAG_OPEN = f.testBit 1 :=
  CTX_FLAG_testBit f 1

theorem flag_decrypt (f : Nat) : CTX_FLAG f FLAG_DECRYPT = f.testBit 2 :=
  CTX_FLAG_testBit f 2

/-- The flags after `flags &= ~FLAG_OPEN`: Open and Destroyed are cleared,
the direction is kept. -/
theorem flags_clear_open (f : Nat) :
    CTX_FLAG (f &&& NOT_FLAG_OPEN) FLAG_OPEN = false ∧
      CTX_FLAG (f &&& NOT_FLAG_OPEN) FLAG_DESTROYED = false ∧
      CTX_FLAG (f &&& NOT_FLAG_OPEN) FLAG_DECRYPT = CTX_FLAG f FLAG_DECRYPT := by
  have h0 : Nat.testBit 252 0 = false := by decide
  have h1 : Nat.testBit 252 1 = false := by decide
  have h2 : Nat.testBit 252 2 = true := by decide
  simp only [flag_open, flag_destroyed, flag_decrypt]
  simp only [NOT_FLAG_OPEN, Nat.testBit_and, h0, h1, h2, Bool.and_false, Bool.and_true, and_self]

/-- The flags after `flags |= FLAG_OPEN`. -/
theorem flags_set_open (f : Nat) :
    CTX_FLAG (f ||| FLAG_OPEN) FLAG_OPEN = true ∧
      CTX_FLAG (f ||| FLAG_OPEN) FLAG_DESTROYED = CTX_FLAG f FLAG_DESTROYED ∧
      CTX_FLAG (f ||| FLAG_OPEN) FLAG_DECRYPT = CTX_FLAG f FLAG_DECRYPT := by
  have h0 : Nat.testBit 2 0 = false := by decide
  have h1 : Nat.testBit 2 1 = true := by decide
  have h2 : Nat.testBit 2 2 = false := by decide
  simp only [flag_open, flag_destroyed, flag_decrypt]
  simp only [FLAG_OPEN, Nat.testBit_or, h0, h1, h2, Bool.or_false, Bool.or_true, and_self]

/-- The flags after `flags |= FLAG_DESTROYED`. -/
theorem flags_set_destroyed (f : Nat) :
    CTX_FLAG (f ||| FLAG_DESTROYED) FLAG_DESTROYED = true ∧
      CTX_FLAG (f ||| FLAG_DESTROYED) FLAG_OPEN = CTX_FLAG f FLAG_OPEN ∧
      CTX_FLAG (f ||| FLAG_DESTROYED) FLAG_DECRYPT = CTX_FLAG f FLAG_DECRYPT := by
  have h0 : Nat.testBit 1 0 = true := by decide
  have h1 : Nat.testBit 1 1 = false := by decide
  have h2 : Nat.testBit 1 2 = false := by decide
  simp only [flag_open, flag_destroyed, flag_decrypt]
  simp only [FLAG_DESTROYED, Nat.testBit_or, h0, h1, h2, Bool.or_false, Bool.or_true, and_self]

/-! ## Claims about the life cycle -/

/-- C12: close, for every mode.  On a context that is not Open (or is
Destroyed) `close` raises an error and changes nothing.  On an Open context
that is not Destroyed it returns, the context is no longer Open, it is still
not Destroyed and has the same direction, and every field but the flags (the
tail and its bytes, the chaining register, the key schedule, the sink
binding) is unchanged. -/
theorem close_clears_only_open {S : Type} (m : Mode) (ctx : l_ctx S) :
    ((CTX_FLAG ctx.flags FLAG_OPEN = false ∨ CTX_FLAG ctx.flags FLAG_DESTROYED = true) →
      (l_close m ctx).ctx = ctx ∧ ∃ msg, (l_close m ctx).result = LuaResult.error msg) ∧
    (CTX_FLAG ctx.flags FLAG_OPEN = true ∧ CTX_FLAG ctx.flags FLAG_DESTROYED = false →
      (l_close m ctx).result = LuaResult.ret0 ∧
      CTX_FLAG (l_close m ctx).ctx.flags FLAG_OPEN = false ∧
      CTX_FLAG (l_close m ctx).ctx.flags FLAG_DESTROYED = false ∧
      CTX_FLAG (l_close m ctx).ctx.flags FLAG_DECRYPT = CTX_FLAG ctx.flags FLAG_DECRYPT ∧
      (l_close m ctx).ctx = { ctx with flags := (l_close m ctx).ctx.flags }) := by
  constructor
  · intro h
    cases hd : CTX_FLAG ctx.flags FLAG_DESTROYED with
    | true =>
      have hc : l_close m ctx = ⟨ctx, LuaResult.error (L_NAME m ++ " is destroyed")⟩ := by
        simp [l_close, l_get_at_some m ctx hd]
      rw [hc]
      exact ⟨rfl, _, rfl⟩
    | false =>
      have ho : CTX_FLAG ctx.flags FLAG_OPEN = false := by
        rcases h with h | h
        · exact h
        · rw [hd] at h; cases h
      have hc : l_close m ctx = ⟨ctx, LuaResult.error (L_NAME m ++ " is close")⟩ := by
        simp [l_close, l_get_at_none m ctx hd, ho]
      rw [hc]
      exact ⟨rfl, _, rfl⟩
  · intro h
    obtain ⟨b1, b2, b3⟩ := flags_clear_open ctx.flags
    have hc : l_close m ctx =
        ⟨{ ctx with flags := ctx.flags &&& NOT_FLAG_OPEN }, LuaResult.ret0⟩ := by
      simp [l_close, l_get_at_none m ctx h.2, h.1]
    rw [hc]
    exact ⟨rfl, b1, b2, b3, rfl⟩

/-- C13: destroy, for every mode (the function does not depend on it).
`destroy` always returns and leaves the context Destroyed; on a context that
was not Destroyed (Closed or Open, with or without a sink) the result is not
Open and has no consumer and no receiver bound; and a second `destroy`
changes nothing: `destroy(destroy(s)) = destroy(s)`. -/
theorem destroy_idempotent {S : Type} (ctx : l_ctx S) :
    (l_destroy ctx).result = LuaResult.ret0 ∧
      CTX_FLAG (l_destroy ctx).ctx.flags FLAG_DESTROYED = true ∧
      (CTX_FLAG ctx.flags FLAG_DESTROYED = false →
        CTX_FLAG (l_destroy ctx).ctx.flags FLAG_OPEN = false ∧
        (l_destroy ctx).ctx.writer_cb_ref = Ref.noref ∧
        (l_destroy ctx).ctx.writer_ud_ref = Ref.noref) ∧
      l_destroy (l_destroy ctx).ctx = l_destroy ctx := by
  cases hd : CTX_FLAG ctx.flags FLAG_DESTROYED with
  | true =>
    have h : l_destroy ctx = ⟨ctx, LuaResult.ret0⟩ := by simp [l_destroy, hd]
    rw [h]
    exact ⟨rfl, hd, fun h => (by cases h), h⟩
  | false =>
    obtain ⟨c1, c2, _⟩ := flags_clear_open ctx.flags
    cases ho : CTX_FLAG ctx.flags FLAG_OPEN with
    | true =>
      obtain ⟨d1, d2, _⟩ := flags_set_destroyed (ctx.flags &&& NOT_FLAG_OPEN)
      have h : l_destroy ctx =
          ⟨{ ctx with writer_cb_ref := Ref.noref, writer_ud_ref := Ref.noref,
                      flags := ctx.flags &&& NOT_FLAG_OPEN ||| FLAG_DESTROYED },
            LuaResult.ret0⟩ := by
        simp [l_destroy, hd, ho]
      rw [h]
      refine ⟨rfl, d1, fun _ => ⟨by rw [d2]; exact c1, rfl, rfl⟩, ?_⟩
      simp [l_destroy, d1]
    | false =>
      obtain ⟨d1, d2, _⟩ := flags_set_destroyed ctx.flags
      have h : l_destroy ctx =
          ⟨{ ctx with writer_cb_ref := Ref.noref, writer_ud_ref := Ref.noref,
                      flags := ctx.flags ||| FLAG_DESTROYED },
            LuaResult.ret0⟩ := by
        simp [l_destroy, hd, ho]
      rw [h]
      refine ⟨rfl, d1, fun _ => ⟨by rw [d2]; exact ho, rfl, rfl⟩, ?_⟩
      simp [l_destroy, d1]

/-- C11: `open` of a CBC, CFB, OFB or CTR context that is Closed and not
Destroyed, with a key the primitive accepts.  With an IV shorter than 16
bytes `open` raises an error and changes nothing.  With an IV of 16 bytes or
more it returns the context, the chaining register is the first 16 bytes of
the IV (so the bytes after the 16th do not matter), the context is Open, not
Destroyed, of the same direction, and tail and sink binding are unchanged. -/
theorem open_installs_iv {S : Type} (P : AesPrimitive S) (m : Mode) (hm : m ≠ Mode.ECB)
    (ctx : l_ctx S) (key iv : Bytes) (hnd : CTX_FLAG ctx.flags FLAG_DESTROYED = false)
    (hcl : CTX_FLAG ctx.flags FLAG_OPEN = false) (hkey : (open_key P m ctx key).1 = true) :
    (iv.length < 16 →
      (l_open P m ctx key iv).ctx = ctx ∧
        ∃ msg, (l_open P m ctx key iv).result = LuaResult.error msg) ∧
    (16 ≤ iv.length →
      (l_open P m ctx key iv).result = LuaResult.self ∧
      (l_open P m ctx key iv).ctx.iv = iv.take 16 ∧
      (l_open P m ctx key iv).ctx.iv.length = 16 ∧
      (∀ extra : Bytes, l_open P m ctx key (iv.take 16 ++ extra) = l_open P m ctx key iv) ∧
      CTX_FLAG (l_open P m ctx key iv).ctx.flags FLAG_OPEN = true ∧
      CTX_FLAG (l_open P m ctx key iv).ctx.flags FLAG_DESTROYED = false ∧
      CTX_FLAG (l_open P m ctx key iv).ctx.flags FLAG_DECRYPT = CTX_FLAG ctx.flags FLAG_DECRYPT ∧
      (l_open P m ctx key iv).ctx.tail = ctx.tail ∧
      (l_open P m ctx key iv).ctx.writer_cb_ref = ctx.writer_cb_ref ∧
      (l_open P m ctx key iv).ctx.writer_ud_ref = ctx.writer_ud_ref) := by
  constructor
  · intro hs
    unfold l_open
    rw [l_get_at_none m ctx hnd]
    simp only [hcl, Bool.false_eq_true, if_false]
    rw [if_pos ⟨hm, hs⟩]
    exact ⟨rfl, _, rfl⟩
  · intro hl
    obtain ⟨o1, o2, o3⟩ := flags_set_open ctx.flags
    have hopen : ∀ iv2 : Bytes, 16 ≤ iv2.length → l_open P m ctx key iv2 =
        ⟨{ ctx with iv := iv2.take 16, cx := (open_key P m ctx key).2,
                    flags := ctx.flags ||| FLAG_OPEN }, LuaResult.self⟩ := by
      intro iv2 h2
      rw [l_open_closed P m ctx key iv2 hnd hcl (by intro h; omega) hkey, if_neg hm]
    have hlen : (iv.take 16 ++ ([] : Bytes)).length = 16 := by simp; omega
    rw [hopen iv hl]
    refine ⟨rfl, rfl, by simp; omega, ?_, o1, by rw [o2]; exact hnd, o3, rfl, rfl, rfl⟩
    intro extra
    rw [hopen _ (by simp; omega)]
    have ht : (List.take 16 iv ++ extra).take 16 = iv.take 16 := by
      rw [List.take_append_of_le_length (by simp; omega)]
      simp
    rw [ht]

theorem open_installs_iv_witness :
    CTX_FLAG (l_close Mode.CTR (toy_ctx Mode.CTR false 32 0)).ctx.flags FLAG_DESTROYED = false ∧
      CTX_FLAG (l_close Mode.CTR (toy_ctx Mode.CTR false 32 0)).ctx.flags FLAG_OPEN = false ∧
      (l_open toyAes Mode.CTR (l_close Mode.CTR (toy_ctx Mode.CTR false 32 0)).ctx
        (List.replicate 16 7) (List.range 20)).result = LuaResult.self ∧
      (l_open toyAes Mode.CTR (l_close Mode.CTR (toy_ctx Mode.CTR false 32 0)).ctx
        (List.replicate 16 7) (List.range 20)).ctx.iv = (List.range 20).take 16 :=
  ⟨by decide, by decide,
    ((open_installs_iv toyAes Mode.CTR (by decide)
      (l_close Mode.CTR (toy_ctx Mode.CTR false 32 0)).ctx (List.replicate 16 7) (List.range 20)
      (by decide) (by decide) (by decide)).2 (by decide)).1,
    ((open_installs_iv toyAes Mode.CTR (by decide)
      (l_close Mode.CTR (toy_ctx Mode.CTR false 32 0)).ctx (List.replicate 16 7) (List.range 20)
      (by decide) (by decide) (by decide)).2 (by decide)).2.1⟩

/-- C16: `reset` on a context that is not Destroyed, Open or Closed.  For
CBC, CFB, OFB and CTR: with an IV of at least 16 bytes `reset` returns the
context, the chaining register is the first 16 bytes of the IV, the flags
(so the Open/Closed state), the tail, the buffer and the sink binding are
unchanged, and the schedule is unchanged for CBC and passed through
`aes_mode_reset` for the stream modes; with a shorter IV it raises an error
and changes nothing.  For ECB it returns the context and changes nothing,
whatever the argument. -/
theorem reset_installs_iv {S : Type} (P : AesPrimitive S) (m : Mode) (ctx : l_ctx S) (iv : Bytes)
    (hnd : CTX_FLAG ctx.flags FLAG_DESTROYED = false) :
    (m ≠ Mode.ECB → 16 ≤ iv.length →
      (l_reset P m ctx iv).result = LuaResult.self ∧
      (l_reset P m ctx iv).ctx =
        { ctx with iv := iv.take 16,
                   cx := if m.has_tail then ctx.cx else P.aes_mode_reset ctx.cx } ∧
      (l_reset P m ctx iv).ctx.iv.length = 16 ∧
      (l_reset P m ctx iv).ctx.flags = ctx.flags) ∧
    (m ≠ Mode.ECB → iv.length < 16 →
      (l_reset P m ctx iv).ctx = ctx ∧
        ∃ msg, (l_reset P m ctx iv).result = LuaResult.error msg) ∧
    (m = Mode.ECB → l_reset P m ctx iv = ⟨ctx, LuaResult.self⟩) := by
  refine ⟨?_, ?_, ?_⟩
  · intro hm hl
    have hr : l_reset P m ctx iv =
        ⟨{ ctx with iv := iv.take 16,
                    cx := if m.has_tail then ctx.cx else P.aes_mode_reset ctx.cx },
          LuaResult.self⟩ := by
      unfold l_reset
      rw [l_get_at_none m ctx hnd]
      simp only [if_neg hm, if_neg (Nat.not_lt.mpr hl)]
      split <;> rfl
    rw [hr]
    refine ⟨rfl, rfl, ?_, rfl⟩
    simp
    omega
  · intro hm hs
    have hr : l_reset P m ctx iv =
        ⟨ctx, LuaResult.error (L_NAME m ++ " invalid iv length")⟩ := by
      unfold l_reset
      rw [l_get_at_none m ctx hnd]
      simp only [if_neg hm, if_pos hs]
    rw [hr]
    exact ⟨rfl, _, rfl⟩
  · intro hm
    unfold l_reset
    rw [l_get_at_none m ctx hnd]
    simp only [if_pos hm]

theorem reset_installs_iv_witness :
    CTX_FLAG (toy_ctx Mode.CFB true 32 0).flags FLAG_DESTROYED = false ∧
      (l_reset toyAes Mode.CFB (toy_ctx Mode.CFB true 32 0) (List.replicate 17 9)).result =
        LuaResult.self ∧
      (l_reset toyAes Mode.CFB (toy_ctx Mode.CFB true 32 0) (List.replicate 17 9)).ctx.iv.length =
        16 ∧
      (l_reset toyAes Mode.CFB (toy_ctx Mode.CFB true 32 0) (List.replicate 17 9)).ctx.flags =
        (toy_ctx Mode.CFB true 32 0).flags :=
  ⟨by decide,
    ((reset_installs_iv toyAes Mode.CFB (toy_ctx Mode.CFB true 32 0) (List.replicate 17 9)
      (by decide)).1 (by decide) (by decide)).1,
    ((reset_installs_iv toyAes Mode.CFB (toy_ctx Mode.CFB true 32 0) (List.replicate 17 9)
      (by decide)).1 (by decide) (by decide)).2.2.1,
    ((reset_installs_iv toyAes Mode.CFB (toy_ctx Mode.CFB true 32 0) (List.replicate 17 9)
      (by decide)).1 (by decide) (by decide)).2.2.2⟩

/-! ## Claims about the constructor -/

/-- C18: initial state, for every mode and direction.  A context the
constructor returns is not Open and not Destroyed, has an empty tail, has no
consumer and no receiver bound, and has the Decrypt flag exactly when it was
built by the decrypt constructor. -/
theorem initial_state {S : Type} (P : AesPrimitive S) (m : Mode) (dec : Bool) (arg : Option Int)
    (c : l_ctx S) (h : l_new P m dec arg = Except.ok c) :
    CTX_FLAG c.flags FLAG_OPEN = false ∧ CTX_FLAG c.flags FLAG_DESTROYED = false ∧
      CTX_FLAG c.flags FLAG_DECRYPT = dec ∧ c.tail = 0 ∧
      c.writer_cb_ref = Ref.noref ∧ c.writer_ud_ref = Ref.noref := by
  have hf : ∀ d : Bool,
      CTX_FLAG (if d = true then 0 ||| FLAG_DECRYPT else 0) FLAG_OPEN = false ∧
      CTX_FLAG (if d = true then 0 ||| FLAG_DECRYPT else 0) FLAG_DESTROYED = false ∧
      CTX_FLAG (if d = true then 0 ||| FLAG_DECRYPT else 0) FLAG_DECRYPT = d := by
    intro d; cases d <;> decide
  simp only [l_new] at h
  split at h
  · cases h
  · injection h with h
    subst h
    exact ⟨(hf dec).1, (hf dec).2.1, (hf dec).2.2, rfl, rfl, rfl⟩

theorem initial_state_witness :
    ∃ c : l_ctx Bytes, l_new toyAes Mode.OFB true (some 64) = Except.ok c ∧
      CTX_FLAG c.flags FLAG_OPEN = false ∧ CTX_FLAG c.flags FLAG_DESTROYED = false ∧
      CTX_FLAG c.flags FLAG_DECRYPT = true ∧ c.tail = 0 ∧
      c.writer_cb_ref = Ref.noref ∧ c.writer_ud_ref = Ref.noref :=
  ⟨_, l_new_accepted toyAes Mode.OFB true 64 (by decide) (by decide),
    initial_state toyAes Mode.OFB true (some 64) _
      (l_new_accepted toyAes Mode.OFB true 64 (by decide) (by decide))⟩

/-- C17 does not hold: the chunk size limit of the constructor.  For every
mode and direction and every chunk size `n` in the range of a C `int`: the
constructor rejects `0 <= n < 32` and accepts `n >= 32` with that chunk
size, and with no argument the chunk size is 4096.  But a negative `n` is
not rejected: converted to `size_t` it is `2^64 + n`, which passes the check
`buf_len >= 32`, and the context gets that chunk size; the block allocated
for it has `ctx_len = sizeof + n - 1` bytes (for a struct of `sizeof > -n`
bytes), fewer than the struct alone. -/
theorem negative_chunk_size_accepted {S : Type} (P : AesPrimitive S) (m : Mode) (dec : Bool)
    (n : Int) (hlo : -2147483648 ≤ n) (hhi : n ≤ 2147483647) :
    (n < 0 → ∃ c : l_ctx S, l_new P m dec (some n) = Except.ok c ∧
      c.buffer_size = (18446744073709551616 + n).toNat ∧ 18446744071562067968 ≤ c.buffer_size ∧
      ∀ sizeof_ctx : Nat, sizeof_ctx < 4294967296 → -(sizeof_ctx : Int) < n →
        new_ctx_len sizeof_ctx c.buffer_size = ((sizeof_ctx : Int) + n - 1).toNat ∧
        new_ctx_len sizeof_ctx c.buffer_size < sizeof_ctx) ∧
    (0 ≤ n → n < 32 → l_new P m dec (some n) = Except.error "buffer size is too small") ∧
    (32 ≤ n → ∃ c : l_ctx S, l_new P m dec (some n) = Except.ok c ∧ c.buffer_size = n.toNat) ∧
    (∃ c : l_ctx S, l_new P m dec none = Except.ok c ∧ c.buffer_size = 4096) := by
  refine ⟨?_, ?_, ?_, ?_⟩
  · intro hneg
    have hn : (n % 18446744073709551616).toNat = (18446744073709551616 + n).toNat := by omega
    simp only [l_new, hn]
    rw [if_neg (by omega)]
    refine ⟨_, rfl, rfl, ?_, ?_⟩
    · show 18446744071562067968 ≤ (18446744073709551616 + n).toNat
      omega
    · intro s hs hsn
      show new_ctx_len s (18446744073709551616 + n).toNat = ((s : Int) + n - 1).toNat ∧
        new_ctx_len s (18446744073709551616 + n).toNat < s
      unfold new_ctx_len
      omega
  · intro h0 h32
    simp only [l_new]
    rw [if_pos (by omega)]
  · intro h32
    have hn : (n % 18446744073709551616).toNat = n.toNat := by omega
    simp only [l_new, hn]
    rw [if_neg (by omega)]
    exact ⟨_, rfl, rfl⟩
  · simp only [l_new]
    rw [if_neg (by omega)]
    exact ⟨_, rfl, rfl⟩

theorem negative_chunk_size_accepted_witness :
    ∃ c : l_ctx Bytes, l_new toyAes Mode.ECB false (some (-1)) = Except.ok c ∧
      c.buffer_size = (18446744073709551616 + (-1 : Int)).toNat ∧
      18446744071562067968 ≤ c.buffer_size ∧
      ∀ sizeof_ctx : Nat, sizeof_ctx < 4294967296 → -(sizeof_ctx : Int) < -1 →
        new_ctx_len sizeof_ctx c.buffer_size = ((sizeof_ctx : Int) + -1 - 1).toNat ∧
        new_ctx_len sizeof_ctx c.buffer_size < sizeof_ctx :=
  (negative_chunk_size_accepted toyAes Mode.ECB false (-1) (by decide) (by decide)).1 (by decide)

/-! ## What no write changes -/

theorem sink_eq_refl {S : Type} (a : l_ctx S) : sink_eq a a := ⟨rfl, rfl, rfl⟩

theorem sink_eq_trans {S : Type} {a b c : l_ctx S} (h1 : sink_eq a b) (h2 : sink_eq b c) :
    sink_eq a c :=
  ⟨h2.1.trans h1.1, h2.2.1.trans h1.2.1, h2.2.2.trans h1.2.2⟩

theorem sink_eq_of_frame {S : Type} {a b : l_ctx S} (h : frame_eq a b) : sink_eq a b :=
  ⟨h.1, h.2.2.1, h.2.2.2.1⟩

theorem tail_store_sink {S : Type} (m : Mode) (c : l_ctx S) (data : Bytes) (off len al : Nat) :
    sink_eq c (tail_store m c data off len al) := by
  unfold tail_store
  split <;> exact ⟨rfl, rfl, rfl⟩

theorem wfill_sink {S : Type} (ctx : l_ctx S) (data : Bytes) (d0 : Nat) :
    sink_eq ctx (wfill ctx data d0) := ⟨rfl, rfl, rfl⟩

theorem wblock_sink {S : Type} (P : AesPrimitive S) (m : Mode) (ctx : l_ctx S) (data : Bytes)
    (d0 : Nat) : sink_eq ctx (wblock P m ctx data d0) :=
  sink_eq_trans (wfill_sink ctx data d0) (sink_eq_of_frame (frame_eq_apply_ret _ _ 16))

theorem write_rest_sink {S : Type} (P : AesPrimitive S) (m : Mode) (ub : Bool) (c : l_ctx S)
    (data : Bytes) (off len : Nat) (pre : List (Call S)) (ok : Bool) :
    sink_eq c (write_rest P m ub c data off len pre ok).ctx ∧
      ∀ call ∈ (write_rest P m ub c data off len pre ok).calls,
        call ∈ pre ∨ sink_eq c call.ctx := by
  obtain ⟨f1, f2⟩ := write_loop_frame P m data (off + align_len m len) (align_len m len + 1) off c
  have hcalls : ∀ call ∈ (if ub = true then [] else pre ++ loop_calls
      (write_loop P m data (off + align_len m len) (align_len m len + 1) off c).emits),
      call ∈ pre ∨ sink_eq c call.ctx := by
    intro call hc
    cases ub with
    | true => simp at hc
    | false =>
      simp only [Bool.false_eq_true, if_false, List.mem_append, loop_calls, List.mem_map] at hc
      rcases hc with hc | ⟨em, hem, rfl⟩
      · exact Or.inl hc
      · exact Or.inr (sink_eq_of_frame (f2 em hem))
  unfold write_rest
  simp only
  split
  · exact ⟨sink_eq_of_frame f1, hcalls⟩
  · exact ⟨sink_eq_of_frame f1, hcalls⟩
  · exact ⟨sink_eq_trans (sink_eq_of_frame f1) (tail_store_sink _ _ _ _ _ _), hcalls⟩

theorem l_write_impl_sink {S : Type} (P : AesPrimitive S) (m : Mode) (ctx : l_ctx S)
    (data : Bytes) :
    sink_eq ctx (l_write_impl P m ctx data).ctx ∧
      ∀ call ∈ (l_write_impl P m ctx data).calls, sink_eq ctx call.ctx := by
  cases hd : CTX_FLAG ctx.flags FLAG_DESTROYED with
  | true =>
    rw [l_write_impl_destroyed P m ctx data hd]
    exact ⟨sink_eq_refl ctx, by simp⟩
  | false =>
    by_cases ht : m.has_tail = true ∧ ctx.tail ≠ 0
    · by_cases hs : (wfill ctx data 0).tail < 16
      · rw [l_write_impl_short P m ctx data hd ht hs]
        exact ⟨wfill_sink ctx data 0, by simp⟩
      · rw [l_write_impl_full P m ctx data hd ht hs]
        have hb := wblock_sink P m ctx data 0
        have hc : sink_eq ctx (tail_clear (wblock P m ctx data 0)) := hb
        obtain ⟨r1, r2⟩ := write_rest_sink P m (decide (ctx.writer_cb_ref = Ref.noref))
          (tail_clear (wblock P m ctx data 0)) data (wtail ctx data 0)
          (data.length - wtail ctx data 0)
          [⟨slice (wblock P m ctx data 0).buffer 16 16, wblock P m ctx data 0⟩]
          (decide (ctx.tail < 16) && decide ((wfill ctx data 0).tail = 16))
        refine ⟨sink_eq_trans hc r1, ?_⟩
        intro call hcall
        rcases r2 call hcall with h | h
        · simp only [List.mem_singleton] at h
          rw [h]
          exact hb
        · exact sink_eq_trans hc h
    · rw [l_write_impl_notail P m ctx data hd ht]
      obtain ⟨r1, r2⟩ := write_rest_sink P m (decide (ctx.writer_cb_ref = Ref.noref)) ctx data 0
        data.length [] true
      refine ⟨r1, ?_⟩
      intro call hcall
      rcases r2 call hcall with h | h
      · simp at h
      · exact h

theorem writek_rest_sink {S : Type} (P : AesPrimitive S) (m : Mode) (c : l_ctx S)
    (data : Bytes) (off len : Nat) (pre : List (Push S)) (top : Nat) (ok : Bool) :
    sink_eq c (writek_rest P m c data off len pre top ok).ctx ∧
      ∀ p ∈ (writek_rest P m c data off len pre top ok).pushes,
        p ∈ pre ∨ sink_eq c p.ctx := by
  obtain ⟨f1, f2⟩ := write_loop_frame P m data (off + align_len m len) (align_len m len + 1) off c
  obtain ⟨p1, p2, _⟩ := writek_rest_proj P m c data off len pre top ok
  rw [p1, p2]
  constructor
  · unfold rest_ctx
    split
    · exact sink_eq_trans (sink_eq_of_frame f1) (tail_store_sink _ _ _ _ _ _)
    · exact sink_eq_of_frame f1
  · intro p hp
    simp only [List.mem_append] at hp
    rcases hp with hp | hp
    · exact Or.inl hp
    · right
      obtain ⟨j, hj⟩ := List.getElem?_of_mem hp
      obtain ⟨em, g1, _, _, g4⟩ := loop_pushes_get top _ j p hj
      rw [g4]
      exact sink_eq_of_frame (f2 em (List.getElem?_mem g1))

theorem l_writek_impl_sink {S : Type} (P : AesPrimitive S) (m : Mode) (ctx : l_ctx S)
    (data : Bytes) (en : Option (Nat × Nat)) :
    sink_eq ctx (l_writek_impl P m ctx data en).ctx ∧
      ∀ p ∈ (l_writek_impl P m ctx data en).pushes, sink_eq ctx p.ctx := by
  cases hd : CTX_FLAG ctx.flags FLAG_DESTROYED with
  | true =>
    rw [l_writek_impl_destroyed P m ctx data en hd]
    exact ⟨sink_eq_refl ctx, by simp⟩
  | false =>
    by_cases he : entry_data en ≥ data.length
    · rw [l_writek_impl_end P m ctx data en hd he]
      exact ⟨sink_eq_refl ctx, by simp⟩
    · by_cases ht : m.has_tail = true ∧ ctx.tail ≠ 0
      · by_cases hs : (wfill ctx data (entry_data en)).tail < 16
        · rw [l_writek_impl_short P m ctx data en hd he ht hs]
          exact ⟨wfill_sink ctx data _, by simp⟩
        · rw [l_writek_impl_full P m ctx data en hd he ht hs]
          have hc : sink_eq ctx (tail_clear (wblock P m ctx data (entry_data en))) :=
            wblock_sink P m ctx data (entry_data en)
          obtain ⟨r1, r2⟩ := writek_rest_sink P m
            (tail_clear (wblock P m ctx data (entry_data en))) data
            (entry_data en + wtail ctx data (entry_data en))
            (data.length - entry_data en - wtail ctx data (entry_data en))
            [⟨entry_data en, entry_data en + wtail ctx data (entry_data en), 3,
              slice (tail_clear (wblock P m ctx data (entry_data en))).buffer 16 16,
              tail_clear (wblock P m ctx data (entry_data en))⟩]
            3
            (entry_asserts en data.length && decide (ctx.tail < 16) &&
              decide ((wfill ctx data (entry_data en)).tail = 16))
          refine ⟨sink_eq_trans hc r1, ?_⟩
          intro p hp
          rcases r2 p hp with h | h
          · simp only [List.mem_singleton] at h
            rw [h]
            exact hc
          · exact sink_eq_trans hc h
      · rw [l_writek_impl_notail P m ctx data en hd he ht]
        obtain ⟨r1, r2⟩ := writek_rest_sink P m ctx data (entry_data en)
          (data.length - entry_data en) [] 2 (entry_asserts en data.length)
        refine ⟨r1, ?_⟩
        intro p hp
        rcases r2 p hp with h | h
        · simp at h
        · exact h

/-- No `write` changes the flags or the sink binding: not in its result, and
not in the context any of its sink calls sees. -/
theorem l_write_sink {S : Type} (P : AesPrimitive S) (v : Nat) (m : Mode) (ctx : l_ctx S)
    (data : Bytes) :
    sink_eq ctx (l_write P v m ctx data).ctx ∧
      ∀ call ∈ (l_write P v m ctx data).calls, sink_eq ctx call.ctx := by
  unfold l_write
  cases hg : l_get_at m ctx with
  | some e => exact ⟨sink_eq_refl ctx, by simp⟩
  | none =>
    simp only
    split
    · split
      · obtain ⟨r1, r2⟩ := l_writek_impl_sink P m ctx data none
        refine ⟨r1, ?_⟩
        intro call hcall
        simp only [List.mem_map] at hcall
        obtain ⟨p, hp, rfl⟩ := hcall
        exact r2 p hp
      · exact l_write_impl_sink P m ctx data
    · exact ⟨sink_eq_refl ctx, by simp⟩

/-! ## Claims about destroyed contexts -/

theorem step_destroyed {S : Type} (P : AesPrimitive S) (v : Nat) (m : Mode) (ctx : l_ctx S)
    (hd : CTX_FLAG ctx.flags FLAG_DESTROYED = true) (op : Op) : step P v m ctx op = ctx := by
  have hw : ∀ data, l_write P v m ctx data =
      ⟨ctx, [], LuaResult.error (L_NAME m ++ " is destroyed"), true⟩ := by
    intro data
    simp [l_write, l_get_at_some m ctx hd]
  cases op with
  | open_ctx key iv => simp [step, l_open, l_get_at_some m ctx hd]
  | close_ctx => simp [step, l_close, l_get_at_some m ctx hd]
  | reset iv => simp [step, l_reset, l_get_at_some m ctx hd]
  | write data => simp [step, hw]
  | write_stop data i => simp [step, hw, ctx_after_sink_error]
  | write_resume data cursor top =>
    simp only [step, l_writek_impl_destroyed P m ctx data _ hd]
    split <;> rfl
  | set_writer args => simp [step, l_set_writer, l_get_at_some m ctx hd]
  | get_writer => simp [step, l_get_writer, l_get_at_some m ctx hd]
  | destroy => simp [step, l_destroy, hd]
  | destroyed => rfl
  | closed => simp [step, l_closed, l_get_at_some m ctx hd]

theorem run_destroyed {S : Type} (P : AesPrimitive S) (v : Nat) (m : Mode) (ops : List Op) :
    ∀ ctx : l_ctx S, CTX_FLAG ctx.flags FLAG_DESTROYED = true → run P v m ctx ops = ctx := by
  induction ops with
  | nil => intro ctx _; rfl
  | cons op ops ih =>
    intro ctx hd
    simp only [run]
    rw [step_destroyed P v m ctx hd op]
    exact ih ctx hd

/-- C14: a destroyed context rejects operations, for every mode.  On a
Destroyed context each of `open`, `close`, `reset`, `write` (also when
re-entered as a continuation), `set_writer` and `get_writer` raises the
error "... is destroyed" for every argument and leaves the context as it
was, `write` calls no sink, and after any sequence of method calls
(`destroy` and the inspection calls included) the context is still the same,
so still Destroyed. -/
theorem destroyed_rejects {S : Type} (P : AesPrimitive S) (v : Nat) (m : Mode) (ctx : l_ctx S)
    (hd : CTX_FLAG ctx.flags FLAG_DESTROYED = true) :
    (∀ key iv, l_open P m ctx key iv = ⟨ctx, LuaResult.error (L_NAME m ++ " is destroyed")⟩) ∧
    l_close m ctx = ⟨ctx, LuaResult.error (L_NAME m ++ " is destroyed")⟩ ∧
    (∀ iv, l_reset P m ctx iv = ⟨ctx, LuaResult.error (L_NAME m ++ " is destroyed")⟩) ∧
    (∀ data, l_write P v m ctx data =
      ⟨ctx, [], LuaResult.error (L_NAME m ++ " is destroyed"), true⟩) ∧
    (∀ data en, l_writek_impl P m ctx data en =
      ⟨ctx, [], LuaResult.error (L_NAME m ++ " is destroyed"), true⟩) ∧
    (∀ args, l_set_writer m ctx args =
      ⟨ctx, LuaResult.error (L_NAME m ++ " is destroyed")⟩) ∧
    l_get_writer m ctx = ⟨ctx, LuaResult.error (L_NAME m ++ " is destroyed")⟩ ∧
    (∀ ops, run P v m ctx ops = ctx) := by
  refine ⟨?_, ?_, ?_, ?_, ?_, ?_, ?_, ?_⟩
  · intro key iv; simp [l_open, l_get_at_some m ctx hd]
  · simp [l_close, l_get_at_some m ctx hd]
  · intro iv; simp [l_reset, l_get_at_some m ctx hd]
  · intro data; simp [l_write, l_get_at_some m ctx hd]
  · intro data en; exact l_writek_impl_destroyed P m ctx data en hd
  · intro args; simp [l_set_writer, l_get_at_some m ctx hd]
  · simp [l_get_writer, l_get_at_some m ctx hd]
  · intro ops; exact run_destroyed P v m ops ctx hd

theorem destroyed_rejects_witness :
    CTX_FLAG (l_destroy (toy_sink_ctx Mode.CBC false 32 5)).ctx.flags FLAG_DESTROYED = true ∧
      l_open toyAes Mode.CBC (l_destroy (toy_sink_ctx Mode.CBC false 32 5)).ctx
          (List.replicate 16 7) (List.range 16) =
        ⟨(l_destroy (toy_sink_ctx Mode.CBC false 32 5)).ctx,
          LuaResult.error (L_NAME Mode.CBC ++ " is destroyed")⟩ ∧
      run toyAes 502 Mode.CBC (l_destroy (toy_sink_ctx Mode.CBC false 32 5)).ctx
          [Op.open_ctx (List.replicate 16 7) (List.range 16), Op.write (List.range 40),
            Op.set_writer [LuaValue.func 2], Op.destroy, Op.reset (List.range 16)] =
        (l_destroy (toy_sink_ctx Mode.CBC false 32 5)).ctx :=
  ⟨by decide,
    (destroyed_rejects toyAes 502 Mode.CBC (l_destroy (toy_sink_ctx Mode.CBC false 32 5)).ctx
      (by decide)).1 _ _,
    (destroyed_rejects toyAes 502 Mode.CBC (l_destroy (toy_sink_ctx Mode.CBC false 32 5)).ctx
      (by decide)).2.2.2.2.2.2.2 _⟩

/-- C15 as amended: inspection of a Destroyed context, for every mode.
`destroyed` is not rejected and returns true; `closed` goes through the same
check as the other methods and raises the error "... is destroyed". -/
theorem inspection_after_destroy {S : Type} (m : Mode) (ctx : l_ctx S)
    (hd : CTX_FLAG ctx.flags FLAG_DESTROYED = true) :
    l_destroyed ctx = ⟨ctx, LuaResult.bool true⟩ ∧
      l_closed m ctx = ⟨ctx, LuaResult.error (L_NAME m ++ " is destroyed")⟩ := by
  constructor
  · simp [l_destroyed, hd]
  · simp [l_closed, l_get_at_some m ctx hd]

theorem inspection_after_destroy_witness :
    CTX_FLAG (l_destroy (toy_ctx Mode.OFB false 32 0)).ctx.flags FLAG_DESTROYED = true ∧
      (l_destroyed (l_destroy (toy_ctx Mode.OFB false 32 0)).ctx =
          ⟨(l_destroy (toy_ctx Mode.OFB false 32 0)).ctx, LuaResult.bool true⟩ ∧
        l_closed Mode.OFB (l_destroy (toy_ctx Mode.OFB false 32 0)).ctx =
          ⟨(l_destroy (toy_ctx Mode.OFB false 32 0)).ctx,
            LuaResult.error (L_NAME Mode.OFB ++ " is destroyed")⟩) :=
  ⟨by decide,
    inspection_after_destroy Mode.OFB (l_destroy (toy_ctx Mode.OFB false 32 0)).ctx (by decide)⟩

/-- C15 as stated fails: on a Destroyed ECB context (an open context after
`destroy`) the query `closed` does not return a boolean, it raises the error
"ECB context is destroyed"; `destroyed` returns true. -/
theorem closed_after_destroy_counterexample :
    CTX_FLAG (l_destroy (toy_ctx Mode.ECB false 32 0)).ctx.flags FLAG_DESTROYED = true ∧
      (l_destroyed (l_destroy (toy_ctx Mode.ECB false 32 0)).ctx).result = LuaResult.bool true ∧
      (l_closed Mode.ECB (l_destroy (toy_ctx Mode.ECB false 32 0)).ctx).result =
        LuaResult.error "ECB context is destroyed" := by
  refine ⟨by decide, by decide, by decide⟩

/-! ## Claims about the sink binding -/

/-- C19 does not hold: validation in `set_writer`, for every mode and every
context that is not Destroyed.  A consumer supplied alone is checked: a
value that is neither a function nor an object is refused with "invalid
writer type", an object whose `write` member is missing or not a function
with "write method not found in object", and with no consumer (absent or
nil) the call returns and leaves no sink bound.  But a consumer supplied
together with a receiver is only checked for nil: any other value, callable
or not, is bound as the consumer and the call returns the context. -/
theorem set_writer_unchecked_consumer {S : Type} (m : Mode) (ctx : l_ctx S)
    (hnd : CTX_FLAG ctx.flags FLAG_DESTROYED = false) :
    (∀ (a2 a3 : LuaValue) (more : List LuaValue), a2 ≠ LuaValue.nil →
      (l_set_writer m ctx (a2 :: a3 :: more)).result = LuaResult.self ∧
      (l_set_writer m ctx (a2 :: a3 :: more)).ctx.writer_cb_ref = Ref.ref a2 ∧
      (l_set_writer m ctx (a2 :: a3 :: more)).ctx.writer_ud_ref = luaL_ref a3) ∧
    (∀ (a3 : LuaValue) (more : List LuaValue),
      (l_set_writer m ctx (LuaValue.nil :: a3 :: more)).result =
        LuaResult.error "no writer present" ∧
      (l_set_writer m ctx (LuaValue.nil :: a3 :: more)).ctx.writer_cb_ref = Ref.noref ∧
      (l_set_writer m ctx (LuaValue.nil :: a3 :: more)).ctx.writer_ud_ref = Ref.noref) ∧
    (∀ n : Nat,
      (l_set_writer m ctx [LuaValue.other n]).result = LuaResult.error "invalid writer type" ∧
      (l_set_writer m ctx [LuaValue.other n]).ctx.writer_cb_ref = Ref.noref ∧
      (l_set_writer m ctx [LuaValue.other n]).ctx.writer_ud_ref = Ref.noref) ∧
    (∀ (o : Nat) (w : Member), (∀ f, w ≠ Member.func f) →
      (l_set_writer m ctx [LuaValue.object o w]).result =
        LuaResult.error "write method not found in object" ∧
      (l_set_writer m ctx [LuaValue.object o w]).ctx.writer_cb_ref = Ref.noref ∧
      (l_set_writer m ctx [LuaValue.object o w]).ctx.writer_ud_ref = Ref.noref) ∧
    (∀ args : List LuaValue, args = [] ∨ args = [LuaValue.nil] →
      (l_set_writer m ctx args).result = LuaResult.self ∧
      (l_set_writer m ctx args).ctx.writer_cb_ref = Ref.noref ∧
      (l_set_writer m ctx args).ctx.writer_ud_ref = Ref.noref) := by
  refine ⟨?_, ?_, ?_, ?_, ?_⟩
  · intro a2 a3 more h2
    simp [l_set_writer, l_get_at_none m ctx hnd, h2, luaL_ref]
  · intro a3 more
    simp [l_set_writer, l_get_at_none m ctx hnd]
  · intro n
    simp [l_set_writer, l_get_at_none m ctx hnd]
  · intro o w hw
    cases w with
    | func f => exact absurd rfl (hw f)
    | absent => simp [l_set_writer, l_get_at_none m ctx hnd]
    | other n => simp [l_set_writer, l_get_at_none m ctx hnd]
  · intro args h
    rcases h with rfl | rfl <;> simp [l_set_writer, l_get_at_none m ctx hnd]

theorem set_writer_unchecked_consumer_witness :
    CTX_FLAG (toy_ctx Mode.ECB false 32 0).flags FLAG_DESTROYED = false ∧
      (l_set_writer Mode.ECB (toy_ctx Mode.ECB false 32 0)
          [LuaValue.other 42, LuaValue.object 1 Member.absent]).result = LuaResult.self ∧
      (l_set_writer Mode.ECB (toy_ctx Mode.ECB false 32 0)
          [LuaValue.other 42, LuaValue.object 1 Member.absent]).ctx.writer_cb_ref =
        Ref.ref (LuaValue.other 42) ∧
      (l_set_writer Mode.ECB (toy_ctx Mode.ECB false 32 0)
          [LuaValue.other 42, LuaValue.object 1 Member.absent]).ctx.writer_ud_ref =
        luaL_ref (LuaValue.object 1 Member.absent) :=
  ⟨by decide,
    (set_writer_unchecked_consumer Mode.ECB (toy_ctx Mode.ECB false 32 0) (by decide)).1
      (LuaValue.other 42) (LuaValue.object 1 Member.absent) [] (by decide)⟩

theorem l_open_refs {S : Type} (P : AesPrimitive S) (m : Mode) (ctx : l_ctx S) (key iv : Bytes) :
    (l_open P m ctx key iv).ctx.writer_cb_ref = ctx.writer_cb_ref ∧
      (l_open P m ctx key iv).ctx.writer_ud_ref = ctx.writer_ud_ref := by
  unfold l_open
  cases l_get_at m ctx with
  | some e => exact ⟨rfl, rfl⟩
  | none =>
    simp only
    split
    · exact ⟨rfl, rfl⟩
    · split
      · exact ⟨rfl, rfl⟩
      · split <;> split <;> exact ⟨rfl, rfl⟩

theorem l_close_refs {S : Type} (m : Mode) (ctx : l_ctx S) :
    (l_close m ctx).ctx.writer_cb_ref = ctx.writer_cb_ref ∧
      (l_close m ctx).ctx.writer_ud_ref = ctx.writer_ud_ref := by
  unfold l_close
  cases l_get_at m ctx with
  | some e => exact ⟨rfl, rfl⟩
  | none =>
    simp only
    split <;> exact ⟨rfl, rfl⟩

theorem l_reset_refs {S : Type} (P : AesPrimitive S) (m : Mode) (ctx : l_ctx S) (iv : Bytes) :
    (l_reset P m ctx iv).ctx.writer_cb_ref = ctx.writer_cb_ref ∧
      (l_reset P m ctx iv).ctx.writer_ud_ref = ctx.writer_ud_ref := by
  unfold l_reset
  cases l_get_at m ctx with
  | some e => exact ⟨rfl, rfl⟩
  | none =>
    simp only
    split
    · exact ⟨rfl, rfl⟩
    · split
      · exact ⟨rfl, rfl⟩
      · split <;> exact ⟨rfl, rfl⟩

theorem l_destroy_refs {S : Type} (ctx : l_ctx S)
    (hd : CTX_FLAG ctx.flags FLAG_DESTROYED = false) :
    (l_destroy ctx).ctx.writer_cb_ref = Ref.noref ∧
      (l_destroy ctx).ctx.writer_ud_ref = Ref.noref := by
  unfold l_destroy
  simp only [hd, Bool.false_eq_true, if_false]
  split <;> exact ⟨rfl, rfl⟩

/-- After `set_writer`, whatever it was given and whether it returned or
raised: the consumer reference is not `LUA_REFNIL`, and a receiver is bound
only together with a consumer, unless the context is Destroyed and so
untouched. -/
theorem l_set_writer_binding {S : Type} (m : Mode) (ctx : l_ctx S) (args : List LuaValue)
    (hnd : CTX_FLAG ctx.flags FLAG_DESTROYED = false) :
    (l_set_writer m ctx args).ctx.writer_cb_ref ≠ Ref.refnil ∧
      ((l_set_writer m ctx args).ctx.writer_ud_ref ≠ Ref.noref →
        (l_set_writer m ctx args).ctx.writer_cb_ref ≠ Ref.noref) := by
  unfold l_set_writer
  rw [l_get_at_none m ctx hnd]
  simp only
  split
  · rename_i a2 a3 rest
    by_cases h2 : a2 = LuaValue.nil
    · simp [h2]
    · simp [h2, luaL_ref]
  · simp
  · simp
  · simp [luaL_ref]
  · rename_i o w
    cases w <;> simp [luaL_ref]
  · simp

/-- A method call keeps the sink binding whole. -/
theorem step_binding {S : Type} (P : AesPrimitive S) (v : Nat) (m : Mode) (ctx : l_ctx S)
    (op : Op)
    (h : ctx.writer_cb_ref ≠ Ref.refnil ∧
      (ctx.writer_ud_ref ≠ Ref.noref → ctx.writer_cb_ref ≠ Ref.noref)) :
    (step P v m ctx op).writer_cb_ref ≠ Ref.refnil ∧
      ((step P v m ctx op).writer_ud_ref ≠ Ref.noref →
        (step P v m ctx op).writer_cb_ref ≠ Ref.noref) := by
  have keep : ∀ c : l_ctx S, c.writer_cb_ref = ctx.writer_cb_ref →
      c.writer_ud_ref = ctx.writer_ud_ref →
      c.writer_cb_ref ≠ Ref.refnil ∧ (c.writer_ud_ref ≠ Ref.noref → c.writer_cb_ref ≠ Ref.noref) := by
    intro c h1 h2
    rw [h1, h2]
    exact h
  cases op with
  | open_ctx key iv => exact keep _ (l_open_refs P m ctx key iv).1 (l_open_refs P m ctx key iv).2
  | close_ctx => exact keep _ (l_close_refs m ctx).1 (l_close_refs m ctx).2
  | reset iv => exact keep _ (l_reset_refs P m ctx iv).1 (l_reset_refs P m ctx iv).2
  | write data =>
    obtain ⟨r, _⟩ := l_write_sink P v m ctx data
    exact keep _ r.2.1 r.2.2
  | write_stop data i =>
    obtain ⟨r1, r2⟩ := l_write_sink P v m ctx data
    simp only [step, ctx_after_sink_error]
    cases hc : (l_write P v m ctx data).calls.get? i with
    | none => exact keep _ r1.2.1 r1.2.2
    | some call =>
      have hmem : call ∈ (l_write P v m ctx data).calls := List.get?_mem hc
      exact keep _ (r2 call hmem).2.1 (r2 call hmem).2.2
  | write_resume data cursor top =>
    obtain ⟨r, _⟩ := l_writek_impl_sink P m ctx data (some (cursor, top))
    simp only [step]
    split
    · exact keep _ r.2.1 r.2.2
    · exact h
  | set_writer args =>
    cases hd : CTX_FLAG ctx.flags FLAG_DESTROYED with
    | true =>
      rw [step_destroyed P v m ctx hd]
      exact h
    | false => exact l_set_writer_binding m ctx args hd
  | get_writer =>
    have hc : (l_get_writer m ctx).ctx = ctx := by
      unfold l_get_writer
      cases l_get_at m ctx <;> rfl
    simp only [step, hc]
    exact h
  | destroy =>
    cases hd : CTX_FLAG ctx.flags FLAG_DESTROYED with
    | true =>
      rw [step_destroyed P v m ctx hd]
      exact h
    | false =>
      obtain ⟨d4, d5⟩ := l_destroy_refs ctx hd
      simp only [step]
      rw [d4, d5]
      exact ⟨by decide, fun hne => absurd rfl hne⟩
  | destroyed => exact h
  | closed =>
    have hc : (l_closed m ctx).ctx = ctx := by
      unfold l_closed
      cases l_get_at m ctx <;> rfl
    simp only [step, hc]
    exact h

theorem run_binding {S : Type} (P : AesPrimitive S) (v : Nat) (m : Mode) (ops : List Op) :
    ∀ ctx : l_ctx S,
      (ctx.writer_cb_ref ≠ Ref.refnil ∧
        (ctx.writer_ud_ref ≠ Ref.noref → ctx.writer_cb_ref ≠ Ref.noref)) →
      (run P v m ctx ops).writer_cb_ref ≠ Ref.refnil ∧
        ((run P v m ctx ops).writer_ud_ref ≠ Ref.noref →
          (run P v m ctx ops).writer_cb_ref ≠ Ref.noref) := by
  induction ops with
  | nil => intro ctx h; exact h
  | cons op ops ih =>
    intro ctx h
    simp only [run]
    exact ih _ (step_binding P v m ctx op h)

/-- C20: the sink binding is never partial, for every mode, direction and
Lua version.  In every state reached from a constructed context by any
sequence of `open`, `close`, `reset`, `write` (returning, stopped at a sink
call that raises or yields, or resumed), `set_writer` (returning or raising),
`get_writer`, `destroy`, `destroyed` and `closed` calls, a receiver is bound
only if a consumer is bound, and the consumer reference is never
`LUA_REFNIL`. -/
theorem sink_binding_never_partial {S : Type} (P : AesPrimitive S) (v : Nat) (m : Mode)
    (dec : Bool) (arg : Option Int) (c0 : l_ctx S) (h : l_new P m dec arg = Except.ok c0)
    (ops : List Op) :
    ((run P v m c0 ops).writer_ud_ref ≠ Ref.noref →
        (run P v m c0 ops).writer_cb_ref ≠ Ref.noref) ∧
      (run P v m c0 ops).writer_cb_ref ≠ Ref.refnil := by
  have h0 : c0.writer_cb_ref = Ref.noref ∧ c0.writer_ud_ref = Ref.noref := by
    simp only [l_new] at h
    split at h
    · cases h
    · injection h with h
      subst h
      exact ⟨rfl, rfl⟩
  obtain ⟨r1, r2⟩ := run_binding P v m ops c0
    ⟨by rw [h0.1]; decide, fun hne => absurd h0.2 hne⟩
  exact ⟨r2, r1⟩

theorem sink_binding_never_partial_witness :
    ∃ c0 : l_ctx Bytes, l_new toyAes Mode.CBC false (some ((32 : Nat) : Int)) = Except.ok c0 ∧
      (((run toyAes 502 Mode.CBC c0
          [Op.set_writer [LuaValue.object 1 (Member.func 3)],
            Op.open_ctx (List.replicate 16 7) (List.range 16), Op.write_stop (List.range 40) 0,
            Op.set_writer [LuaValue.other 5], Op.set_writer [LuaValue.func 1, LuaValue.nil],
            Op.write_resume (List.range 40) 32 3, Op.close_ctx, Op.destroy]).writer_ud_ref ≠ Ref.noref →
        (run toyAes 502 Mode.CBC c0
          [Op.set_writer [LuaValue.object 1 (Member.func 3)],
            Op.open_ctx (List.replicate 16 7) (List.range 16), Op.write_stop (List.range 40) 0,
            Op.set_writer [LuaValue.other 5], Op.set_writer [LuaValue.func 1, LuaValue.nil],
            Op.write_resume (List.range 40) 32 3, Op.close_ctx, Op.destroy]).writer_cb_ref ≠ Ref.noref) ∧
      (run toyAes 502 Mode.CBC c0
          [Op.set_writer [LuaValue.object 1 (Member.func 3)],
            Op.open_ctx (List.replicate 16 7) (List.range 16), Op.write_stop (List.range 40) 0,
            Op.set_writer [LuaValue.other 5], Op.set_writer [LuaValue.func 1, LuaValue.nil],
            Op.write_resume (List.range 40) 32 3, Op.close_ctx, Op.destroy]).writer_cb_ref ≠ Ref.refnil) :=
  ⟨_, l_new_accepted toyAes Mode.CBC false 32 (by decide) (by decide),
    sink_binding_never_partial toyAes 502 Mode.CBC false (some ((32 : Nat) : Int)) _
      (l_new_accepted toyAes Mode.CBC false 32 (by decide) (by decide)) _⟩

/-! ## The counter increments -/

theorem carry_inc_length (l : Bytes) : (carry_inc l).length = l.length := by
  induction l with
  | nil => rfl
  | cons c rest ih =>
    simp only [carry_inc]
    split <;> simp [ih]

theorem carry_inc_bytes (l : Bytes) (h : ∀ x ∈ l, x < 256) : ∀ x ∈ carry_inc l, x < 256 := by
  induction l with
  | nil => intro x hx; simp [carry_inc] at hx
  | cons c rest ih =>
    intro x hx
    have hr : ∀ y ∈ rest, y < 256 := fun y hy => h y (List.mem_cons_of_mem c hy)
    simp only [carry_inc] at hx
    split at hx
    · simp only [List.mem_cons] at hx
      rcases hx with rfl | hx
      · exact Nat.mod_lt _ (by decide)
      · exact hr x hx
    · simp only [List.mem_cons] at hx
      rcases hx with rfl | hx
      · exact Nat.mod_lt _ (by decide)
      · exact ih hr x hx

theorem le_value_lt (l : Bytes) (h : ∀ x ∈ l, x < 256) : le_value l < 256 ^ l.length := by
  induction l with
  | nil => simp [le_value]
  | cons c rest ih =>
    have hc : c < 256 := h c (List.mem_cons_self c rest)
    have hr := ih fun y hy => h y (List.mem_cons_of_mem c hy)
    simp only [le_value, List.length_cons, pow_succ]
    omega

theorem le_value_carry_inc (l : Bytes) (h : ∀ x ∈ l, x < 256) :
    le_value (carry_inc l) = (le_value l + 1) % 256 ^ l.length := by
  induction l with
  | nil => simp [carry_inc, le_value]
  | cons c rest ih =>
    have hc : c < 256 := h c (List.mem_cons_self c rest)
    have hr : ∀ y ∈ rest, y < 256 := fun y hy => h y (List.mem_cons_of_mem c hy)
    have hv := le_value_lt rest hr
    simp only [carry_inc]
    by_cases h255 : c = 255
    · subst h255
      have hz : (255 + 1) % 256 = 0 := by decide
      simp only [hz, ne_eq, not_true_eq_false, if_false, le_value, List.length_cons, ih hr,
        Nat.zero_add]
      have e : 255 + 256 * le_value rest + 1 = 256 * (le_value rest + 1) := by omega
      rw [e, pow_succ, Nat.mul_comm (256 ^ rest.length) 256, Nat.mul_mod_mul_left]
    · have hm : (c + 1) % 256 = c + 1 := Nat.mod_eq_of_lt (by omega)
      have hne : (c + 1) % 256 ≠ 0 := by omega
      simp only [if_pos hne, le_value, hm, List.length_cons]
      rw [Nat.mod_eq_of_lt]
      · omega
      · rw [pow_succ]
        omega

theorem forwart_loop_carry (todo : Nat) :
    ∀ pre suf : Bytes, pre.length + todo = 16 → suf.length = todo →
      forwart_iv_inc_loop todo (pre ++ suf) = pre ++ carry_inc suf := by
  induction todo with
  | zero =>
    intro pre suf _ hs
    have : suf = [] := List.length_eq_zero.mp hs
    subst this
    simp [forwart_iv_inc_loop, carry_inc]
  | succ k ih =>
    intro pre suf hp hs
    obtain ⟨c, rest, rfl⟩ : ∃ c rest, suf = c :: rest := by
      cases suf with
      | nil => simp at hs
      | cons c rest => exact ⟨c, rest, rfl⟩
    have hi : 16 - (k + 1) = pre.length := by omega
    have hget : (pre ++ c :: rest).getD pre.length 0 = c := by
      rw [List.getD_eq_getElem?_getD, List.getElem?_append_right (Nat.le_refl _)]
      simp
    have hset : ∀ x, (pre ++ c :: rest).set pre.length x = pre ++ x :: rest := by
      intro x
      simp [List.set_append]
    simp only [forwart_iv_inc_loop, hi, hget, hset, carry_inc]
    split
    · rfl
    · have := ih (pre ++ [(c + 1) % 256]) rest (by simp; omega) (by simpa using hs)
      simpa using this

theorem backwart_loop_carry (n : Nat) :
    ∀ pre suf : Bytes, pre.length = n →
      backwart_iv_inc_loop n (pre ++ suf) = (carry_inc pre.reverse).reverse ++ suf := by
  induction n with
  | zero =>
    intro pre suf hp
    have : pre = [] := List.length_eq_zero.mp hp
    subst this
    simp [backwart_iv_inc_loop, carry_inc]
  | succ k ih =>
    intro pre suf hp
    have hne : pre ≠ [] := by
      intro h
      subst h
      simp at hp
    obtain ⟨ini, c, rfl⟩ : ∃ ini c, pre = ini ++ [c] :=
      ⟨pre.dropLast, pre.getLast hne, (List.dropLast_append_getLast hne).symm⟩
    have hl : ini.length = k := by simpa using hp
    have hget : (ini ++ [c] ++ suf).getD k 0 = c := by
      rw [List.append_assoc, List.getD_eq_getElem?_getD, ← hl,
        List.getElem?_append_right (Nat.le_refl _)]
      simp
    have hset : ∀ x, (ini ++ [c] ++ suf).set k x = ini ++ ([x] ++ suf) := by
      intro x
      simp [List.set_append, ← hl]
    simp only [backwart_iv_inc_loop, hget, hset, List.reverse_append, List.reverse_singleton,
      List.singleton_append, carry_inc]
    split
    · simp
    · rw [ih ini _ hl]
      simp

/-- C23: the forward increment of the CTR register.  For every register of
16 bytes, `forwart_iv_inc` leaves a register of 16 bytes whose value, read
as a little-endian integer (byte 0 least significant), is the old value plus
one modulo 2^128; the all-zero register becomes `[1, 0, ..., 0]` and the
register of 16 bytes 0xFF becomes all zero. -/
theorem forward_increment (iv : Bytes) (hl : iv.length = 16) (hb : ∀ x ∈ iv, x < 256) :
    (forwart_iv_inc iv).length = 16 ∧ (∀ x ∈ forwart_iv_inc iv, x < 256) ∧
      le_value (forwart_iv_inc iv) = (le_value iv + 1) % 2 ^ 128 ∧
      forwart_iv_inc (List.replicate 16 0) = 1 :: List.replicate 15 0 ∧
      forwart_iv_inc (List.replicate 16 255) = List.replicate 16 0 := by
  have h : forwart_iv_inc iv = carry_inc iv := by
    have := forwart_loop_carry 16 [] iv rfl hl
    simpa [forwart_iv_inc] using this
  rw [h]
  refine ⟨by rw [carry_inc_length, hl], carry_inc_bytes iv hb, ?_, by decide, by decide⟩
  rw [le_value_carry_inc iv hb, hl]
  norm_num

theorem forward_increment_witness :
    (forwart_iv_inc [255, 255, 7, 0, 0, 0, 0, 0, 0, 0, 0, 0, 0, 0, 0, 9]).length = 16 ∧
      le_value (forwart_iv_inc [255, 255, 7, 0, 0, 0, 0, 0, 0, 0, 0, 0, 0, 0, 0, 9]) =
        (le_value [255, 255, 7, 0, 0, 0, 0, 0, 0, 0, 0, 0, 0, 0, 0, 9] + 1) % 2 ^ 128 ∧
      forwart_iv_inc [255, 255, 7, 0, 0, 0, 0, 0, 0, 0, 0, 0, 0, 0, 0, 9] =
        [0, 0, 8, 0, 0, 0, 0, 0, 0, 0, 0, 0, 0, 0, 0, 9] :=
  ⟨(forward_increment [255, 255, 7, 0, 0, 0, 0, 0, 0, 0, 0, 0, 0, 0, 0, 9] rfl (by decide)).1,
    (forward_increment [255, 255, 7, 0, 0, 0, 0, 0, 0, 0, 0, 0, 0, 0, 0, 9] rfl
      (by decide)).2.2.1,
    by decide⟩

/-- C24: the backward increment of the CTR register.  For every register of
16 bytes, `backwart_iv_inc` leaves a register of 16 bytes whose value, read
as a big-endian integer (byte 15 least significant), is the old value plus
one modulo 2^128; the all-zero register becomes `[0, ..., 0, 1]` and the
register of 16 bytes 0xFF becomes all zero. -/
theorem backward_increment (iv : Bytes) (hl : iv.length = 16) (hb : ∀ x ∈ iv, x < 256) :
    (backwart_iv_inc iv).length = 16 ∧ (∀ x ∈ backwart_iv_inc iv, x < 256) ∧
      be_value (backwart_iv_inc iv) = (be_value iv + 1) % 2 ^ 128 ∧
      backwart_iv_inc (List.replicate 16 0) = List.replicate 15 0 ++ [1] ∧
      backwart_iv_inc (List.replicate 16 255) = List.replicate 16 0 := by
  have hbr : ∀ x ∈ iv.reverse, x < 256 := fun x hx => hb x (List.mem_reverse.mp hx)
  have h : backwart_iv_inc iv = (carry_inc iv.reverse).reverse := by
    have := backwart_loop_carry 16 iv [] hl
    simpa [backwart_iv_inc] using this
  rw [h]
  refine ⟨by rw [List.length_reverse, carry_inc_length, List.length_reverse, hl], ?_, ?_,
    by decide, by decide⟩
  · intro x hx
    exact carry_inc_bytes iv.reverse hbr x (List.mem_reverse.mp hx)
  · unfold be_value
    rw [List.reverse_reverse, le_value_carry_inc iv.reverse hbr, List.length_reverse, hl]
    norm_num

theorem backward_increment_witness :
    (backwart_iv_inc [9, 0, 0, 0, 0, 0, 0, 0, 0, 0, 0, 0, 0, 7, 255, 255]).length = 16 ∧
      be_value (backwart_iv_inc [9, 0, 0, 0, 0, 0, 0, 0, 0, 0, 0, 0, 0, 7, 255, 255]) =
        (be_value [9, 0, 0, 0, 0, 0, 0, 0, 0, 0, 0, 0, 0, 7, 255, 255] + 1) % 2 ^ 128 ∧
      backwart_iv_inc [9, 0, 0, 0, 0, 0, 0, 0, 0, 0, 0, 0, 0, 7, 255, 255] =
        [9, 0, 0, 0, 0, 0, 0, 0, 0, 0, 0, 0, 0, 8, 0, 0] :=
  ⟨(backward_increment [9, 0, 0, 0, 0, 0, 0, 0, 0, 0, 0, 0, 0, 7, 255, 255] rfl (by decide)).1,
    (backward_increment [9, 0, 0, 0, 0, 0, 0, 0, 0, 0, 0, 0, 0, 7, 255, 255] rfl
      (by decide)).2.2.1,
    by decide⟩

/-! ## What no method call changes -/

theorem fixed_eq_refl {S : Type} (a : l_ctx S) : fixed_eq a a := ⟨rfl, rfl, rfl⟩

theorem fixed_eq_trans {S : Type} {a b c : l_ctx S} (h1 : fixed_eq a b) (h2 : fixed_eq b c) :
    fixed_eq a c :=
  ⟨h2.1.trans h1.1, h2.2.1.trans h1.2.1, h2.2.2.trans h1.2.2⟩

theorem fixed_eq_of_frame {S : Type} {a b : l_ctx S} (h : frame_eq a b) : fixed_eq a b :=
  ⟨h.1, h.2.1, h.2.2.2.2.2.1⟩

theorem tail_store_fixed {S : Type} (m : Mode) (c : l_ctx S) (data : Bytes) (off len al : Nat) :
    fixed_eq c (tail_store m c data off len al) := by
  unfold tail_store
  split <;> exact ⟨rfl, rfl, rfl⟩

theorem wblock_fixed {S : Type} (P : AesPrimitive S) (m : Mode) (ctx : l_ctx S) (data : Bytes)
    (d0 : Nat) : fixed_eq ctx (wblock P m ctx data d0) :=
  fixed_eq_trans (b := wfill ctx data d0) ⟨rfl, rfl, rfl⟩
    (fixed_eq_of_frame (frame_eq_apply_ret _ _ 16))

theorem write_rest_fixed {S : Type} (P : AesPrimitive S) (m : Mode) (ub : Bool) (c : l_ctx S)
    (data : Bytes) (off len : Nat) (pre : List (Call S)) (ok : Bool) :
    fixed_eq c (write_rest P m ub c data off len pre ok).ctx ∧
      ∀ call ∈ (write_rest P m ub c data off len pre ok).calls,
        call ∈ pre ∨ fixed_eq c call.ctx := by
  obtain ⟨f1, f2⟩ := write_loop_frame P m data (off + align_len m len) (align_len m len + 1) off c
  have hcalls : ∀ call ∈ (if ub = true then [] else pre ++ loop_calls
      (write_loop P m data (off + align_len m len) (align_len m len + 1) off c).emits),
      call ∈ pre ∨ fixed_eq c call.ctx := by
    intro call hc
    cases ub with
    | true => simp at hc
    | false =>
      simp only [Bool.false_eq_true, if_false, List.mem_append, loop_calls, List.mem_map] at hc
      rcases hc with hc | ⟨em, hem, rfl⟩
      · exact Or.inl hc
      · exact Or.inr (fixed_eq_of_frame (f2 em hem))
  unfold write_rest
  simp only
  split
  · exact ⟨fixed_eq_of_frame f1, hcalls⟩
  · exact ⟨fixed_eq_of_frame f1, hcalls⟩
  · exact ⟨fixed_eq_trans (fixed_eq_of_frame f1) (tail_store_fixed _ _ _ _ _ _), hcalls⟩

theorem l_write_impl_fixed {S : Type} (P : AesPrimitive S) (m : Mode) (ctx : l_ctx S)
    (data : Bytes) :
    fixed_eq ctx (l_write_impl P m ctx data).ctx ∧
      ∀ call ∈ (l_write_impl P m ctx data).calls, fixed_eq ctx call.ctx := by
  cases hd : CTX_FLAG ctx.flags FLAG_DESTROYED with
  | true =>
    rw [l_write_impl_destroyed P m ctx data hd]
    exact ⟨fixed_eq_refl ctx, by simp⟩
  | false =>
    by_cases ht : m.has_tail = true ∧ ctx.tail ≠ 0
    · by_cases hs : (wfill ctx data 0).tail < 16
      · rw [l_write_impl_short P m ctx data hd ht hs]
        exact ⟨⟨rfl, rfl, rfl⟩, by simp⟩
      · rw [l_write_impl_full P m ctx data hd ht hs]
        have hb := wblock_fixed P m ctx data 0
        have hc : fixed_eq ctx (tail_clear (wblock P m ctx data 0)) := hb
        obtain ⟨r1, r2⟩ := write_rest_fixed P m (decide (ctx.writer_cb_ref = Ref.noref))
          (tail_clear (wblock P m ctx data 0)) data (wtail ctx data 0)
          (data.length - wtail ctx data 0)
          [⟨slice (wblock P m ctx data 0).buffer 16 16, wblock P m ctx data 0⟩]
          (decide (ctx.tail < 16) && decide ((wfill ctx data 0).tail = 16))
        refine ⟨fixed_eq_trans hc r1, ?_⟩
        intro call hcall
        rcases r2 call hcall with h | h
        · simp only [List.mem_singleton] at h
          rw [h]
          exact hb
        · exact fixed_eq_trans hc h
    · rw [l_write_impl_notail P m ctx data hd ht]
      obtain ⟨r1, r2⟩ := write_rest_fixed P m (decide (ctx.writer_cb_ref = Ref.noref)) ctx data 0
        data.length [] true
      refine ⟨r1, ?_⟩
      intro call hcall
      rcases r2 call hcall with h | h
      · simp at h
      · exact h

theorem writek_rest_fixed {S : Type} (P : AesPrimitive S) (m : Mode) (c : l_ctx S)
    (data : Bytes) (off len : Nat) (pre : List (Push S)) (top : Nat) (ok : Bool) :
    fixed_eq c (writek_rest P m c data off len pre top ok).ctx ∧
      ∀ p ∈ (writek_rest P m c data off len pre top ok).pushes,
        p ∈ pre ∨ fixed_eq c p.ctx := by
  obtain ⟨f1, f2⟩ := write_loop_frame P m data (off + align_len m len) (align_len m len + 1) off c
  obtain ⟨p1, p2, _⟩ := writek_rest_proj P m c data off len pre top ok
  rw [p1, p2]
  constructor
  · unfold rest_ctx
    split
    · exact fixed_eq_trans (fixed_eq_of_frame f1) (tail_store_fixed _ _ _ _ _ _)
    · exact fixed_eq_of_frame f1
  · intro p hp
    simp only [List.mem_append] at hp
    rcases hp with hp | hp
    · exact Or.inl hp
    · right
      obtain ⟨j, hj⟩ := List.getElem?_of_mem hp
      obtain ⟨em, g1, _, _, g4⟩ := loop_pushes_get top _ j p hj
      rw [g4]
      exact fixed_eq_of_frame (f2 em (List.getElem?_mem g1))

theorem l_writek_impl_fixed {S : Type} (P : AesPrimitive S) (m : Mode) (ctx : l_ctx S)
    (data : Bytes) (en : Option (Nat × Nat)) :
    fixed_eq ctx (l_writek_impl P m ctx data en).ctx ∧
      ∀ p ∈ (l_writek_impl P m ctx data en).pushes, fixed_eq ctx p.ctx := by
  cases hd : CTX_FLAG ctx.flags FLAG_DESTROYED with
  | true =>
    rw [l_writek_impl_destroyed P m ctx data en hd]
    exact ⟨fixed_eq_refl ctx, by simp⟩
  | false =>
    by_cases he : entry_data en ≥ data.length
    · rw [l_writek_impl_end P m ctx data en hd he]
      exact ⟨fixed_eq_refl ctx, by simp⟩
    · by_cases ht : m.has_tail = true ∧ ctx.tail ≠ 0
      · by_cases hs : (wfill ctx data (entry_data en)).tail < 16
        · rw [l_writek_impl_short P m ctx data en hd he ht hs]
          exact ⟨⟨rfl, rfl, rfl⟩, by simp⟩
        · rw [l_writek_impl_full P m ctx data en hd he ht hs]
          have hc : fixed_eq ctx (tail_clear (wblock P m ctx data (entry_data en))) :=
            wblock_fixed P m ctx data (entry_data en)
          obtain ⟨r1, r2⟩ := writek_rest_fixed P m
            (tail_clear (wblock P m ctx data (entry_data en))) data
            (entry_data en + wtail ctx data (entry_data en))
            (data.length - entry_data en - wtail ctx data (entry_data en))
            [⟨entry_data en, entry_data en + wtail ctx data (entry_data en), 3,
              slice (tail_clear (wblock P m ctx data (entry_data en))).buffer 16 16,
              tail_clear (wblock P m ctx data (entry_data en))⟩]
            3
            (entry_asserts en data.length && decide (ctx.tail < 16) &&
              decide ((wfill ctx data (entry_data en)).tail = 16))
          refine ⟨fixed_eq_trans hc r1, ?_⟩
          intro p hp
          rcases r2 p hp with h | h
          · simp only [List.mem_singleton] at h
            rw [h]
            exact hc
          · exact fixed_eq_trans hc h
      · rw [l_writek_impl_notail P m ctx data en hd he ht]
        obtain ⟨r1, r2⟩ := writek_rest_fixed P m ctx data (entry_data en)
          (data.length - entry_data en) [] 2 (entry_asserts en data.length)
        refine ⟨r1, ?_⟩
        intro p hp
        rcases r2 p hp with h | h
        · simp at h
        · exact h

/-- No `write` changes the flags, the increment policy or the chunk size:
not in its result, and not in the context any of its sink calls sees. -/
theorem l_write_fixed {S : Type} (P : AesPrimitive S) (v : Nat) (m : Mode) (ctx : l_ctx S)
    (data : Bytes) :
    fixed_eq ctx (l_write P v m ctx data).ctx ∧
      ∀ call ∈ (l_write P v m ctx data).calls, fixed_eq ctx call.ctx := by
  unfold l_write
  cases hg : l_get_at m ctx with
  | some e => exact ⟨fixed_eq_refl ctx, by simp⟩
  | none =>
    simp only
    split
    · split
      · obtain ⟨r1, r2⟩ := l_writek_impl_fixed P m ctx data none
        refine ⟨r1, ?_⟩
        intro call hcall
        simp only [List.mem_map] at hcall
        obtain ⟨p, hp, rfl⟩ := hcall
        exact r2 p hp
      · exact l_write_impl_fixed P m ctx data
    · exact ⟨fixed_eq_refl ctx, by simp⟩

/-- A method call keeps the direction, the increment policy and the chunk size. -/
theorem step_fixed {S : Type} (P : AesPrimitive S) (v : Nat) (m : Mode) (ctx : l_ctx S)
    (op : Op) :
    CTX_FLAG (step P v m ctx op).flags FLAG_DECRYPT = CTX_FLAG ctx.flags FLAG_DECRYPT ∧
      (step P v m ctx op).inc_fn = ctx.inc_fn ∧
      (step P v m ctx op).buffer_size = ctx.buffer_size := by
  have keep : ∀ c : l_ctx S, fixed_eq ctx c →
      CTX_FLAG c.flags FLAG_DECRYPT = CTX_FLAG ctx.flags FLAG_DECRYPT ∧
        c.inc_fn = ctx.inc_fn ∧ c.buffer_size = ctx.buffer_size := by
    intro c h
    rw [h.1]
    exact ⟨rfl, h.2.1, h.2.2⟩
  cases op with
  | open_ctx key iv =>
    simp only [step]
    unfold l_open
    cases l_get_at m ctx with
    | some e => exact ⟨rfl, rfl, rfl⟩
    | none =>
      simp only
      split
      · exact ⟨rfl, rfl, rfl⟩
      · split
        · exact ⟨rfl, rfl, rfl⟩
        · split <;> split <;>
            first
            | exact ⟨rfl, rfl, rfl⟩
            | exact ⟨(flags_set_open ctx.flags).2.2, rfl, rfl⟩
  | close_ctx =>
    simp only [step]
    unfold l_close
    cases l_get_at m ctx with
    | some e => exact ⟨rfl, rfl, rfl⟩
    | none =>
      simp only
      split
      · exact ⟨(flags_clear_open ctx.flags).2.2, rfl, rfl⟩
      · exact ⟨rfl, rfl, rfl⟩
  | reset iv =>
    simp only [step]
    unfold l_reset
    cases l_get_at m ctx with
    | some e => exact ⟨rfl, rfl, rfl⟩
    | none =>
      simp only
      split
      · exact ⟨rfl, rfl, rfl⟩
      · split
        · exact ⟨rfl, rfl, rfl⟩
        · split <;> exact ⟨rfl, rfl, rfl⟩
  | write data => exact keep _ (l_write_fixed P v m ctx data).1
  | write_stop data i =>
    obtain ⟨r1, r2⟩ := l_write_fixed P v m ctx data
    simp only [step, ctx_after_sink_error]
    cases hc : (l_write P v m ctx data).calls.get? i with
    | none => exact keep _ r1
    | some call => exact keep _ (r2 call (List.get?_mem hc))
  | write_resume data cursor top =>
    simp only [step]
    split
    · exact keep _ (l_writek_impl_fixed P m ctx data (some (cursor, top))).1
    · exact ⟨rfl, rfl, rfl⟩
  | set_writer args =>
    simp only [step]
    unfold l_set_writer
    cases l_get_at m ctx with
    | some e => exact ⟨rfl, rfl, rfl⟩
    | none =>
      simp only
      split
      · split <;> exact ⟨rfl, rfl, rfl⟩
      · exact ⟨rfl, rfl, rfl⟩
      · exact ⟨rfl, rfl, rfl⟩
      · exact ⟨rfl, rfl, rfl⟩
      · split <;> exact ⟨rfl, rfl, rfl⟩
      · exact ⟨rfl, rfl, rfl⟩
  | get_writer =>
    simp only [step]
    unfold l_get_writer
    cases l_get_at m ctx <;> exact ⟨rfl, rfl, rfl⟩
  | destroy =>
    simp only [step]
    unfold l_destroy
    split
    · exact ⟨rfl, rfl, rfl⟩
    · simp only
      split
      · refine ⟨?_, rfl, rfl⟩
        show CTX_FLAG (ctx.flags &&& NOT_FLAG_OPEN ||| FLAG_DESTROYED) FLAG_DECRYPT = _
        rw [(flags_set_destroyed _).2.2, (flags_clear_open _).2.2]
      · exact ⟨(flags_set_destroyed ctx.flags).2.2, rfl, rfl⟩
  | destroyed => exact ⟨rfl, rfl, rfl⟩
  | closed =>
    simp only [step]
    unfold l_closed
    cases l_get_at m ctx <;> exact ⟨rfl, rfl, rfl⟩

theorem run_fixed {S : Type} (P : AesPrimitive S) (v : Nat) (m : Mode) (ops : List Op) :
    ∀ ctx : l_ctx S,
      CTX_FLAG (run P v m ctx ops).flags FLAG_DECRYPT = CTX_FLAG ctx.flags FLAG_DECRYPT ∧
        (run P v m ctx ops).inc_fn = ctx.inc_fn ∧
        (run P v m ctx ops).buffer_size = ctx.buffer_size := by
  induction ops with
  | nil => intro ctx; exact ⟨rfl, rfl, rfl⟩
  | cons op ops ih =>
    intro ctx
    simp only [run]
    obtain ⟨a1, a2, a3⟩ := ih (step P v m ctx op)
    obtain ⟨b1, b2, b3⟩ := step_fixed P v m ctx op
    exact ⟨a1.trans b1, a2.trans b2, a3.trans b3⟩

/-- The context the constructor returns. -/
theorem l_new_ok {S : Type} (P : AesPrimitive S) (m : Mode) (dec : Bool) (arg : Option Int)
    (c : l_ctx S) (h : l_new P m dec arg = Except.ok c) :
    c.flags = (if dec then 0 ||| FLAG_DECRYPT else 0) ∧
      c.inc_fn = (if m = Mode.CTR then some cbuf_inc.backwart_iv_inc else none) ∧
      c.buffer_size = (match arg with
        | none => 4096
        | some n => (n % 18446744073709551616).toNat) := by
  cases arg with
  | none =>
    simp only [l_new] at h
    split at h
    · cases h
    · injection h with h
      subst h
      exact ⟨rfl, rfl, rfl⟩
  | some n =>
    simp only [l_new] at h
    split at h
    · cases h
    · injection h with h
      subst h
      exact ⟨rfl, rfl, rfl⟩

/-- C25: the increment policy of a CTR context is fixed at creation.  Every
CTR context, encrypt or decrypt, is constructed with `backwart_iv_inc`, and
after any sequence of method calls (`open`, `close`, `reset`, `set_writer`,
`get_writer`, every kind of `write`, `destroy`, the inspections) the policy
is still `backwart_iv_inc`; on the state reached, `reset` with an IV of at
least 16 bytes replaces the counter by the first 16 bytes of the IV and
keeps the policy. -/
theorem ctr_policy_fixed {S : Type} (P : AesPrimitive S) (v : Nat) (dec : Bool)
    (arg : Option Int) (c0 : l_ctx S) (h : l_new P Mode.CTR dec arg = Except.ok c0)
    (ops : List Op) :
    c0.inc_fn = some cbuf_inc.backwart_iv_inc ∧
      (run P v Mode.CTR c0 ops).inc_fn = some cbuf_inc.backwart_iv_inc ∧
      ∀ iv : Bytes, (l_reset P Mode.CTR (run P v Mode.CTR c0 ops) iv).ctx.inc_fn =
          some cbuf_inc.backwart_iv_inc ∧
        (16 ≤ iv.length → CTX_FLAG (run P v Mode.CTR c0 ops).flags FLAG_DESTROYED = false →
          (l_reset P Mode.CTR (run P v Mode.CTR c0 ops) iv).ctx.iv = iv.take 16) := by
  have h0 : c0.inc_fn = some cbuf_inc.backwart_iv_inc := by
    rw [(l_new_ok P Mode.CTR dec arg c0 h).2.1]
    simp
  have hr := (run_fixed P v Mode.CTR ops c0).2.1
  refine ⟨h0, hr.trans h0, ?_⟩
  intro iv
  constructor
  · have hs := (step_fixed P v Mode.CTR (run P v Mode.CTR c0 ops) (Op.reset iv)).2.1
    exact hs.trans (hr.trans h0)
  · intro hl hnd
    unfold l_reset
    rw [l_get_at_none Mode.CTR _ hnd]
    simp [Nat.not_lt.mpr hl, Mode.has_tail]

theorem ctr_policy_fixed_witness :
    ∃ c0 : l_ctx Bytes, l_new toyAes Mode.CTR true (some ((32 : Nat) : Int)) = Except.ok c0 ∧
      c0.inc_fn = some cbuf_inc.backwart_iv_inc ∧
      (run toyAes 502 Mode.CTR c0
        [Op.open_ctx (List.replicate 16 7) (List.range 16), Op.write (List.range 40),
          Op.reset (List.replicate 16 255), Op.set_writer [LuaValue.func 1],
          Op.write_stop (List.range 70) 1, Op.close_ctx, Op.destroy]).inc_fn = some cbuf_inc.backwart_iv_inc :=
  ⟨_, l_new_accepted toyAes Mode.CTR true 32 (by decide) (by decide),
    (ctr_policy_fixed toyAes 502 true (some ((32 : Nat) : Int)) _
      (l_new_accepted toyAes Mode.CTR true 32 (by decide) (by decide)) []).1,
    (ctr_policy_fixed toyAes 502 true (some ((32 : Nat) : Int)) _
      (l_new_accepted toyAes Mode.CTR true 32 (by decide) (by decide)) _).2.1⟩

/-- C26: direction and chunk size are immutable, for every mode.  In every
state reached from a constructed context by any sequence of method calls
(`open`, `close`, `reset`, `set_writer`, `get_writer`, every kind of
`write`, `destroy`, the inspections; returning or raising), the Decrypt flag
is set exactly when the context was built by the decrypt constructor, and
the chunk size is the one the constructor stored. -/
theorem direction_and_chunk_size_fixed {S : Type} (P : AesPrimitive S) (v : Nat) (m : Mode)
    (dec : Bool) (arg : Option Int) (c0 : l_ctx S) (h : l_new P m dec arg = Except.ok c0)
    (ops : List Op) :
    CTX_FLAG (run P v m c0 ops).flags FLAG_DECRYPT = dec ∧
      (run P v m c0 ops).buffer_size = c0.buffer_size ∧
      c0.buffer_size = (match arg with
        | none => 4096
        | some n => (n % 18446744073709551616).toNat) := by
  obtain ⟨n1, _, n3⟩ := l_new_ok P m dec arg c0 h
  obtain ⟨r1, _, r3⟩ := run_fixed P v m ops c0
  refine ⟨?_, r3, n3⟩
  rw [r1, n1]
  cases dec <;> decide

theorem direction_and_chunk_size_fixed_witness :
    ∃ c0 : l_ctx Bytes, l_new toyAes Mode.CBC true (some ((48 : Nat) : Int)) = Except.ok c0 ∧
      c0.buffer_size = 48 ∧
      CTX_FLAG (run toyAes 501 Mode.CBC c0
        [Op.open_ctx (List.replicate 16 7) (List.range 16), Op.write (List.range 40),
          Op.reset (List.replicate 16 255), Op.set_writer [LuaValue.func 1],
          Op.write_stop (List.range 70) 1, Op.close_ctx, Op.destroy]).flags FLAG_DECRYPT = true ∧
      (run toyAes 501 Mode.CBC c0
        [Op.open_ctx (List.replicate 16 7) (List.range 16), Op.write (List.range 40),
          Op.reset (List.replicate 16 255), Op.set_writer [LuaValue.func 1],
          Op.write_stop (List.range 70) 1, Op.close_ctx, Op.destroy]).buffer_size = c0.buffer_size :=
  ⟨_, l_new_accepted toyAes Mode.CBC true 48 (by decide) (by decide), rfl,
    (direction_and_chunk_size_fixed toyAes 501 Mode.CBC true (some ((48 : Nat) : Int)) _
      (l_new_accepted toyAes Mode.CBC true 48 (by decide) (by decide)) _).1,
    (direction_and_chunk_size_fixed toyAes 501 Mode.CBC true (some ((48 : Nat) : Int)) _
      (l_new_accepted toyAes Mode.CBC true 48 (by decide) (by decide)) _).2.1⟩

/-! ## The shape of a sink call -/

theorem sink_call_congr {S : Type} (a b : l_ctx S) (chunk : Bytes)
    (h1 : b.writer_cb_ref = a.writer_cb_ref) (h2 : b.writer_ud_ref = a.writer_ud_ref) :
    sink_call b chunk = sink_call a chunk := by
  unfold sink_call push_writer_values
  rw [h1, h2]

/-- C21: the receiver is passed on every push, for every mode, Lua version
and context that is not Destroyed.  After `set_writer(f)` with a function
`f`, every sink call of a `write` (the tail-completion block and every
sub-run chunk alike) is `f(chunk)`; after `set_writer(f, r)` it is
`f(r, chunk)`; after `set_writer(obj)` with an object whose `write` member
is a function, it is `obj.write(obj, chunk)`; and `get_writer` returns the
bound consumer and receiver (nil for a receiver that is not bound). -/
theorem receiver_passed_on_every_push {S : Type} (P : AesPrimitive S) (v : Nat) (m : Mode)
    (ctx : l_ctx S) (hnd : CTX_FLAG ctx.flags FLAG_DESTROYED = false) (data : Bytes) :
    (∀ f : Nat,
      (∀ call ∈ (l_write P v m (l_set_writer m ctx [LuaValue.func f]).ctx data).calls,
        sink_call call.ctx call.chunk = ⟨LuaValue.func f, [], call.chunk⟩) ∧
      (l_get_writer m (l_set_writer m ctx [LuaValue.func f]).ctx).result =
        LuaResult.vals (LuaValue.func f) LuaValue.nil) ∧
    (∀ (f r : LuaValue) (more : List LuaValue), f ≠ LuaValue.nil →
      (∀ call ∈ (l_write P v m (l_set_writer m ctx (f :: r :: more)).ctx data).calls,
        sink_call call.ctx call.chunk = ⟨f, [r], call.chunk⟩) ∧
      (l_get_writer m (l_set_writer m ctx (f :: r :: more)).ctx).result =
        LuaResult.vals f r) ∧
    (∀ o w : Nat,
      (∀ call ∈
          (l_write P v m (l_set_writer m ctx [LuaValue.object o (Member.func w)]).ctx data).calls,
        sink_call call.ctx call.chunk =
          ⟨LuaValue.func w, [LuaValue.object o (Member.func w)], call.chunk⟩) ∧
      (l_get_writer m (l_set_writer m ctx [LuaValue.object o (Member.func w)]).ctx).result =
        LuaResult.vals (LuaValue.func w) (LuaValue.object o (Member.func w))) := by
  have hget : ∀ c : l_ctx S, c.flags = ctx.flags →
      (l_get_writer m c).result =
        LuaResult.vals (lua_rawgeti c.writer_cb_ref) (lua_rawgeti c.writer_ud_ref) := by
    intro c hf
    unfold l_get_writer
    rw [l_get_at_none m c (by rw [hf]; exact hnd)]
  have hcall : ∀ (c : l_ctx S) (call : Call S), call ∈ (l_write P v m c data).calls →
      sink_call call.ctx call.chunk = sink_call c call.chunk := by
    intro c call hc
    obtain ⟨_, h2, h3⟩ := (l_write_sink P v m c data).2 call hc
    exact sink_call_congr c call.ctx call.chunk h2 h3
  refine ⟨?_, ?_, ?_⟩
  · intro f
    have hs : l_set_writer m ctx [LuaValue.func f] =
        ⟨{ ctx with writer_ud_ref := Ref.noref, writer_cb_ref := Ref.ref (LuaValue.func f) },
          LuaResult.self⟩ := by
      simp [l_set_writer, l_get_at_none m ctx hnd, luaL_ref]
    rw [hs]
    exact ⟨fun call hc => (hcall _ call hc).trans rfl,
      (hget { ctx with writer_ud_ref := Ref.noref, writer_cb_ref := Ref.ref (LuaValue.func f) }
        rfl).trans rfl⟩
  · intro f r more hf
    have hs : l_set_writer m ctx (f :: r :: more) =
        ⟨{ ctx with writer_ud_ref := luaL_ref r, writer_cb_ref := Ref.ref f },
          LuaResult.self⟩ := by
      simp [l_set_writer, l_get_at_none m ctx hnd, luaL_ref, hf]
    have hr : lua_rawgeti (luaL_ref r) = r := by
      unfold luaL_ref
      split
      · rename_i h; rw [h]; rfl
      · rfl
    have hne : luaL_ref r ≠ Ref.noref := by
      unfold luaL_ref
      split <;> simp
    rw [hs]
    refine ⟨fun call hc => (hcall _ call hc).trans ?_,
      (hget { ctx with writer_ud_ref := luaL_ref r, writer_cb_ref := Ref.ref f } rfl).trans ?_⟩
    · have hrf : lua_rawgeti (Ref.ref f) = f := rfl
      simp [sink_call, push_writer_values, hne, hr, hrf]
    · have hrf : lua_rawgeti (Ref.ref f) = f := rfl
      simp [hr, hrf]
  · intro o w
    have hs : l_set_writer m ctx [LuaValue.object o (Member.func w)] =
        ⟨{ ctx with writer_ud_ref := Ref.ref (LuaValue.object o (Member.func w)),
                    writer_cb_ref := Ref.ref (LuaValue.func w) }, LuaResult.self⟩ := by
      simp [l_set_writer, l_get_at_none m ctx hnd, luaL_ref]
    rw [hs]
    exact ⟨fun call hc => (hcall _ call hc).trans rfl,
      (hget { ctx with writer_ud_ref := Ref.ref (LuaValue.object o (Member.func w)),
                       writer_cb_ref := Ref.ref (LuaValue.func w) } rfl).trans rfl⟩

theorem receiver_passed_on_every_push_witness :
    CTX_FLAG (toy_ctx Mode.CBC false 32 5).flags FLAG_DESTROYED = false ∧
      (l_write toyAes 501 Mode.CBC
        (l_set_writer Mode.CBC (toy_ctx Mode.CBC false 32 5)
          [LuaValue.func 1, LuaValue.other 2]).ctx (List.range 100)).calls.length = 4 ∧
      ∀ call ∈ (l_write toyAes 501 Mode.CBC
          (l_set_writer Mode.CBC (toy_ctx Mode.CBC false 32 5)
            [LuaValue.func 1, LuaValue.other 2]).ctx (List.range 100)).calls,
        sink_call call.ctx call.chunk = ⟨LuaValue.func 1, [LuaValue.other 2], call.chunk⟩ :=
  ⟨by decide, by decide,
    (((receiver_passed_on_every_push toyAes 501 Mode.CBC (toy_ctx Mode.CBC false 32 5)
      (by decide) (List.range 100)).2.1) (LuaValue.func 1) (LuaValue.other 2) []
      (by decide)).1⟩

/-! ## Push mode and accumulate mode -/

theorem mode_call_with_sink {S : Type} (P : AesPrimitive S) (m : Mode) (c : l_ctx S)
    (cb ud : Ref) (ib : Bytes) : mode_call P m (with_sink c cb ud) ib = mode_call P m c ib := by
  cases m <;> rfl

theorem loop_ctx_with_sink {S : Type} (P : AesPrimitive S) (m : Mode) (data : Bytes) (e b : Nat)
    (c : l_ctx S) (cb ud : Ref) :
    loop_ctx P m data e b (with_sink c cb ud) = with_sink (loop_ctx P m data e b c) cb ud := by
  unfold loop_ctx
  rw [mode_call_with_sink]
  rfl

/-- The sub-run loop does not read the sink binding. -/
theorem write_loop_with_sink {S : Type} (P : AesPrimitive S) (m : Mode) (data : Bytes) (e : Nat)
    (cb ud : Ref) :
    ∀ (fuel b : Nat) (c : l_ctx S),
      write_loop P m data e fuel b (with_sink c cb ud) =
        ⟨with_sink (write_loop P m data e fuel b c).ctx cb ud,
          (write_loop P m data e fuel b c).emits.map
            (fun em => ⟨em.b, em.left, em.chunk, with_sink em.ctx cb ud⟩),
          (write_loop P m data e fuel b c).status⟩ := by
  intro fuel
  induction fuel with
  | zero => intro b c; rfl
  | succ k ih =>
    intro b c
    by_cases hb : b < e
    · cases hr : (mode_call P m c (slice data b (loop_left c.buffer_size e b))).ret with
      | true =>
        have hr2 : (mode_call P m (with_sink c cb ud)
            (slice data b (loop_left (with_sink c cb ud).buffer_size e b))).ret = true := by
          rw [mode_call_with_sink]; exact hr
        rw [write_loop_succ_ok P m data e k b c hb hr,
          write_loop_succ_ok P m data e k b (with_sink c cb ud) hb hr2, loop_ctx_with_sink]
        have hbs : (with_sink c cb ud).buffer_size = c.buffer_size := rfl
        rw [hbs, ih]
        rfl
      | false =>
        have hr2 : (mode_call P m (with_sink c cb ud)
            (slice data b (loop_left (with_sink c cb ud).buffer_size e b))).ret = false := by
          rw [mode_call_with_sink]; exact hr
        rw [write_loop_succ_fail P m data e k b c hb hr,
          write_loop_succ_fail P m data e k b (with_sink c cb ud) hb hr2, loop_ctx_with_sink]
        rfl
    · rw [write_loop_done P m data e k b c (Nat.not_lt.mp hb),
        write_loop_done P m data e k b (with_sink c cb ud) (Nat.not_lt.mp hb)]
      rfl

theorem tail_store_with_sink {S : Type} (m : Mode) (c : l_ctx S) (cb ud : Ref) (data : Bytes)
    (off len al : Nat) :
    tail_store m (with_sink c cb ud) data off len al =
      with_sink (tail_store m c data off len al) cb ud := by
  unfold tail_store
  split <;> rfl

theorem wblock_with_sink {S : Type} (P : AesPrimitive S) (m : Mode) (c : l_ctx S) (cb ud : Ref)
    (data : Bytes) (d0 : Nat) :
    wblock P m (with_sink c cb ud) data d0 = with_sink (wblock P m c data d0) cb ud := by
  unfold wblock tail_block
  have h : wfill (with_sink c cb ud) data d0 = with_sink (wfill c data d0) cb ud := rfl
  rw [h, mode_call_with_sink]
  rfl

/-- The parts of the result of `write_rest`. -/
theorem write_rest_proj {S : Type} (P : AesPrimitive S) (m : Mode) (ub : Bool) (c : l_ctx S)
    (data : Bytes) (off len : Nat) (pre : List (Call S)) (ok : Bool) (L : LoopRet S)
    (hL : L = write_loop P m data (off + align_len m len) (align_len m len + 1) off c) :
    (write_rest P m ub c data off len pre ok).calls =
        (if ub then [] else pre ++ loop_calls L.emits) ∧
      (write_rest P m ub c data off len pre ok).ctx =
        rest_ctx m L data off len (align_len m len) ∧
      (write_rest P m ub c data off len pre ok).result =
        (match L.status with
          | LoopStatus.done =>
            if ub then LuaResult.str ((pre ++ loop_calls L.emits).map fun c => c.chunk).flatten
            else LuaResult.ret0
          | LoopStatus.failed => LuaResult.nilmsg "invalid block length"
          | LoopStatus.fuel => LuaResult.hang) := by
  subst hL
  unfold write_rest rest_ctx
  simp only
  cases (write_loop P m data (off + align_len m len) (align_len m len + 1) off c).status <;>
    exact ⟨rfl, rfl, rfl⟩

theorem with_sink_chunks {S : Type} (emits : List (Emit S)) (cb ud : Ref) :
    emit_chunks (emits.map fun em => (⟨em.b, em.left, em.chunk, with_sink em.ctx cb ud⟩ : Emit S)) =
      emit_chunks emits := by
  simp [emit_chunks, Function.comp]

/-- The rest of a write in push mode, against the same in accumulate mode. -/
theorem write_rest_push_acc {S : Type} (P : AesPrimitive S) (m : Mode) (c : l_ctx S)
    (cb ud : Ref) (data : Bytes) (off len : Nat) (preA preP : List (Call S)) (ok1 ok2 : Bool)
    (out : Bytes) (hpre : preP.map (fun c => c.chunk) = preA.map (fun c => c.chunk))
    (hacc : (write_rest P m true c data off len preA ok1).result = LuaResult.str out) :
    (write_rest P m false (with_sink c cb ud) data off len preP ok2).result = LuaResult.ret0 ∧
      ((write_rest P m false (with_sink c cb ud) data off len preP ok2).calls.map
        fun c => c.chunk).flatten = out ∧
      (write_rest P m false (with_sink c cb ud) data off len preP ok2).ctx =
        with_sink (write_rest P m true c data off len preA ok1).ctx cb ud ∧
      ∃ rest, (write_rest P m false (with_sink c cb ud) data off len preP ok2).calls =
        preP ++ rest := by
  obtain ⟨_, a2, a3⟩ := write_rest_proj P m true c data off len preA ok1 _ rfl
  obtain ⟨p1, p2, p3⟩ := write_rest_proj P m false (with_sink c cb ud) data off len preP ok2 _ rfl
  rw [a3] at hacc
  rw [p1, p2, p3, a2, write_loop_with_sink]
  unfold rest_ctx
  simp only
  cases hst : (write_loop P m data (off + align_len m len) (align_len m len + 1) off c).status with
  | failed => rw [hst] at hacc; simp at hacc
  | fuel => rw [hst] at hacc; simp at hacc
  | done =>
    rw [hst] at hacc
    simp only [if_true, LuaResult.str.injEq] at hacc
    refine ⟨by simp, ?_, ?_, ⟨_, rfl⟩⟩
    · rw [← hacc]
      simp only [Bool.false_eq_true, if_false, List.map_append, loop_calls_chunks, hpre,
        with_sink_chunks]
    · exact tail_store_with_sink m _ cb ud data off len _

/-- `write_impl` with a sink bound, against `write_impl` without one on the
same state. -/
theorem l_write_impl_push_acc {S : Type} (P : AesPrimitive S) (m : Mode) (c : l_ctx S)
    (cb ud : Ref) (hc : c.writer_cb_ref = Ref.noref) (hcb : cb ≠ Ref.noref) (data out : Bytes)
    (hacc : (l_write_impl P m c data).result = LuaResult.str out) :
    (l_write_impl P m (with_sink c cb ud) data).result = LuaResult.ret0 ∧
      ((l_write_impl P m (with_sink c cb ud) data).calls.map fun c => c.chunk).flatten = out ∧
      (l_write_impl P m (with_sink c cb ud) data).ctx =
        with_sink (l_write_impl P m c data).ctx cb ud ∧
      (m.has_tail = true ∧ c.tail ≠ 0 → ¬(wfill c data 0).tail < 16 →
        ∃ rest, (l_write_impl P m (with_sink c cb ud) data).calls =
          ⟨slice (wblock P m c data 0).buffer 16 16, with_sink (wblock P m c data 0) cb ud⟩ ::
            rest) := by
  have hdA : decide (c.writer_cb_ref = Ref.noref) = true := by simp [hc]
  have hdP : decide ((with_sink c cb ud).writer_cb_ref = Ref.noref) = false := by
    simp [with_sink, hcb]
  cases hd : CTX_FLAG c.flags FLAG_DESTROYED with
  | true =>
    rw [l_write_impl_destroyed P m c data hd] at hacc
    simp at hacc
  | false =>
    have hd2 : CTX_FLAG (with_sink c cb ud).flags FLAG_DESTROYED = false := hd
    by_cases ht : m.has_tail = true ∧ c.tail ≠ 0
    · have ht2 : m.has_tail = true ∧ (with_sink c cb ud).tail ≠ 0 := ht
      by_cases hs : (wfill c data 0).tail < 16
      · have hs2 : (wfill (with_sink c cb ud) data 0).tail < 16 := hs
        rw [l_write_impl_short P m c data hd ht hs, hdA] at hacc
        rw [l_write_impl_short P m c data hd ht hs,
          l_write_impl_short P m (with_sink c cb ud) data hd2 ht2 hs2, hdP]
        simp only [if_true, LuaResult.str.injEq] at hacc
        refine ⟨by simp, by simp [← hacc], rfl, fun _ h => absurd hs h⟩
      · have hs2 : ¬(wfill (with_sink c cb ud) data 0).tail < 16 := hs
        have e : tail_clear (wblock P m (with_sink c cb ud) data 0) =
            with_sink (tail_clear (wblock P m c data 0)) cb ud := by
          rw [wblock_with_sink]; rfl
        have ew : wtail (with_sink c cb ud) data 0 = wtail c data 0 := rfl
        rw [l_write_impl_full P m c data hd ht hs, hdA] at hacc
        rw [l_write_impl_full P m c data hd ht hs,
          l_write_impl_full P m (with_sink c cb ud) data hd2 ht2 hs2, hdP, hdA, e, ew,
          wblock_with_sink]
        obtain ⟨r1, r2, r3, rest, r4⟩ := write_rest_push_acc P m (tail_clear (wblock P m c data 0))
          cb ud data (wtail c data 0) (data.length - wtail c data 0)
          [⟨slice (wblock P m c data 0).buffer 16 16, wblock P m c data 0⟩]
          [⟨slice (with_sink (wblock P m c data 0) cb ud).buffer 16 16,
            with_sink (wblock P m c data 0) cb ud⟩]
          (decide (c.tail < 16) && decide ((wfill c data 0).tail = 16))
          (decide ((with_sink c cb ud).tail < 16) &&
            decide ((wfill (with_sink c cb ud) data 0).tail = 16))
          out rfl hacc
        exact ⟨r1, r2, r3, fun _ _ => ⟨rest, r4⟩⟩
    · have ht2 : ¬(m.has_tail = true ∧ (with_sink c cb ud).tail ≠ 0) := ht
      rw [l_write_impl_notail P m c data hd ht, hdA] at hacc
      rw [l_write_impl_notail P m c data hd ht,
        l_write_impl_notail P m (with_sink c cb ud) data hd2 ht2, hdP, hdA]
      obtain ⟨r1, r2, r3, _⟩ := write_rest_push_acc P m c cb ud data 0 data.length [] [] true
        true out rfl hacc
      exact ⟨r1, r2, r3, fun h => absurd h ht⟩

theorem loop_pushes_chunks {S : Type} (top : Nat) (emits : List (Emit S)) :
    (loop_pushes top emits).map (fun p => p.chunk) = emit_chunks emits := by
  induction emits generalizing top with
  | nil => rfl
  | cons em rest ih =>
    simp only [loop_pushes, List.map_cons, emit_chunks]
    rw [ih 2]
    rfl

/-- The rest of a resumable write, against the same in accumulate mode. -/
theorem writek_rest_push_acc {S : Type} (P : AesPrimitive S) (m : Mode) (c : l_ctx S)
    (cb ud : Ref) (data : Bytes) (off len : Nat) (preA : List (Call S)) (preP : List (Push S))
    (ok1 ok2 : Bool) (top : Nat) (out : Bytes)
    (hpre : preP.map (fun p => p.chunk) = preA.map (fun c => c.chunk))
    (hacc : (write_rest P m true c data off len preA ok1).result = LuaResult.str out) :
    (writek_rest P m (with_sink c cb ud) data off len preP top ok2).result = LuaResult.ret0 ∧
      ((writek_rest P m (with_sink c cb ud) data off len preP top ok2).pushes.map
        fun p => p.chunk).flatten = out ∧
      (writek_rest P m (with_sink c cb ud) data off len preP top ok2).ctx =
        with_sink (write_rest P m true c data off len preA ok1).ctx cb ud ∧
      ∃ rest, (writek_rest P m (with_sink c cb ud) data off len preP top ok2).pushes =
        preP ++ rest := by
  obtain ⟨_, a2, a3⟩ := write_rest_proj P m true c data off len preA ok1 _ rfl
  obtain ⟨p1, p2, p3⟩ := writek_rest_proj P m (with_sink c cb ud) data off len preP top ok2
  rw [a3] at hacc
  rw [p1, p2, p3, a2, write_loop_with_sink]
  unfold rest_ctx rest_result
  simp only
  cases hst : (write_loop P m data (off + align_len m len) (align_len m len + 1) off c).status with
  | failed => rw [hst] at hacc; simp at hacc
  | fuel => rw [hst] at hacc; simp at hacc
  | done =>
    rw [hst] at hacc
    simp only [if_true, LuaResult.str.injEq] at hacc
    refine ⟨rfl, ?_, ?_, ⟨_, rfl⟩⟩
    · rw [← hacc]
      simp only [List.map_append, loop_calls_chunks, loop_pushes_chunks, hpre, with_sink_chunks]
    · exact tail_store_with_sink m _ cb ud data off len _

/-- `writek` called by `write`, against `write_impl` without a sink on the
same state. -/
theorem l_writek_impl_push_acc {S : Type} (P : AesPrimitive S) (m : Mode) (c : l_ctx S)
    (cb ud : Ref) (hc : c.writer_cb_ref = Ref.noref) (ht16 : m.has_tail = true → c.tail < 16)
    (data out : Bytes) (hacc : (l_write_impl P m c data).result = LuaResult.str out) :
    (l_writek_impl P m (with_sink c cb ud) data none).result = LuaResult.ret0 ∧
      ((l_writek_impl P m (with_sink c cb ud) data none).pushes.map fun p => p.chunk).flatten =
        out ∧
      (l_writek_impl P m (with_sink c cb ud) data none).ctx =
        with_sink (l_write_impl P m c data).ctx cb ud ∧
      (m.has_tail = true ∧ c.tail ≠ 0 → ¬(wfill c data 0).tail < 16 →
        ∃ rest, (l_writek_impl P m (with_sink c cb ud) data none).pushes.map (fun p => p.chunk) =
          slice (wblock P m c data 0).buffer 16 16 :: rest) := by
  have hdA : decide (c.writer_cb_ref = Ref.noref) = true := by simp [hc]
  have h0 : entry_data none = 0 := rfl
  cases hd : CTX_FLAG c.flags FLAG_DESTROYED with
  | true =>
    rw [l_write_impl_destroyed P m c data hd] at hacc
    simp at hacc
  | false =>
    have hd2 : CTX_FLAG (with_sink c cb ud).flags FLAG_DESTROYED = false := hd
    by_cases he : entry_data none ≥ data.length
    · have hnil : data = [] := by
        rw [h0] at he
        exact List.length_eq_zero.mp (by omega)
      subst hnil
      rw [l_write_impl_nil P m c hd ht16, hdA] at hacc
      rw [l_write_impl_nil P m c hd ht16, l_writek_impl_end P m _ [] none hd2 he]
      simp only [if_true, LuaResult.str.injEq] at hacc
      refine ⟨rfl, by simp [← hacc], rfl, ?_⟩
      intro h1 h2
      exact absurd (by rw [wfill_nil c 0 (ht16 h1.1)]; exact ht16 h1.1) h2
    · by_cases ht : m.has_tail = true ∧ c.tail ≠ 0
      · have ht2 : m.has_tail = true ∧ (with_sink c cb ud).tail ≠ 0 := ht
        by_cases hs : (wfill c data 0).tail < 16
        · have hs2 : (wfill (with_sink c cb ud) data (entry_data none)).tail < 16 := hs
          rw [l_write_impl_short P m c data hd ht hs, hdA] at hacc
          rw [l_write_impl_short P m c data hd ht hs,
            l_writek_impl_short P m (with_sink c cb ud) data none hd2 he ht2 hs2]
          simp only [if_true, LuaResult.str.injEq] at hacc
          refine ⟨rfl, by simp [← hacc], rfl, fun _ h => absurd hs h⟩
        · have hs2 : ¬(wfill (with_sink c cb ud) data (entry_data none)).tail < 16 := hs
          have e : tail_clear (wblock P m (with_sink c cb ud) data 0) =
              with_sink (tail_clear (wblock P m c data 0)) cb ud := by
            rw [wblock_with_sink]; rfl
          have ew : wtail (with_sink c cb ud) data 0 = wtail c data 0 := rfl
          rw [l_write_impl_full P m c data hd ht hs, hdA] at hacc
          rw [l_write_impl_full P m c data hd ht hs,
            l_writek_impl_full P m (with_sink c cb ud) data none hd2 he ht2 hs2, hdA, h0, e, ew]
          simp only [Nat.zero_add, Nat.sub_zero]
          obtain ⟨r1, r2, r3, rest, r4⟩ := writek_rest_push_acc P m
            (tail_clear (wblock P m c data 0)) cb ud data (wtail c data 0)
            (data.length - wtail c data 0)
            [⟨slice (wblock P m c data 0).buffer 16 16, wblock P m c data 0⟩]
            [⟨0, wtail c data 0, 3,
              slice (with_sink (tail_clear (wblock P m c data 0)) cb ud).buffer 16 16,
              with_sink (tail_clear (wblock P m c data 0)) cb ud⟩]
            (decide (c.tail < 16) && decide ((wfill c data 0).tail = 16))
            (entry_asserts none data.length && decide ((with_sink c cb ud).tail < 16) &&
              decide ((wfill (with_sink c cb ud) data 0).tail = 16))
            3 out rfl hacc
          refine ⟨r1, r2, r3, fun _ _ => ⟨rest.map fun p => p.chunk, ?_⟩⟩
          rw [r4]
          rfl
      · have ht2 : ¬(m.has_tail = true ∧ (with_sink c cb ud).tail ≠ 0) := ht
        rw [l_write_impl_notail P m c data hd ht, hdA] at hacc
        rw [l_write_impl_notail P m c data hd ht,
          l_writek_impl_notail P m (with_sink c cb ud) data none hd2 he ht2, hdA, h0]
        simp only [Nat.sub_zero]
        obtain ⟨r1, r2, r3, _⟩ := writek_rest_push_acc P m c cb ud data 0 data.length [] [] true
          (entry_asserts none data.length) 2 out rfl hacc
        exact ⟨r1, r2, r3, fun h => absurd h ht⟩

/-- C22: push mode agrees with accumulate mode, for every mode and Lua
version (so for the plain push path and the resumable path alike).  Take an
Open context (with fewer than 16 buffered bytes for ECB and CBC) and an input
for which `write` without a sink returns a string.  With any consumer bound
on the same state and a sink whose calls return, `write` returns nothing,
the chunks it passes to the sink, concatenated in the order of the calls,
are that string, and it leaves the same context (tail, buffer, chaining
register, schedule) up to the sink binding.  For ECB and CBC, when the
buffered bytes and the input complete a block, the first chunk passed is
the tail-completion block. -/
theorem push_agrees_with_accumulate {S : Type} (P : AesPrimitive S) (v : Nat) (m : Mode)
    (ctx : l_ctx S) (cb ud : Ref) (hcb : cb ≠ Ref.noref)
    (hopen : CTX_FLAG ctx.flags FLAG_OPEN = true) (ht16 : m.has_tail = true → ctx.tail < 16)
    (data out : Bytes)
    (hacc : (l_write P v m (with_sink ctx Ref.noref Ref.noref) data).result =
      LuaResult.str out) :
    (l_write P v m (with_sink ctx cb ud) data).result = LuaResult.ret0 ∧
      ((l_write P v m (with_sink ctx cb ud) data).calls.map fun c => c.chunk).flatten = out ∧
      (l_write P v m (with_sink ctx cb ud) data).ctx =
        with_sink (l_write P v m (with_sink ctx Ref.noref Ref.noref) data).ctx cb ud ∧
      (m.has_tail = true → ctx.tail ≠ 0 → 16 ≤ ctx.tail + data.length →
        ∃ rest, (l_write P v m (with_sink ctx cb ud) data).calls.map (fun c => c.chunk) =
          slice (wblock P m ctx data 0).buffer 16 16 :: rest) := by
  have hoA : CTX_FLAG (with_sink ctx Ref.noref Ref.noref).flags FLAG_OPEN = true := hopen
  have hoP : CTX_FLAG (with_sink ctx cb ud).flags FLAG_OPEN = true := hopen
  have hbuf : (wblock P m (with_sink ctx Ref.noref Ref.noref) data 0).buffer =
      (wblock P m ctx data 0).buffer := by
    rw [wblock_with_sink]; rfl
  have hfull : m.has_tail = true → ctx.tail ≠ 0 → 16 ≤ ctx.tail + data.length →
      ¬(wfill (with_sink ctx Ref.noref Ref.noref) data 0).tail < 16 := by
    intro h1 _ h3
    have hw : wtail ctx data 0 = 16 - ctx.tail := by
      rw [wtail_eq ctx data 0 (ht16 h1)]; omega
    have ht := ht16 h1
    show ¬(ctx.tail + wtail ctx data 0) % 256 < 16
    rw [hw]
    omega
  cases hd : CTX_FLAG ctx.flags FLAG_DESTROYED with
  | true =>
    have hw : l_write P v m (with_sink ctx Ref.noref Ref.noref) data =
        ⟨with_sink ctx Ref.noref Ref.noref, [],
          LuaResult.error (L_NAME m ++ " is destroyed"), true⟩ := by
      simp [l_write, l_get_at_some m _ (show CTX_FLAG
        (with_sink ctx Ref.noref Ref.noref).flags FLAG_DESTROYED = true from hd)]
    rw [hw] at hacc
    simp at hacc
  | false =>
    have hdA : CTX_FLAG (with_sink ctx Ref.noref Ref.noref).flags FLAG_DESTROYED = false := hd
    have hdP : CTX_FLAG (with_sink ctx cb ud).flags FLAG_DESTROYED = false := hd
    have hA : l_write P v m (with_sink ctx Ref.noref Ref.noref) data =
        l_write_impl P m (with_sink ctx Ref.noref Ref.noref) data :=
      l_write_accumulate P v m _ data hoA hdA rfl
    rw [hA] at hacc ⊢
    have hws : with_sink (with_sink ctx Ref.noref Ref.noref) cb ud = with_sink ctx cb ud := rfl
    by_cases hv : v ≥ 502
    · have hP : l_write P v m (with_sink ctx cb ud) data =
          ⟨(l_writek_impl P m (with_sink ctx cb ud) data none).ctx,
            (l_writek_impl P m (with_sink ctx cb ud) data none).pushes.map
              fun p => (⟨p.chunk, p.ctx⟩ : Call S),
            (l_writek_impl P m (with_sink ctx cb ud) data none).result,
            (l_writek_impl P m (with_sink ctx cb ud) data none).asserts_ok⟩ := by
        unfold l_write
        rw [l_get_at_none m _ hdP]
        simp only [hoP, if_true]
        rw [if_pos ⟨hv, hcb⟩]
      obtain ⟨r1, r2, r3, r4⟩ := l_writek_impl_push_acc P m (with_sink ctx Ref.noref Ref.noref)
        cb ud rfl ht16 data out hacc
      rw [hws] at r1 r2 r3 r4
      rw [hP]
      refine ⟨r1, ?_, r3, ?_⟩
      · simpa [Function.comp] using r2
      · intro h1 h2 h3
        obtain ⟨rest, hr⟩ := r4 ⟨h1, h2⟩ (hfull h1 h2 h3)
        rw [hbuf] at hr
        exact ⟨rest, by simpa [Function.comp] using hr⟩
    · have hP : l_write P v m (with_sink ctx cb ud) data =
          l_write_impl P m (with_sink ctx cb ud) data := by
        unfold l_write
        rw [l_get_at_none m _ hdP]
        simp only [hoP, if_true]
        rw [if_neg (fun h => hv h.1)]
      obtain ⟨r1, r2, r3, r4⟩ := l_write_impl_push_acc P m (with_sink ctx Ref.noref Ref.noref)
        cb ud rfl hcb data out hacc
      rw [hws] at r1 r2 r3 r4
      rw [hP]
      refine ⟨r1, r2, r3, ?_⟩
      intro h1 h2 h3
      obtain ⟨rest, hr⟩ := r4 ⟨h1, h2⟩ (hfull h1 h2 h3)
      rw [hbuf] at hr
      exact ⟨rest.map fun c => c.chunk, by rw [hr]; rfl⟩

theorem push_agrees_with_accumulate_witness :
    (l_write toyAes 502 Mode.CBC (with_sink (toy_ctx Mode.CBC false 32 5) Ref.noref Ref.noref)
          (List.range 100)).result =
        LuaResult.str (result_bytes (l_write toyAes 502 Mode.CBC (with_sink (toy_ctx Mode.CBC false 32 5) Ref.noref Ref.noref)
          (List.range 100)).result) ∧
      ((l_write toyAes 502 Mode.CBC
          (with_sink (toy_ctx Mode.CBC false 32 5) (Ref.ref (LuaValue.func 1)) Ref.noref)
          (List.range 100)).result = LuaResult.ret0 ∧
      ((l_write toyAes 502 Mode.CBC
          (with_sink (toy_ctx Mode.CBC false 32 5) (Ref.ref (LuaValue.func 1)) Ref.noref)
          (List.range 100)).calls.map fun c => c.chunk).flatten =
        result_bytes (l_write toyAes 502 Mode.CBC (with_sink (toy_ctx Mode.CBC false 32 5) Ref.noref Ref.noref)
          (List.range 100)).result ∧
      (l_write toyAes 502 Mode.CBC
          (with_sink (toy_ctx Mode.CBC false 32 5) (Ref.ref (LuaValue.func 1)) Ref.noref)
          (List.range 100)).calls.length = 4 ∧
      (l_write toyAes 502 Mode.CBC
          (with_sink (toy_ctx Mode.CBC false 32 5) (Ref.ref (LuaValue.func 1)) Ref.noref)
          (List.range 100)).ctx =
        with_sink (l_write toyAes 502 Mode.CBC (with_sink (toy_ctx Mode.CBC false 32 5) Ref.noref Ref.noref)
          (List.range 100)).ctx
          (Ref.ref (LuaValue.func 1)) Ref.noref) :=
  ⟨by decide,
    (push_agrees_with_accumulate toyAes 502 Mode.CBC (toy_ctx Mode.CBC false 32 5)
      (Ref.ref (LuaValue.func 1)) Ref.noref (by decide) (by decide) (by decide) (List.range 100)
      (result_bytes (l_write toyAes 502 Mode.CBC (with_sink (toy_ctx Mode.CBC false 32 5) Ref.noref Ref.noref)
          (List.range 100)).result)
      (by decide)).1,
    (push_agrees_with_accumulate toyAes 502 Mode.CBC (toy_ctx Mode.CBC false 32 5)
      (Ref.ref (LuaValue.func 1)) Ref.noref (by decide) (by decide) (by decide) (List.range 100)
      (result_bytes (l_write toyAes 502 Mode.CBC (with_sink (toy_ctx Mode.CBC false 32 5) Ref.noref Ref.noref)
          (List.range 100)).result)
      (by decide)).2.1,
    by decide,
    (push_agrees_with_accumulate toyAes 502 Mode.CBC (toy_ctx Mode.CBC false 32 5)
      (Ref.ref (LuaValue.func 1)) Ref.noref (by decide) (by decide) (by decide) (List.range 100)
      (result_bytes (l_write toyAes 502 Mode.CBC (with_sink (toy_ctx Mode.CBC false 32 5) Ref.noref Ref.noref)
          (List.range 100)).result)
      (by decide)).2.2.1⟩

/-! ## A write whose sub-run is refused -/

theorem writek_rest_block_fail {S : Type} (P : AesPrimitive S) (m : Mode) (hm : m.has_tail = true)
    (ctx : l_ctx S) (data : Bytes) (off len : Nat) (pre : List (Push S)) (top : Nat) (ok : Bool)
    (hlen : off + len = data.length)
    (hbad : ¬(ctx.buffer_size % 16 = 0 ∨ len / 16 * 16 ≤ ctx.buffer_size)) :
    (writek_rest P m ctx data off len pre top ok).ctx = ctx ∧
      (writek_rest P m ctx data off len pre top ok).pushes = pre ∧
      (writek_rest P m ctx data off len pre top ok).result =
        LuaResult.nilmsg "invalid block length" := by
  have hloop := write_loop_block_fail P m hm data (off + len / 16 * 16) (len / 16 * 16) off ctx
    (by omega) (by omega) (by omega)
  obtain ⟨p1, p2, p3⟩ := writek_rest_proj P m ctx data off len pre top ok
  rw [p1, p2, p3]
  simp only [align_len_block m hm, hloop, loop_pushes, List.append_nil, rest_ctx, rest_result,
    and_self]

/-- The state a failing `write_impl` of an ECB or CBC context leaves. -/
theorem write_impl_fail_state {S : Type} (P : AesPrimitive S) (m : Mode) (hm : m.has_tail = true)
    (ctx : l_ctx S) (data : Bytes) (hnd : CTX_FLAG ctx.flags FLAG_DESTROYED = false)
    (hok : ctx_ok ctx) (hch : ¬chunks_ok ctx data) :
    (l_write_impl P m ctx data).result = LuaResult.nilmsg "invalid block length" ∧
      (ctx.tail = 0 → (l_write_impl P m ctx data).ctx = ctx ∧
        (l_write_impl P m ctx data).calls = []) ∧
      (ctx.tail ≠ 0 → 16 - ctx.tail ≤ data.length ∧
        (l_write_impl P m ctx data).ctx = tail_clear (wblock P m ctx data 0) ∧
        (l_write_impl P m ctx data).calls.map (fun c => c.chunk) =
          if ctx.writer_cb_ref = Ref.noref then []
          else [slice (wblock P m ctx data 0).buffer 16 16]) := by
  obtain ⟨ht, hbs, hbl⟩ := hok
  by_cases h0 : ctx.tail = 0
  · have hbad : ¬(ctx.buffer_size % 16 = 0 ∨ data.length / 16 * 16 ≤ ctx.buffer_size) := by
      unfold chunks_ok aligned_rest at hch
      simpa [h0] using hch
    rw [l_write_impl_notail P m ctx data hnd (by simp [h0]),
      write_rest_block_fail P m hm _ ctx data 0 data.length [] true (by omega) hbad]
    refine ⟨rfl, fun _ => ⟨rfl, by simp⟩, fun h => absurd h0 h⟩
  · have hbad : ¬(ctx.buffer_size % 16 = 0 ∨
        (data.length - (16 - ctx.tail)) / 16 * 16 ≤ ctx.buffer_size) := by
      unfold chunks_ok aligned_rest at hch
      simpa [h0] using hch
    have hs : ¬ctx.tail + data.length < 16 := by
      intro hlt
      apply hbad
      right
      have : (data.length - (16 - ctx.tail)) / 16 * 16 = 0 := by omega
      omega
    obtain ⟨b1, b2, _⟩ := wblock_full P m hm ctx data 0 h0 ht (by omega) (by omega)
    have hbs2 : (tail_clear (wblock P m ctx data 0)).buffer_size = ctx.buffer_size :=
      (wblock_fixed P m ctx data 0).2.2
    rw [l_write_impl_full P m ctx data hnd ⟨hm, h0⟩ (by rw [b2]; omega), b1,
      write_rest_block_fail P m hm _ _ data (16 - ctx.tail) (data.length - (16 - ctx.tail)) _ _
        (by omega) (by rw [hbs2]; exact hbad)]
    refine ⟨rfl, fun h => absurd h h0, fun _ => ⟨by omega, rfl, ?_⟩⟩
    by_cases hcb : ctx.writer_cb_ref = Ref.noref <;> simp [hcb]

/-- The state a failing `writek` of an ECB or CBC context leaves. -/
theorem writek_impl_fail_state {S : Type} (P : AesPrimitive S) (m : Mode)
    (hm : m.has_tail = true) (ctx : l_ctx S) (data : Bytes)
    (hnd : CTX_FLAG ctx.flags FLAG_DESTROYED = false) (hok : ctx_ok ctx)
    (hch : ¬chunks_ok ctx data) :
    (l_writek_impl P m ctx data none).result = LuaResult.nilmsg "invalid block length" ∧
      (ctx.tail = 0 → (l_writek_impl P m ctx data none).ctx = ctx ∧
        (l_writek_impl P m ctx data none).pushes = []) ∧
      (ctx.tail ≠ 0 → 16 - ctx.tail ≤ data.length ∧
        (l_writek_impl P m ctx data none).ctx = tail_clear (wblock P m ctx data 0) ∧
        (l_writek_impl P m ctx data none).pushes.map (fun p => p.chunk) =
          [slice (wblock P m ctx data 0).buffer 16 16]) := by
  obtain ⟨ht, hbs, hbl⟩ := hok
  have h00 : entry_data none = 0 := rfl
  by_cases h0 : ctx.tail = 0
  · have hbad : ¬(ctx.buffer_size % 16 = 0 ∨ data.length / 16 * 16 ≤ ctx.buffer_size) := by
      unfold chunks_ok aligned_rest at hch
      simpa [h0] using hch
    have he : ¬entry_data none ≥ data.length := by
      rw [h00]
      intro h
      apply hbad
      right
      have : data.length = 0 := by omega
      rw [this]
      omega
    rw [l_writek_impl_notail P m ctx data none hnd he (by simp [h0]), h00]
    simp only [Nat.sub_zero]
    obtain ⟨r1, r2, r3⟩ := writek_rest_block_fail P m hm ctx data 0 data.length [] 2
      (entry_asserts none data.length) (by omega) hbad
    exact ⟨r3, fun _ => ⟨r1, r2⟩, fun h => absurd h0 h⟩
  · have hbad : ¬(ctx.buffer_size % 16 = 0 ∨
        (data.length - (16 - ctx.tail)) / 16 * 16 ≤ ctx.buffer_size) := by
      unfold chunks_ok aligned_rest at hch
      simpa [h0] using hch
    have hs : ¬ctx.tail + data.length < 16 := by
      intro hlt
      apply hbad
      right
      have : (data.length - (16 - ctx.tail)) / 16 * 16 = 0 := by omega
      omega
    have he : ¬entry_data none ≥ data.length := by
      rw [h00]; omega
    obtain ⟨b1, b2, _⟩ := wblock_full P m hm ctx data 0 h0 ht (by omega) (by omega)
    have hbs2 : (tail_clear (wblock P m ctx data 0)).buffer_size = ctx.buffer_size :=
      (wblock_fixed P m ctx data 0).2.2
    rw [l_writek_impl_full P m ctx data none hnd he ⟨hm, h0⟩ (by rw [h00, b2]; omega), h00, b1]
    simp only [Nat.zero_add, Nat.sub_zero]
    obtain ⟨r1, r2, r3⟩ := writek_rest_block_fail P m hm (tail_clear (wblock P m ctx data 0)) data
      (16 - ctx.tail) (data.length - (16 - ctx.tail))
      [⟨0, 16 - ctx.tail, 3, slice (tail_clear (wblock P m ctx data 0)).buffer 16 16,
        tail_clear (wblock P m ctx data 0)⟩] 3
      (entry_asserts none data.length && decide (ctx.tail < 16) &&
        decide ((wfill ctx data 0).tail = 16))
      (by omega) (by rw [hbs2]; exact hbad)
    refine ⟨r3, fun h => absurd h h0, fun _ => ⟨by omega, r1, ?_⟩⟩
    rw [r2]
    rfl

/-- A write of an ECB or CBC context whose sub-runs are all aligned does not
return nil and a message, whatever the path. -/
theorem l_write_chunks_ok {S : Type} (P : AesPrimitive S) (v : Nat) (m : Mode)
    (hm : m.has_tail = true) (ctx : l_ctx S) (data : Bytes) (hok : ctx_ok ctx)
    (hch : chunks_ok ctx data) (msg : String) :
    (l_write P v m ctx data).result ≠ LuaResult.nilmsg msg := by
  unfold l_write
  cases hd : CTX_FLAG ctx.flags FLAG_DESTROYED with
  | true =>
    rw [l_get_at_some m ctx hd]
    simp
  | false =>
    rw [l_get_at_none m ctx hd]
    simp only
    split
    · split
      · rename_i hv
        have hspec := (write_impl_spec P m hm (with_sink ctx Ref.noref Ref.noref) data hd hok
          hch).1
        have hnr : (with_sink ctx Ref.noref Ref.noref).writer_cb_ref = Ref.noref := rfl
        rw [if_pos hnr] at hspec
        have hk := (l_writek_impl_push_acc P m (with_sink ctx Ref.noref Ref.noref)
          ctx.writer_cb_ref ctx.writer_ud_ref rfl (fun _ => hok.1) data _ hspec).1
        have hws : with_sink (with_sink ctx Ref.noref Ref.noref) ctx.writer_cb_ref
            ctx.writer_ud_ref = ctx := rfl
        rw [hws] at hk
        simp only [hk]
        simp
      · have hspec := (write_impl_spec P m hm ctx data hd hok hch).1
        rw [hspec]
        split <;> simp
    · simp

/-- C27: the state after a failed write of an ECB or CBC context (with the
bounds of the data model: fewer than 16 buffered bytes, a chunk size of at
least 32).  When `write` returns nil and a message, on any path, the message
is "invalid block length" and no output is returned; the tail is empty
afterwards and the rest of the input is stored nowhere.  If no bytes were
buffered, the context is unchanged and the sink was not called.  If bytes
were buffered, the input completed a block: that block was transformed, the
chaining register is the one after that block, the tail was cleared, and in
push mode the block was passed to the sink (once) before the failure. -/
theorem failed_write_state {S : Type} (P : AesPrimitive S) (v : Nat) (m : Mode)
    (hm : m.has_tail = true) (ctx : l_ctx S) (hok : ctx_ok ctx) (data : Bytes) (msg : String)
    (hfail : (l_write P v m ctx data).result = LuaResult.nilmsg msg) :
    msg = "invalid block length" ∧ (l_write P v m ctx data).ctx.tail = 0 ∧
      (ctx.tail = 0 → (l_write P v m ctx data).ctx = ctx ∧ (l_write P v m ctx data).calls = []) ∧
      (ctx.tail ≠ 0 → 16 - ctx.tail ≤ data.length ∧
        (l_write P v m ctx data).ctx = tail_clear (wblock P m ctx data 0) ∧
        (l_write P v m ctx data).ctx.iv =
          (blocks_run (block_step P m ctx.flags ctx.cx) 1 (ctx.buffer.take ctx.tail ++ data)
            ctx.iv).2 ∧
        (l_write P v m ctx data).ctx.cx = ctx.cx ∧
        (l_write P v m ctx data).calls.map (fun c => c.chunk) =
          if ctx.writer_cb_ref = Ref.noref then []
          else [(blocks_run (block_step P m ctx.flags ctx.cx) 1
            (ctx.buffer.take ctx.tail ++ data) ctx.iv).1]) := by
  have hch : ¬chunks_ok ctx data := fun h => l_write_chunks_ok P v m hm ctx data hok h msg hfail
  have hblock : ctx.tail ≠ 0 → 16 - ctx.tail ≤ data.length →
      slice (wblock P m ctx data 0).buffer 16 16 =
          (blocks_run (block_step P m ctx.flags ctx.cx) 1 (ctx.buffer.take ctx.tail ++ data)
            ctx.iv).1 ∧
        (tail_clear (wblock P m ctx data 0)).iv =
          (blocks_run (block_step P m ctx.flags ctx.cx) 1 (ctx.buffer.take ctx.tail ++ data)
            ctx.iv).2 ∧
        (tail_clear (wblock P m ctx data 0)).cx = ctx.cx := by
    intro h0 hlen
    obtain ⟨_, _, b3, b4, b5, _⟩ := wblock_full P m hm ctx data 0 h0 hok.1
      (by have := hok.2.1; have := hok.2.2; omega) (by omega)
    simp only [List.drop_zero] at b3 b4
    exact ⟨b3, b4, b5⟩
  cases hd : CTX_FLAG ctx.flags FLAG_DESTROYED with
  | true =>
    have hw : l_write P v m ctx data =
        ⟨ctx, [], LuaResult.error (L_NAME m ++ " is destroyed"), true⟩ := by
      simp [l_write, l_get_at_some m ctx hd]
    rw [hw] at hfail
    simp at hfail
  | false =>
    cases ho : CTX_FLAG ctx.flags FLAG_OPEN with
    | false =>
      have hw : l_write P v m ctx data =
          ⟨ctx, [], LuaResult.error (L_NAME m ++ " is close"), true⟩ := by
        simp [l_write, l_get_at_none m ctx hd, ho]
      rw [hw] at hfail
      simp at hfail
    | true =>
      by_cases hv : v ≥ 502 ∧ ctx.writer_cb_ref ≠ Ref.noref
      · have hw : l_write P v m ctx data =
            ⟨(l_writek_impl P m ctx data none).ctx,
              (l_writek_impl P m ctx data none).pushes.map fun p => (⟨p.chunk, p.ctx⟩ : Call S),
              (l_writek_impl P m ctx data none).result,
              (l_writek_impl P m ctx data none).asserts_ok⟩ := by
          unfold l_write
          rw [l_get_at_none m ctx hd]
          simp only [ho, if_true]
          rw [if_pos hv]
        obtain ⟨f1, f2, f3⟩ := writek_impl_fail_state P m hm ctx data hd hok hch
        rw [hw] at hfail ⊢
        simp only at hfail ⊢
        rw [f1] at hfail
        injection hfail with hmsg
        refine ⟨hmsg.symm, ?_, ?_, ?_⟩
        · by_cases h0 : ctx.tail = 0
          · rw [(f2 h0).1]; exact h0
          · rw [(f3 h0).2.1]; rfl
        · intro h0
          exact ⟨(f2 h0).1, by rw [(f2 h0).2]; rfl⟩
        · intro h0
          obtain ⟨g1, g2, g3⟩ := f3 h0
          obtain ⟨k1, k2, k3⟩ := hblock h0 g1
          refine ⟨g1, g2, by rw [g2]; exact k2, by rw [g2]; exact k3, ?_⟩
          rw [if_neg hv.2, ← k1, ← g3]
          simp [Function.comp]
      · have hw : l_write P v m ctx data = l_write_impl P m ctx data := by
          unfold l_write
          rw [l_get_at_none m ctx hd]
          simp only [ho, if_true]
          rw [if_neg hv]
        obtain ⟨f1, f2, f3⟩ := write_impl_fail_state P m hm ctx data hd hok hch
        rw [hw] at hfail ⊢
        rw [f1] at hfail
        injection hfail with hmsg
        refine ⟨hmsg.symm, ?_, ?_, ?_⟩
        · by_cases h0 : ctx.tail = 0
          · rw [(f2 h0).1]; exact h0
          · rw [(f3 h0).2.1]; rfl
        · exact f2
        · intro h0
          obtain ⟨g1, g2, g3⟩ := f3 h0
          obtain ⟨k1, k2, k3⟩ := hblock h0 g1
          refine ⟨g1, g2, by rw [g2]; exact k2, by rw [g2]; exact k3, ?_⟩
          rw [g3, k1]

theorem failed_write_state_witness :
    ctx_ok (toy_sink_ctx Mode.CBC false 33 5) ∧
      (l_write toyAes 501 Mode.CBC (toy_sink_ctx Mode.CBC false 33 5) (List.range 100)).result =
        LuaResult.nilmsg "invalid block length" ∧
      ("invalid block length" = "invalid block length" ∧
      (l_write toyAes 501 Mode.CBC (toy_sink_ctx Mode.CBC false 33 5) (List.range 100)).ctx.tail =
        0 ∧
      (l_write toyAes 501 Mode.CBC (toy_sink_ctx Mode.CBC false 33 5)
        (List.range 100)).calls.length = 1) :=
  ⟨by unfold ctx_ok; decide, by decide,
    (failed_write_state toyAes 501 Mode.CBC rfl (toy_sink_ctx Mode.CBC false 33 5)
      (by unfold ctx_ok; decide) (List.range 100) "invalid block length" (by decide)).1,
    (failed_write_state toyAes 501 Mode.CBC rfl (toy_sink_ctx Mode.CBC false 33 5)
      (by unfold ctx_ok; decide) (List.range 100) "invalid block length" (by decide)).2.1,
    by decide⟩

/-! ## The transform each mode calls -/

/-- A mode call that succeeds writes as many bytes as it read. -/
theorem mode_call_length {S : Type} (P : AesPrimitive S) (m : Mode) (ctx : l_ctx S) (ib : Bytes)
    (h : (mode_call P m ctx ib).ret = true) : (mode_call P m ctx ib).obuf.length = ib.length := by
  cases hm : m.has_tail with
  | true =>
    rw [mode_call_block P m hm] at h ⊢
    by_cases hl : ib.length % 16 = 0
    · rw [block_mode_ok _ _ _ _ hl]
      simp only
      rw [blocks_run_length _ (block_step_length P m ctx.flags ctx.cx)]
      omega
    · rw [block_mode_fail _ _ _ _ hl] at h
      cases h
  | false =>
    cases m with
    | ECB => cases hm
    | CBC => cases hm
    | CFB =>
      unfold mode_call at h ⊢
      simp only at h ⊢
      split at h
      · rename_i hd; rw [if_pos hd]; exact P.aes_cfb_decrypt_length _ _ _ h
      · rename_i hd; rw [if_neg hd]; exact P.aes_cfb_encrypt_length _ _ _ h
    | OFB =>
      unfold mode_call at h ⊢
      simp only at h ⊢
      split at h
      · rename_i hd; rw [if_pos hd]; exact P.aes_ofb_decrypt_length _ _ _ h
      · rename_i hd; rw [if_neg hd]; exact P.aes_ofb_encrypt_length _ _ _ h
    | CTR =>
      unfold mode_call at h ⊢
      simp only at h ⊢
      split at h
      · rename_i hd; rw [if_pos hd]; exact P.aes_ctr_decrypt_length _ _ _ _ h
      · rename_i hd; rw [if_neg hd]; exact P.aes_ctr_encrypt_length _ _ _ _ h

/-- A write in accumulate mode whose input makes one sub-run: the result is
that of the one mode call on the whole input. -/
theorem l_write_one_run {S : Type} (P : AesPrimitive S) (v : Nat) (m : Mode) (ctx : l_ctx S)
    (data : Bytes) (ho : CTX_FLAG ctx.flags FLAG_OPEN = true)
    (hnd : CTX_FLAG ctx.flags FLAG_DESTROYED = false) (hacc : ctx.writer_cb_ref = Ref.noref)
    (ht : m.has_tail = true → ctx.tail = 0 ∧ data.length % 16 = 0) (hlen : 0 < data.length)
    (hbs : data.length ≤ ctx.buffer_size) :
    (l_write P v m ctx data).result = ret_result (mode_call P m ctx data) := by
  have hal : align_len m data.length = data.length := by
    cases hm : m.has_tail with
    | true =>
      rw [align_len_block m hm]
      have := (ht hm).2
      omega
    | false => simp [align_len, hm]
  have hleft : loop_left ctx.buffer_size data.length 0 = data.length := by
    unfold loop_left
    rw [if_neg (by omega)]
    omega
  have hsl : slice data 0 data.length = data := by simp [slice]
  obtain ⟨k, hk⟩ : ∃ k, data.length = k + 1 := ⟨data.length - 1, by omega⟩
  rw [l_write_accumulate P v m ctx data ho hnd hacc,
    l_write_impl_notail P m ctx data hnd (fun h => h.2 (ht h.1).1)]
  obtain ⟨_, _, p3⟩ := write_rest_proj P m (decide (ctx.writer_cb_ref = Ref.noref)) ctx data 0
    data.length [] true _ rfl
  rw [p3, hal]
  simp only [Nat.zero_add, hacc, decide_True, if_true, List.nil_append]
  unfold ret_result
  cases hr : (mode_call P m ctx data).ret with
  | true =>
    have hr2 : (mode_call P m ctx (slice data 0 (loop_left ctx.buffer_size data.length 0))).ret =
        true := by rw [hleft, hsl]; exact hr
    rw [write_loop_succ_ok P m data data.length data.length 0 ctx hlen hr2]
    simp only [Nat.zero_add]
    rw [hk, write_loop_done P m data (k + 1) k ctx.buffer_size _ (by omega), ← hk]
    simp only [loop_calls, List.map_cons, List.map_nil, List.flatten_cons, List.flatten_nil,
      List.append_nil, if_true, hleft]
    unfold loop_ctx apply_ret
    rw [hleft, hsl]
    simp only
    rw [memcpy_zero_take _ _ _ (mode_call_length P m ctx data hr)]
  | false =>
    have hr2 : (mode_call P m ctx (slice data 0 (loop_left ctx.buffer_size data.length 0))).ret =
        false := by rw [hleft, hsl]; exact hr
    rw [write_loop_succ_fail P m data data.length data.length 0 ctx hlen hr2]
    simp

/-- C30: which transform of the primitive each mode uses, on a context
that is not Destroyed.  `open` (on a Closed context, with a valid IV): a
CFB, OFB or CTR context of either direction builds the encrypt schedule; an
ECB or CBC context builds the decrypt schedule exactly when its direction is
Decrypt; the schedule built is the one stored.  `write` (Open, accumulate
mode, an input of one sub-run): the result is that of the mode's decrypt
entry point for a Decrypt context and of its encrypt entry point otherwise,
called on the input with the register and the stored schedule (and the
increment function for CTR). -/
theorem mode_selects_transform {S : Type} (P : AesPrimitive S) (v : Nat) (m : Mode)
    (ctx : l_ctx S) (hnd : CTX_FLAG ctx.flags FLAG_DESTROYED = false) :
    (∀ key iv : Bytes, CTX_FLAG ctx.flags FLAG_OPEN = false → (m ≠ Mode.ECB → 16 ≤ iv.length) →
      (m.has_tail = false → (P.aes_encrypt_key key ctx.cx).1 = true →
        (l_open P m ctx key iv).result = LuaResult.self ∧
          (l_open P m ctx key iv).ctx.cx = (P.aes_encrypt_key key ctx.cx).2) ∧
      (m.has_tail = true → CTX_FLAG ctx.flags FLAG_DECRYPT = false →
        (P.aes_encrypt_key key ctx.cx).1 = true →
        (l_open P m ctx key iv).result = LuaResult.self ∧
          (l_open P m ctx key iv).ctx.cx = (P.aes_encrypt_key key ctx.cx).2) ∧
      (m.has_tail = true → CTX_FLAG ctx.flags FLAG_DECRYPT = true →
        (P.aes_decrypt_key key ctx.cx).1 = true →
        (l_open P m ctx key iv).result = LuaResult.self ∧
          (l_open P m ctx key iv).ctx.cx = (P.aes_decrypt_key key ctx.cx).2)) ∧
    (∀ data : Bytes, CTX_FLAG ctx.flags FLAG_OPEN = true → ctx.writer_cb_ref = Ref.noref →
      0 < data.length → data.length ≤ ctx.buffer_size →
      (m = Mode.CFB → (l_write P v m ctx data).result =
        ret_result (if CTX_FLAG ctx.flags FLAG_DECRYPT then P.aes_cfb_decrypt data ctx.iv ctx.cx
          else P.aes_cfb_encrypt data ctx.iv ctx.cx)) ∧
      (m = Mode.OFB → (l_write P v m ctx data).result =
        ret_result (if CTX_FLAG ctx.flags FLAG_DECRYPT then P.aes_ofb_decrypt data ctx.iv ctx.cx
          else P.aes_ofb_encrypt data ctx.iv ctx.cx)) ∧
      (m = Mode.CTR → (l_write P v m ctx data).result =
        ret_result (if CTX_FLAG ctx.flags FLAG_DECRYPT
          then P.aes_ctr_decrypt data ctx.iv ctx.inc_fn ctx.cx
          else P.aes_ctr_encrypt data ctx.iv ctx.inc_fn ctx.cx)) ∧
      (m = Mode.ECB → ctx.tail = 0 → data.length % 16 = 0 → (l_write P v m ctx data).result =
        ret_result (if CTX_FLAG ctx.flags FLAG_DECRYPT then aes_ecb_decrypt P data ctx.cx
          else aes_ecb_encrypt P data ctx.cx)) ∧
      (m = Mode.CBC → ctx.tail = 0 → data.length % 16 = 0 → (l_write P v m ctx data).result =
        ret_result (if CTX_FLAG ctx.flags FLAG_DECRYPT then aes_cbc_decrypt P data ctx.iv ctx.cx
          else aes_cbc_encrypt P data ctx.iv ctx.cx))) := by
  constructor
  · intro key iv hcl hiv
    have hlt : ¬(m ≠ Mode.ECB ∧ iv.length < 16) := by
      intro h
      have := hiv h.1
      omega
    have hopen : (open_key P m ctx key).1 = true →
        (l_open P m ctx key iv).result = LuaResult.self ∧
          (l_open P m ctx key iv).ctx.cx = (open_key P m ctx key).2 := by
      intro hk
      rw [l_open_closed P m ctx key iv hnd hcl hlt hk]
      exact ⟨rfl, rfl⟩
    refine ⟨?_, ?_, ?_⟩
    · intro hm hk
      have e : open_key P m ctx key = P.aes_encrypt_key key ctx.cx := by
        unfold open_key
        simp [hm]
      rw [e] at hopen
      exact hopen hk
    · intro hm hd hk
      have e : open_key P m ctx key = P.aes_encrypt_key key ctx.cx := by
        unfold open_key
        simp [hd]
      rw [e] at hopen
      exact hopen hk
    · intro hm hd hk
      have e : open_key P m ctx key = P.aes_decrypt_key key ctx.cx := by
        unfold open_key
        simp [hm, hd]
      rw [e] at hopen
      exact hopen hk
  · intro data ho hacc hlen hbs
    refine ⟨?_, ?_, ?_, ?_, ?_⟩
    · intro hm
      subst hm
      rw [l_write_one_run P v Mode.CFB ctx data ho hnd hacc (fun h => by cases h) hlen hbs]
      rfl
    · intro hm
      subst hm
      rw [l_write_one_run P v Mode.OFB ctx data ho hnd hacc (fun h => by cases h) hlen hbs]
      rfl
    · intro hm
      subst hm
      rw [l_write_one_run P v Mode.CTR ctx data ho hnd hacc (fun h => by cases h) hlen hbs]
      rfl
    · intro hm h0 h16
      subst hm
      rw [l_write_one_run P v Mode.ECB ctx data ho hnd hacc (fun _ => ⟨h0, h16⟩) hlen hbs]
      unfold ret_result mode_call
      simp only
    · intro hm h0 h16
      subst hm
      rw [l_write_one_run P v Mode.CBC ctx data ho hnd hacc (fun _ => ⟨h0, h16⟩) hlen hbs]
      rfl

theorem mode_selects_transform_witness :
    CTX_FLAG (toy_ctx Mode.CFB true 32 0).flags FLAG_DESTROYED = false ∧
      (l_write toyAes 502 Mode.CFB (toy_ctx Mode.CFB true 32 0) (List.range 20)).result =
        ret_result (if CTX_FLAG (toy_ctx Mode.CFB true 32 0).flags FLAG_DECRYPT
          then toyAes.aes_cfb_decrypt (List.range 20) (toy_ctx Mode.CFB true 32 0).iv
            (toy_ctx Mode.CFB true 32 0).cx
          else toyAes.aes_cfb_encrypt (List.range 20) (toy_ctx Mode.CFB true 32 0).iv
            (toy_ctx Mode.CFB true 32 0).cx) :=
  ⟨by decide,
    ((mode_selects_transform toyAes 502 Mode.CFB (toy_ctx Mode.CFB true 32 0) (by decide)).2
      (List.range 20) (by decide) (by decide) (by decide) (by decide)).1 rfl⟩

/-! ## Stream modes -/

theorem slice_append (data : Bytes) (b n k : Nat) :
    slice data b n ++ slice data (b + n) k = slice data b (n + k) := by
  unfold slice
  rw [List.take_add, List.drop_drop]

theorem slice_all (data : Bytes) : slice data 0 data.length = data := by
  simp [slice]

/-- The sub-run loop of a context with a positive chunk size ends, and when
every call succeeded the sub-runs cover the input from `b` to `e`. -/
theorem write_loop_runs {S : Type} (P : AesPrimitive S) (m : Mode) (data : Bytes) (e : Nat)
    (he : e ≤ data.length) :
    ∀ (fuel b : Nat) (ctx : l_ctx S), 0 < ctx.buffer_size → e - b < fuel → b ≤ e →
      (write_loop P m data e fuel b ctx).status ≠ LoopStatus.fuel ∧
      ((write_loop P m data e fuel b ctx).status = LoopStatus.done →
        sub_runs P m data ctx b (write_loop P m data e fuel b ctx).emits e ∧
        ((write_loop P m data e fuel b ctx).emits.map fun em => slice data em.b em.left).flatten =
          slice data b (e - b) ∧
        (emit_chunks (write_loop P m data e fuel b ctx).emits).flatten.length = e - b) := by
  intro fuel
  induction fuel with
  | zero => intro b ctx _ h; omega
  | succ k ih =>
    intro b ctx hbs hf hbe
    by_cases hb : b < e
    · have hll := loop_left_le ctx.buffer_size e b
      have hlpos : 0 < loop_left ctx.buffer_size e b := by
        unfold loop_left
        split <;> omega
      cases hr : (mode_call P m ctx (slice data b (loop_left ctx.buffer_size e b))).ret with
      | true =>
        have hbs1 := (frame_eq_loop_ctx P m data e b ctx).2.2.2.2.2.1
        have hol := mode_call_length P m ctx _ hr
        rw [slice_length data b _ (by omega)] at hol
        have hchunk : (loop_ctx P m data e b ctx).buffer.take (loop_left ctx.buffer_size e b) =
            (mode_call P m ctx (slice data b (loop_left ctx.buffer_size e b))).obuf := by
          unfold loop_ctx apply_ret
          simp only
          rw [memcpy_zero_take _ _ _ hol]
        rw [write_loop_succ_ok P m data e k b ctx hb hr]
        simp only
        by_cases hnext : b + ctx.buffer_size < e
        · have hl : loop_left ctx.buffer_size e b = ctx.buffer_size := by
            unfold loop_left
            rw [if_pos (by omega)]
          obtain ⟨i1, i2⟩ := ih (b + ctx.buffer_size) (loop_ctx P m data e b ctx)
            (by rw [hbs1]; exact hbs) (by omega) (by omega)
          refine ⟨i1, fun hd => ?_⟩
          obtain ⟨j1, j2, j3⟩ := i2 hd
          refine ⟨⟨rfl, hlpos, ?_, hr, hchunk, rfl, ?_⟩, ?_, ?_⟩
          · show b + loop_left ctx.buffer_size e b ≤ e
            omega
          · rw [hl]; exact j1
          · simp only [List.map_cons, List.flatten_cons]
            rw [j2, hl, slice_append]
            congr 1
            omega
          · simp only [emit_chunks, List.map_cons, List.flatten_cons, List.length_append]
            simp only [emit_chunks] at j3
            rw [j3, hchunk, hol, hl]
            omega
        · obtain ⟨k2, rfl⟩ : ∃ k2, k = k2 + 1 := ⟨k - 1, by omega⟩
          have hl : loop_left ctx.buffer_size e b = e - b := by
            unfold loop_left
            rw [if_neg (by omega)]
          rw [write_loop_done P m data e k2 _ _ (by omega)]
          refine ⟨by simp, fun _ => ⟨⟨rfl, hlpos, ?_, hr, hchunk, rfl, ?_⟩, ?_, ?_⟩⟩
          · show b + loop_left ctx.buffer_size e b ≤ e
            omega
          · show b + loop_left ctx.buffer_size e b = e
            omega
          · simp [hl]
          · simp only [emit_chunks, List.map_cons, List.map_nil, List.flatten_cons,
              List.flatten_nil, List.append_nil]
            rw [hchunk, hol, hl]
      | false =>
        rw [write_loop_succ_fail P m data e k b ctx hb hr]
        exact ⟨by simp, fun h => by cases h⟩
    · rw [write_loop_done P m data e k b ctx (by omega)]
      have hbe2 : b = e := by omega
      subst hbe2
      refine ⟨by simp, fun _ => ⟨rfl, ?_, ?_⟩⟩
      · simp [slice]
      · simp [emit_chunks]

theorem mode_call_transform {S : Type} (P : AesPrimitive S) (m : Mode) (c : l_ctx S)
    (ib : Bytes) : mode_call P m c ib = ctx_transform P m c ib c.iv c.cx := rfl

theorem ctx_transform_congr {S : Type} (P : AesPrimitive S) (m : Mode) (a b : l_ctx S)
    (hf : b.flags = a.flags) (hi : b.inc_fn = a.inc_fn) :
    ctx_transform P m b = ctx_transform P m a := by
  funext ib iv cx
  unfold ctx_transform mode_call
  simp only [hf, hi]

/-- A write of a CFB, OFB or CTR context in accumulate mode is the sub-run
loop over the whole input. -/
theorem stream_write_loop {S : Type} (P : AesPrimitive S) (v : Nat) (m : Mode)
    (hm : m.has_tail = false) (ctx : l_ctx S) (data : Bytes)
    (ho : CTX_FLAG ctx.flags FLAG_OPEN = true)
    (hnd : CTX_FLAG ctx.flags FLAG_DESTROYED = false) (hacc : ctx.writer_cb_ref = Ref.noref) :
    (l_write P v m ctx data).result =
        (match (write_loop P m data data.length (data.length + 1) 0 ctx).status with
          | LoopStatus.done => LuaResult.str
              (emit_chunks (write_loop P m data data.length (data.length + 1) 0 ctx).emits).flatten
          | LoopStatus.failed => LuaResult.nilmsg "invalid block length"
          | LoopStatus.fuel => LuaResult.hang) ∧
      (l_write P v m ctx data).ctx =
        (write_loop P m data data.length (data.length + 1) 0 ctx).ctx := by
  have hal : align_len m data.length = data.length := by simp [align_len, hm]
  rw [l_write_accumulate P v m ctx data ho hnd hacc,
    l_write_impl_notail P m ctx data hnd (fun h => by rw [hm] at h; cases h.1)]
  obtain ⟨_, p2, p3⟩ := write_rest_proj P m (decide (ctx.writer_cb_ref = Ref.noref)) ctx data 0
    data.length [] true _ rfl
  rw [p2, p3, hal]
  simp only [Nat.zero_add, hacc, decide_True, if_true, List.nil_append, loop_calls_chunks]
  refine ⟨?_, ?_⟩
  · first | rfl | trivial
  · unfold rest_ctx tail_store
    simp only [hm, Bool.false_eq_true, if_false]
    split <;> rfl

/-- Under the streaming law the sub-run loop of a context with a positive
chunk size is one call of the transform on all the input that is left. -/
theorem write_loop_streaming {S : Type} (P : AesPrimitive S) (m : Mode) (data : Bytes)
    (f : Bytes → Bytes → S → ModeRet S) (hlaw : streaming f) :
    ∀ (fuel b : Nat) (ctx : l_ctx S), ctx_transform P m ctx = f → 0 < ctx.buffer_size →
      data.length - b < fuel → b < data.length →
      ((mode_call P m ctx (data.drop b)).ret = false →
        (write_loop P m data data.length fuel b ctx).status = LoopStatus.failed) ∧
      ((mode_call P m ctx (data.drop b)).ret = true →
        (write_loop P m data data.length fuel b ctx).status = LoopStatus.done ∧
        (emit_chunks (write_loop P m data data.length fuel b ctx).emits).flatten =
          (mode_call P m ctx (data.drop b)).obuf ∧
        (write_loop P m data data.length fuel b ctx).ctx.iv =
          (mode_call P m ctx (data.drop b)).iv ∧
        (write_loop P m data data.length fuel b ctx).ctx.cx =
          (mode_call P m ctx (data.drop b)).cx) := by
  intro fuel
  induction fuel with
  | zero => intro b ctx _ _ h; omega
  | succ k ih =>
    intro b ctx hf hbs hfu hb
    have hll := loop_left_le ctx.buffer_size data.length b
    have hfr := frame_eq_loop_ctx P m data data.length b ctx
    have hbs1 := hfr.2.2.2.2.2.1
    have hf1 : ctx_transform P m (loop_ctx P m data data.length b ctx) = f := by
      rw [ctx_transform_congr P m ctx _ hfr.1 hfr.2.1]; exact hf
    have hchunk : (mode_call P m ctx (slice data b (loop_left ctx.buffer_size data.length b))).ret
        = true →
        (loop_ctx P m data data.length b ctx).buffer.take
            (loop_left ctx.buffer_size data.length b) =
          (mode_call P m ctx (slice data b (loop_left ctx.buffer_size data.length b))).obuf := by
      intro hr
      have hol := mode_call_length P m ctx _ hr
      rw [slice_length data b _ (by omega)] at hol
      unfold loop_ctx apply_ret
      simp only
      rw [memcpy_zero_take _ _ _ hol]
    by_cases hnext : b + ctx.buffer_size < data.length
    · have hl : loop_left ctx.buffer_size data.length b = ctx.buffer_size := by
        unfold loop_left
        rw [if_pos (by omega)]
      have hsplit : data.drop b = slice data b ctx.buffer_size ++ data.drop (b + ctx.buffer_size) := by
        unfold slice
        rw [← List.drop_drop, List.take_append_drop]
      obtain ⟨i1, i2⟩ := ih (b + ctx.buffer_size) (loop_ctx P m data data.length b ctx) hf1
        (by rw [hbs1]; exact hbs) (by omega) hnext
      have hc1 : mode_call P m (loop_ctx P m data data.length b ctx)
            (data.drop (b + ctx.buffer_size)) =
          f (data.drop (b + ctx.buffer_size))
            (f (slice data b ctx.buffer_size) ctx.iv ctx.cx).iv
            (f (slice data b ctx.buffer_size) ctx.iv ctx.cx).cx := by
        rw [mode_call_transform, hf1]
        unfold loop_ctx apply_ret
        simp only
        rw [hl, mode_call_transform, hf]
      have hc0 : mode_call P m ctx (slice data b ctx.buffer_size) =
          f (slice data b ctx.buffer_size) ctx.iv ctx.cx := by
        rw [mode_call_transform, hf]
      have hcw : mode_call P m ctx (data.drop b) =
          f (slice data b ctx.buffer_size ++ data.drop (b + ctx.buffer_size)) ctx.iv ctx.cx := by
        rw [mode_call_transform, hf, ← hsplit]
      obtain ⟨l1, l2⟩ := hlaw (slice data b ctx.buffer_size) (data.drop (b + ctx.buffer_size))
        ctx.iv ctx.cx
      rw [hc1] at i1 i2
      rw [hcw]
      cases hr : (f (slice data b ctx.buffer_size) ctx.iv ctx.cx).ret with
      | false =>
        rw [hr] at l1
        have hr2 : (mode_call P m ctx (slice data b
            (loop_left ctx.buffer_size data.length b))).ret = false := by
          rw [hl, hc0]; exact hr
        rw [write_loop_succ_fail P m data data.length k b ctx hb hr2]
        refine ⟨fun _ => rfl, fun h => ?_⟩
        rw [l1] at h
        simp at h
      | true =>
        rw [hr] at l1
        have hr2 : (mode_call P m ctx (slice data b
            (loop_left ctx.buffer_size data.length b))).ret = true := by
          rw [hl, hc0]; exact hr
        rw [write_loop_succ_ok P m data data.length k b ctx hb hr2]
        simp only [Bool.true_and] at l1
        refine ⟨fun h => i1 (by rw [← l1]; exact h), fun h => ?_⟩
        obtain ⟨j1, j2, j3, j4⟩ := i2 (by rw [← l1]; exact h)
        obtain ⟨m1, m2, m3⟩ := l2 h
        refine ⟨j1, ?_, ?_, ?_⟩
        · simp only [emit_chunks, List.map_cons, List.flatten_cons]
          simp only [emit_chunks] at j2
          rw [j2, hchunk hr2, hl, hc0, m1]
        · rw [j3, m2]
        · rw [j4, m3]
    · have hl : loop_left ctx.buffer_size data.length b = data.length - b := by
        unfold loop_left
        rw [if_neg (by omega)]
      have hsl : slice data b (data.length - b) = data.drop b := by
        unfold slice
        rw [List.take_of_length_le (by simp)]
      obtain ⟨k2, rfl⟩ : ∃ k2, k = k2 + 1 := ⟨k - 1, by omega⟩
      cases hr : (mode_call P m ctx (data.drop b)).ret with
      | false =>
        have hr2 : (mode_call P m ctx (slice data b
            (loop_left ctx.buffer_size data.length b))).ret = false := by
          rw [hl, hsl]; exact hr
        rw [write_loop_succ_fail P m data data.length (k2 + 1) b ctx hb hr2]
        exact ⟨fun _ => rfl, fun h => by cases h⟩
      | true =>
        have hr2 : (mode_call P m ctx (slice data b
            (loop_left ctx.buffer_size data.length b))).ret = true := by
          rw [hl, hsl]; exact hr
        rw [write_loop_succ_ok P m data data.length (k2 + 1) b ctx hb hr2,
          write_loop_done P m data data.length k2 _ _ (by omega)]
        refine ⟨fun h => (by cases h), fun _ => ⟨rfl, ?_, ?_, ?_⟩⟩
        · simp only [emit_chunks, List.map_cons, List.map_nil, List.flatten_cons,
            List.flatten_nil, List.append_nil]
          rw [hchunk hr2, hl, hsl]
        · show (loop_ctx P m data data.length b ctx).iv = _
          unfold loop_ctx apply_ret
          rw [hl, hsl]
        · show (loop_ctx P m data data.length b ctx).cx = _
          unfold loop_ctx apply_ret
          rw [hl, hsl]

/-- Under the streaming law a write of a non-empty input on a CFB, OFB or
CTR context in accumulate mode is one call of the transform on the whole
input, whatever the chunk size. -/
theorem stream_write_streaming {S : Type} (P : AesPrimitive S) (v : Nat) (m : Mode)
    (hm : m.has_tail = false) (f : Bytes → Bytes → S → ModeRet S) (hlaw : streaming f)
    (ctx : l_ctx S) (hf : ctx_transform P m ctx = f)
    (ho : CTX_FLAG ctx.flags FLAG_OPEN = true)
    (hnd : CTX_FLAG ctx.flags FLAG_DESTROYED = false) (hacc : ctx.writer_cb_ref = Ref.noref)
    (hbs : 0 < ctx.buffer_size) (data : Bytes) (hne : 0 < data.length) :
    (l_write P v m ctx data).result = ret_result (mode_call P m ctx data) ∧
      ((mode_call P m ctx data).ret = true →
        (l_write P v m ctx data).ctx.iv = (mode_call P m ctx data).iv ∧
        (l_write P v m ctx data).ctx.cx = (mode_call P m ctx data).cx) := by
  obtain ⟨w1, w2⟩ := stream_write_loop P v m hm ctx data ho hnd hacc
  obtain ⟨c1, c2⟩ := write_loop_streaming P m data f hlaw (data.length + 1) 0 ctx hf hbs
    (by omega) hne
  rw [List.drop_zero] at c1 c2
  rw [w1, w2]
  unfold ret_result
  cases hr : (mode_call P m ctx data).ret with
  | false =>
    rw [c1 hr]
    exact ⟨rfl, fun h => by cases h⟩
  | true =>
    obtain ⟨d1, d2, d3, d4⟩ := c2 hr
    rw [d1]
    simp only [d2, if_true]
    exact ⟨trivial, fun _ => ⟨d3, d4⟩⟩

theorem stream_write_nil {S : Type} (P : AesPrimitive S) (v : Nat) (m : Mode)
    (hm : m.has_tail = false) (ctx : l_ctx S) (ho : CTX_FLAG ctx.flags FLAG_OPEN = true)
    (hnd : CTX_FLAG ctx.flags FLAG_DESTROYED = false) (hacc : ctx.writer_cb_ref = Ref.noref) :
    l_write P v m ctx [] = ⟨ctx, [], LuaResult.str [], true⟩ := by
  rw [l_write_accumulate P v m ctx [] ho hnd hacc,
    l_write_impl_nil P m ctx hnd (fun h => by rw [hm] at h; cases h)]
  simp [hacc]

/-- Under the streaming law, writing a message in pieces on a CFB, OFB or CTR
context in accumulate mode returns, piece by piece, the bytes the one write
of the whole message returns, and leaves the same register and schedule. -/
theorem stream_split {S : Type} (P : AesPrimitive S) (v : Nat) (m : Mode)
    (hm : m.has_tail = false) (f : Bytes → Bytes → S → ModeRet S) (hlaw : streaming f)
    (pieces : List Bytes) :
    ∀ (ctx : l_ctx S), ctx_transform P m ctx = f → CTX_FLAG ctx.flags FLAG_OPEN = true →
      CTX_FLAG ctx.flags FLAG_DESTROYED = false → ctx.writer_cb_ref = Ref.noref →
      0 < ctx.buffer_size → ∀ out : Bytes,
      (l_write P v m ctx pieces.flatten).result = LuaResult.str out →
      ∃ outs : List Bytes,
        (write_pieces P v m ctx pieces).2 = outs.map LuaResult.str ∧ outs.flatten = out ∧
        (write_pieces P v m ctx pieces).1.iv = (l_write P v m ctx pieces.flatten).ctx.iv ∧
        (write_pieces P v m ctx pieces).1.cx = (l_write P v m ctx pieces.flatten).ctx.cx := by
  induction pieces with
  | nil =>
    intro ctx hf ho hnd hacc hbs out hout
    simp only [List.flatten_nil] at hout ⊢
    rw [stream_write_nil P v m hm ctx ho hnd hacc] at hout ⊢
    injection hout with hout
    exact ⟨[], rfl, by rw [← hout]; rfl, rfl, rfl⟩
  | cons p ps ih =>
    intro ctx hf ho hnd hacc hbs out hout
    simp only [List.flatten_cons] at hout ⊢
    obtain ⟨x1, x2, x3⟩ := (l_write_fixed P v m ctx p).1
    obtain ⟨_, y2, _⟩ := (l_write_sink P v m ctx p).1
    have hf1 : ctx_transform P m (l_write P v m ctx p).ctx = f := by
      rw [ctx_transform_congr P m ctx _ x1 x2]; exact hf
    have ih1 := ih (l_write P v m ctx p).ctx hf1 (by rw [x1]; exact ho) (by rw [x1]; exact hnd)
      (by rw [y2]; exact hacc) (by rw [x3]; exact hbs)
    by_cases hp : p = []
    · subst hp
      have hw := stream_write_nil P v m hm ctx ho hnd hacc
      rw [hw] at ih1
      simp only [List.nil_append] at hout ⊢
      obtain ⟨outs, o1, o2, o3, o4⟩ := ih1 out hout
      refine ⟨[] :: outs, ?_, ?_, ?_, ?_⟩
      · simp only [write_pieces, hw, List.map_cons, o1]
      · simpa using o2
      · simp only [write_pieces, hw]; exact o3
      · simp only [write_pieces, hw]; exact o4
    · have hpl : 0 < p.length := List.length_pos.mpr hp
      obtain ⟨s1, s2⟩ := stream_write_streaming P v m hm f hlaw ctx hf ho hnd hacc hbs p hpl
      by_cases hq : ps.flatten = []
      · rw [hq] at ih1
        rw [hq, List.append_nil] at hout ⊢
        have hw := stream_write_nil P v m hm (l_write P v m ctx p).ctx (by rw [x1]; exact ho)
          (by rw [x1]; exact hnd) (by rw [y2]; exact hacc)
        obtain ⟨outs, o1, o2, o3, o4⟩ := ih1 [] (by rw [hw])
        rw [hw] at o3 o4
        refine ⟨out :: outs, ?_, ?_, o3, o4⟩
        · simp only [write_pieces, List.map_cons, o1, hout]
        · simp only [List.flatten_cons, o2, List.append_nil]
      · have hql : 0 < ps.flatten.length := List.length_pos.mpr hq
        obtain ⟨t1, t2⟩ := stream_write_streaming P v m hm f hlaw ctx hf ho hnd hacc hbs
          (p ++ ps.flatten) (by rw [List.length_append]; omega)
        rw [t1] at hout
        unfold ret_result at hout
        cases hr : (mode_call P m ctx (p ++ ps.flatten)).ret with
        | false => rw [hr] at hout; simp at hout
        | true =>
          rw [hr] at hout
          simp only [if_true] at hout
          injection hout with hout
          obtain ⟨t3, t4⟩ := t2 hr
          obtain ⟨l1, l2⟩ := hlaw p ps.flatten ctx.iv ctx.cx
          rw [mode_call_transform, hf] at hr hout t3 t4
          rw [hr] at l1
          obtain ⟨m1, m2, m3⟩ := l2 hr
          have hr1 : (f p ctx.iv ctx.cx).ret = true := by
            cases h : (f p ctx.iv ctx.cx).ret with
            | true => rfl
            | false => rw [h] at l1; simp at l1
          rw [hr1] at l1
          simp only [Bool.true_and] at l1
          rw [mode_call_transform, hf] at s1 s2
          obtain ⟨s3, s4⟩ := s2 hr1
          obtain ⟨u1, u2⟩ := stream_write_streaming P v m hm f hlaw (l_write P v m ctx p).ctx hf1
            (by rw [x1]; exact ho) (by rw [x1]; exact hnd) (by rw [y2]; exact hacc)
            (by rw [x3]; exact hbs) ps.flatten hql
          rw [mode_call_transform, hf1, s3, s4] at u1 u2
          unfold ret_result at u1 s1
          rw [← l1] at u1 u2
          simp only [if_true] at u1
          rw [hr1] at s1
          simp only [if_true] at s1
          obtain ⟨u3, u4⟩ := u2 rfl
          obtain ⟨outs, o1, o2, o3, o4⟩ := ih1 _ u1
          refine ⟨(f p ctx.iv ctx.cx).obuf :: outs, ?_, ?_, ?_, ?_⟩
          · simp only [write_pieces, List.map_cons, o1, s1]
          · simp only [List.flatten_cons, o2]
            rw [← hout, m1]
          · simp only [write_pieces]
            rw [o3, u3, t3, m2]
          · simp only [write_pieces]
            rw [o4, u4, t4, m3]

theorem toy_streaming (m : Mode) (hm : m.has_tail = false) (ctx : l_ctx Bytes) :
    streaming (ctx_transform toyAes m ctx) := by
  intro a b iv cx
  cases m with
  | ECB => cases hm
  | CBC => cases hm
  | CFB => simp [ctx_transform, mode_call, toyAes, toy_stream]
  | OFB => simp [ctx_transform, mode_call, toyAes, toy_stream]
  | CTR => simp [ctx_transform, mode_call, toyAes, toy_stream]

/-- C28: stream modes do not buffer.  Take an Open CFB, OFB or CTR context
with a chunk size of at least 32 and any input.  The sub-run loop of `write`
ends.  If the primitive refuses a sub-run, `write` in accumulate mode returns
nil and "invalid block length".  If the primitive succeeds on every sub-run,
the sub-runs are calls of the transform on consecutive slices of the input
that go from its first byte to its last and whose concatenation is the input,
and `write` in accumulate mode returns the concatenation of their outputs,
which has as many bytes as the input, and leaves the tail count as it was.
If moreover the transform of the context is a streaming transform, writing a
message in any sequence of pieces returns, piece by piece, strings whose
concatenation is the string the one write of the whole message returns, and
leaves the same register and schedule. -/
theorem stream_modes_do_not_buffer {S : Type} (P : AesPrimitive S) (v : Nat) (m : Mode)
    (hm : m.has_tail = false) (ctx : l_ctx S) (ho : CTX_FLAG ctx.flags FLAG_OPEN = true)
    (hnd : CTX_FLAG ctx.flags FLAG_DESTROYED = false) (hbs : 32 ≤ ctx.buffer_size) :
    (∀ data : Bytes,
      (write_loop P m data data.length (data.length + 1) 0 ctx).status ≠ LoopStatus.fuel ∧
      ((write_loop P m data data.length (data.length + 1) 0 ctx).status = LoopStatus.failed → ctx.writer_cb_ref = Ref.noref →
        (l_write P v m ctx data).result = LuaResult.nilmsg "invalid block length") ∧
      ((write_loop P m data data.length (data.length + 1) 0 ctx).status = LoopStatus.done →
        sub_runs P m data ctx 0 (write_loop P m data data.length (data.length + 1) 0 ctx).emits data.length ∧
        ((write_loop P m data data.length (data.length + 1) 0 ctx).emits.map fun em => slice data em.b em.left).flatten = data ∧
        (emit_chunks (write_loop P m data data.length (data.length + 1) 0 ctx).emits).flatten.length = data.length ∧
        (ctx.writer_cb_ref = Ref.noref →
          (l_write P v m ctx data).result = LuaResult.str (emit_chunks (write_loop P m data data.length (data.length + 1) 0 ctx).emits).flatten ∧
          (l_write P v m ctx data).ctx.tail = ctx.tail))) ∧
    (ctx.writer_cb_ref = Ref.noref → streaming (ctx_transform P m ctx) →
      ∀ (pieces : List Bytes) (out : Bytes),
        (l_write P v m ctx pieces.flatten).result = LuaResult.str out →
        ∃ outs : List Bytes,
          (write_pieces P v m ctx pieces).2 = outs.map LuaResult.str ∧ outs.flatten = out ∧
          (write_pieces P v m ctx pieces).1.iv = (l_write P v m ctx pieces.flatten).ctx.iv ∧
          (write_pieces P v m ctx pieces).1.cx = (l_write P v m ctx pieces.flatten).ctx.cx) := by
  constructor
  · intro data
    obtain ⟨r1, r2⟩ := write_loop_runs P m data data.length (Nat.le_refl _) (data.length + 1) 0
      ctx (by omega) (by omega) (Nat.zero_le _)
    refine ⟨r1, ?_, ?_⟩
    · intro hs hacc
      rw [(stream_write_loop P v m hm ctx data ho hnd hacc).1, hs]
    · intro hs
      obtain ⟨q1, q2, q3⟩ := r2 hs
      rw [Nat.sub_zero, slice_all] at q2
      refine ⟨q1, q2, q3, ?_⟩
      intro hacc
      obtain ⟨w1, w2⟩ := stream_write_loop P v m hm ctx data ho hnd hacc
      rw [w1, w2, hs]
      exact ⟨rfl, (write_loop_frame P m data data.length (data.length + 1) 0 ctx).1.2.2.2.2.1⟩
  · intro hacc hlaw pieces out hout
    exact stream_split P v m hm _ hlaw pieces ctx rfl ho hnd hacc (by omega) out hout

theorem stream_modes_do_not_buffer_witness :
    Mode.CFB.has_tail = false ∧
      CTX_FLAG (toy_ctx Mode.CFB false 33 0).flags FLAG_OPEN = true ∧
      CTX_FLAG (toy_ctx Mode.CFB false 33 0).flags FLAG_DESTROYED = false ∧
      32 ≤ (toy_ctx Mode.CFB false 33 0).buffer_size ∧
      (write_loop toyAes Mode.CFB (List.range 70) (List.range 70).length
        ((List.range 70).length + 1) 0 (toy_ctx Mode.CFB false 33 0)).status ≠ LoopStatus.fuel ∧
      ∃ outs : List Bytes,
        (write_pieces toyAes 502 Mode.CFB (toy_ctx Mode.CFB false 33 0)
          [List.range 20, [], List.range 50]).2 = outs.map LuaResult.str ∧
        outs.flatten = result_bytes (l_write toyAes 502 Mode.CFB (toy_ctx Mode.CFB false 33 0)
          [List.range 20, [], List.range 50].flatten).result ∧
        (write_pieces toyAes 502 Mode.CFB (toy_ctx Mode.CFB false 33 0)
            [List.range 20, [], List.range 50]).1.iv =
          (l_write toyAes 502 Mode.CFB (toy_ctx Mode.CFB false 33 0)
            [List.range 20, [], List.range 50].flatten).ctx.iv ∧
        (write_pieces toyAes 502 Mode.CFB (toy_ctx Mode.CFB false 33 0)
            [List.range 20, [], List.range 50]).1.cx =
          (l_write toyAes 502 Mode.CFB (toy_ctx Mode.CFB false 33 0)
            [List.range 20, [], List.range 50].flatten).ctx.cx :=
  ⟨rfl, by decide, by decide, by decide,
    ((stream_modes_do_not_buffer toyAes 502 Mode.CFB rfl (toy_ctx Mode.CFB false 33 0)
      (by decide) (by decide) (by decide)).1 (List.range 70)).1,
    (stream_modes_do_not_buffer toyAes 502 Mode.CFB rfl (toy_ctx Mode.CFB false 33 0)
      (by decide) (by decide) (by decide)).2 rfl (toy_streaming Mode.CFB rfl _)
      [List.range 20, [], List.range 50] _ (by decide)⟩

/-! ## The keystream of a CTR context -/

theorem xor_bytes_append (a1 a2 k1 k2 : Bytes) (h : a1.length = k1.length) :
    xor_bytes (a1 ++ a2) (k1 ++ k2) = xor_bytes a1 k1 ++ xor_bytes a2 k2 := by
  unfold xor_bytes
  exact List.zipWith_append _ _ _ _ _ h

theorem xor_bytes_length (a k : Bytes) (h : a.length = k.length) :
    (xor_bytes a k).length = a.length := by
  simp [xor_bytes, h]

theorem xor_bytes_zero (k : Bytes) : xor_bytes (List.replicate k.length 0) k = k := by
  induction k with
  | nil => rfl
  | cons x xs ih =>
    simp only [xor_bytes, List.length_cons, List.replicate_succ, List.zipWith_cons_cons,
      Nat.zero_xor]
    simp only [xor_bytes] at ih
    rw [ih]

theorem drop_slice (data : Bytes) (b bs : Nat) (hb : b < data.length) :
    data.drop b = slice data b (loop_left bs data.length b) ++ data.drop (b + bs) := by
  unfold loop_left slice
  split
  · rw [← List.drop_drop, List.take_append_drop]
  · rw [List.drop_of_length_le (show data.length ≤ b + bs by omega), List.append_nil,
      List.take_of_length_le (by simp)]

/-- Under the keystream law the sub-run loops of two CTR encrypt contexts that
agree on register, schedule, increment function and chunk size XOR two
inputs of the same length with the same keystream. -/
theorem ctr_lockstep {S : Type} (P : AesPrimitive S)
    (ks : Bytes → Option cbuf_inc → S → Nat → Bytes)
    (nx : Bytes → Option cbuf_inc → S → Nat → Bytes × S)
    (hlaw : ∀ (ib iv : Bytes) (f : Option cbuf_inc) (cx : S),
      (ks iv f cx ib.length).length = ib.length ∧
      P.aes_ctr_encrypt ib iv f cx =
        ⟨true, xor_bytes ib (ks iv f cx ib.length), (nx iv f cx ib.length).1,
          (nx iv f cx ib.length).2⟩)
    (M Z : Bytes) (hlen : Z.length = M.length) :
    ∀ (fuel b : Nat) (cM cZ : l_ctx S), CTX_FLAG cM.flags FLAG_DECRYPT = false →
      cZ.flags = cM.flags → cZ.inc_fn = cM.inc_fn → cZ.iv = cM.iv → cZ.cx = cM.cx →
      cZ.buffer_size = cM.buffer_size → 0 < cM.buffer_size → M.length - b < fuel →
      (write_loop P Mode.CTR M M.length fuel b cM).status = LoopStatus.done ∧
      (write_loop P Mode.CTR Z Z.length fuel b cZ).status = LoopStatus.done ∧
      ∃ K : Bytes, K.length = M.length - b ∧
        (emit_chunks (write_loop P Mode.CTR M M.length fuel b cM).emits).flatten =
          xor_bytes (M.drop b) K ∧
        (emit_chunks (write_loop P Mode.CTR Z Z.length fuel b cZ).emits).flatten =
          xor_bytes (Z.drop b) K := by
  have hcall : ∀ (c : l_ctx S) (ib : Bytes), CTX_FLAG c.flags FLAG_DECRYPT = false →
      mode_call P Mode.CTR c ib =
        ⟨true, xor_bytes ib (ks c.iv c.inc_fn c.cx ib.length), (nx c.iv c.inc_fn c.cx ib.length).1,
          (nx c.iv c.inc_fn c.cx ib.length).2⟩ := by
    intro c ib hd
    unfold mode_call
    simp only [hd, Bool.false_eq_true, if_false]
    exact (hlaw ib c.iv c.inc_fn c.cx).2
  intro fuel
  induction fuel with
  | zero => intro b cM cZ _ _ _ _ _ _ _ h; omega
  | succ k ih =>
    intro b cM cZ hd hfl hinc hiv hcx hbsz hbs hfu
    rw [hlen]
    by_cases hb : b < M.length
    · have hll := loop_left_le cM.buffer_size M.length b
      have hslM : (slice M b (loop_left cM.buffer_size M.length b)).length =
          loop_left cM.buffer_size M.length b := slice_length M b _ (by omega)
      have hslZ : (slice Z b (loop_left cM.buffer_size M.length b)).length =
          loop_left cM.buffer_size M.length b := slice_length Z b _ (by omega)
      have hdZ : CTX_FLAG cZ.flags FLAG_DECRYPT = false := by rw [hfl]; exact hd
      have hrM := hcall cM (slice M b (loop_left cM.buffer_size M.length b)) hd
      have hrZ := hcall cZ (slice Z b (loop_left cM.buffer_size M.length b)) hdZ
      rw [hslM] at hrM
      rw [hslZ, hiv, hinc, hcx] at hrZ
      have hkl := (hlaw (slice M b (loop_left cM.buffer_size M.length b)) cM.iv cM.inc_fn cM.cx).1
      rw [hslM] at hkl
      have hretM : (mode_call P Mode.CTR cM
          (slice M b (loop_left cM.buffer_size M.length b))).ret = true := by rw [hrM]
      have hretZ : (mode_call P Mode.CTR cZ
          (slice Z b (loop_left cZ.buffer_size M.length b))).ret = true := by rw [hbsz, hrZ]
      have hfM := frame_eq_loop_ctx P Mode.CTR M M.length b cM
      have hfZ := frame_eq_loop_ctx P Mode.CTR Z M.length b cZ
      have hlcM : loop_ctx P Mode.CTR M M.length b cM =
          apply_ret cM ⟨true, xor_bytes (slice M b (loop_left cM.buffer_size M.length b))
            (ks cM.iv cM.inc_fn cM.cx (loop_left cM.buffer_size M.length b)),
            (nx cM.iv cM.inc_fn cM.cx (loop_left cM.buffer_size M.length b)).1,
            (nx cM.iv cM.inc_fn cM.cx (loop_left cM.buffer_size M.length b)).2⟩ 0 := by
        unfold loop_ctx
        rw [hrM]
      have hlcZ : loop_ctx P Mode.CTR Z M.length b cZ =
          apply_ret cZ ⟨true, xor_bytes (slice Z b (loop_left cM.buffer_size M.length b))
            (ks cM.iv cM.inc_fn cM.cx (loop_left cM.buffer_size M.length b)),
            (nx cM.iv cM.inc_fn cM.cx (loop_left cM.buffer_size M.length b)).1,
            (nx cM.iv cM.inc_fn cM.cx (loop_left cM.buffer_size M.length b)).2⟩ 0 := by
        unfold loop_ctx
        rw [hbsz, hrZ]
      obtain ⟨i1, i2, K, i3, i4, i5⟩ := ih (b + cM.buffer_size)
        (loop_ctx P Mode.CTR M M.length b cM) (loop_ctx P Mode.CTR Z M.length b cZ)
        (by rw [hfM.1]; exact hd) (by rw [hfZ.1, hfM.1]; exact hfl)
        (by rw [hfZ.2.1, hfM.2.1]; exact hinc) (by rw [hlcM, hlcZ]; rfl)
        (by rw [hlcM, hlcZ]; rfl)
        (by rw [hfZ.2.2.2.2.2.1, hfM.2.2.2.2.2.1]; exact hbsz)
        (by rw [hfM.2.2.2.2.2.1]; exact hbs) (by omega)
      rw [hlen] at i2 i5
      rw [write_loop_succ_ok P Mode.CTR M M.length k b cM hb hretM,
        write_loop_succ_ok P Mode.CTR Z M.length k b cZ hb hretZ]
      simp only [hbsz]
      refine ⟨i1, i2, ks cM.iv cM.inc_fn cM.cx (loop_left cM.buffer_size M.length b) ++ K,
        ?_, ?_, ?_⟩
      · rw [List.length_append, hkl, i3]
        unfold loop_left
        split <;> omega
      · simp only [emit_chunks, List.map_cons, List.flatten_cons]
        simp only [emit_chunks] at i4
        rw [i4, drop_slice M b cM.buffer_size hb, xor_bytes_append _ _ _ _ (by rw [hslM, hkl]),
          hlcM]
        unfold apply_ret
        simp only
        rw [memcpy_zero_take _ _ _ (by rw [xor_bytes_length _ _ (by rw [hslM, hkl]), hslM])]
      · simp only [emit_chunks, List.map_cons, List.flatten_cons]
        simp only [emit_chunks] at i5
        have hbZ : b < Z.length := by omega
        have hds := drop_slice Z b cM.buffer_size hbZ
        rw [hlen] at hds
        rw [i5, hds, xor_bytes_append _ _ _ _ (by rw [hslZ, hkl]), hlcZ]
        unfold apply_ret
        simp only
        rw [memcpy_zero_take _ _ _ (by rw [xor_bytes_length _ _ (by rw [hslZ, hkl]), hslZ])]
    · rw [write_loop_done P Mode.CTR M M.length k b cM (by omega),
        write_loop_done P Mode.CTR Z M.length k b cZ (by omega)]
      refine ⟨rfl, rfl, [], ?_, ?_, ?_⟩
      · simp only [List.length_nil]
        omega
      · simp [emit_chunks, xor_bytes]
      · simp [emit_chunks, xor_bytes]

/-- Under the keystream law, one keystream serves the writes of two inputs
of the same length on a CTR encrypt context in accumulate mode. -/
theorem ctr_write_xor {S : Type} (P : AesPrimitive S) (v : Nat) (hks : ctr_keystream_law P)
    (c : l_ctx S) (ho : CTX_FLAG c.flags FLAG_OPEN = true)
    (hnd : CTX_FLAG c.flags FLAG_DESTROYED = false)
    (hd : CTX_FLAG c.flags FLAG_DECRYPT = false) (hacc : c.writer_cb_ref = Ref.noref)
    (hbs : 0 < c.buffer_size) (M Z : Bytes) (hlen : Z.length = M.length) :
    ∃ K : Bytes, K.length = M.length ∧
      (l_write P v Mode.CTR c M).result = LuaResult.str (xor_bytes M K) ∧
      (l_write P v Mode.CTR c Z).result = LuaResult.str (xor_bytes Z K) := by
  obtain ⟨ks, nx, hlaw⟩ := hks
  obtain ⟨l1, l2, K, l3, l4, l5⟩ := ctr_lockstep P ks nx hlaw M Z hlen (M.length + 1) 0 c c hd
    rfl rfl rfl rfl rfl hbs (by omega)
  rw [(stream_write_loop P v Mode.CTR rfl c M ho hnd hacc).1,
    (stream_write_loop P v Mode.CTR rfl c Z ho hnd hacc).1]
  rw [hlen] at l2 l5 ⊢
  rw [List.drop_zero] at l4 l5
  rw [l1, l2]
  simp only
  rw [Nat.sub_zero] at l3
  exact ⟨K, l3, by rw [l4], by rw [l5]⟩

/-- A freshly opened CTR encrypt context, when the constructor accepts the
chunk size and the primitive the key. -/
theorem fresh_open_ctr {S : Type} (P : AesPrimitive S) (arg : Option Int) (key iv : Bytes)
    (harg : arg = none ∨ ∃ n : Nat, arg = some (n : Int) ∧ 32 ≤ n ∧ n < 2147483648)
    (hiv : 16 ≤ iv.length) (hkey : (P.aes_encrypt_key key P.zero_cx).1 = true) :
    ∃ c : l_ctx S, fresh_open P Mode.CTR false arg key iv = some c ∧
      CTX_FLAG c.flags FLAG_OPEN = true ∧ CTX_FLAG c.flags FLAG_DESTROYED = false ∧
      CTX_FLAG c.flags FLAG_DECRYPT = false ∧ c.writer_cb_ref = Ref.noref ∧
      32 ≤ c.buffer_size ∧ c.iv = iv.take 16 ∧ c.cx = (P.aes_encrypt_key key P.zero_cx).2 ∧
      c.inc_fn = some cbuf_inc.backwart_iv_inc := by
  have hnew : ∃ bs : Nat, 32 ≤ bs ∧ l_new P Mode.CTR false arg = Except.ok
      { flags := if false then 0 ||| FLAG_DECRYPT else 0
        cx := P.zero_cx
        iv := List.replicate 16 0
        inc_fn := if Mode.CTR = Mode.CTR then some cbuf_inc.backwart_iv_inc else none
        writer_cb_ref := Ref.noref
        writer_ud_ref := Ref.noref
        tail := 0
        buffer_size := bs
        buffer := List.replicate bs 0 } := by
    rcases harg with h | ⟨n, h, h1, h2⟩
    · refine ⟨4096, by omega, ?_⟩
      subst h
      simp only [l_new]
      rw [if_neg (by omega)]
    · subst h
      exact ⟨n, h1, l_new_accepted P Mode.CTR false n h1 h2⟩
  obtain ⟨bs, hbs, hn⟩ := hnew
  have hlt : ¬(Mode.CTR ≠ Mode.ECB ∧ iv.length < 16) := by
    intro h
    omega
  have hok : ∀ c0 : l_ctx S, c0.flags = 0 → c0.cx = P.zero_cx →
      open_key P Mode.CTR c0 key = P.aes_encrypt_key key P.zero_cx := by
    intro c0 hf hc
    unfold open_key
    rw [hf, hc]
    rfl
  have g1 : CTX_FLAG (if false = true then 0 ||| FLAG_DECRYPT else 0) FLAG_DESTROYED = false := by
    decide
  have g2 : CTX_FLAG (if false = true then 0 ||| FLAG_DECRYPT else 0) FLAG_OPEN = false := by
    decide
  have g3 : CTX_FLAG ((if false = true then 0 ||| FLAG_DECRYPT else 0) ||| FLAG_OPEN)
      FLAG_OPEN = true := by decide
  have g4 : CTX_FLAG ((if false = true then 0 ||| FLAG_DECRYPT else 0) ||| FLAG_OPEN)
      FLAG_DESTROYED = false := by decide
  have g5 : CTX_FLAG ((if false = true then 0 ||| FLAG_DECRYPT else 0) ||| FLAG_OPEN)
      FLAG_DECRYPT = false := by decide
  unfold fresh_open
  rw [hn]
  simp only
  rw [l_open_closed P Mode.CTR _ key iv g1 g2 hlt
    (by rw [hok _ rfl rfl]; exact hkey), hok _ rfl rfl]
  simp only [if_true]
  exact ⟨_, rfl, g3, g4, g5, rfl, hbs, rfl, rfl, rfl⟩

theorem ctrAes_keystream_law : ctr_keystream_law ctrAes :=
  ⟨fun iv f cx n => (List.range n).map fun q =>
      ctr_keystream_byte (fun blk => (xor_block blk cx.1).reverse) (inc_of f) iv (cx.2 + q),
    fun iv f cx n => (Nat.iterate (inc_of f) ((cx.2 + n) / 16) iv, (cx.1, (cx.2 + n) % 16)),
    fun ib iv f cx => ⟨by simp, rfl⟩⟩

/-- On the toy counter mode, a fresh CTR encrypt context with chunk size 33
returns for 32 zero bytes the block encryptions of the counter and of the
counter incremented by `backwart_iv_inc`. -/
theorem ctrAes_zero_write :
    (fresh_open ctrAes Mode.CTR false (some 33) (List.replicate 16 7)
        (List.replicate 14 0 ++ [255, 255])).map
      (fun c => (l_write ctrAes 502 Mode.CTR c (List.replicate 32 0)).result) =
    some (LuaResult.str
      (ctrAes.aes_encrypt (List.replicate 14 0 ++ [255, 255]) (List.replicate 16 7, 0) ++
        ctrAes.aes_encrypt (backwart_iv_inc (List.replicate 14 0 ++ [255, 255]))
          (List.replicate 16 7, 0))) := by
  decide

/-- C29: CTR keystream equality.  Assume the CTR encryption entry point of
the primitive XORs its input with a keystream that, like
`E_K(counter), E_K(inc(counter)), ...`, depends only on the register, the
increment function, the schedule and the number of bytes, as do the register
and schedule it leaves.  For every chunk size the constructor accepts, every
key the primitive accepts, every IV `V` of at least 16 bytes and every
message `M`: the CTR encrypt context created and opened with the key and `V`
exists, starts from the first 16 bytes of `V` as counter with the big-endian
increment, returns a string `Z` of `M.length` bytes for `write` of that many
zero bytes, and returns the bytewise XOR of `M` and `Z` for `write(M)`. -/
theorem ctr_keystream_equality {S : Type} (P : AesPrimitive S) (v : Nat)
    (hks : ctr_keystream_law P) (arg : Option Int) (key iv M : Bytes)
    (harg : arg = none ∨ ∃ n : Nat, arg = some (n : Int) ∧ 32 ≤ n ∧ n < 2147483648)
    (hiv : 16 ≤ iv.length) (hkey : (P.aes_encrypt_key key P.zero_cx).1 = true) :
    ∃ (c : l_ctx S) (Z : Bytes), fresh_open P Mode.CTR false arg key iv = some c ∧
      c.iv = iv.take 16 ∧ c.inc_fn = some cbuf_inc.backwart_iv_inc ∧
      (l_write P v Mode.CTR c (List.replicate M.length 0)).result = LuaResult.str Z ∧
      Z.length = M.length ∧
      (l_write P v Mode.CTR c M).result = LuaResult.str (xor_bytes M Z) := by
  obtain ⟨c, c1, c2, c3, c4, c5, c6, c7, _, c9⟩ := fresh_open_ctr P arg key iv harg hiv hkey
  obtain ⟨K, k1, k2, k3⟩ := ctr_write_xor P v hks c c2 c3 c4 c5 (by omega) M
    (List.replicate M.length 0) (by simp)
  rw [← k1, xor_bytes_zero] at k3
  rw [k1] at k3
  exact ⟨c, K, c1, c7, c9, k3, k1, k2⟩

theorem ctr_keystream_equality_witness :
    ctr_keystream_law ctrAes ∧ 16 ≤ (List.replicate 14 0 ++ [255, 255]).length ∧
      (ctrAes.aes_encrypt_key (List.replicate 16 7) ctrAes.zero_cx).1 = true ∧
      ∃ (c : l_ctx (Bytes × Nat)) (Z : Bytes),
        fresh_open ctrAes Mode.CTR false (some 33) (List.replicate 16 7)
          (List.replicate 14 0 ++ [255, 255]) = some c ∧
        c.iv = (List.replicate 14 0 ++ [255, 255]).take 16 ∧
        c.inc_fn = some cbuf_inc.backwart_iv_inc ∧
        (l_write ctrAes 502 Mode.CTR c (List.replicate (List.range 70).length 0)).result =
          LuaResult.str Z ∧
        Z.length = (List.range 70).length ∧
        (l_write ctrAes 502 Mode.CTR c (List.range 70)).result =
          LuaResult.str (xor_bytes (List.range 70) Z) :=
  ⟨ctrAes_keystream_law, by decide, by decide,
    ctr_keystream_equality ctrAes 502 ctrAes_keystream_law (some 33) (List.replicate 16 7)
      (List.replicate 14 0 ++ [255, 255]) (List.range 70)
      (Or.inr ⟨33, rfl, by omega, by omega⟩) (by decide) (by decide)⟩

/-! ## Open and Destroyed -/

theorem l_set_writer_flags {S : Type} (m : Mode) (ctx : l_ctx S) (args : List LuaValue) :
    (l_set_writer m ctx args).ctx.flags = ctx.flags ∧
      (l_set_writer m ctx args).ctx.tail = ctx.tail ∧
      (l_set_writer m ctx args).ctx.buffer = ctx.buffer ∧
      (l_set_writer m ctx args).ctx.iv = ctx.iv ∧
      (l_set_writer m ctx args).ctx.cx = ctx.cx := by
  unfold l_set_writer
  cases l_get_at m ctx with
  | some e => exact ⟨rfl, rfl, rfl, rfl, rfl⟩
  | none =>
    simp only
    split
    · split <;> exact ⟨rfl, rfl, rfl, rfl, rfl⟩
    · exact ⟨rfl, rfl, rfl, rfl, rfl⟩
    · exact ⟨rfl, rfl, rfl, rfl, rfl⟩
    · exact ⟨rfl, rfl, rfl, rfl, rfl⟩
    · split <;> exact ⟨rfl, rfl, rfl, rfl, rfl⟩
    · exact ⟨rfl, rfl, rfl, rfl, rfl⟩

/-- A method call on a context that is not both Open and Destroyed leaves a
context that is not both. -/
theorem step_exclusive {S : Type} (P : AesPrimitive S) (v : Nat) (m : Mode) (ctx : l_ctx S)
    (op : Op)
    (h : ¬(CTX_FLAG ctx.flags FLAG_OPEN = true ∧ CTX_FLAG ctx.flags FLAG_DESTROYED = true)) :
    ¬(CTX_FLAG (step P v m ctx op).flags FLAG_OPEN = true ∧
      CTX_FLAG (step P v m ctx op).flags FLAG_DESTROYED = true) := by
  cases hd : CTX_FLAG ctx.flags FLAG_DESTROYED with
  | true =>
    rw [step_destroyed P v m ctx hd op]
    exact h
  | false =>
    have keep : ∀ c : l_ctx S, c.flags = ctx.flags →
        ¬(CTX_FLAG c.flags FLAG_OPEN = true ∧ CTX_FLAG c.flags FLAG_DESTROYED = true) := by
      intro c hc
      rw [hc]
      exact h
    cases op with
    | open_ctx key iv =>
      simp only [step]
      unfold l_open
      rw [l_get_at_none m ctx hd]
      simp only
      split
      · exact h
      · split
        · exact h
        · split <;> split <;>
            first
            | exact h
            | (intro hx
               have h2 := (flags_set_open ctx.flags).2.1
               rw [hd] at h2
               have h3 := hx.2
               rw [show CTX_FLAG (ctx.flags ||| FLAG_OPEN) FLAG_DESTROYED = false from h2] at h3
               cases h3)
    | close_ctx =>
      simp only [step]
      unfold l_close
      rw [l_get_at_none m ctx hd]
      simp only
      split
      · intro hx
        have h2 := (flags_clear_open ctx.flags).1
        have h3 := hx.1
        rw [show CTX_FLAG (ctx.flags &&& NOT_FLAG_OPEN) FLAG_OPEN = false from h2] at h3
        cases h3
      · exact h
    | reset iv =>
      simp only [step]
      unfold l_reset
      rw [l_get_at_none m ctx hd]
      simp only
      split
      · exact h
      · split
        · exact h
        · split <;> exact h
    | write data => exact keep _ (l_write_sink P v m ctx data).1.1
    | write_stop data i =>
      obtain ⟨r1, r2⟩ := l_write_sink P v m ctx data
      simp only [step, ctx_after_sink_error]
      cases hc : (l_write P v m ctx data).calls.get? i with
      | none => exact keep _ r1.1
      | some call => exact keep _ (r2 call (List.get?_mem hc)).1
    | write_resume data cursor top =>
      simp only [step]
      split
      · exact keep _ (l_writek_impl_sink P m ctx data (some (cursor, top))).1.1
      · exact h
    | set_writer args =>
      exact keep _ (l_set_writer_flags m ctx args).1
    | get_writer =>
      simp only [step]
      unfold l_get_writer
      cases l_get_at m ctx <;> exact h
    | destroy =>
      simp only [step]
      unfold l_destroy
      rw [if_neg (by rw [hd]; simp)]
      simp only
      split
      · intro hx
        have h2 := (flags_set_destroyed (ctx.flags &&& NOT_FLAG_OPEN)).2.1
        rw [(flags_clear_open ctx.flags).1] at h2
        have h3 := hx.1
        rw [show CTX_FLAG (ctx.flags &&& NOT_FLAG_OPEN ||| FLAG_DESTROYED) FLAG_OPEN = false
          from h2] at h3
        cases h3
      · rename_i ho
        intro hx
        have h2 := (flags_set_destroyed ctx.flags).2.1
        have h3 := hx.1
        rw [show CTX_FLAG (ctx.flags ||| FLAG_DESTROYED) FLAG_OPEN = CTX_FLAG ctx.flags FLAG_OPEN
          from h2] at h3
        exact ho h3
    | destroyed => exact h
    | closed =>
      simp only [step]
      unfold l_closed
      cases l_get_at m ctx <;> exact h

theorem run_exclusive {S : Type} (P : AesPrimitive S) (v : Nat) (m : Mode) (ops : List Op) :
    ∀ ctx : l_ctx S,
      ¬(CTX_FLAG ctx.flags FLAG_OPEN = true ∧ CTX_FLAG ctx.flags FLAG_DESTROYED = true) →
      ¬(CTX_FLAG (run P v m ctx ops).flags FLAG_OPEN = true ∧
        CTX_FLAG (run P v m ctx ops).flags FLAG_DESTROYED = true) := by
  induction ops with
  | nil => intro ctx h; exact h
  | cons op ops ih =>
    intro ctx h
    simp only [run]
    exact ih _ (step_exclusive P v m ctx op h)

/-- C32: Open and Destroyed are exclusive, for every mode.  In every state
reached from a constructed context by any sequence of method calls (`open`,
`close`, `reset`, `set_writer`, `get_writer`, every kind of `write`,
`destroy`, the inspections; returning or raising) the Open flag and the
Destroyed flag are not both set, so the context is in exactly one of the
states Closed (neither flag), Open (Open and not Destroyed) and Destroyed
(Destroyed and not Open). -/
theorem open_destroyed_exclusive {S : Type} (P : AesPrimitive S) (v : Nat) (m : Mode)
    (dec : Bool) (arg : Option Int) (c0 : l_ctx S) (h : l_new P m dec arg = Except.ok c0)
    (ops : List Op) :
    ¬(CTX_FLAG (run P v m c0 ops).flags FLAG_OPEN = true ∧
        CTX_FLAG (run P v m c0 ops).flags FLAG_DESTROYED = true) ∧
      ((CTX_FLAG (run P v m c0 ops).flags FLAG_OPEN = false ∧
          CTX_FLAG (run P v m c0 ops).flags FLAG_DESTROYED = false) ∨
        (CTX_FLAG (run P v m c0 ops).flags FLAG_OPEN = true ∧
          CTX_FLAG (run P v m c0 ops).flags FLAG_DESTROYED = false) ∨
        (CTX_FLAG (run P v m c0 ops).flags FLAG_OPEN = false ∧
          CTX_FLAG (run P v m c0 ops).flags FLAG_DESTROYED = true)) := by
  have h0 : ¬(CTX_FLAG c0.flags FLAG_OPEN = true ∧ CTX_FLAG c0.flags FLAG_DESTROYED = true) := by
    rw [(l_new_ok P m dec arg c0 h).1]
    cases dec <;> decide
  have hr := run_exclusive P v m ops c0 h0
  refine ⟨hr, ?_⟩
  cases ho : CTX_FLAG (run P v m c0 ops).flags FLAG_OPEN <;>
    cases hd : CTX_FLAG (run P v m c0 ops).flags FLAG_DESTROYED
  · exact Or.inl ⟨rfl, rfl⟩
  · exact Or.inr (Or.inr ⟨rfl, rfl⟩)
  · exact Or.inr (Or.inl ⟨rfl, rfl⟩)
  · exact absurd ⟨ho, hd⟩ hr

theorem open_destroyed_exclusive_witness :
    ∃ c0 : l_ctx Bytes, l_new toyAes Mode.CBC false (some ((32 : Nat) : Int)) = Except.ok c0 ∧
      ¬(CTX_FLAG (run toyAes 502 Mode.CBC c0
            [Op.open_ctx (List.replicate 16 7) (List.range 16), Op.write (List.range 40),
              Op.destroy, Op.open_ctx (List.replicate 16 7) (List.range 16),
              Op.close_ctx]).flags FLAG_OPEN = true ∧
          CTX_FLAG (run toyAes 502 Mode.CBC c0
            [Op.open_ctx (List.replicate 16 7) (List.range 16), Op.write (List.range 40),
              Op.destroy, Op.open_ctx (List.replicate 16 7) (List.range 16),
              Op.close_ctx]).flags FLAG_DESTROYED = true) :=
  ⟨_, l_new_accepted toyAes Mode.CBC false 32 (by decide) (by decide),
    (open_destroyed_exclusive toyAes 502 Mode.CBC false (some ((32 : Nat) : Int)) _
      (l_new_accepted toyAes Mode.CBC false 32 (by decide) (by decide)) _).1⟩

/-! ## open with a key the primitive rejects -/

/-- C35: `open` that fails on the key is not atomic.  For every CBC, CFB, OFB
or CTR context that is neither Destroyed nor Open, `open(key, iv)` with an IV
of at least 16 bytes and a key the key setup rejects raises "invalid key
length" and leaves the context Closed with its flags as they were, but the
chaining register is already the first 16 bytes of the IV (and the schedule
is whatever the failed key setup left); nothing else has changed. -/
theorem open_key_failure_not_atomic {S : Type} (P : AesPrimitive S) (m : Mode)
    (hm : m ≠ Mode.ECB) (ctx : l_ctx S) (key iv : Bytes)
    (hnd : CTX_FLAG ctx.flags FLAG_DESTROYED = false)
    (hcl : CTX_FLAG ctx.flags FLAG_OPEN = false) (hiv : 16 ≤ iv.length)
    (hkey : (open_key P m ctx key).1 = false) :
    (l_open P m ctx key iv).result = LuaResult.error "invalid key length" ∧
      (l_open P m ctx key iv).ctx.flags = ctx.flags ∧
      CTX_FLAG (l_open P m ctx key iv).ctx.flags FLAG_OPEN = false ∧
      (l_open P m ctx key iv).ctx.iv = iv.take 16 ∧
      (l_open P m ctx key iv).ctx =
        { ctx with iv := iv.take 16, cx := (open_key P m ctx key).2 } := by
  have hk : open_key P m { ctx with iv := iv.take 16 } key = open_key P m ctx key := rfl
  have hlt : ¬(m ≠ Mode.ECB ∧ iv.length < 16) := by
    intro hx
    omega
  have hres : l_open P m ctx key iv =
      ⟨{ ctx with iv := iv.take 16, cx := (open_key P m ctx key).2 },
        LuaResult.error "invalid key length"⟩ := by
    unfold l_open
    rw [l_get_at_none m ctx hnd]
    simp only [hcl, Bool.false_eq_true, if_false, if_neg hlt, if_neg hm, hk, hkey]
  rw [hres]
  exact ⟨rfl, rfl, hcl, rfl, rfl⟩

theorem open_key_failure_not_atomic_witness :
    Mode.CBC ≠ Mode.ECB ∧
      CTX_FLAG (l_close Mode.CBC (toy_ctx Mode.CBC false 32 0)).ctx.flags FLAG_DESTROYED = false ∧
      CTX_FLAG (l_close Mode.CBC (toy_ctx Mode.CBC false 32 0)).ctx.flags FLAG_OPEN = false ∧
      16 ≤ (List.replicate 20 9).length ∧
      (open_key toyAes Mode.CBC (l_close Mode.CBC (toy_ctx Mode.CBC false 32 0)).ctx
        (List.replicate 5 7)).1 = false ∧
      (l_open toyAes Mode.CBC (l_close Mode.CBC (toy_ctx Mode.CBC false 32 0)).ctx
        (List.replicate 5 7) (List.replicate 20 9)).result =
          LuaResult.error "invalid key length" ∧
      (l_close Mode.CBC (toy_ctx Mode.CBC false 32 0)).ctx.iv = List.range 16 ∧
      (l_open toyAes Mode.CBC (l_close Mode.CBC (toy_ctx Mode.CBC false 32 0)).ctx
        (List.replicate 5 7) (List.replicate 20 9)).ctx.iv = List.replicate 16 9 :=
  ⟨by decide, by decide, by decide, by decide, by decide,
    (open_key_failure_not_atomic toyAes Mode.CBC (by decide)
      (l_close Mode.CBC (toy_ctx Mode.CBC false 32 0)).ctx (List.replicate 5 7)
      (List.replicate 20 9) (by decide) (by decide) (by decide) (by decide)).1,
    by decide, by decide⟩

/-! ## set_writer that fails -/

/-- Without a sink bound `write_impl` calls no sink. -/
theorem l_write_impl_acc_calls {S : Type} (P : AesPrimitive S) (m : Mode) (ctx : l_ctx S)
    (data : Bytes) (hacc : ctx.writer_cb_ref = Ref.noref) :
    (l_write_impl P m ctx data).calls = [] := by
  cases hd : CTX_FLAG ctx.flags FLAG_DESTROYED with
  | true => rw [l_write_impl_destroyed P m ctx data hd]
  | false =>
    by_cases ht : m.has_tail = true ∧ ctx.tail ≠ 0
    · by_cases hs : (wfill ctx data 0).tail < 16
      · rw [l_write_impl_short P m ctx data hd ht hs]
      · rw [l_write_impl_full P m ctx data hd ht hs,
          (write_rest_proj P m _ _ data _ _ _ _ _ rfl).1]
        simp [hacc]
    · rw [l_write_impl_notail P m ctx data hd ht,
        (write_rest_proj P m _ _ data _ _ _ _ _ rfl).1]
      simp [hacc]

/-- A call of `set_writer` on a context that is not Destroyed either returns
the context or raises, and when it raises no sink is bound afterwards. -/
theorem l_set_writer_fail {S : Type} (m : Mode) (ctx : l_ctx S) (args : List LuaValue)
    (hnd : CTX_FLAG ctx.flags FLAG_DESTROYED = false)
    (hf : (l_set_writer m ctx args).result ≠ LuaResult.self) :
    (∃ msg, (l_set_writer m ctx args).result = LuaResult.error msg) ∧
      (l_set_writer m ctx args).ctx = with_sink ctx Ref.noref Ref.noref := by
  unfold l_set_writer at hf ⊢
  rw [l_get_at_none m ctx hnd] at hf ⊢
  simp only at hf ⊢
  split at hf
  · rename_i a2 a3 rest
    by_cases h2 : a2 = LuaValue.nil
    · simp only [h2, if_true]
      exact ⟨⟨_, rfl⟩, rfl⟩
    · simp [h2] at hf
  · exact absurd rfl hf
  · exact absurd rfl hf
  · exact absurd rfl hf
  · rename_i o w
    cases w with
    | func f => exact absurd rfl hf
    | absent => exact ⟨⟨_, rfl⟩, rfl⟩
    | other n => exact ⟨⟨_, rfl⟩, rfl⟩
  · exact ⟨⟨_, rfl⟩, rfl⟩

/-- C34: a failing `set_writer` is not atomic, for every mode and every
context that is not Destroyed, whatever sink was bound before.  The call
fails for a value that is neither a function nor an object, for an object
whose `write` member is missing or not a function, and for a nil consumer
given together with a receiver.  Every call that fails raises an error and
leaves the context as it was except that no consumer and no receiver are
bound: `get_writer` returns nil, nil, and the next `write` on an Open context
takes the accumulate path, calls no sink and does not return "no values". -/
theorem failing_set_writer_unbinds {S : Type} (P : AesPrimitive S) (v : Nat) (m : Mode)
    (ctx : l_ctx S) (hnd : CTX_FLAG ctx.flags FLAG_DESTROYED = false) :
    (∀ n : Nat, (l_set_writer m ctx [LuaValue.other n]).result ≠ LuaResult.self) ∧
    (∀ (o : Nat) (w : Member), (∀ f, w ≠ Member.func f) →
      (l_set_writer m ctx [LuaValue.object o w]).result ≠ LuaResult.self) ∧
    (∀ (a3 : LuaValue) (more : List LuaValue),
      (l_set_writer m ctx (LuaValue.nil :: a3 :: more)).result ≠ LuaResult.self) ∧
    (∀ args : List LuaValue, (l_set_writer m ctx args).result ≠ LuaResult.self →
      (∃ msg, (l_set_writer m ctx args).result = LuaResult.error msg) ∧
      (l_set_writer m ctx args).ctx = with_sink ctx Ref.noref Ref.noref ∧
      (l_set_writer m ctx args).ctx.writer_cb_ref = Ref.noref ∧
      (l_set_writer m ctx args).ctx.writer_ud_ref = Ref.noref ∧
      (l_get_writer m (l_set_writer m ctx args).ctx).result =
        LuaResult.vals LuaValue.nil LuaValue.nil ∧
      (∀ data : Bytes, CTX_FLAG ctx.flags FLAG_OPEN = true →
        l_write P v m (l_set_writer m ctx args).ctx data =
          l_write_impl P m (with_sink ctx Ref.noref Ref.noref) data ∧
        (l_write P v m (l_set_writer m ctx args).ctx data).calls = [] ∧
        (l_write P v m (l_set_writer m ctx args).ctx data).result ≠ LuaResult.ret0)) := by
  refine ⟨?_, ?_, ?_, ?_⟩
  · intro n
    simp [l_set_writer, l_get_at_none m ctx hnd]
  · intro o w hw
    cases w with
    | func f => exact absurd rfl (hw f)
    | absent => simp [l_set_writer, l_get_at_none m ctx hnd]
    | other n => simp [l_set_writer, l_get_at_none m ctx hnd]
  · intro a3 more
    simp [l_set_writer, l_get_at_none m ctx hnd]
  · intro args hf
    obtain ⟨f1, f2⟩ := l_set_writer_fail m ctx args hnd hf
    rw [f2]
    have hnd2 : CTX_FLAG (with_sink ctx Ref.noref Ref.noref).flags FLAG_DESTROYED = false := hnd
    refine ⟨f1, rfl, rfl, rfl, ?_, ?_⟩
    · unfold l_get_writer
      rw [l_get_at_none m _ hnd2]
      rfl
    · intro data ho
      have hw := l_write_accumulate P v m (with_sink ctx Ref.noref Ref.noref) data ho hnd2 rfl
      rw [hw]
      refine ⟨rfl, l_write_impl_acc_calls P m _ data rfl, ?_⟩
      by_cases ht : m.has_tail = true ∧ (with_sink ctx Ref.noref Ref.noref).tail ≠ 0
      · by_cases hs : (wfill (with_sink ctx Ref.noref Ref.noref) data 0).tail < 16
        · rw [l_write_impl_short P m _ data hnd2 ht hs]
          simp [with_sink]
        · rw [l_write_impl_full P m _ data hnd2 ht hs,
            (write_rest_proj P m _ _ data _ _ _ _ _ rfl).2.2]
          split <;> simp [with_sink]
      · rw [l_write_impl_notail P m _ data hnd2 ht,
          (write_rest_proj P m _ _ data _ _ _ _ _ rfl).2.2]
        split <;> simp [with_sink]

theorem failing_set_writer_unbinds_witness :
    CTX_FLAG (toy_sink_ctx Mode.CBC false 32 0).flags FLAG_DESTROYED = false ∧
      (toy_sink_ctx Mode.CBC false 32 0).writer_cb_ref = Ref.ref (LuaValue.func 1) ∧
      (l_write toyAes 502 Mode.CBC (toy_sink_ctx Mode.CBC false 32 0) (List.range 40)).calls.length
        = 1 ∧
      (l_set_writer Mode.CBC (toy_sink_ctx Mode.CBC false 32 0) [LuaValue.other 3]).result =
        LuaResult.error "invalid writer type" ∧
      (l_set_writer Mode.CBC (toy_sink_ctx Mode.CBC false 32 0) [LuaValue.other 3]).ctx.writer_cb_ref
        = Ref.noref ∧
      (l_write toyAes 502 Mode.CBC
        (l_set_writer Mode.CBC (toy_sink_ctx Mode.CBC false 32 0) [LuaValue.other 3]).ctx
        (List.range 40)).calls = [] :=
  ⟨by decide, by decide, by decide, by decide,
    ((failing_set_writer_unbinds toyAes 502 Mode.CBC (toy_sink_ctx Mode.CBC false 32 0)
      (by decide)).2.2.2 [LuaValue.other 3] (by decide)).2.2.1,
    (((failing_set_writer_unbinds toyAes 502 Mode.CBC (toy_sink_ctx Mode.CBC false 32 0)
      (by decide)).2.2.2 [LuaValue.other 3] (by decide)).2.2.2.2.2 (List.range 40)
      (by decide)).2.1⟩

/-! ## The tail across close, open and reset -/

theorem l_close_tail {S : Type} (m : Mode) (ctx : l_ctx S) :
    (l_close m ctx).ctx.tail = ctx.tail ∧ (l_close m ctx).ctx.buffer = ctx.buffer ∧
      (l_close m ctx).ctx.buffer_size = ctx.buffer_size ∧
      (CTX_FLAG ctx.flags FLAG_DESTROYED = false →
        CTX_FLAG (l_close m ctx).ctx.flags FLAG_DESTROYED = false) := by
  unfold l_close
  cases l_get_at m ctx with
  | some e => exact ⟨rfl, rfl, rfl, fun h => h⟩
  | none =>
    simp only
    split
    · exact ⟨rfl, rfl, rfl, fun _ => (flags_clear_open ctx.flags).2.1⟩
    · exact ⟨rfl, rfl, rfl, fun h => h⟩

theorem l_open_tail {S : Type} (P : AesPrimitive S) (m : Mode) (ctx : l_ctx S) (key iv : Bytes) :
    (l_open P m ctx key iv).ctx.tail = ctx.tail ∧ (l_open P m ctx key iv).ctx.buffer = ctx.buffer ∧
      (l_open P m ctx key iv).ctx.buffer_size = ctx.buffer_size ∧
      (CTX_FLAG ctx.flags FLAG_DESTROYED = false →
        CTX_FLAG (l_open P m ctx key iv).ctx.flags FLAG_DESTROYED = false) := by
  unfold l_open
  cases l_get_at m ctx with
  | some e => exact ⟨rfl, rfl, rfl, fun h => h⟩
  | none =>
    simp only
    split
    · exact ⟨rfl, rfl, rfl, fun h => h⟩
    · split
      · exact ⟨rfl, rfl, rfl, fun h => h⟩
      · split <;> split <;>
          first
          | exact ⟨rfl, rfl, rfl, fun h => h⟩
          | exact ⟨rfl, rfl, rfl, fun h => (flags_set_open ctx.flags).2.1.trans h⟩

theorem l_reset_tail {S : Type} (P : AesPrimitive S) (m : Mode) (ctx : l_ctx S) (iv : Bytes) :
    (l_reset P m ctx iv).ctx.tail = ctx.tail ∧ (l_reset P m ctx iv).ctx.buffer = ctx.buffer ∧
      (l_reset P m ctx iv).ctx.buffer_size = ctx.buffer_size ∧
      (l_reset P m ctx iv).ctx.flags = ctx.flags := by
  unfold l_reset
  cases l_get_at m ctx with
  | some e => exact ⟨rfl, rfl, rfl, rfl⟩
  | none =>
    simp only
    split
    · exact ⟨rfl, rfl, rfl, rfl⟩
    · split
      · exact ⟨rfl, rfl, rfl, rfl⟩
      · split <;> exact ⟨rfl, rfl, rfl, rfl⟩

theorem blocks_run_head (step : Bytes → Bytes → Bytes × Bytes)
    (hstep : ∀ blk iv, (step blk iv).1.length = 16) (n : Nat) (hn : 0 < n) (X iv : Bytes) :
    (blocks_run step n X iv).1.take 16 = (step (X.take 16) iv).1 := by
  obtain ⟨k, rfl⟩ : ∃ k, n = k + 1 := ⟨n - 1, by omega⟩
  simp only [blocks_run]
  rw [List.take_left' (hstep _ _)]

theorem pending_head (stale data : Bytes) (t : Nat) (hs : stale.length = t) (ht : t ≤ 16) :
    (stale ++ data).take 16 = stale ++ data.take (16 - t) := by
  rw [List.take_append_eq_append_take, List.take_of_length_le (by omega), hs]

/-- The first sink call of a write on an ECB or CBC context whose buffered
bytes the input completes to a block: the chunk is the transform of that
block. -/
theorem l_write_first_call {S : Type} (P : AesPrimitive S) (v : Nat) (m : Mode)
    (hm : m.has_tail = true) (ctx : l_ctx S) (data : Bytes)
    (ho : CTX_FLAG ctx.flags FLAG_OPEN = true)
    (hnd : CTX_FLAG ctx.flags FLAG_DESTROYED = false) (hcb : ctx.writer_cb_ref ≠ Ref.noref)
    (h0 : ctx.tail ≠ 0) (ht : ctx.tail < 16) (hb : 16 ≤ ctx.buffer.length)
    (hd : 16 - ctx.tail ≤ data.length) :
    ∃ rest, (l_write P v m ctx data).calls.map (fun c => c.chunk) =
      (block_step P m ctx.flags ctx.cx (ctx.buffer.take ctx.tail ++ data.take (16 - ctx.tail))
        ctx.iv).1 :: rest := by
  obtain ⟨b1, b2, b3, _⟩ := wblock_full P m hm ctx data 0 h0 ht hb (by omega)
  have hblk : slice (wblock P m ctx data 0).buffer 16 16 =
      (block_step P m ctx.flags ctx.cx (ctx.buffer.take ctx.tail ++ data.take (16 - ctx.tail))
        ctx.iv).1 := by
    rw [b3, List.drop_zero]
    simp only [blocks_run, List.append_nil]
    rw [pending_head _ _ ctx.tail (by simp; omega) (by omega)]
  have hs : ¬(wfill ctx data 0).tail < 16 := by rw [b2]; omega
  have hcbd : decide (ctx.writer_cb_ref = Ref.noref) = false := by simp [hcb]
  unfold l_write
  rw [l_get_at_none m ctx hnd]
  simp only [ho, if_true]
  split
  · have he : ¬entry_data none ≥ data.length := by
      show ¬(0 ≥ data.length)
      omega
    have h00 : entry_data none = 0 := rfl
    rw [l_writek_impl_full P m ctx data none hnd he ⟨hm, h0⟩ (by rw [h00]; exact hs),
      (writek_rest_proj P m _ data _ _ _ _ _).1]
    simp only [h00, List.cons_append, List.nil_append, List.map_cons]
    rw [show slice (tail_clear (wblock P m ctx data 0)).buffer 16 16 = _ from hblk]
    exact ⟨_, rfl⟩
  · rw [l_write_impl_full P m ctx data hnd ⟨hm, h0⟩ hs,
      (write_rest_proj P m _ _ data _ _ _ _ _ rfl).1]
    simp only [hcbd, Bool.false_eq_true, if_false, List.cons_append, List.nil_append,
      List.map_cons]
    exact ⟨_, by rw [hblk]⟩

/-- A write on an Open context `c` that holds the buffered bytes of `ctx`:
when the input completes the block, the first 16 bytes that come out are the
transform of the buffered bytes followed by the first input bytes. -/
theorem write_after_same_tail {S : Type} (P : AesPrimitive S) (v : Nat) (m : Mode)
    (hm : m.has_tail = true) (ctx c : l_ctx S) (data : Bytes) (h0 : ctx.tail ≠ 0)
    (hok : ctx_ok ctx) (e1 : c.tail = ctx.tail) (e2 : c.buffer = ctx.buffer)
    (e3 : c.buffer_size = ctx.buffer_size) (hnd : CTX_FLAG c.flags FLAG_DESTROYED = false)
    (ho : CTX_FLAG c.flags FLAG_OPEN = true) (hlen : 16 ≤ ctx.tail + data.length) :
    (c.writer_cb_ref ≠ Ref.noref →
      ∃ rest, (l_write P v m c data).calls.map (fun x => x.chunk) = (block_step P m c.flags c.cx (ctx.buffer.take ctx.tail ++ data.take (16 - ctx.tail)) c.iv).1 :: rest) ∧
    (c.writer_cb_ref = Ref.noref → chunks_ok ctx data →
      ∃ out, (l_write P v m c data).result = LuaResult.str out ∧ out.take 16 = (block_step P m c.flags c.cx (ctx.buffer.take ctx.tail ++ data.take (16 - ctx.tail)) c.iv).1) := by
  obtain ⟨k1, k2, k3⟩ := hok
  constructor
  · intro hcb
    have hx := l_write_first_call P v m hm c data ho hnd hcb (by rw [e1]; exact h0)
      (by rw [e1]; exact k1) (by rw [e2]; omega) (by rw [e1]; omega)
    rw [e1, e2] at hx
    exact hx
  · intro hacc hch
    have hok2 : ctx_ok c := ⟨by rw [e1]; exact k1, by rw [e3]; exact k2, by rw [e3, e2]; exact k3⟩
    have hch2 : chunks_ok c data := by
      unfold chunks_ok at hch ⊢
      rw [e1, e3]
      exact hch
    obtain ⟨w1, _⟩ := write_spec P v m hm c data ⟨ho, hnd, hacc, hok2⟩ hch2
    refine ⟨_, w1, ?_⟩
    have hpl : (pending c data).length = ctx.tail + data.length := by
      rw [pending_length c data (by rw [e1, e2]; omega), e1]
    unfold spec_run
    rw [blocks_run_head _ (block_step_length P m c.flags c.cx) _ (by rw [hpl]; omega)]
    unfold pending
    rw [e1, e2, pending_head _ _ ctx.tail (by simp; omega) (by omega)]

/-- C33: the tail survives `close`, `open` and `reset`.  Take an ECB or CBC
context that is not Destroyed and holds `t` buffered bytes, `0 < t < 16`
(within the bounds of the data model).  `close`, a following `open` with any
key and IV, and `reset` with any IV, whether they return or raise, leave the
tail count and the buffered bytes as they were.  So on the context reopened
or reset, once Open, a `write` of at least `16 - t` bytes transforms first
the block made of the `t` old bytes followed by the first `16 - t` bytes of
the new input: with a sink bound that is the first chunk passed to it, and
in accumulate mode (every sub-run aligned) those are the first 16 bytes of
the string returned. -/
theorem tail_survives_close_open_reset {S : Type} (P : AesPrimitive S) (v : Nat) (m : Mode)
    (hm : m.has_tail = true) (ctx : l_ctx S) (hnd : CTX_FLAG ctx.flags FLAG_DESTROYED = false)
    (h0 : ctx.tail ≠ 0) (hok : ctx_ok ctx) :
    ((l_close m ctx).ctx.tail = ctx.tail ∧ (l_close m ctx).ctx.buffer = ctx.buffer) ∧
    (∀ key iv : Bytes,
      (l_open P m (l_close m ctx).ctx key iv).ctx.tail = ctx.tail ∧
      (l_open P m (l_close m ctx).ctx key iv).ctx.buffer = ctx.buffer) ∧
    (∀ iv : Bytes,
      (l_reset P m ctx iv).ctx.tail = ctx.tail ∧ (l_reset P m ctx iv).ctx.buffer = ctx.buffer) ∧
    (∀ (c : l_ctx S) (data : Bytes),
      ((∃ key iv : Bytes, c = (l_open P m (l_close m ctx).ctx key iv).ctx) ∨
        (∃ iv : Bytes, c = (l_reset P m ctx iv).ctx)) →
      CTX_FLAG c.flags FLAG_OPEN = true → 16 ≤ ctx.tail + data.length →
      (c.writer_cb_ref ≠ Ref.noref →
        ∃ rest, (l_write P v m c data).calls.map (fun x => x.chunk) = (block_step P m c.flags c.cx (ctx.buffer.take ctx.tail ++ data.take (16 - ctx.tail)) c.iv).1 :: rest) ∧
      (c.writer_cb_ref = Ref.noref → chunks_ok ctx data →
        ∃ out, (l_write P v m c data).result = LuaResult.str out ∧ out.take 16 = (block_step P m c.flags c.cx (ctx.buffer.take ctx.tail ++ data.take (16 - ctx.tail)) c.iv).1)) := by
  obtain ⟨c1, c2, c3, c4⟩ := l_close_tail m ctx
  have hop : ∀ key iv : Bytes,
      (l_open P m (l_close m ctx).ctx key iv).ctx.tail = ctx.tail ∧
      (l_open P m (l_close m ctx).ctx key iv).ctx.buffer = ctx.buffer ∧
      (l_open P m (l_close m ctx).ctx key iv).ctx.buffer_size = ctx.buffer_size ∧
      CTX_FLAG (l_open P m (l_close m ctx).ctx key iv).ctx.flags FLAG_DESTROYED = false := by
    intro key iv
    obtain ⟨o1, o2, o3, o4⟩ := l_open_tail P m (l_close m ctx).ctx key iv
    exact ⟨o1.trans c1, o2.trans c2, o3.trans c3, o4 (c4 hnd)⟩
  refine ⟨⟨c1, c2⟩, fun key iv => ⟨(hop key iv).1, (hop key iv).2.1⟩,
    fun iv => ⟨(l_reset_tail P m ctx iv).1, (l_reset_tail P m ctx iv).2.1⟩, ?_⟩
  intro c data hc ho hlen
  rcases hc with ⟨key, iv, rfl⟩ | ⟨iv, rfl⟩
  · obtain ⟨o1, o2, o3, o4⟩ := hop key iv
    exact write_after_same_tail P v m hm ctx _ data h0 hok o1 o2 o3 o4 ho hlen
  · obtain ⟨r1, r2, r3, r4⟩ := l_reset_tail P m ctx iv
    exact write_after_same_tail P v m hm ctx _ data h0 hok r1 r2 r3 (by rw [r4]; exact hnd) ho hlen

theorem tail_survives_close_open_reset_witness :
    Mode.CBC.has_tail = true ∧
      CTX_FLAG (toy_ctx Mode.CBC false 32 5).flags FLAG_DESTROYED = false ∧
      (toy_ctx Mode.CBC false 32 5).tail ≠ 0 ∧ ctx_ok (toy_ctx Mode.CBC false 32 5) ∧
      (l_open toyAes Mode.CBC (l_close Mode.CBC (toy_ctx Mode.CBC false 32 5)).ctx
        (List.replicate 16 9) (List.replicate 16 200)).ctx.tail = 5 ∧
      (l_open toyAes Mode.CBC (l_close Mode.CBC (toy_ctx Mode.CBC false 32 5)).ctx
        (List.replicate 16 9) (List.replicate 16 200)).ctx.buffer.take 5 = [1, 2, 3, 4, 5] ∧
      ∃ out, (l_write toyAes 502 Mode.CBC
          (l_open toyAes Mode.CBC (l_close Mode.CBC (toy_ctx Mode.CBC false 32 5)).ctx
            (List.replicate 16 9) (List.replicate 16 200)).ctx (List.replicate 11 77)).result =
            LuaResult.str out ∧
        out.take 16 =
          (block_step toyAes Mode.CBC
            (l_open toyAes Mode.CBC (l_close Mode.CBC (toy_ctx Mode.CBC false 32 5)).ctx
              (List.replicate 16 9) (List.replicate 16 200)).ctx.flags
            (l_open toyAes Mode.CBC (l_close Mode.CBC (toy_ctx Mode.CBC false 32 5)).ctx
              (List.replicate 16 9) (List.replicate 16 200)).ctx.cx
            ((toy_ctx Mode.CBC false 32 5).buffer.take (toy_ctx Mode.CBC false 32 5).tail ++
              (List.replicate 11 77).take (16 - (toy_ctx Mode.CBC false 32 5).tail))
            (l_open toyAes Mode.CBC (l_close Mode.CBC (toy_ctx Mode.CBC false 32 5)).ctx
              (List.replicate 16 9) (List.replicate 16 200)).ctx.iv).1 :=
  ⟨rfl, by decide, by decide, by unfold ctx_ok; decide, by decide, by decide,
    ((tail_survives_close_open_reset toyAes 502 Mode.CBC rfl (toy_ctx Mode.CBC false 32 5)
      (by decide) (by decide) (by unfold ctx_ok; decide)).2.2.2 _ (List.replicate 11 77)
      (Or.inl ⟨List.replicate 16 9, List.replicate 16 200, rfl⟩) (by decide) (by decide)).2
      (by decide) (by unfold chunks_ok; decide)⟩

/-! ## The stack at a resumption -/

theorem loop_pushes_top {S : Type} (t : Nat) (emits : List (Emit S)) (j : Nat) (p : Push S)
    (h : (loop_pushes t emits)[j]? = some p) : p.top = if j = 0 then t + 1 else 3 := by
  cases emits with
  | nil => simp [loop_pushes] at h
  | cons em rest =>
    cases j with
    | zero =>
      simp only [loop_pushes, List.getElem?_cons_zero, Option.some.injEq] at h
      subst h
      rfl
    | succ k =>
      simp only [loop_pushes, List.getElem?_cons_succ] at h
      have : ∀ (t2 : Nat) (es : List (Emit S)) (i : Nat) (q : Push S), t2 = 2 →
          (loop_pushes t2 es)[i]? = some q → q.top = 3 := by
        intro t2 es
        induction es generalizing t2 with
        | nil => intro i q _ hq; simp [loop_pushes] at hq
        | cons e es ih =>
          intro i q ht hq
          cases i with
          | zero =>
            simp only [loop_pushes, List.getElem?_cons_zero, Option.some.injEq] at hq
            subst hq
            subst ht
            rfl
          | succ i2 =>
            simp only [loop_pushes, List.getElem?_cons_succ] at hq
            exact ih 2 i2 q rfl hq
      simp only [Nat.succ_ne_zero, if_false]
      exact this 2 rest k p rfl h

theorem writek_rest_asserts {S : Type} (P : AesPrimitive S) (m : Mode) (c : l_ctx S)
    (data : Bytes) (off len : Nat) (pre : List (Push S)) (top : Nat) :
    (writek_rest P m c data off len pre top false).asserts_ok = false := by
  unfold writek_rest
  simp only [Bool.false_and]
  split <;> rfl

/-- A continuation entered with a false prologue assertion has met a false
assertion. -/
theorem writek_entry_asserts {S : Type} (P : AesPrimitive S) (m : Mode) (ctx : l_ctx S)
    (data : Bytes) (en : Option (Nat × Nat))
    (hnd : CTX_FLAG ctx.flags FLAG_DESTROYED = false)
    (ha : entry_asserts en data.length = false) :
    (l_writek_impl P m ctx data en).asserts_ok = false := by
  by_cases he : entry_data en ≥ data.length
  · rw [l_writek_impl_end P m ctx data en hnd he]
    exact ha
  · by_cases ht : m.has_tail = true ∧ ctx.tail ≠ 0
    · by_cases hs : (wfill ctx data (entry_data en)).tail < 16
      · rw [l_writek_impl_short P m ctx data en hnd he ht hs, ha]
        rfl
      · rw [l_writek_impl_full P m ctx data en hnd he ht hs, ha]
        exact writek_rest_asserts P m _ data _ _ _ _
    · rw [l_writek_impl_notail P m ctx data en hnd he ht, ha]
      exact writek_rest_asserts P m _ data _ _ _ _

/-- The stack height, the cursor and the context of every push of a `writek`
started by `write`: the height is 3, except for the first push of the sub-run
loop after a tail-completion block, where it is 4. -/
theorem writek_push_top {S : Type} (P : AesPrimitive S) (m : Mode) (ctx : l_ctx S)
    (data : Bytes) (hnd : CTX_FLAG ctx.flags FLAG_DESTROYED = false)
    (hbs : 0 < ctx.buffer_size) (i : Nat) (p : Push S)
    (hp : (l_writek_impl P m ctx data none).pushes[i]? = some p) :
    p.top = (if m.has_tail = true ∧ ctx.tail ≠ 0 ∧ i = 1 then 4 else 3) ∧
      p.cursor ≤ data.length ∧ CTX_FLAG p.ctx.flags FLAG_DESTROYED = false := by
  have h00 : entry_data none = 0 := rfl
  have hloop : ∀ (c : l_ctx S) (off len top j : Nat) (q : Push S),
      CTX_FLAG c.flags FLAG_DESTROYED = false → 0 < c.buffer_size → off + len = data.length →
      (loop_pushes top
        (write_loop P m data (off + align_len m len) (align_len m len + 1) off c).emits)[j]? =
          some q →
      q.top = (if j = 0 then top + 1 else 3) ∧ q.cursor ≤ data.length ∧
        CTX_FLAG q.ctx.flags FLAG_DESTROYED = false := by
    intro c off len top j q hc hcb hlen hq
    have hal := align_len_le m len
    obtain ⟨em, g1, _, g3, g4⟩ := loop_pushes_get top _ j q hq
    obtain ⟨_, s2, s3, _, _⟩ := write_loop_suffix P m data (off + align_len m len)
      (align_len m len + 1) off c hcb (by omega) j em g1
    obtain ⟨f1, _⟩ := (write_loop_frame P m data (off + align_len m len)
      (align_len m len + 1) off c).2 em (List.getElem?_mem g1)
    have hle := loop_left_le c.buffer_size (off + align_len m len) em.b
    refine ⟨loop_pushes_top top _ j q hq, ?_, ?_⟩
    · rw [g3, s3]
      omega
    · rw [g4, f1]
      exact hc
  by_cases he : entry_data none ≥ data.length
  · rw [l_writek_impl_end P m ctx data none hnd he] at hp
    simp at hp
  · by_cases htl : m.has_tail = true ∧ ctx.tail ≠ 0
    · by_cases hs : (wfill ctx data (entry_data none)).tail < 16
      · rw [l_writek_impl_short P m ctx data none hnd he htl hs] at hp
        simp at hp
      · rw [l_writek_impl_full P m ctx data none hnd he htl hs,
          (writek_rest_proj P m _ data _ _ _ _ _).1] at hp
        rw [h00] at hp he
        simp only [Nat.zero_add, Nat.sub_zero, List.cons_append, List.nil_append] at hp
        have hw : wtail ctx data 0 ≤ data.length := by
          unfold wtail
          exact Nat.le_trans (tail_take_le _ _) (by omega)
        have hfl : CTX_FLAG (tail_clear (wblock P m ctx data 0)).flags FLAG_DESTROYED = false := by
          show CTX_FLAG (wblock P m ctx data 0).flags FLAG_DESTROYED = false
          rw [(wblock_frame P m ctx data 0).1]
          exact hnd
        have hbs2 : 0 < (tail_clear (wblock P m ctx data 0)).buffer_size := by
          show 0 < (wblock P m ctx data 0).buffer_size
          rw [(wblock_fixed P m ctx data 0).2.2]
          exact hbs
        cases i with
        | zero =>
          simp only [List.getElem?_cons_zero, Option.some.injEq] at hp
          subst hp
          refine ⟨?_, hw, hfl⟩
          rw [if_neg (by omega)]
        | succ j =>
          simp only [List.getElem?_cons_succ] at hp
          obtain ⟨q1, q2, q3⟩ := hloop _ _ _ 3 j p hfl hbs2 (by omega) hp
          refine ⟨?_, q2, q3⟩
          rw [q1]
          by_cases hj : j = 0
          · subst hj
            rw [if_pos rfl, if_pos ⟨htl.1, htl.2, rfl⟩]
          · rw [if_neg hj, if_neg (by omega)]
    · rw [l_writek_impl_notail P m ctx data none hnd he htl,
        (writek_rest_proj P m _ data _ _ _ _ _).1] at hp
      rw [h00] at hp he
      simp only [Nat.sub_zero, List.nil_append] at hp
      obtain ⟨q1, q2, q3⟩ := hloop ctx 0 data.length 2 i p hnd hbs (by omega) hp
      refine ⟨?_, q2, q3⟩
      have hn : ¬(m.has_tail = true ∧ ctx.tail ≠ 0 ∧ i = 1) := fun h => htl ⟨h.1, h.2.1⟩
      rw [q1, if_neg hn]
      split <;> rfl

/-- A `writek` on an ECB or CBC context whose buffered bytes the input
completes to a block, with at least one more whole block of input whose
sub-runs are aligned: the second push is the first sub-run, made with the
cursor of the tail-completion block still on the stack. -/
theorem writek_second_push {S : Type} (P : AesPrimitive S) (m : Mode) (hm : m.has_tail = true)
    (ctx : l_ctx S) (data : Bytes) (hnd : CTX_FLAG ctx.flags FLAG_DESTROYED = false)
    (h0 : ctx.tail ≠ 0) (hok : ctx_ok ctx) (hch : chunks_ok ctx data)
    (hlen : 32 ≤ ctx.tail + data.length) :
    ∃ p, (l_writek_impl P m ctx data none).pushes[1]? = some p ∧ p.top = 4 ∧
      p.src = 16 - ctx.tail ∧
      p.cursor = 16 - ctx.tail +
        loop_left ctx.buffer_size (16 - ctx.tail + (data.length - (16 - ctx.tail)) / 16 * 16)
          (16 - ctx.tail) := by
  obtain ⟨ht, k2, k3⟩ := hok
  have h00 : entry_data none = 0 := rfl
  obtain ⟨b1, b2, _⟩ := wblock_full P m hm ctx data 0 h0 ht (by omega) (by omega)
  have he : ¬entry_data none ≥ data.length := by
    show ¬(0 ≥ data.length)
    omega
  have hbs2 : (tail_clear (wblock P m ctx data 0)).buffer_size = ctx.buffer_size :=
    (wblock_fixed P m ctx data 0).2.2
  have hal : align_len m (data.length - (16 - ctx.tail)) =
      (data.length - (16 - ctx.tail)) / 16 * 16 := align_len_block m hm _
  have hch2 : ctx.buffer_size % 16 = 0 ∨
      (data.length - (16 - ctx.tail)) / 16 * 16 ≤ ctx.buffer_size := by
    unfold chunks_ok aligned_rest at hch
    simpa [h0] using hch
  have hb : 16 - ctx.tail < 16 - ctx.tail + (data.length - (16 - ctx.tail)) / 16 * 16 := by omega
  have hl16 : loop_left (tail_clear (wblock P m ctx data 0)).buffer_size
      (16 - ctx.tail + (data.length - (16 - ctx.tail)) / 16 * 16) (16 - ctx.tail) % 16 = 0 := by
    rw [hbs2]
    unfold loop_left
    split
    · rcases hch2 with h | h
      · exact h
      · omega
    · omega
  obtain ⟨hr, _⟩ := loop_iter_block P m hm data
    (16 - ctx.tail + (data.length - (16 - ctx.tail)) / 16 * 16) (16 - ctx.tail)
    (tail_clear (wblock P m ctx data 0)) hb (by omega) hl16
  rw [l_writek_impl_full P m ctx data none hnd he ⟨hm, h0⟩ (by rw [h00, b2]; omega),
    (writek_rest_proj P m _ data _ _ _ _ _).1]
  simp only [h00, Nat.zero_add, Nat.sub_zero, b1, hal, List.cons_append, List.nil_append,
    List.getElem?_cons_succ]
  rw [write_loop_succ_ok P m data _ _ _ _ hb hr]
  simp only [loop_pushes, List.getElem?_cons_zero, hbs2]
  exact ⟨_, rfl, rfl, rfl, rfl⟩

/-- C36 does not hold: the stack at a resumption of `writek`, for every mode
and every context that is not Destroyed and has a positive chunk size.  At
every push of a `writek` started by `write` the stack the continuation would
see holds three values and the saved cursor lies within the input, so the
assertions of the prologue hold at a resumption; except at the first push of
the sub-run loop of an ECB or CBC call that has emitted a tail-completion
block: no `lua_settop(L, 2)` follows the sink call of that block, its cursor
is still on the stack, the continuation sees four values, and
`assert(lua_gettop(L) == 3)` is false.  Such a push exists whenever buffered
bytes and input make two whole blocks or more with aligned sub-runs. -/
theorem resume_stack_height {S : Type} (P : AesPrimitive S) (m : Mode) (ctx : l_ctx S)
    (data : Bytes) (hnd : CTX_FLAG ctx.flags FLAG_DESTROYED = false)
    (hbs : 0 < ctx.buffer_size) :
    (∀ (i : Nat) (p : Push S), (l_writek_impl P m ctx data none).pushes[i]? = some p →
      (p.top = 4 ↔ (m.has_tail = true ∧ ctx.tail ≠ 0 ∧ i = 1)) ∧
      (p.top ≠ 4 → p.top = 3 ∧ entry_asserts (some (p.cursor, p.top)) data.length = true) ∧
      (p.top = 4 → entry_asserts (some (p.cursor, p.top)) data.length = false ∧
        (l_writek_impl P m p.ctx data (some (p.cursor, p.top))).asserts_ok = false)) ∧
    (m.has_tail = true → ctx.tail ≠ 0 → ctx_ok ctx → chunks_ok ctx data →
      32 ≤ ctx.tail + data.length →
      ∃ p, (l_writek_impl P m ctx data none).pushes[1]? = some p ∧ p.top = 4 ∧
        p.src = 16 - ctx.tail ∧
        (l_writek_impl P m p.ctx data (some (p.cursor, p.top))).asserts_ok = false) := by
  have hbad : ∀ p : Push S, p.top = 4 → CTX_FLAG p.ctx.flags FLAG_DESTROYED = false →
      entry_asserts (some (p.cursor, p.top)) data.length = false ∧
        (l_writek_impl P m p.ctx data (some (p.cursor, p.top))).asserts_ok = false := by
    intro p h4 hpd
    have ha : entry_asserts (some (p.cursor, p.top)) data.length = false := by
      unfold entry_asserts
      simp [h4]
    exact ⟨ha, writek_entry_asserts P m p.ctx data _ hpd ha⟩
  constructor
  · intro i p hp
    obtain ⟨t1, t2, t3⟩ := writek_push_top P m ctx data hnd hbs i p hp
    refine ⟨?_, ?_, fun h4 => hbad p h4 t3⟩
    · rw [t1]
      split
      · rename_i h
        exact ⟨fun _ => h, fun _ => rfl⟩
      · rename_i h
        exact ⟨fun h34 => (by omega), fun hx => absurd hx h⟩
    · intro hne
      have h3 : p.top = 3 := by
        rw [t1] at hne ⊢
        split
        · rename_i h
          rw [if_pos h] at hne
          exact absurd rfl hne
        · rfl
      refine ⟨h3, ?_⟩
      unfold entry_asserts
      simp [h3, t2]
  · intro hm h0 hok hch hlen
    obtain ⟨p, p1, p2, p3, _⟩ := writek_second_push P m hm ctx data hnd h0 hok hch hlen
    obtain ⟨_, _, t3⟩ := writek_push_top P m ctx data hnd hbs 1 p p1
    exact ⟨p, p1, p2, p3, (hbad p p2 t3).2⟩

theorem resume_stack_height_witness :
    CTX_FLAG (toy_sink_ctx Mode.CBC false 32 5).flags FLAG_DESTROYED = false ∧
      0 < (toy_sink_ctx Mode.CBC false 32 5).buffer_size ∧
      (l_writek_impl toyAes Mode.CBC (toy_sink_ctx Mode.CBC false 32 5) (List.range 100)
        none).pushes.map (fun p => (p.src, p.cursor, p.top)) =
          [(0, 11, 3), (11, 43, 4), (43, 75, 3), (75, 91, 3)] ∧
      ∃ p, (l_writek_impl toyAes Mode.CBC (toy_sink_ctx Mode.CBC false 32 5) (List.range 100)
          none).pushes[1]? = some p ∧ p.top = 4 ∧
        p.src = 16 - (toy_sink_ctx Mode.CBC false 32 5).tail ∧
        (l_writek_impl toyAes Mode.CBC p.ctx (List.range 100)
          (some (p.cursor, p.top))).asserts_ok = false :=
  ⟨by decide, by decide, by decide,
    (resume_stack_height toyAes Mode.CBC (toy_sink_ctx Mode.CBC false 32 5) (List.range 100)
      (by decide) (by decide)).2 rfl (by decide) (by unfold ctx_ok; decide)
      (by unfold chunks_ok; decide) (by decide)⟩

/-! ## The sub-runs of an ECB or CBC write -/

theorem ceil_small (x S : Nat) (h0 : 0 < x) (h : x ≤ S) : (x + S - 1) / S = 1 := by
  apply Nat.div_eq_of_lt_le
  · omega
  · omega

theorem ceil_step (x S : Nat) (hS : 0 < S) (h : S < x) :
    (x + S - 1) / S = (x - S + S - 1) / S + 1 := by
  have e : x + S - 1 = x - S + S - 1 + S := by omega
  rw [e, Nat.add_div_right _ hS]

theorem sub_run_lengths_zero (S : Nat) (hS : 0 < S) : sub_run_lengths 0 S = [] := by
  have h : (S - 1) / S = 0 := Nat.div_eq_of_lt (by omega)
  simp [sub_run_lengths, h]

theorem sub_run_lengths_small (x S : Nat) (h0 : 0 < x) (h : x ≤ S) :
    sub_run_lengths x S = [x] := by
  have hx : x ≠ 0 := by omega
  simp [sub_run_lengths, ceil_small x S h0 h, hx]

theorem sub_run_lengths_step (x S : Nat) (hS : 0 < S) (h : S < x) :
    sub_run_lengths x S = S :: sub_run_lengths (x - S) S := by
  have hpos : 0 < (x - S + S - 1) / S := by
    apply Nat.div_pos
    · omega
    · exact hS
  obtain ⟨k, hk⟩ : ∃ k, (x - S + S - 1) / S = k + 1 := ⟨(x - S + S - 1) / S - 1, by omega⟩
  have hx : x ≠ 0 := by omega
  have hxs : x - S ≠ 0 := by omega
  unfold sub_run_lengths
  rw [ceil_step x S hS h, hk]
  simp only [Nat.add_sub_cancel, hx, hxs, if_false, List.replicate_succ, List.cons_append]
  have hm : S * (k + 1) = S * k + S := Nat.mul_succ S k
  rw [hm]
  congr 3
  omega

theorem sub_run_lengths_length (A S : Nat) (hS : 0 < S) :
    (sub_run_lengths A S).length = (A + S - 1) / S := by
  unfold sub_run_lengths
  by_cases hA : A = 0
  · subst hA
    have h : (S - 1) / S = 0 := Nat.div_eq_of_lt (by omega)
    simp [h]
  · have hpos : 0 < (A + S - 1) / S := by
      apply Nat.div_pos
      · omega
      · exact hS
    simp only [hA, if_false, List.length_append, List.length_replicate, List.length_singleton]
    omega

/-- The sub-run loop cuts its range at the chunk size: when no call is
refused, the lengths of the sub-runs and of the chunks are `sub_run_lengths`. -/
theorem write_loop_lengths {S : Type} (P : AesPrimitive S) (m : Mode) (data : Bytes) (e : Nat)
    (he : e ≤ data.length) :
    ∀ (fuel b : Nat) (ctx : l_ctx S), 0 < ctx.buffer_size → e - b < fuel → b ≤ e →
      (write_loop P m data e fuel b ctx).status = LoopStatus.done →
      (write_loop P m data e fuel b ctx).emits.map (fun em => em.left) =
          sub_run_lengths (e - b) ctx.buffer_size ∧
        (emit_chunks (write_loop P m data e fuel b ctx).emits).map List.length =
          sub_run_lengths (e - b) ctx.buffer_size := by
  intro fuel
  induction fuel with
  | zero => intro b ctx _ h; omega
  | succ k ih =>
    intro b ctx hbs hf hbe hst
    by_cases hb : b < e
    · have hll := loop_left_le ctx.buffer_size e b
      cases hr : (mode_call P m ctx (slice data b (loop_left ctx.buffer_size e b))).ret with
      | false =>
        rw [write_loop_succ_fail P m data e k b ctx hb hr] at hst
        cases hst
      | true =>
        have hbs1 := (frame_eq_loop_ctx P m data e b ctx).2.2.2.2.2.1
        have hol := mode_call_length P m ctx _ hr
        rw [slice_length data b _ (by omega)] at hol
        have hchunk : ((loop_ctx P m data e b ctx).buffer.take
            (loop_left ctx.buffer_size e b)).length = loop_left ctx.buffer_size e b := by
          unfold loop_ctx apply_ret
          simp only
          rw [memcpy_zero_take _ _ _ hol, hol]
        rw [write_loop_succ_ok P m data e k b ctx hb hr] at hst ⊢
        simp only [List.map_cons, emit_chunks] at hst ⊢
        by_cases hnext : b + ctx.buffer_size < e
        · have hl : loop_left ctx.buffer_size e b = ctx.buffer_size := by
            unfold loop_left
            rw [if_pos (by omega)]
          obtain ⟨i1, i2⟩ := ih (b + ctx.buffer_size) (loop_ctx P m data e b ctx)
            (by rw [hbs1]; exact hbs) (by omega) (by omega) hst
          rw [hbs1] at i1 i2
          simp only [emit_chunks] at i2
          have hsub : e - (b + ctx.buffer_size) = e - b - ctx.buffer_size := by omega
          rw [sub_run_lengths_step (e - b) ctx.buffer_size hbs (by omega), i1, i2, hchunk, hl,
            hsub]
          exact ⟨rfl, rfl⟩
        · obtain ⟨k2, rfl⟩ : ∃ k2, k = k2 + 1 := ⟨k - 1, by omega⟩
          have hl : loop_left ctx.buffer_size e b = e - b := by
            unfold loop_left
            rw [if_neg (by omega)]
          rw [write_loop_done P m data e k2 _ _ (by omega)]
          simp only [List.map_nil]
          rw [sub_run_lengths_small (e - b) ctx.buffer_size (by omega) (by omega), hchunk, hl]
          exact ⟨rfl, rfl⟩
    · rw [write_loop_done P m data e k b ctx (by omega)]
      have hz : e - b = 0 := by omega
      rw [hz, sub_run_lengths_zero _ hbs]
      exact ⟨rfl, rfl⟩

/-- No chunk of the sub-run loop is longer than the chunk size. -/
theorem write_loop_chunk_le {S : Type} (P : AesPrimitive S) (m : Mode) (data : Bytes) (e : Nat) :
    ∀ (fuel b : Nat) (ctx : l_ctx S),
      ∀ em ∈ (write_loop P m data e fuel b ctx).emits, em.chunk.length ≤ ctx.buffer_size := by
  intro fuel
  induction fuel with
  | zero => intro b ctx; simp [write_loop]
  | succ k ih =>
    intro b ctx
    by_cases hb : b < e
    · cases hr : (mode_call P m ctx (slice data b (loop_left ctx.buffer_size e b))).ret with
      | false =>
        rw [write_loop_succ_fail P m data e k b ctx hb hr]
        simp
      | true =>
        have hbs1 := (frame_eq_loop_ctx P m data e b ctx).2.2.2.2.2.1
        have hll := loop_left_le ctx.buffer_size e b
        rw [write_loop_succ_ok P m data e k b ctx hb hr]
        intro em hem
        simp only [List.mem_cons] at hem
        rcases hem with rfl | hem
        · simp only [List.length_take]
          omega
        · have := ih (b + ctx.buffer_size) (loop_ctx P m data e b ctx) em hem
          rw [hbs1] at this
          exact this
    · rw [write_loop_done P m data e k b ctx (by omega)]
      simp

theorem block_loop_notail {S : Type} (P : AesPrimitive S) (m : Mode) (hm : m.has_tail = true)
    (ctx : l_ctx S) (data : Bytes) (h0 : ctx.tail = 0) :
    tail_done ctx data = false ∧
      block_loop P m ctx data =
        write_loop P m data (0 + align_len m data.length) (align_len m data.length + 1) 0 ctx := by
  have htd : tail_done ctx data = false := by simp [tail_done, h0]
  refine ⟨htd, ?_⟩
  unfold block_loop loop_start loop_entry aligned_rest
  simp only [htd, Bool.false_eq_true, if_false, h0, if_true, align_len_block m hm]

theorem block_loop_short {S : Type} (P : AesPrimitive S) (m : Mode) (ctx : l_ctx S)
    (data : Bytes) (h0 : ctx.tail ≠ 0) (hs : ctx.tail + data.length < 16) :
    tail_done ctx data = false ∧ block_loop P m ctx data = ⟨ctx, [], LoopStatus.done⟩ := by
  have htd : tail_done ctx data = false := by
    simp only [tail_done, decide_eq_false_iff_not]
    intro h
    omega
  have ha : aligned_rest ctx.tail data.length = 0 := by
    unfold aligned_rest
    rw [if_neg h0]
    have : data.length - (16 - ctx.tail) = 0 := by omega
    rw [this]
  refine ⟨htd, ?_⟩
  unfold block_loop loop_start loop_entry
  simp only [htd, Bool.false_eq_true, if_false, ha]
  exact write_loop_done P m data 0 0 0 ctx (Nat.le_refl _)

theorem block_loop_full {S : Type} (P : AesPrimitive S) (m : Mode) (hm : m.has_tail = true)
    (ctx : l_ctx S) (data : Bytes) (h0 : ctx.tail ≠ 0) (hs : 16 ≤ ctx.tail + data.length) :
    tail_done ctx data = true ∧
      block_loop P m ctx data =
        write_loop P m data (16 - ctx.tail + align_len m (data.length - (16 - ctx.tail)))
          (align_len m (data.length - (16 - ctx.tail)) + 1) (16 - ctx.tail)
          (tail_clear (wblock P m ctx data 0)) := by
  have htd : tail_done ctx data = true := by simp [tail_done, h0, hs]
  refine ⟨htd, ?_⟩
  unfold block_loop loop_start loop_entry aligned_rest
  simp only [htd, if_true, if_neg h0, align_len_block m hm]

/-- The sink calls and the result of `write_impl` on an ECB or CBC context, in
terms of the sub-run loop. -/
theorem write_impl_block {S : Type} (P : AesPrimitive S) (m : Mode) (hm : m.has_tail = true)
    (ctx : l_ctx S) (data : Bytes) (hnd : CTX_FLAG ctx.flags FLAG_DESTROYED = false)
    (hok : ctx_ok ctx) :
    (l_write_impl P m ctx data).calls.map (fun c => c.chunk) =
        (if ctx.writer_cb_ref = Ref.noref then []
         else (if tail_done ctx data then [slice (wblock P m ctx data 0).buffer 16 16] else []) ++
           emit_chunks (block_loop P m ctx data).emits) ∧
      ((block_loop P m ctx data).status = LoopStatus.failed →
        (l_write_impl P m ctx data).result = LuaResult.nilmsg "invalid block length") ∧
      ((block_loop P m ctx data).status = LoopStatus.done →
        (l_write_impl P m ctx data).result ≠ LuaResult.hang) := by
  obtain ⟨ht, k2, k3⟩ := hok
  by_cases h0 : ctx.tail = 0
  · obtain ⟨htd, hbl⟩ := block_loop_notail P m hm ctx data h0
    obtain ⟨p1, _, p3⟩ := write_rest_proj P m (decide (ctx.writer_cb_ref = Ref.noref)) ctx data 0
      data.length [] true _ rfl
    rw [l_write_impl_notail P m ctx data hnd (fun h => h.2 h0), p1, p3, hbl, htd]
    refine ⟨?_, ?_, ?_⟩
    · by_cases hcb : ctx.writer_cb_ref = Ref.noref <;>
        simp [hcb, loop_calls_chunks]
    · intro hst
      rw [hst]
    · intro hst
      rw [hst]
      by_cases hcb : ctx.writer_cb_ref = Ref.noref <;> simp [hcb]
  · by_cases hs : ctx.tail + data.length < 16
    · obtain ⟨htd, hbl⟩ := block_loop_short P m ctx data h0 hs
      have hw : wtail ctx data 0 = data.length := by rw [wtail_eq ctx data 0 ht]; omega
      have hsf : (wfill ctx data 0).tail < 16 := by
        show (ctx.tail + wtail ctx data 0) % 256 < 16
        rw [hw]
        omega
      rw [l_write_impl_short P m ctx data hnd ⟨hm, h0⟩ hsf, hbl, htd]
      refine ⟨?_, fun h => (by cases h), ?_⟩
      · by_cases hcb : ctx.writer_cb_ref = Ref.noref <;> simp [hcb, emit_chunks]
      · intro _
        split <;> simp
    · obtain ⟨htd, hbl⟩ := block_loop_full P m hm ctx data h0 (by omega)
      obtain ⟨b1, b2, _⟩ := wblock_full P m hm ctx data 0 h0 ht (by omega) (by omega)
      obtain ⟨p1, _, p3⟩ := write_rest_proj P m (decide (ctx.writer_cb_ref = Ref.noref))
        (tail_clear (wblock P m ctx data 0)) data (wtail ctx data 0)
        (data.length - wtail ctx data 0)
        [⟨slice (wblock P m ctx data 0).buffer 16 16, wblock P m ctx data 0⟩]
        (decide (ctx.tail < 16) && decide ((wfill ctx data 0).tail = 16)) _ rfl
      rw [l_write_impl_full P m ctx data hnd ⟨hm, h0⟩ (by rw [b2]; omega), p1, p3, hbl, htd, b1]
      refine ⟨?_, ?_, ?_⟩
      · by_cases hcb : ctx.writer_cb_ref = Ref.noref <;>
          simp [hcb, loop_calls_chunks]
      · intro hst
        rw [hst]
      · intro hst
        rw [hst]
        by_cases hcb : ctx.writer_cb_ref = Ref.noref <;> simp [hcb]

/-- The sink calls and the result of a `writek` started by `write` on an ECB
or CBC context, in terms of the sub-run loop. -/
theorem writek_block {S : Type} (P : AesPrimitive S) (m : Mode) (hm : m.has_tail = true)
    (ctx : l_ctx S) (data : Bytes) (hnd : CTX_FLAG ctx.flags FLAG_DESTROYED = false)
    (hok : ctx_ok ctx) :
    (l_writek_impl P m ctx data none).pushes.map (fun p => p.chunk) =
        (if tail_done ctx data then [slice (wblock P m ctx data 0).buffer 16 16] else []) ++
          emit_chunks (block_loop P m ctx data).emits ∧
      ((block_loop P m ctx data).status = LoopStatus.failed →
        (l_writek_impl P m ctx data none).result = LuaResult.nilmsg "invalid block length") ∧
      ((block_loop P m ctx data).status = LoopStatus.done →
        (l_writek_impl P m ctx data none).result ≠ LuaResult.hang) := by
  obtain ⟨ht, k2, k3⟩ := hok
  have h00 : entry_data none = 0 := rfl
  by_cases he : entry_data none ≥ data.length
  · have hlen : data.length = 0 := by
      rw [h00] at he
      omega
    rw [l_writek_impl_end P m ctx data none hnd he]
    by_cases h0 : ctx.tail = 0
    · obtain ⟨htd, hbl⟩ := block_loop_notail P m hm ctx data h0
      have hal : align_len m data.length = 0 := by rw [align_len_block m hm, hlen]
      rw [hbl, htd, hal, write_loop_done P m data _ 0 0 ctx (by omega)]
      exact ⟨rfl, fun h => (by cases h), fun _ => (by simp)⟩
    · obtain ⟨htd, hbl⟩ := block_loop_short P m ctx data h0 (by omega)
      rw [hbl, htd]
      exact ⟨rfl, fun h => (by cases h), fun _ => (by simp)⟩
  · by_cases h0 : ctx.tail = 0
    · obtain ⟨htd, hbl⟩ := block_loop_notail P m hm ctx data h0
      obtain ⟨p1, _, p3⟩ := writek_rest_proj P m ctx data (entry_data none)
        (data.length - entry_data none) [] 2 (entry_asserts none data.length)
      rw [l_writek_impl_notail P m ctx data none hnd he (fun h => h.2 h0), p1, p3, hbl, htd]
      simp only [h00, Nat.sub_zero, List.nil_append, loop_pushes_chunks, Bool.false_eq_true,
        if_false]
      refine ⟨trivial, ?_, ?_⟩
      · intro hst
        rw [hst]
        rfl
      · intro hst
        rw [hst]
        simp [rest_result]
    · by_cases hs : ctx.tail + data.length < 16
      · obtain ⟨htd, hbl⟩ := block_loop_short P m ctx data h0 hs
        have hw : wtail ctx data 0 = data.length := by rw [wtail_eq ctx data 0 ht]; omega
        have hsf : (wfill ctx data (entry_data none)).tail < 16 := by
          show (ctx.tail + wtail ctx data 0) % 256 < 16
          rw [hw]
          omega
        rw [l_writek_impl_short P m ctx data none hnd he ⟨hm, h0⟩ hsf, hbl, htd]
        exact ⟨rfl, fun h => (by cases h), fun _ => (by simp)⟩
      · obtain ⟨htd, hbl⟩ := block_loop_full P m hm ctx data h0 (by omega)
        obtain ⟨b1, b2, _⟩ := wblock_full P m hm ctx data 0 h0 ht (by omega) (by omega)
        rw [l_writek_impl_full P m ctx data none hnd he ⟨hm, h0⟩ (by rw [h00, b2]; omega),
          (writek_rest_proj P m _ data _ _ _ _ _).1, (writek_rest_proj P m _ data _ _ _ _ _).2.2,
          hbl, htd]
        simp only [h00, Nat.zero_add, Nat.sub_zero, b1, List.map_append, List.map_cons,
          List.map_nil, loop_pushes_chunks, if_true]
        refine ⟨rfl, ?_, ?_⟩
        · intro hst
          rw [hst]
          rfl
        · intro hst
          rw [hst]
          simp [rest_result]

/-- The sink calls and the result of `write` on an Open ECB or CBC context,
on either path, in terms of the sub-run loop. -/
theorem l_write_block {S : Type} (P : AesPrimitive S) (v : Nat) (m : Mode)
    (hm : m.has_tail = true) (ctx : l_ctx S) (data : Bytes)
    (ho : CTX_FLAG ctx.flags FLAG_OPEN = true)
    (hnd : CTX_FLAG ctx.flags FLAG_DESTROYED = false) (hok : ctx_ok ctx) :
    (l_write P v m ctx data).calls.map (fun c => c.chunk) =
        (if ctx.writer_cb_ref = Ref.noref then []
         else (if tail_done ctx data then [slice (wblock P m ctx data 0).buffer 16 16] else []) ++
           emit_chunks (block_loop P m ctx data).emits) ∧
      ((block_loop P m ctx data).status = LoopStatus.failed →
        (l_write P v m ctx data).result = LuaResult.nilmsg "invalid block length") ∧
      ((block_loop P m ctx data).status = LoopStatus.done →
        (l_write P v m ctx data).result ≠ LuaResult.hang) := by
  unfold l_write
  rw [l_get_at_none m ctx hnd]
  simp only [ho, if_true]
  split
  · rename_i hv
    obtain ⟨w1, w2, w3⟩ := writek_block P m hm ctx data hnd hok
    simp only [List.map_map]
    rw [if_neg hv.2]
    exact ⟨w1, w2, w3⟩
  · exact write_impl_block P m hm ctx data hnd hok

theorem block_loop_range {S : Type} (P : AesPrimitive S) (m : Mode) (ctx : l_ctx S)
    (data : Bytes) (ht : ctx.tail < 16) :
    loop_start ctx data + aligned_rest ctx.tail data.length ≤ data.length ∧
      aligned_rest ctx.tail data.length % 16 = 0 ∧
      (loop_entry P m ctx data).buffer_size = ctx.buffer_size := by
  have hbs : (tail_clear (wblock P m ctx data 0)).buffer_size = ctx.buffer_size :=
    (wblock_fixed P m ctx data 0).2.2
  unfold loop_start loop_entry aligned_rest tail_done
  by_cases h0 : ctx.tail = 0
  · simp only [h0, ne_eq, not_true_eq_false, false_and, decide_False, Bool.false_eq_true,
      if_false, if_true]
    refine ⟨by omega, by omega, trivial⟩
  · by_cases hs : 16 ≤ ctx.tail + data.length
    · simp only [ne_eq, h0, not_false_eq_true, hs, and_self, decide_True, if_true, if_false]
      exact ⟨by omega, by omega, hbs⟩
    · simp only [ne_eq, h0, not_false_eq_true, hs, and_false, decide_False, Bool.false_eq_true,
        if_false]
      refine ⟨by omega, by omega, trivial⟩

/-- C31 holds for chunk sizes that are a multiple of 16 and fails for the
others.  Take an Open ECB or CBC context within the bounds of the data model
(fewer than 16 buffered bytes, a chunk size `S` of at least 32), any input,
and let `A` be the length of the aligned remainder.  The write ends, on every
path; no chunk passed to the sink is longer than `S`.  When every sub-run is
aligned (`S` a multiple of 16, or `A <= S`) the loop runs to its end over
`ceil(A / S)` sub-runs, all of `S` bytes but the last, which has
`A - S * (ceil(A / S) - 1)`, and with a sink bound the chunks passed to it
are the tail-completion block of 16 bytes, when there is one, followed by one
chunk per sub-run of the length of the sub-run.  Otherwise (`S` not a
multiple of 16 and `A > S`, so at least two sub-runs are due) the first
sub-run of `S` bytes is refused, the loop stops without having transformed
any sub-run, `write` returns nil and "invalid block length", and the sink has
received at most the tail-completion block. -/
theorem sub_run_chunking {S : Type} (P : AesPrimitive S) (v : Nat) (m : Mode)
    (hm : m.has_tail = true) (ctx : l_ctx S) (data : Bytes)
    (ho : CTX_FLAG ctx.flags FLAG_OPEN = true)
    (hnd : CTX_FLAG ctx.flags FLAG_DESTROYED = false) (hok : ctx_ok ctx) :
    (l_write P v m ctx data).result ≠ LuaResult.hang ∧
    (∀ call ∈ (l_write P v m ctx data).calls, call.chunk.length ≤ ctx.buffer_size) ∧
    (chunks_ok ctx data →
      (block_loop P m ctx data).status = LoopStatus.done ∧
      (block_loop P m ctx data).emits.map (fun em => em.left) =
        sub_run_lengths (aligned_rest ctx.tail data.length) ctx.buffer_size ∧
      (sub_run_lengths (aligned_rest ctx.tail data.length) ctx.buffer_size).length =
        (aligned_rest ctx.tail data.length + ctx.buffer_size - 1) / ctx.buffer_size ∧
      (ctx.writer_cb_ref ≠ Ref.noref →
        (l_write P v m ctx data).calls.map (fun c => c.chunk.length) =
          (if tail_done ctx data then [16] else []) ++
            sub_run_lengths (aligned_rest ctx.tail data.length) ctx.buffer_size)) ∧
    (¬chunks_ok ctx data →
      ctx.buffer_size % 16 ≠ 0 ∧ ctx.buffer_size < aligned_rest ctx.tail data.length ∧
      2 ≤ (aligned_rest ctx.tail data.length + ctx.buffer_size - 1) / ctx.buffer_size ∧
      (block_loop P m ctx data).status = LoopStatus.failed ∧
      (block_loop P m ctx data).emits = [] ∧
      (l_write P v m ctx data).result = LuaResult.nilmsg "invalid block length" ∧
      (ctx.writer_cb_ref ≠ Ref.noref →
        (l_write P v m ctx data).calls.map (fun c => c.chunk.length) =
          if tail_done ctx data then [16] else [])) := by
  obtain ⟨ht, k2, k3⟩ := hok
  obtain ⟨r1, r2, r3⟩ := block_loop_range P m ctx data ht
  obtain ⟨w1, w2, w3⟩ := l_write_block P v m hm ctx data ho hnd ⟨ht, k2, k3⟩
  have hbs : 0 < (loop_entry P m ctx data).buffer_size := by rw [r3]; omega
  have hruns := write_loop_runs P m data _ r1 (aligned_rest ctx.tail data.length + 1)
    (loop_start ctx data) (loop_entry P m ctx data) hbs (by omega) (by omega)
  have hnf : (block_loop P m ctx data).status ≠ LoopStatus.fuel := hruns.1
  have hpre : tail_done ctx data = true →
      (slice (wblock P m ctx data 0).buffer 16 16).length = 16 := by
    intro htd
    simp only [tail_done, decide_eq_true_eq] at htd
    obtain ⟨_, _, b3, _⟩ := wblock_full P m hm ctx data 0 htd.1 ht (by omega) (by omega)
    rw [b3, blocks_run_length _ (block_step_length P m ctx.flags ctx.cx)]
  have hlens : (l_write P v m ctx data).calls.map (fun c => c.chunk.length) =
      ((l_write P v m ctx data).calls.map (fun c => c.chunk)).map List.length := by
    rw [List.map_map]
    rfl
  refine ⟨?_, ?_, ?_, ?_⟩
  · cases hst : (block_loop P m ctx data).status with
    | done => exact w3 hst
    | failed =>
      rw [w2 hst]
      simp
    | fuel => exact absurd hst hnf
  · intro call hcall
    have hmem : call.chunk ∈ (l_write P v m ctx data).calls.map (fun c => c.chunk) :=
      List.mem_map_of_mem _ hcall
    rw [w1] at hmem
    split at hmem
    · simp at hmem
    · simp only [List.mem_append] at hmem
      rcases hmem with h | h
      · split at h
        · simp only [List.mem_singleton] at h
          rw [h]
          simp only [slice, List.length_take]
          omega
        · simp at h
      · simp only [emit_chunks, List.mem_map] at h
        obtain ⟨em, hem, hc⟩ := h
        have := write_loop_chunk_le P m data _ _ _ _ em hem
        rw [r3] at this
        rw [← hc]
        exact this
  · intro hch
    have hdone : (block_loop P m ctx data).status = LoopStatus.done :=
      (write_loop_block P m hm data _ r1 (aligned_rest ctx.tail data.length + 1)
        (loop_start ctx data) (loop_entry P m ctx data) (by omega) (by omega) (by omega) hbs
        (by
          rw [r3]
          rcases hch with h | h
          · exact Or.inl h
          · exact Or.inr (by omega))).1
    obtain ⟨l1, l2⟩ := write_loop_lengths P m data _ r1 (aligned_rest ctx.tail data.length + 1)
      (loop_start ctx data) (loop_entry P m ctx data) hbs (by omega) (by omega) hdone
    have hsub : loop_start ctx data + aligned_rest ctx.tail data.length - loop_start ctx data =
        aligned_rest ctx.tail data.length := by omega
    rw [hsub, r3] at l1 l2
    refine ⟨hdone, l1, sub_run_lengths_length _ _ (by omega), ?_⟩
    intro hcb
    rw [hlens, w1, if_neg hcb, List.map_append]
    have l2b : (emit_chunks (block_loop P m ctx data).emits).map List.length =
        sub_run_lengths (aligned_rest ctx.tail data.length) ctx.buffer_size := l2
    rw [l2b]
    congr 1
    cases htd : tail_done ctx data with
    | true => simp [hpre htd]
    | false => simp
  · intro hch
    have hbad : ctx.buffer_size % 16 ≠ 0 ∧
        ctx.buffer_size < aligned_rest ctx.tail data.length := by
      unfold chunks_ok at hch
      constructor
      · intro h
        exact hch (Or.inl h)
      · apply Nat.lt_of_not_le
        intro h
        exact hch (Or.inr h)
    have hfail : block_loop P m ctx data = ⟨loop_entry P m ctx data, [], LoopStatus.failed⟩ :=
      write_loop_block_fail P m hm data _ (aligned_rest ctx.tail data.length)
        (loop_start ctx data) (loop_entry P m ctx data) r1 (by rw [r3]; omega)
        (by rw [r3]; exact hbad.1)
    have hst : (block_loop P m ctx data).status = LoopStatus.failed := by rw [hfail]
    have hem : (block_loop P m ctx data).emits = [] := by rw [hfail]
    refine ⟨hbad.1, hbad.2, ?_, hst, hem, w2 hst, ?_⟩
    · rw [Nat.le_div_iff_mul_le (by omega)]
      omega
    · intro hcb
      rw [hlens, w1, if_neg hcb, hem, List.map_append]
      cases htd : tail_done ctx data with
      | true => simp [hpre htd, emit_chunks]
      | false => simp [emit_chunks]

theorem sub_run_chunking_witness :
    Mode.ECB.has_tail = true ∧
      CTX_FLAG (toy_ctx Mode.ECB false 33 0).flags FLAG_OPEN = true ∧
      CTX_FLAG (toy_ctx Mode.ECB false 33 0).flags FLAG_DESTROYED = false ∧
      ctx_ok (toy_ctx Mode.ECB false 33 0) ∧ ¬chunks_ok (toy_ctx Mode.ECB false 33 0) (List.range 48) ∧
      aligned_rest (toy_ctx Mode.ECB false 33 0).tail (List.range 48).length = 48 ∧
      (2 ≤ (aligned_rest (toy_ctx Mode.ECB false 33 0).tail (List.range 48).length +
          (toy_ctx Mode.ECB false 33 0).buffer_size - 1) / (toy_ctx Mode.ECB false 33 0).buffer_size ∧
        (block_loop toyAes Mode.ECB (toy_ctx Mode.ECB false 33 0) (List.range 48)).emits = [] ∧
        (l_write toyAes 502 Mode.ECB (toy_ctx Mode.ECB false 33 0) (List.range 48)).result =
          LuaResult.nilmsg "invalid block length") ∧
      (l_write toyAes 502 Mode.CBC (toy_sink_ctx Mode.CBC false 32 5)
        (List.range 100)).calls.map (fun c => c.chunk.length) =
          (if tail_done (toy_sink_ctx Mode.CBC false 32 5) (List.range 100) then [16] else []) ++
            sub_run_lengths
              (aligned_rest (toy_sink_ctx Mode.CBC false 32 5).tail (List.range 100).length)
              (toy_sink_ctx Mode.CBC false 32 5).buffer_size ∧
      sub_run_lengths 80 32 = [32, 32, 16] :=
  ⟨rfl, by decide, by decide, by unfold ctx_ok; decide, by unfold chunks_ok; decide, by decide,
    ⟨((sub_run_chunking toyAes 502 Mode.ECB rfl (toy_ctx Mode.ECB false 33 0) (List.range 48)
        (by decide) (by decide) (by unfold ctx_ok; decide)).2.2.2
        (by unfold chunks_ok; decide)).2.2.1,
      ((sub_run_chunking toyAes 502 Mode.ECB rfl (toy_ctx Mode.ECB false 33 0) (List.range 48)
        (by decide) (by decide) (by unfold ctx_ok; decide)).2.2.2
        (by unfold chunks_ok; decide)).2.2.2.2.1,
      ((sub_run_chunking toyAes 502 Mode.ECB rfl (toy_ctx Mode.ECB false 33 0) (List.range 48)
        (by decide) (by decide) (by unfold ctx_ok; decide)).2.2.2
        (by unfold chunks_ok; decide)).2.2.2.2.2.1⟩,
    ((sub_run_chunking toyAes 502 Mode.CBC rfl (toy_sink_ctx Mode.CBC false 32 5) (List.range 100)
      (by decide) (by decide) (by unfold ctx_ok; decide)).2.2.1
      (by unfold chunks_ok; decide)).2.2.2 (by decide),
    by decide⟩

/-! ## The empty write -/

/-- `write` of the empty string changes nothing, calls no sink and meets no
false assertion on an open context whose tail is below 16, and on every open
context that the resumable `writek` serves (a sink bound, Lua 5.2 or later),
since `writek` returns at `if(data >= e) return 0`. -/
theorem l_write_nil_noop {S : Type} (P : AesPrimitive S) (v : Nat) (m : Mode) (ctx : l_ctx S)
    (hopen : CTX_FLAG ctx.flags FLAG_OPEN = true)
    (hnd : CTX_FLAG ctx.flags FLAG_DESTROYED = false)
    (h : (m.has_tail = true → ctx.tail < 16) ∨ (502 ≤ v ∧ ctx.writer_cb_ref ≠ Ref.noref)) :
    (l_write P v m ctx []).ctx = ctx ∧ (l_write P v m ctx []).calls = [] ∧
      (l_write P v m ctx []).result =
        (if ctx.writer_cb_ref = Ref.noref then LuaResult.str [] else LuaResult.ret0) ∧
      (l_write P v m ctx []).asserts_ok = true := by
  unfold l_write
  rw [l_get_at_none m ctx hnd]
  simp only [hopen, if_true]
  split
  · rename_i h2
    rw [l_writek_impl_end P m ctx [] none hnd (by simp [entry_data])]
    simp [h2.2, entry_asserts]
  · rename_i h2
    rcases h with h | h
    · rw [l_write_impl_nil P m ctx hnd h]
      simp
    · exact absurd h h2

/-- The tail branch of `write_impl` on an ECB or CBC context whose tail is 16
takes no input byte and leaves the context as it is before the transform. -/
theorem wfill_full_tail {S : Type} (ctx : l_ctx S) (data : Bytes) (ht : ctx.tail = 16) :
    wtail ctx data 0 = 0 ∧ wfill ctx data 0 = ctx := by
  have hw : wtail ctx data 0 = 0 := by
    unfold wtail tail_take
    rw [ht]
    split <;> omega
  refine ⟨hw, ?_⟩
  unfold wfill tail_fill
  rw [hw]
  have hs : slice data 0 0 = [] := by simp [slice]
  rw [hs, memcpy_nil, ht]
  cases ctx
  simp only at ht
  subst ht
  rfl

/-- `write` of the empty string on an open ECB or CBC context whose tail is 16,
served by `write_impl` (no sink bound, or a build for Lua 5.1): the assertion
`ctx->tail < AES_BLOCK_SIZE` is false, the 16 buffered bytes are transformed
and emitted, and the tail becomes 0. -/
theorem l_write_nil_full_tail {S : Type} (P : AesPrimitive S) (v : Nat) (m : Mode)
    (hm : m.has_tail = true) (ctx : l_ctx S)
    (hopen : CTX_FLAG ctx.flags FLAG_OPEN = true)
    (hnd : CTX_FLAG ctx.flags FLAG_DESTROYED = false)
    (ht : ctx.tail = 16) (hb : 16 ≤ ctx.buffer.length)
    (hp : v < 502 ∨ ctx.writer_cb_ref = Ref.noref) :
    (l_write P v m ctx []).asserts_ok = false ∧ (l_write P v m ctx []).ctx.tail = 0 ∧
      (l_write P v m ctx []).calls.map (fun c => c.chunk) =
        (if ctx.writer_cb_ref = Ref.noref then []
          else [(block_step P m ctx.flags ctx.cx (ctx.buffer.take 16) ctx.iv).1]) ∧
      (l_write P v m ctx []).result =
        (if ctx.writer_cb_ref = Ref.noref then
          LuaResult.str (block_step P m ctx.flags ctx.cx (ctx.buffer.take 16) ctx.iv).1
          else LuaResult.ret0) := by
  have hw : l_write P v m ctx [] = l_write_impl P m ctx [] := by
    unfold l_write
    rw [l_get_at_none m ctx hnd]
    simp only [hopen, if_true]
    rw [if_neg]
    intro h
    rcases hp with hp | hp
    · omega
    · exact h.2 hp
  obtain ⟨hwt, hfill⟩ := wfill_full_tail ctx ([] : Bytes) ht
  have hlen16 : (ctx.buffer.take 16).length = 16 := by
    simp only [List.length_take]
    omega
  have hcall := mode_call_block P m hm ctx (ctx.buffer.take 16)
  have h1616 : 16 / 16 = 1 := rfl
  rw [block_mode_ok _ _ _ _ (by rw [hlen16]), hlen16, h1616] at hcall
  have hrun : blocks_run (block_step P m ctx.flags ctx.cx) 1 (ctx.buffer.take 16) ctx.iv =
      ((block_step P m ctx.flags ctx.cx (ctx.buffer.take 16) ctx.iv).1,
        (block_step P m ctx.flags ctx.cx (ctx.buffer.take 16) ctx.iv).2) := by
    simp [blocks_run, List.take_take]
  rw [hrun] at hcall
  have hblk : wblock P m ctx ([] : Bytes) 0 =
      apply_ret ctx (mode_call P m ctx (ctx.buffer.take 16)) 16 := by
    unfold wblock tail_block
    rw [hfill]
  have hchunk : slice (wblock P m ctx ([] : Bytes) 0).buffer 16 16 =
      (block_step P m ctx.flags ctx.cx (ctx.buffer.take 16) ctx.iv).1 := by
    rw [hblk, hcall]
    simp only [apply_ret]
    have h5 := memcpy_slice ctx.buffer 16
      (block_step P m ctx.flags ctx.cx (ctx.buffer.take 16) ctx.iv).1 hb
    rw [block_step_length] at h5
    exact h5
  have hal : align_len m 0 = 0 := by unfold align_len; split <;> simp
  have hfull := l_write_impl_full P m ctx [] hnd ⟨hm, by omega⟩ (by rw [hfill]; omega)
  rw [hwt] at hfull
  simp only [List.length_nil, Nat.sub_zero] at hfull
  obtain ⟨p1, p2, p3⟩ := write_rest_proj P m (decide (ctx.writer_cb_ref = Ref.noref))
    (tail_clear (wblock P m ctx ([] : Bytes) 0)) [] 0 0
    [⟨slice (wblock P m ctx ([] : Bytes) 0).buffer 16 16, wblock P m ctx ([] : Bytes) 0⟩]
    (decide (ctx.tail < 16) && decide ((wfill ctx ([] : Bytes) 0).tail = 16)) _ rfl
  rw [hal] at p1 p2 p3
  simp only [Nat.add_zero, write_loop_done P m [] 0 0 0 _ (Nat.le_refl 0)] at p1 p2 p3
  rw [hw, hfull]
  refine ⟨?_, ?_, ?_, ?_⟩
  · have hno : decide (ctx.tail < 16) = false := by simp [ht]
    unfold write_rest
    simp only [hno, Bool.false_and]
    split <;> rfl
  · rw [p2]
    simp only [rest_ctx, tail_store, hm, if_true]
  · rw [p1]
    by_cases hcb : ctx.writer_cb_ref = Ref.noref
    · simp [hcb]
    · simp [hcb, loop_calls, hchunk]
  · rw [p3]
    by_cases hcb : ctx.writer_cb_ref = Ref.noref
    · simp [hcb, loop_calls, hchunk]
    · simp [hcb]

/-- In a build for Lua 5.1 a sink that raises while it is handed the block
completed by the tail branch leaves an open context whose tail is 16. -/
theorem sink_error_state {S : Type} (P : AesPrimitive S) (v : Nat) (hv : v < 502)
    (m : Mode) (hm : m.has_tail = true) (ctx : l_ctx S)
    (hopen : CTX_FLAG ctx.flags FLAG_OPEN = true)
    (hnd : CTX_FLAG ctx.flags FLAG_DESTROYED = false)
    (hsink : ctx.writer_cb_ref ≠ Ref.noref) (h0 : ctx.tail ≠ 0) (ht : ctx.tail < 16)
    (hb : 16 ≤ ctx.buffer.length) (data : Bytes) (hd : 16 ≤ ctx.tail + data.length) :
    ctx_after_sink_error (l_write P v m ctx data) 0 = some (wblock P m ctx data 0) ∧
      (wblock P m ctx data 0).tail = 16 ∧
      CTX_FLAG (wblock P m ctx data 0).flags FLAG_OPEN = true ∧
      CTX_FLAG (wblock P m ctx data 0).flags FLAG_DESTROYED = false ∧
      (wblock P m ctx data 0).writer_cb_ref ≠ Ref.noref ∧
      16 ≤ (wblock P m ctx data 0).buffer.length := by
  have hw : l_write P v m ctx data = l_write_impl P m ctx data := by
    unfold l_write
    rw [l_get_at_none m ctx hnd]
    simp only [hopen, if_true]
    rw [if_neg (by omega)]
  have hwt : wtail ctx data 0 = 16 - ctx.tail := by rw [wtail_eq ctx data 0 ht]; omega
  have hft : (wfill ctx data 0).tail = 16 := by
    unfold wfill tail_fill
    simp only [hwt]
    omega
  obtain ⟨b1, b2, b3⟩ := wblock_frame P m ctx data 0
  rw [hft] at b3
  have hsd : decide (ctx.writer_cb_ref = Ref.noref) = false := by simp [hsink]
  refine ⟨?_, b3, by rw [b1]; exact hopen, by rw [b1]; exact hnd, by rw [b2]; exact hsink, ?_⟩
  · rw [hw, l_write_impl_full P m ctx data hnd ⟨hm, h0⟩ (by rw [hft]; omega), hsd]
    unfold ctx_after_sink_error
    rw [(write_rest_push P m _ data _ _ _ _).1]
    rfl
  · unfold wblock tail_block wfill tail_fill apply_ret
    exact Nat.le_trans hb (Nat.le_trans (memcpy_length_ge _ _ _) (memcpy_length_ge _ _ _))

/-- C8 does not hold on every open context.  `write` of the empty string
leaves the context unchanged in every field, calls the sink zero times,
returns the empty string when no sink is bound and nothing when one is, and
meets no false assertion, when the tail is below 16 (for every mode and Lua
version) or when the resumable `writek` serves the write.  On an open ECB or
CBC context whose tail is 16, served by `write_impl` (no sink bound, or a
build for Lua 5.1), the same `write` meets the false assertion
`ctx->tail < AES_BLOCK_SIZE`, transforms the 16 buffered bytes, hands them to
the sink or returns them, and sets the tail to 0.  Such a context is reached in
a build for Lua 5.1 from an open context with a sink bound and `t` buffered
bytes, `0 < t < 16`, by a write that completes the block and whose sink
raises an error. -/
theorem zero_length_write {S : Type} (P : AesPrimitive S) (v : Nat) (m : Mode) (ctx : l_ctx S)
    (hopen : CTX_FLAG ctx.flags FLAG_OPEN = true)
    (hnd : CTX_FLAG ctx.flags FLAG_DESTROYED = false) :
    (((m.has_tail = true → ctx.tail < 16) ∨ (502 ≤ v ∧ ctx.writer_cb_ref ≠ Ref.noref)) →
      (l_write P v m ctx []).ctx = ctx ∧ (l_write P v m ctx []).calls = [] ∧
        (l_write P v m ctx []).result =
          (if ctx.writer_cb_ref = Ref.noref then LuaResult.str [] else LuaResult.ret0) ∧
        (l_write P v m ctx []).asserts_ok = true) ∧
    (m.has_tail = true → ctx.tail = 16 → 16 ≤ ctx.buffer.length →
      (v < 502 ∨ ctx.writer_cb_ref = Ref.noref) →
      (l_write P v m ctx []).asserts_ok = false ∧ (l_write P v m ctx []).ctx ≠ ctx ∧
        (l_write P v m ctx []).ctx.tail = 0 ∧
        (l_write P v m ctx []).calls.map (fun c => c.chunk) =
          (if ctx.writer_cb_ref = Ref.noref then []
            else [(block_step P m ctx.flags ctx.cx (ctx.buffer.take 16) ctx.iv).1]) ∧
        (l_write P v m ctx []).result =
          (if ctx.writer_cb_ref = Ref.noref then
            LuaResult.str (block_step P m ctx.flags ctx.cx (ctx.buffer.take 16) ctx.iv).1
            else LuaResult.ret0)) ∧
    (∀ data : Bytes, v < 502 → m.has_tail = true → ctx.writer_cb_ref ≠ Ref.noref →
      ctx.tail ≠ 0 → ctx.tail < 16 → 16 ≤ ctx.buffer.length → 16 ≤ ctx.tail + data.length →
      ∃ c : l_ctx S, ctx_after_sink_error (l_write P v m ctx data) 0 = some c ∧ c.tail = 16 ∧
        CTX_FLAG c.flags FLAG_OPEN = true ∧ CTX_FLAG c.flags FLAG_DESTROYED = false ∧
        (l_write P v m c []).asserts_ok = false ∧ (l_write P v m c []).ctx ≠ c ∧
        (l_write P v m c []).calls.map (fun k => k.chunk) =
          [(block_step P m c.flags c.cx (c.buffer.take 16) c.iv).1]) := by
  refine ⟨l_write_nil_noop P v m ctx hopen hnd, ?_, ?_⟩
  · intro hm ht hb hp
    obtain ⟨q1, q2, q3, q4⟩ := l_write_nil_full_tail P v m hm ctx hopen hnd ht hb hp
    refine ⟨q1, ?_, q2, q3, q4⟩
    intro h
    rw [h] at q2
    omega
  · intro data hv hm hsink h0 ht hb hd
    obtain ⟨s1, s2, s3, s4, s5, s6⟩ :=
      sink_error_state P v hv m hm ctx hopen hnd hsink h0 ht hb data hd
    obtain ⟨q1, q2, q3, _⟩ :=
      l_write_nil_full_tail P v m hm (wblock P m ctx data 0) s3 s4 s2 s6 (Or.inl hv)
    refine ⟨_, s1, s2, s3, s4, q1, ?_, ?_⟩
    · intro h
      rw [h] at q2
      omega
    · rw [q3, if_neg s5]

theorem zero_length_write_witness :
    CTX_FLAG (l_write toyAes 501 Mode.ECB (toy_sink_ctx Mode.ECB false 32 0)
        (List.range 5)).ctx.flags FLAG_OPEN = true ∧
      (l_write toyAes 501 Mode.ECB (toy_sink_ctx Mode.ECB false 32 0) (List.range 5)).ctx.tail = 5 ∧
      (ctx_after_sink_error
          (l_write toyAes 501 Mode.ECB
            (l_write toyAes 501 Mode.ECB (toy_sink_ctx Mode.ECB false 32 0) (List.range 5)).ctx
            (List.range 11)) 0).map
          (fun c => (c.tail, (l_write toyAes 501 Mode.ECB c []).ctx.tail,
            (l_write toyAes 501 Mode.ECB c []).calls.length,
            (l_write toyAes 501 Mode.ECB c []).asserts_ok)) = some (16, 0, 1, false) ∧
      ((l_write toyAes 501 Mode.ECB
            (l_write toyAes 501 Mode.ECB (toy_sink_ctx Mode.ECB false 32 0) (List.range 5)).ctx
            []).ctx =
          (l_write toyAes 501 Mode.ECB (toy_sink_ctx Mode.ECB false 32 0) (List.range 5)).ctx) ∧
      ∃ c : l_ctx Bytes,
        ctx_after_sink_error
            (l_write toyAes 501 Mode.ECB
              (l_write toyAes 501 Mode.ECB (toy_sink_ctx Mode.ECB false 32 0) (List.range 5)).ctx
              (List.range 11)) 0 = some c ∧
          c.tail = 16 ∧ CTX_FLAG c.flags FLAG_OPEN = true ∧
          CTX_FLAG c.flags FLAG_DESTROYED = false ∧
          (l_write toyAes 501 Mode.ECB c []).asserts_ok = false ∧
          (l_write toyAes 501 Mode.ECB c []).ctx ≠ c ∧
          (l_write toyAes 501 Mode.ECB c []).calls.map (fun k => k.chunk) =
            [(block_step toyAes Mode.ECB c.flags c.cx (c.buffer.take 16) c.iv).1] :=
  ⟨by decide, by decide, by decide,
    ((zero_length_write toyAes 501 Mode.ECB
      (l_write toyAes 501 Mode.ECB (toy_sink_ctx Mode.ECB false 32 0) (List.range 5)).ctx
      (by decide) (by decide)).1 (Or.inl (fun _ => by decide))).1,
    (zero_length_write toyAes 501 Mode.ECB
      (l_write toyAes 501 Mode.ECB (toy_sink_ctx Mode.ECB false 32 0) (List.range 5)).ctx
      (by decide) (by decide)).2.2 (List.range 11) (by decide) rfl (by decide) (by decide)
      (by decide) (by decide) (by decide)⟩

end Laes
